import Mathlib

/-!
# CSDCNetRound

A shallow embedding of `src/dissent/src/Anonymity/CSDCNetRound.cpp`, the
client/server DC-net round of Dissent, and theorems about it.

Conventions of the embedding:

* a `QByteArray` is a list of bytes, each byte a natural number below 256;
* a `QBitArray` is a list of booleans;
* a `Connections::Id` is a natural number;
* C++ `int` values that may be negative are `Int`, sizes and indices that the
  code only ever produces non-negative are `Nat`;
* an access outside an array (undefined behaviour in C++) makes the embedded
  function return `none`;
* a thrown `QRunTimeError` is the outcome `Outcome.threw` next to the state
  the handler leaves behind;
* the cryptographic collaborators (hash, signature, seeded generator,
  Diffie-Hellman) are the fields of `Crypto`.
-/

namespace Dissent
namespace Anonymity

/-- A byte string: `QByteArray`. -/
abbrev QByteArray := List Nat

/-- A bit string: `QBitArray`. -/
abbrev QBitArray := List Bool

/-- An overlay identifier: `Connections::Id`. -/
abbrev Id := Nat

/-- The cryptographic collaborators consumed by the round: `Hash`,
`AsymmetricKey::Sign/Verify`, `CryptoRandom` seeded with a byte string, and
`DiffieHellman::VerifySharedSecret`, `GetSharedSecret` and
`ProveSharedSecret` (private key first, then the public key of the peer).
`GenerateBlock seed n` is the block that `CryptoRandom(seed).GenerateBlock(buf)`
writes into a fresh buffer of `n` bytes; it fills the whole buffer. -/
structure Crypto where
  ComputeHash : QByteArray → QByteArray
  GetDigestSize : Nat
  Sign : QByteArray → QByteArray → QByteArray
  Verify : QByteArray → QByteArray → QByteArray → Bool
  GetSignatureLength : QByteArray → Nat
  GenerateBlock : QByteArray → Nat → QByteArray
  OptimalSeedSize : Nat
  VerifySharedSecret : QByteArray → QByteArray → QByteArray → QByteArray
  GetSharedSecret : QByteArray → QByteArray → QByteArray
  ProveSharedSecret : QByteArray → QByteArray → QByteArray
  GenerateBlock_size : ∀ seed n, (GenerateBlock seed n).length = n

/-- Modelled from the spec: `Utils::Xor(dst, t1, t2)` of `Utils/Utils.hpp`,
the byte-wise XOR the ciphertext engine uses ("XOR all per-peer pads"): it
writes `t1[i] ^ t2[i]` into `dst[i]` for every index the three arrays share
and leaves the rest of `dst` as it was. -/
def Xor : QByteArray → QByteArray → QByteArray → QByteArray
  | _ :: ds, a :: as, b :: bs => (a ^^^ b) :: Xor ds as bs
  | ds, _, _ => ds

/-- Modelled from the spec: the table `bit_masks` of the round's header, one
mask per bit of a byte ("one bit per slot"), `bit_masks[k] = 1 << k`. -/
def bit_masks (k : Nat) : Nat := 2 ^ k

/-- The constructor `QByteArray(n, 0)`. -/
def zeroBytes (n : Nat) : QByteArray := List.replicate n 0

/-- The member function `CSDCNetRound::NullSeed`. -/
def NullSeed (c : Crypto) : QByteArray := zeroBytes c.OptimalSeedSize

/-- The member function `CSDCNetRound::Randomize`. The list `rand` holds the successive blocks
that the unseeded generator `rand` writes into `seed`, one per turn of the
`do ... while(seed == NullSeed())` loop; the result is `none` when the list
ends before the loop does. -/
def Randomize (c : Crypto) (rand : List QByteArray) (msg : QByteArray) :
    Option QByteArray :=
  match rand with
  | [] => none
  | seed :: rest =>
    if seed = NullSeed c then Randomize c rest msg
    else
      let random_text := c.GenerateBlock seed msg.length
      let random_text := Xor random_text random_text msg
      some (seed ++ random_text)

/-- The member function `CSDCNetRound::Derandomize`. The seed is read from the first
`OptimalSeedSize` bytes through `fromRawData`; a text shorter than a seed
makes that read run past the array, hence `none`. -/
def Derandomize (c : Crypto) (randomized_text : QByteArray) : Option QByteArray :=
  if randomized_text.length < c.OptimalSeedSize then none
  else
    let seed := randomized_text.take c.OptimalSeedSize
    if seed = NullSeed c then some []
    else
      let msg := randomized_text.drop seed.length
      let random_text := c.GenerateBlock seed msg.length
      some (Xor random_text random_text msg)

/-- A toy instance of the collaborators, used to evaluate the round on
concrete inputs: the hash is the one-byte sum of the bytes, a signature is
the hash of key and message, the generator repeats the first seed byte, a
shared secret is the product of the two keys and is its own proof. -/
def toyCrypto : Crypto where
  ComputeHash := fun m => [m.sum % 256]
  GetDigestSize := 1
  Sign := fun k m => [(k.sum + m.sum) % 256]
  Verify := fun k m s => decide (s = [(k.sum + m.sum) % 256])
  GetSignatureLength := fun _ => 1
  GenerateBlock := fun seed n => List.replicate n (seed.headD 0)
  OptimalSeedSize := 2
  VerifySharedSecret := fun _ _ proof => proof
  GetSharedSecret := fun priv pub => [(priv.sum * pub.sum) % 256]
  ProveSharedSecret := fun priv pub => [(priv.sum * pub.sum) % 256]
  GenerateBlock_size := by intro seed n; simp

/-! ## Data model -/

/-- Modelled from the spec: an entry of a `Roster` ("ordered list of
identities ... provides DH key and signing key per identity"). -/
structure PublicIdentity where
  id : Id
  key : QByteArray := []
  dh_key : QByteArray := []
deriving DecidableEq, Repr

/-- Modelled from the spec: `Identity::Roster`, an ordered list of
identities with lookups by index and by id. -/
abbrev Roster := List PublicIdentity

/-- Modelled from the spec: `Roster::Count`, the number of identities. -/
def Roster.Count (ro : Roster) : Nat := ro.length

/-- Modelled from the spec: `Roster::Contains`, the lookup by id. -/
def Roster.Contains (ro : Roster) (id : Id) : Bool := ro.any (fun p => p.id == id)

/-- Modelled from the spec: `Roster::GetIndex`, the position of `id` in the
ordered list (the roster size when absent). -/
def Roster.GetIndex (ro : Roster) (id : Id) : Nat := ro.findIdx (fun p => p.id == id)

/-- Modelled from the spec: `Roster::GetId(int)`, the lookup by index; no
identity stands at an index outside the roster. -/
def Roster.GetId (ro : Roster) (idx : Int) : Option Id :=
  if idx < 0 then none else (ro.get? idx.toNat).map (fun p => p.id)

/-- Modelled from the spec: `Roster::GetIdentity(id)`, the lookup by id. -/
def Roster.GetIdentity (ro : Roster) (id : Id) : Option PublicIdentity :=
  ro.find? (fun p => p.id == id)

/-- Modelled from the spec: `Roster::GetKey(int)`, the signing key of the
identity at an index. -/
def Roster.GetKey (ro : Roster) (idx : Nat) : Option QByteArray :=
  (ro.get? idx).map (fun p => p.key)

/-- A `QMap<int, V>`, kept sorted by key as `QMap` iterates; also used for
the `QHash` members, whose iteration order the round never relies on. -/
abbrev QMap (V : Type) := List (Nat × V)

/-- The Qt operation `QMap::insert` and assignment through `operator[]`. -/
def QMap.insert {V : Type} (k : Nat) (v : V) : QMap V → QMap V
  | [] => [(k, v)]
  | (k', v') :: rest =>
    if k < k' then (k, v) :: (k', v') :: rest
    else if k = k' then (k, v) :: rest
    else (k', v') :: QMap.insert k v rest

/-- The Qt operation `QMap::value`, as an option. -/
def QMap.find {V : Type} (k : Nat) : QMap V → Option V
  | [] => none
  | (k', v') :: rest => if k = k' then some v' else QMap.find k rest

/-- The Qt operation `QMap::contains`. -/
def QMap.contains {V : Type} (m : QMap V) (k : Nat) : Bool := (QMap.find k m).isSome

/-- The Qt operation `QMap::keys`. -/
def QMap.keys {V : Type} (m : QMap V) : List Nat := m.map Prod.fst

/-- The Qt operation `QMap::values`. -/
def QMap.values {V : Type} (m : QMap V) : List V := m.map Prod.snd

/-- The Qt operation `QMap::remove`: the map without the key. -/
def QMap.remove {V : Type} (k : Nat) (m : QMap V) : QMap V := m.filter (fun e => e.1 != k)

/-- Reading through the non-const `operator[]`: a key that is absent is
inserted with the default value `d` first. -/
def QMap.touch {V : Type} (k : Nat) (d : V) (m : QMap V) : QMap V :=
  if QMap.contains m k then m else QMap.insert k d m

/-- Modelled from the spec: `Utils::Triple<int, int, int>`, the blame triple
`(owner_idx, accuse_idx, phase)`. -/
structure Triple where
  first : Int := 0
  second : Int := 0
  third : Int := 0
deriving DecidableEq, Repr

/-- Modelled from the spec: the `PhaseLog` of the round's header ("Phase
log ...: per-server and per-client raw messages received this phase; message
offsets and length of the cleartext layout"), with the members this file
reads and writes. -/
structure PhaseLog where
  phase : Nat := 0
  num_clients : Nat := 0
  messages : QMap QByteArray := []
  server_messages : QMap QByteArray := []
  my_sub_ciphertexts : QMap QByteArray := []
  client_to_server : QMap Nat := []
  message_offsets : List Nat := []
  message_length : Nat := 0
deriving DecidableEq, Repr

/-- The states of the round's state machine. -/
inductive States where
  | OFFLINE | SHUFFLING | PROCESS_BOOTSTRAP | PREPARE_FOR_BULK
  | CLIENT_WAIT_FOR_CLEARTEXT
  | SERVER_WAIT_FOR_CLIENT_CIPHERTEXT | SERVER_WAIT_FOR_CLIENT_LISTS
  | SERVER_WAIT_FOR_SERVER_COMMITS | SERVER_WAIT_FOR_SERVER_CIPHERTEXT
  | SERVER_WAIT_FOR_SERVER_VALIDATION | SERVER_PUSH_CLEARTEXT
  | STARTING_BLAME_SHUFFLE | WAITING_FOR_BLAME_SHUFFLE
  | WAITING_FOR_DATA_REQUEST_OR_VERDICT
  | SERVER_TRANSMIT_BLAME_BITS | SERVER_WAITING_FOR_BLAME_BITS
  | SERVER_REQUEST_CLIENT_REBUTTAL | SERVER_WAIT_FOR_CLIENT_REBUTTAL
  | SERVER_EXCHANGE_VERDICT_SIGNATURE | SERVER_WAIT_FOR_VERDICT_SIGNATURE
  | SERVER_SHARE_VERDICT
  | FINISHED
deriving DecidableEq, Repr

/-- The members of `CSDCNetRound::State` this file reads and writes. A
`CryptoRandom` of `anonymous_rngs` is kept as the seed it was built from:
`SetupRngs` rebuilds the list before every use, and each generator produces
one block. -/
structure State where
  anonymous_rngs : List QByteArray := []
  base_seeds : List QByteArray := []
  anonymous_key : QByteArray := []
  anonymous_keys : List QByteArray := []
  cleartext : QByteArray := []
  next_messages : QMap Nat := []
  msg_length : Nat := 0
  base_msg_length : Nat := 0
  my_idx : Int := -1
  next_msg : QByteArray := []
  last_msg : QByteArray := []
  last_ciphertext : QByteArray := []
  read : Bool := true
  slot_open : Bool := false
  accuse : Bool := false
  start_accuse : Bool := false
  my_accuse : Bool := false
  accuser : Int := -1
  accuse_idx : Int := 0
  blame_phase : Int := -1
  my_server : Id := 0
deriving DecidableEq, Repr

/-- The members of `CSDCNetRound::ServerState` this file reads and writes.
`current_phase_log` is the key under which the shared `PhaseLog` object
stands in `phase_logs`: a write through `current_phase_log` is a write to
that entry. -/
structure ServerState where
  allowed_clients : List Id := []
  handled_clients : QBitArray := []
  handled_servers : List Id := []
  client_ciphertexts : List (Nat × QByteArray) := []
  server_commits : QMap QByteArray := []
  server_ciphertexts : QMap QByteArray := []
  signatures : QMap QByteArray := []
  rng_to_gidx : QMap Nat := []
  phase_logs : QMap PhaseLog := []
  current_phase_log : Nat := 0
  my_ciphertext : QByteArray := []
  my_commit : QByteArray := []
  signed_hash : QByteArray := []
  expected_clients : Int := 0
  start_of_phase : Int := 0
  accuse_found : Bool := false
  current_blame : Triple := {}
  blame_bits : QMap (QBitArray × QBitArray) := []
  expected_rebuttal : Id := 0
  server_bits : QBitArray := []
  bad_dude : Id := 0
  verdict_hash : QByteArray := []
  verdict_signatures : QMap QByteArray := []
deriving DecidableEq, Repr

/-- A message handed to the overlay by `VerifiableSend` or one of the
`VerifiableBroadcast` calls, with the fields the round serialises. -/
inductive Packet where
  | CLIENT_CIPHERTEXT (dest : Id) (nonce : QByteArray) (phase : Nat) (ciphertext : QByteArray)
  | SERVER_CLIENT_LIST (nonce : QByteArray) (phase : Nat) (clients : QBitArray)
  | SERVER_COMMIT (nonce : QByteArray) (phase : Nat) (commit : QByteArray)
  | SERVER_VALIDATION (nonce : QByteArray) (phase : Nat) (signature : QByteArray)
  | SERVER_CLEARTEXT (nonce : QByteArray) (phase : Nat) (signatures : List (Nat × QByteArray))
      (cleartext : QByteArray) (online : QBitArray)
  | SERVER_VERDICT_SIGNATURE (nonce : QByteArray) (phase : Nat) (signature : QByteArray)
  | SERVER_VERDICT (nonce : QByteArray) (phase : Nat) (blame : Triple) (bad_dude : Id)
      (signatures : List QByteArray)
  | CLIENT_REBUTTAL (dest : Id) (nonce : QByteArray) (phase : Nat)
      (rebuttal : Int × QByteArray)
  | SERVER_REBUTTAL_REQUEST (dest : Id) (nonce : QByteArray) (phase : Nat)
      (blame_phase accuse_idx : Int) (server_bits : QBitArray)
deriving DecidableEq, Repr

/-- The round object `CSDCNetRound`: the role, the rosters and the nonce it
was built with, the state machine's phase and state, what `Round::Stop`
recorded, the data pushed to the sink, the packets sent, the two state
objects, the private Diffie-Hellman key of the local identity, what
`SetSuccessful` and `SetBadMembers` recorded, and in `queued` the windows of
the callbacks handed to `Timer::QueueCallback`, in the order of the calls
(stopping a timer does not erase what was queued). On a client `server_state`
is not used. `QT_NO_DEBUG` is the build the object runs in: a release build
defines the macro, a debug build does not; no function of the file changes
it, and it is kept with the object because the hooks of the state machine
take no other argument. -/
structure Round where
  QT_NO_DEBUG : Bool := false
  IsServer : Bool := false
  clients : Roster := []
  servers : Roster := []
  local_id : Id := 0
  key : QByteArray := []
  nonce : QByteArray := []
  phase : Nat := 0
  sm_state : States := States.OFFLINE
  stop_next : Bool := false
  stopped : Option String := none
  interrupted : Bool := false
  pushed : List (Nat × QByteArray) := []
  sent : List Packet := []
  state : State := {}
  server_state : ServerState := {}
  dh_key : QByteArray := []
  successful : Bool := true
  bad_members : List Id := []
  queued : List Int := []
deriving DecidableEq, Repr

/-- Modelled from the spec: a constant of a binary floating-point type, the
number `mantissa / 2 ^ exponent` in a format of `digits` significant bits (24
for `float`, 53 for `double`), with `mantissa < 2 ^ digits`.
`CLIENT_PERCENTAGE` ("fraction triggering flex deadline") is declared outside
`src/`, so its type is left open by `digits`. -/
structure FloatConstant where
  mantissa : Nat := 1
  exponent : Nat := 0
  digits : Nat := 53
deriving DecidableEq, Repr

/-- The build switches of the file: `CSBR_SIGN_SLOTS` (slots carry a
signature, not a digest) and `CSBR_CLOSE_SLOT` (an empty next message closes
the slot); `BAD_CS_BULK`, `CS_BLOG_DROP` and `CSBR_RECONNECTS` are off. And the
constants of the round's header that the file reads: the hard deadline
`CLIENT_SUBMISSION_WINDOW` in milliseconds, and the fraction
`CLIENT_PERCENTAGE`, a floating-point constant. -/
structure Config where
  CSBR_SIGN_SLOTS : Bool := false
  CSBR_CLOSE_SLOT : Bool := false
  CLIENT_SUBMISSION_WINDOW : Int := 0
  CLIENT_PERCENTAGE : FloatConstant := {}
deriving DecidableEq, Repr

/-- The outcome of a message handler: it returned, or it threw a
`QRunTimeError` with the given text. -/
inductive Outcome (α : Type) where
  | ok (a : α)
  | threw (what : String)
deriving DecidableEq, Repr

/-! ## Serialization -/

/-- The four bytes of a 32-bit integer, most significant first. -/
def encodeInt (v : Int) : QByteArray :=
  let u := (v % 4294967296).toNat
  [u / 16777216 % 256, u / 65536 % 256, u / 256 % 256, u % 256]

/-- Modelled from the spec: `Serialization::WriteInt(value, array, offset)`
of `Utils/Serialization.hpp` ("big-endian 32-bit"): the four bytes of `value`
replace the bytes of `array` at `offset`. -/
def WriteInt (v : Int) (array : QByteArray) (offset : Nat) : QByteArray :=
  array.take offset ++ encodeInt v ++ array.drop (offset + 4)

/-- Modelled from the spec: `Serialization::ReadInt(array, offset)` of
`Utils/Serialization.hpp`, the signed 32-bit integer written most significant
byte first at `offset`; `none` when the four bytes are not all inside the
array. -/
def ReadInt (array : QByteArray) (offset : Nat) : Option Int :=
  match array.drop offset with
  | b0 :: b1 :: b2 :: b3 :: _ =>
    let u := b0 % 256 * 16777216 + b1 % 256 * 65536 + b2 % 256 * 256 + b3 % 256
    some (if u < 2147483648 then (u : Int) else (u : Int) - 4294967296)
  | _ => none

/-- Modelled from the spec: what `QDataStream` writes for a `QBitArray`, the
number of bits followed by one byte per bit. -/
def streamBits (bits : QBitArray) : QByteArray :=
  encodeInt bits.length ++ bits.map (fun b => if b then 1 else 0)

/-! ## The ciphertext engine -/

/-- Modelled from the spec: `SlotHeaderLength(owner) = 9 +
signature_length(anonymous_keys[owner]) + seed_size`, declared in the round's
header; `none` when `anonymous_keys` has no entry `owner`. -/
def SlotHeaderLength (c : Crypto) (st : State) (owner : Int) : Option Nat :=
  if owner < 0 then none
  else (st.anonymous_keys.get? owner.toNat).map
    (fun k => 9 + c.GetSignatureLength k + c.OptimalSeedSize)

/-- The member function `CSDCNetRound::CheckData`, as it acts on `_state`. `data` is what
`GetData(MAX_GET)` returns if it is called. -/
def CheckData (st : State) (data : QByteArray) : Bool × State :=
  if !st.next_msg.isEmpty then (true, st)
  else
    let st := { st with next_msg := data, last_msg := [] }
    (!st.next_msg.isEmpty, st)

/-- The member function `CSDCNetRound::GenerateSlotMessage`, as it acts on `_state` in phase
`phase`. `data` is what `GetData(MAX_GET)` returns if it is called, `rand`
the draws of the generator in `Randomize`. -/
def GenerateSlotMessage.build (c : Crypto) (cfg : Config) (phase : Nat) (st : State)
    (data : QByteArray) (rand : List QByteArray) : Option (QByteArray × State) :=
  let msg := if st.read then st.next_msg else st.last_msg
  let st := if st.read then { st with last_msg := st.next_msg, next_msg := data }
    else { st with read := !st.accuse }
  match SlotHeaderLength c st st.my_idx with
  | none => none
  | some header_length =>
    let msg_p := zeroBytes 9
    let msg_p := if st.accuse then msg_p.set 0 255 else msg_p
    let msg_p := WriteInt phase msg_p 1
    let length := st.next_msg.length + header_length
    let close := cfg.CSBR_CLOSE_SLOT && st.next_msg.length == 0
    let st := if close then { st with slot_open := false } else st
    let length := if close then 0 else length
    let msg_p := if st.accuse then WriteInt header_length msg_p 5 ++ zeroBytes msg.length
      else WriteInt length msg_p 5 ++ msg
    let sig := if cfg.CSBR_SIGN_SLOTS then c.Sign st.anonymous_key msg_p
      else c.ComputeHash msg_p
    let msg_pp := msg_p ++ sig
    match Randomize c rand msg_pp with
    | none => none
    | some text => some (text, { st with last_ciphertext := text })

/-- The member function `CSDCNetRound::GenerateSlotMessage` on the round object. -/
def GenerateSlotMessage (c : Crypto) (cfg : Config) (r : Round) (data : QByteArray)
    (rand : List QByteArray) : Option (QByteArray × Round) :=
  match GenerateSlotMessage.build c cfg r.phase r.state data rand with
  | none => none
  | some (text, st) => some (text, { r with state := st })

/-- The round with `phase_logs` replaced. -/
def withLogs (r : Round) (logs : QMap PhaseLog) : Round :=
  { r with server_state.phase_logs := logs }

/-- A write to the object behind `current_phase_log`. -/
def updatePhaseLog (r : Round) (f : PhaseLog → PhaseLog) : Round :=
  withLogs r (r.server_state.phase_logs.map
    (fun e => if e.1 = r.server_state.current_phase_log then (e.1, f e.2) else e))

/-- The loop of `SetupRngs` over `handled_clients` on a server: the seeds of
the included clients, and `rng_to_gidx`. -/
def SetupRngs.seeds (base_seeds : List QByteArray) :
    List Bool → Nat → List QByteArray → QMap Nat → Option (List QByteArray × QMap Nat)
  | [], _, seeds, gidx => some (seeds, gidx)
  | h :: hs, idx, seeds, gidx =>
    if !h then SetupRngs.seeds base_seeds hs (idx + 1) seeds gidx
    else
      match base_seeds.get? idx with
      | none => none
      | some s =>
        SetupRngs.seeds base_seeds hs (idx + 1) (seeds ++ [s])
          (QMap.insert seeds.length idx gidx)

/-- The member function `CSDCNetRound::SetupRngs`. -/
def SetupRngs (c : Crypto) (r : Round) : Option Round :=
  let phase := WriteInt r.phase (zeroBytes 4) 0
  let seeded : Option (List QByteArray × Round) :=
    if r.IsServer then
      match SetupRngs.seeds r.state.base_seeds r.server_state.handled_clients 0 [] [] with
      | none => none
      | some (seeds, gidx) => some (seeds, { r with server_state.rng_to_gidx := gidx })
    else some (r.state.base_seeds, r)
  match seeded with
  | none => none
  | some (seeds, r) =>
    let rngs := (seeds.filter (fun base_seed => !base_seed.isEmpty)).map
      (fun base_seed => c.ComputeHash (base_seed ++ phase ++ r.nonce))
    some { r with state.anonymous_rngs := rngs }

/-- The first loop of `GenerateCiphertext`: one block per generator, logged
on a server under `rng_to_gidx[idx++]`, XORed into `xor_msg`. -/
def GenerateCiphertext.pads (c : Crypto) :
    List QByteArray → Nat → QByteArray → Round → QByteArray × Round
  | [], _, xor_msg, r => (xor_msg, r)
  | rng :: rest, jdx, xor_msg, r =>
    let tmsg := c.GenerateBlock rng r.state.msg_length
    let r := if r.IsServer then
        let gidx := (QMap.find jdx r.server_state.rng_to_gidx).getD 0
        updatePhaseLog r (fun l =>
          { l with my_sub_ciphertexts := QMap.insert gidx tmsg l.my_sub_ciphertexts })
      else r
    GenerateCiphertext.pads c rest (jdx + 1) (Xor xor_msg xor_msg tmsg) r

/-- The offset loop of `GenerateCiphertext`: the lengths of the slots that
precede `my_idx` in `next_messages`. -/
def GenerateCiphertext.offset (my_idx : Int) : QMap Nat → Nat
  | [] => 0
  | (owner, length) :: rest =>
    if (owner : Int) = my_idx then 0 else length + GenerateCiphertext.offset my_idx rest

/-- The second part of `GenerateCiphertext`, after the loop over the
generators, as it acts on `_state` in phase `phase`: the slot message is
XORed over `xor_msg` at its offset when the slot is open, else bit `my_idx`
of the bitmap is flipped when `CheckData` finds data. `none` when the slot
message does not fit in `xor_msg` at its offset, or the bitmap bit lies
outside `xor_msg`. -/
def GenerateCiphertext.write (c : Crypto) (cfg : Config) (xor_msg : QByteArray) (phase : Nat)
    (st : State) (data : QByteArray) (rand : List QByteArray) : Option (QByteArray × State) :=
  if st.slot_open then
    let offset := st.base_msg_length + GenerateCiphertext.offset st.my_idx st.next_messages
    match GenerateSlotMessage.build c cfg phase st data rand with
    | none => none
    | some (my_msg, st) =>
      if offset + my_msg.length > xor_msg.length then none
      else
        let my_xor_base := (xor_msg.drop offset).take my_msg.length
        let my_msg := Xor my_msg my_msg my_xor_base
        some (xor_msg.take offset ++ my_msg ++ xor_msg.drop (offset + my_msg.length), st)
  else
    match CheckData st data with
    | (true, st) =>
      if st.my_idx < 0 then none
      else
        let idx := st.my_idx.toNat
        match xor_msg.get? (idx / 8) with
        | none => none
        | some b =>
          some (xor_msg.set (idx / 8) (b ^^^ bit_masks (idx % 8)),
            { st with read := false, slot_open := true })
    | (false, st) => some (xor_msg, st)

/-- The member function `CSDCNetRound::GenerateCiphertext`: the loop over the generators, then
the slot write or the bitmap flip. -/
def GenerateCiphertext (c : Crypto) (cfg : Config) (r : Round) (data : QByteArray)
    (rand : List QByteArray) : Option (QByteArray × Round) :=
  match GenerateCiphertext.pads c r.state.anonymous_rngs 0 (zeroBytes r.state.msg_length) r with
  | (xor_msg, r) =>
    match GenerateCiphertext.write c cfg xor_msg r.phase r.state data rand with
    | none => none
    | some (ciphertext, st) => some (ciphertext, { r with state := st })

/-- The member function `CSDCNetRound::SubmitClientCiphertext`. -/
def SubmitClientCiphertext (c : Crypto) (cfg : Config) (r : Round) (data : QByteArray)
    (rand : List QByteArray) : Option (QByteArray × Round) :=
  match SetupRngs c r with
  | none => none
  | some r =>
    match GenerateCiphertext c cfg r data rand with
    | none => none
    | some (ciphertext, r) =>
      some (ciphertext, { r with sent := r.sent ++
        [Packet.CLIENT_CIPHERTEXT r.state.my_server r.nonce r.phase ciphertext] })

/-- The loop of `GenerateServerCiphertext` over `client_ciphertexts`. -/
def GenerateServerCiphertext.clients (handled_clients : QBitArray) :
    List (Nat × QByteArray) → QByteArray → Option QByteArray
  | [], ciphertext => some ciphertext
  | (idx, text) :: rest, ciphertext =>
    match handled_clients.get? idx with
    | none => none
    | some false => GenerateServerCiphertext.clients handled_clients rest ciphertext
    | some true =>
      GenerateServerCiphertext.clients handled_clients rest (Xor ciphertext ciphertext text)

/-- The loop of `GenerateServerCiphertext` that fills the local bit array
`open` of `count` bits; reading `next_messages[idx]` inserts a zero length
for an absent key. The recursion is on `fuel`; `count + 1` turns suffice. -/
def GenerateServerCiphertext.openBits (count : Nat) : Nat → Nat → QMap Nat → Option (QMap Nat)
  | 0, _, _ => none
  | fuel + 1, idx, next_messages =>
    if idx < next_messages.length then
      if idx < count then
        GenerateServerCiphertext.openBits count fuel (idx + 1) (QMap.touch idx 0 next_messages)
      else none
    else some next_messages

/-- The member function `CSDCNetRound::GenerateServerCiphertext`. -/
def GenerateServerCiphertext (c : Crypto) (cfg : Config) (r : Round) (data : QByteArray)
    (rand : List QByteArray) : Option Round :=
  match GenerateCiphertext c cfg r data rand with
  | none => none
  | some (ciphertext, r) =>
    match GenerateServerCiphertext.clients r.server_state.handled_clients
        r.server_state.client_ciphertexts ciphertext with
    | none => none
    | some ciphertext =>
      match GenerateServerCiphertext.openBits r.clients.Count (r.clients.Count + 1) 0
          r.state.next_messages with
      | none => none
      | some next_messages =>
        some { r with state.next_messages := next_messages,
                      server_state.my_ciphertext := ciphertext,
                      server_state.my_commit := c.ComputeHash ciphertext }

/-- The member function `CSDCNetRound::SubmitCommit`. -/
def SubmitCommit (c : Crypto) (cfg : Config) (r : Round) (data : QByteArray)
    (rand : List QByteArray) : Option Round :=
  match SetupRngs c r with
  | none => none
  | some r =>
    match GenerateServerCiphertext c cfg r data rand with
    | none => none
    | some r =>
      some { r with sent := r.sent ++
        [Packet.SERVER_COMMIT r.nonce r.phase r.server_state.my_commit] }

/-- The cleartext `SubmitValidation` computes: the XOR of the values of
`server_ciphertexts` into `msg_length` zero bytes. -/
def SubmitValidation.cleartext (r : Round) : QByteArray :=
  (QMap.values r.server_state.server_ciphertexts).foldl
    (fun cleartext ciphertext => Xor cleartext cleartext ciphertext)
    (zeroBytes r.state.msg_length)

/-- The member function `CSDCNetRound::SubmitValidation`. -/
def SubmitValidation (c : Crypto) (r : Round) : Round :=
  let cleartext := SubmitValidation.cleartext r
  let signed_hash := c.ComputeHash (cleartext ++ streamBits r.server_state.handled_clients)
  let signature := c.Sign r.key signed_hash
  { r with state.cleartext := cleartext,
           server_state.signed_hash := signed_hash,
           sent := r.sent ++ [Packet.SERVER_VALIDATION r.nonce r.phase signature] }

/-- The pad that `SetupRngs` and `GenerateCiphertext` derive from a base
seed in a phase: `msg_length` bytes of the generator seeded with
`H(base_seed || phase || nonce)`; an empty base seed is skipped, which leaves
the XOR as zero bytes would. -/
def pad (c : Crypto) (phase : Nat) (nonce : QByteArray) (msg_length : Nat)
    (base_seed : QByteArray) : QByteArray :=
  if base_seed.isEmpty then zeroBytes msg_length
  else c.GenerateBlock (c.ComputeHash (base_seed ++ WriteInt phase (zeroBytes 4) 0 ++ nonce))
    msg_length

/-- The contribution of a participant without its pads: what the second
part of `GenerateCiphertext` writes over zero bytes, the XOR of no pad, from
the same state: the bitmap flip or the slot message (empty when it has no
result). -/
def unpadded (c : Crypto) (cfg : Config) (r : Round) (data : QByteArray)
    (rand : List QByteArray) : QByteArray :=
  match GenerateCiphertext.write c cfg (zeroBytes r.state.msg_length) r.phase r.state
      data rand with
  | none => []
  | some (ciphertext, _) => ciphertext

/-- The members of `_state` that the slot write and the bitmap flip of
`GenerateCiphertext` read: the anonymous keys, the slot layout, the pending
messages and the flags `read`, `slot_open` and `accuse`; the other members
are set to their defaults. -/
def slotView (st : State) : State :=
  { anonymous_key := st.anonymous_key, anonymous_keys := st.anonymous_keys,
    next_messages := st.next_messages, base_msg_length := st.base_msg_length,
    my_idx := st.my_idx, next_msg := st.next_msg, last_msg := st.last_msg,
    read := st.read, slot_open := st.slot_open, accuse := st.accuse }

/-- The clients whose bit is set in `handled_clients`, in roster order. -/
def included (handled_clients : QBitArray) : List Nat :=
  (List.range handled_clients.length).filter (fun i => handled_clients.getD i false)

/-- One execution of a phase: the state of every client before it submits
(`cl`), what its data source and its generator yield (`cdata`, `crand`), the
ciphertext it submits and the state it is left in (`ct`, `cl'`), the state of
every server before it commits, what its data source and its generator yield
(`sv`, `sdata`, `srand`), its state after `SubmitCommit` (`sv'`), and a server
`R` that holds the revealed ciphertexts. -/
structure Execution where
  cl : Nat → Round
  cdata : Nat → QByteArray
  crand : Nat → List QByteArray
  ct : Nat → QByteArray
  cl' : Nat → Round
  sv : Nat → Round
  sdata : Nat → QByteArray
  srand : Nat → List QByteArray
  sv' : Nat → Round
  R : Round

/-- The execution is a phase `phase` of a round with `Ns` servers, nonce
`nonce`, message length `L` and inclusion bitmap `H`: every included client
submits the ciphertext `SubmitClientCiphertext` builds; every server holds
`H`, owns no anonymous slot and builds its ciphertext with `SubmitCommit`;
client and server derive the same pad for each other; each included
client's ciphertext is accepted by exactly one server; `R` holds the
ciphertext of every server. -/
abbrev Execution.completed (e : Execution) (c : Crypto) (cfg : Config) (Ns L phase : Nat)
    (nonce : QByteArray) (H : QBitArray) : Prop :=
  (∀ i ∈ included H, (e.cl i).IsServer = false ∧ (e.cl i).state.msg_length = L ∧
    (e.cl i).phase = phase ∧ (e.cl i).nonce = nonce ∧
    (e.cl i).state.base_seeds.length = Ns ∧
    SubmitClientCiphertext c cfg (e.cl i) (e.cdata i) (e.crand i) = some (e.ct i, e.cl' i)) ∧
  (∀ j, j < Ns → (e.sv j).IsServer = true ∧ (e.sv j).state.msg_length = L ∧
    (e.sv j).phase = phase ∧ (e.sv j).nonce = nonce ∧
    (e.sv j).server_state.handled_clients = H ∧ (e.sv j).state.my_idx < 0 ∧
    SubmitCommit c cfg (e.sv j) (e.sdata j) (e.srand j) = some (e.sv' j)) ∧
  (∀ i ∈ included H, ∀ j, j < Ns →
    pad c phase nonce L ((e.cl i).state.base_seeds.getD j []) =
      pad c phase nonce L ((e.sv j).state.base_seeds.getD i [])) ∧
  List.Perm ((List.range Ns).flatMap (fun j => (e.sv j).server_state.client_ciphertexts))
    ((included H).map (fun i => (i, e.ct i))) ∧
  e.R.state.msg_length = L ∧
  List.Perm e.R.server_state.server_ciphertexts
    ((List.range Ns).map (fun j => (j, (e.sv' j).server_state.my_ciphertext)))

/-- The XOR of a list of byte strings into `n` zero bytes, as the loops of
the round compute it with `Xor(acc, acc, x)`. -/
def xorAll (n : Nat) (xs : List QByteArray) : QByteArray :=
  xs.foldl (fun acc x => Xor acc acc x) (zeroBytes n)

/-- The XOR of a list of numbers. -/
def xsum (l : List Nat) : Nat := l.foldr (fun a b => a ^^^ b) 0

/-! ## Processing the cleartext -/

/-- The first loop of `ProcessCleartext`: every slot whose bitmap bit is set
is given `SlotHeaderLength` bytes in the next phase. The lengths of
`ProcessCleartext` are not negative and are kept as natural numbers, here and
in `keep` and `deliver`; the program adds them in `int`, which gives the same
sums as long as the last of them, the new `msg_length`, is below `2 ^ 31`. -/
def ProcessCleartext.bitmap (c : Crypto) (st : State) :
    List Nat → QMap Nat → Nat → Option (QMap Nat × Nat)
  | [], next_msgs, next_msg_length => some (next_msgs, next_msg_length)
  | idx :: rest, next_msgs, next_msg_length =>
    match st.cleartext.get? (idx / 8) with
    | none => none
    | some b =>
      if b &&& bit_masks (idx % 8) ≠ 0 then
        match SlotHeaderLength c st idx with
        | none => none
        | some length =>
          ProcessCleartext.bitmap c st rest (QMap.insert idx length next_msgs)
            (next_msg_length + length)
      else ProcessCleartext.bitmap c st rest next_msgs next_msg_length

/-- The server's loop of `ProcessCleartext` that appends one offset per
client to `message_offsets`. -/
def ProcessCleartext.offsets (next_messages : QMap Nat) : List Nat → Nat → List Nat
  | [], _ => []
  | idx :: rest, calc_ =>
    calc_ :: ProcessCleartext.offsets next_messages rest
      (calc_ + (QMap.find idx next_messages).getD 0)

/-- The inner loop over `bidx` of the accusation search: the first bit that
differs and whose expected value is 0. -/
def ProcessCleartext.bit (expected actual : Nat) : List Nat → Option Nat
  | [] => none
  | bidx :: rest =>
    let expected_bit := expected &&& bit_masks bidx
    let actual_bit := actual &&& bit_masks bidx
    if actual_bit = expected_bit then ProcessCleartext.bit expected actual rest
    else if expected_bit ≠ 0 then ProcessCleartext.bit expected actual rest
    else some bidx

/-- The outer loop over `pidx` of the accusation search, over the bytes of
`msg_ppp` from `pidx` on: `some (some (pidx, bidx))` at the first flipped bit
whose expected value is 0, `some none` when there is none, `none` when
`last_ciphertext` is read outside its bytes. -/
def ProcessCleartext.search (last_ciphertext : QByteArray) :
    List Nat → Nat → Option (Option (Nat × Nat))
  | [], _ => some none
  | actual :: rest, pidx =>
    match last_ciphertext.get? pidx with
    | none => none
    | some expected =>
      if expected = actual then ProcessCleartext.search last_ciphertext rest (pidx + 1)
      else
        match ProcessCleartext.bit expected actual [0, 1, 2, 3, 4, 5, 6, 7] with
        | some bidx => some (some (pidx, bidx))
        | none => ProcessCleartext.search last_ciphertext rest (pidx + 1)

/-- The variables the slot loop of `ProcessCleartext` carries from one slot
to the next. -/
structure ProcessCleartext.Vars where
  r : Round
  offset : Nat
  next_msgs : QMap Nat
  next_msg_length : Nat
deriving DecidableEq, Repr

/-- The slot is carried forward: `next_msg_length += msg_length;
next_msgs[owner] = msg_length`, the sum being that of the program's `int` as
long as it is below `2 ^ 31`. -/
def ProcessCleartext.keep (v : ProcessCleartext.Vars) (owner msg_length : Nat) :
    ProcessCleartext.Vars :=
  { v with next_msg_length := v.next_msg_length + msg_length,
           next_msgs := QMap.insert owner msg_length v.next_msgs }

/-- One turn of the slot loop of `ProcessCleartext`, for the entry
`(owner, msg_length)` of `next_messages`. -/
def ProcessCleartext.slot (c : Crypto) (cfg : Config) (v : ProcessCleartext.Vars)
    (owner msg_length : Nat) : Option ProcessCleartext.Vars :=
  if msg_length = 0 then some v
  else if v.offset + msg_length > v.r.state.cleartext.length then none
  else
    let msg_ppp := (v.r.state.cleartext.drop v.offset).take msg_length
    let v := { v with offset := v.offset + msg_length }
    match Derandomize c msg_ppp with
    | none => none
    | some msg_pp =>
      if msg_pp.isEmpty then
        let v := ProcessCleartext.keep v owner msg_length
        if v.r.state.my_idx = (owner : Int) then
          some { v with r := { v.r with state.read := false, state.slot_open := true } }
        else some v
      else
        let vkey : Option QByteArray :=
          if cfg.CSBR_SIGN_SLOTS then v.r.state.anonymous_keys.get? owner else some []
        match vkey with
        | none => none
        | some vkey =>
          let sig_length :=
            if cfg.CSBR_SIGN_SLOTS then c.GetSignatureLength vkey else c.GetDigestSize
          if msg_pp.length < sig_length then none
          else
            let msg_p := msg_pp.take (msg_pp.length - sig_length)
            let sig := (msg_pp.drop msg_p.length).take sig_length
            let bad_message : Bool :=
              if cfg.CSBR_SIGN_SLOTS then !c.Verify vkey msg_pp sig
              else c.ComputeHash msg_p != sig
            let blamed : Option ProcessCleartext.Vars :=
              if bad_message then
                let v := ProcessCleartext.keep v owner msg_length
                if (owner : Int) = v.r.state.my_idx && !v.r.state.accuse then
                  let r := { v.r with state.read := false, state.slot_open := true }
                  match ProcessCleartext.search r.state.last_ciphertext msg_ppp 0 with
                  | none => none
                  | some none => some { v with r := r }
                  | some (some (pidx, bidx)) =>
                    let idx : Int := ((v.offset - msg_length + pidx) * 8 + bidx : Nat)
                    some { v with r := { r with
                      state.accuse_idx := idx,
                      state.accuse := true,
                      state.blame_phase := r.phase } }
                else some v
              else some v
            match blamed with
            | none => none
            | some v =>
              match msg_p.get? 0 with
              | none => none
              | some flag =>
                let v := if flag ≠ 0 then
                    let r := { v.r with state.start_accuse := true, state.accuser := owner }
                    if (owner : Int) = r.state.my_idx then
                      { v with r := { r with state.my_accuse := r.state.accuse } }
                    else { v with r := r }
                  else v
                if bad_message then some v
                else
                  match ReadInt msg_p 1, ReadInt msg_p 5 with
                  | some phase, some next =>
                    if phase ≠ (v.r.phase : Int) then
                      some (ProcessCleartext.keep v owner msg_length)
                    else if next < 0 then some (ProcessCleartext.keep v owner msg_length)
                    else
                      let v := if next > 0 then
                          { v with next_msgs := QMap.insert owner next.toNat v.next_msgs,
                                   next_msg_length := v.next_msg_length + next.toNat }
                        else v
                      let msg := msg_p.drop 9
                      if !msg.isEmpty then
                        some { v with r := { v.r with pushed := v.r.pushed ++ [(owner, msg)] } }
                      else some v
                  | _, _ => none

/-- The slot loop of `ProcessCleartext` over the entries of `next_messages`. -/
def ProcessCleartext.slots (c : Crypto) (cfg : Config) :
    List (Nat × Nat) → ProcessCleartext.Vars → Option ProcessCleartext.Vars
  | [], v => some v
  | (owner, msg_length) :: rest, v =>
    match ProcessCleartext.slot c cfg v owner msg_length with
    | none => none
    | some v => ProcessCleartext.slots c cfg rest v

/-- The member function `CSDCNetRound::ProcessCleartext`. `PushData(owner, msg)` appends to
`pushed`. -/
def ProcessCleartext (c : Crypto) (cfg : Config) (r : Round) : Option Round :=
  match ProcessCleartext.bitmap c r.state (List.range r.clients.Count) []
      r.state.base_msg_length with
  | none => none
  | some (next_msgs, next_msg_length) =>
    let offset := r.clients.Count / 8 + (if r.clients.Count % 8 ≠ 0 then 1 else 0)
    let offsets :=
      ProcessCleartext.offsets r.state.next_messages (List.range r.clients.Count) offset
    let r := if r.IsServer then
        updatePhaseLog r (fun l => { l with message_offsets := l.message_offsets ++ offsets })
      else r
    match ProcessCleartext.slots c cfg r.state.next_messages
        { r := r, offset := offset, next_msgs := next_msgs,
          next_msg_length := next_msg_length } with
    | none => none
    | some v =>
      let r := if v.r.IsServer then
          updatePhaseLog v.r (fun l => { l with message_length := v.offset })
        else v.r
      some { r with state.next_messages := v.next_msgs, state.msg_length := v.next_msg_length }

/-! ## The state machine -/

/-- The edges configured with `AddTransition`: by the constructor, then by
`InitServer` or by `InitClient`. -/
def transitions (isServer : Bool) : List (States × States) :=
  [(States.OFFLINE, States.SHUFFLING),
   (States.SHUFFLING, States.PROCESS_BOOTSTRAP),
   (States.PROCESS_BOOTSTRAP, States.PREPARE_FOR_BULK),
   (States.STARTING_BLAME_SHUFFLE, States.WAITING_FOR_BLAME_SHUFFLE)] ++
  (if isServer then
    [(States.PREPARE_FOR_BULK, States.SERVER_WAIT_FOR_CLIENT_CIPHERTEXT),
     (States.SERVER_WAIT_FOR_CLIENT_CIPHERTEXT, States.SERVER_WAIT_FOR_CLIENT_LISTS),
     (States.SERVER_WAIT_FOR_CLIENT_LISTS, States.SERVER_WAIT_FOR_SERVER_COMMITS),
     (States.SERVER_WAIT_FOR_SERVER_COMMITS, States.SERVER_WAIT_FOR_SERVER_CIPHERTEXT),
     (States.SERVER_WAIT_FOR_SERVER_CIPHERTEXT, States.SERVER_WAIT_FOR_SERVER_VALIDATION),
     (States.SERVER_WAIT_FOR_SERVER_VALIDATION, States.SERVER_PUSH_CLEARTEXT),
     (States.SERVER_PUSH_CLEARTEXT, States.SERVER_WAIT_FOR_CLIENT_CIPHERTEXT),
     (States.WAITING_FOR_BLAME_SHUFFLE, States.SERVER_TRANSMIT_BLAME_BITS),
     (States.SERVER_TRANSMIT_BLAME_BITS, States.SERVER_WAITING_FOR_BLAME_BITS),
     (States.SERVER_WAITING_FOR_BLAME_BITS, States.SERVER_REQUEST_CLIENT_REBUTTAL),
     (States.SERVER_REQUEST_CLIENT_REBUTTAL, States.SERVER_WAIT_FOR_CLIENT_REBUTTAL),
     (States.SERVER_WAIT_FOR_CLIENT_REBUTTAL, States.SERVER_EXCHANGE_VERDICT_SIGNATURE),
     (States.SERVER_EXCHANGE_VERDICT_SIGNATURE, States.SERVER_WAIT_FOR_VERDICT_SIGNATURE),
     (States.SERVER_WAIT_FOR_VERDICT_SIGNATURE, States.SERVER_SHARE_VERDICT)]
  else
    [(States.PREPARE_FOR_BULK, States.CLIENT_WAIT_FOR_CLEARTEXT),
     (States.CLIENT_WAIT_FOR_CLEARTEXT, States.CLIENT_WAIT_FOR_CLEARTEXT),
     (States.WAITING_FOR_BLAME_SHUFFLE, States.WAITING_FOR_DATA_REQUEST_OR_VERDICT)])

/-- The state named in `SetCycleState`. -/
def cycleState (isServer : Bool) : States :=
  if isServer then States.SERVER_PUSH_CLEARTEXT else States.CLIENT_WAIT_FOR_CLEARTEXT

/-- The successor of a state along the configured edges. -/
def nextState (isServer : Bool) (s : States) : Option States :=
  ((transitions isServer).find? (fun e => e.1 == s)).map Prod.snd

/-- Modelled from the spec: `Round::Stop(reason)` of the base round, which
records the reason and runs `CSDCNetRound::OnStop`, whose `SetState(FINISHED)`
is embedded here. -/
def Stop (r : Round) (reason : String) : Round :=
  { r with stopped := some reason, sm_state := States.FINISHED }

/-- The member function `CSDCNetRound::BeforeStateTransition` (the timer is not embedded). -/
def BeforeStateTransition (r : Round) : Round :=
  if r.IsServer then { r with server_state.handled_servers := [] } else r

/-- The Qt macro `Q_ASSERT(cond)` over a state `s` that its argument may
change: `cond s` is the value of the argument and the state its evaluation
leaves. With `QT_NO_DEBUG` defined the macro expands to nothing, so the
argument is not evaluated and the state stays as it is; without it the
argument is evaluated, and the program aborts, here `none`, when it is
false. -/
def Q_ASSERT {α : Type} (QT_NO_DEBUG : Bool) (cond : α → Bool × α) (s : α) : Option α :=
  if QT_NO_DEBUG then some s
  else
    match cond s with
    | (true, s') => some s'
    | (false, _) => none

/-- The member function `CSDCNetRound::CycleComplete`. `phase_logs.remove`
returns the number of entries removed, which is not zero exactly when the
key was there; the call is the argument of `Q_ASSERT`. -/
def CycleComplete (r : Round) : Option (Bool × Round) :=
  let logged : Option Round :=
    if r.IsServer then
      let nphase := r.phase + 1
      let removed : Option (QMap PhaseLog) :=
        if nphase ≥ 5 then
          Q_ASSERT r.QT_NO_DEBUG
            (fun logs => (QMap.contains logs (nphase - 5), QMap.remove (nphase - 5) logs))
            r.server_state.phase_logs
        else some r.server_state.phase_logs
      match removed with
      | none => none
      | some logs =>
        let log : PhaseLog := { phase := nphase, num_clients := r.clients.Count }
        some { r with
          server_state.handled_clients := List.replicate r.clients.Count false,
          server_state.client_ciphertexts := [],
          server_state.server_ciphertexts := [],
          server_state.current_phase_log := nphase,
          server_state.phase_logs := QMap.insert nphase log logs }
    else some r
  match logged with
  | none => none
  | some r =>
    if r.stop_next then some (false, Stop { r with interrupted := true } "Stopped for join")
    else some (true, r)

/-- Modelled from the spec: `RoundStateMachine::StateComplete` ("advances
deterministically along the configured edges"; at the cycle state "the state
machine increments phase and invokes a cycle hook"). It runs
`BeforeStateTransition`, at the cycle state `CycleComplete` and the phase
increment, and moves to the successor state. The entry action of the state
reached is a function of its own in this file and is not run here. -/
def StateComplete (r : Round) : Option Round :=
  let r := BeforeStateTransition r
  let cycled : Option (Bool × Round) :=
    if r.sm_state = cycleState r.IsServer then
      match CycleComplete r with
      | none => none
      | some (true, r) => some (true, { r with phase := r.phase + 1 })
      | some (false, r) => some (false, r)
    else some (true, r)
  match cycled with
  | none => none
  | some (false, r) => some r
  | some (true, r) =>
    match nextState r.IsServer r.sm_state with
    | none => some r
    | some s => some { r with sm_state := s }

/-- Modelled from the spec: `n` completed bulk cycles as the state machine
drives them at its cycle state ("the state machine increments phase and
invokes a cycle hook"): `CycleComplete`, then the phase increment, as long as
`CycleComplete` returns `true`. -/
def cycles : Nat → Round → Option Round
  | 0, r => some r
  | n + 1, r =>
    match CycleComplete r with
    | none => none
    | some (true, r) => cycles n { r with phase := r.phase + 1 }
    | some (false, r) => some r

/-- The part of `CSDCNetRound::InitServer` that sets up the server state:
the first phase log, the allowed clients (`connections` are the remote ids
of the overlay's connection table) and the empty inclusion bitmap. -/
def InitServer (r : Round) (connections : List Id) : Round :=
  let log : PhaseLog := { phase := r.phase, num_clients := r.clients.Count }
  { r with
    IsServer := true,
    server_state.current_phase_log := r.phase,
    server_state.phase_logs := QMap.insert r.phase log r.server_state.phase_logs,
    server_state.allowed_clients := connections.filter (fun id => !r.servers.Contains id),
    server_state.handled_clients := List.replicate r.clients.Count false }

/-- The Qt operation `QSet::insert` on a set of ids. -/
def QSet.insert (id : Id) (s : List Id) : List Id := if s.contains id then s else s ++ [id]

/-- The member function `CSDCNetRound::HandleServerCiphertext`, for a message from `sender`
(`from` in the source) that carries `ciphertext`. -/
def HandleServerCiphertext (c : Crypto) (r : Round) (sender : Id) (ciphertext : QByteArray) :
    Option (Outcome Unit × Round) :=
  if !r.IsServer then some (Outcome.threw "Not a server", r)
  else if !r.servers.Contains sender then some (Outcome.threw "Not a server", r)
  else if r.server_state.handled_servers.contains sender then
    some (Outcome.threw "Already have ciphertext", r)
  else if ciphertext.length ≠ r.state.msg_length then
    some (Outcome.threw ("Incorrect message length, got " ++ toString ciphertext.length ++
      " expected " ++ toString r.state.msg_length), r)
  else
    let commit := c.ComputeHash ciphertext
    let sidx := r.servers.GetIndex sender
    let commits := QMap.touch sidx [] r.server_state.server_commits
    let r := { r with server_state.server_commits := commits }
    if commit ≠ (QMap.find sidx r.server_state.server_commits).getD [] then
      some (Outcome.threw "Does not match commit.", r)
    else
      let r := { r with
        server_state.handled_servers := QSet.insert sender r.server_state.handled_servers,
        server_state.server_ciphertexts :=
          QMap.insert sidx ciphertext r.server_state.server_ciphertexts }
      let r := updatePhaseLog r (fun l =>
        { l with server_messages := QMap.insert sender ciphertext l.server_messages })
      if r.server_state.handled_servers.length = r.servers.Count then
        (StateComplete r).map (fun r => (Outcome.ok (), r))
      else some (Outcome.ok (), r)

/-! ## The blame protocol -/

/-- The member function `CSDCNetRound::HandleRebuttal`, for a message from `sender` (`from` in
the source) that carries `rebuttal`. -/
def HandleRebuttal (c : Crypto) (r : Round) (sender : Id) (rebuttal : Int × QByteArray) :
    Option (Outcome Unit × Round) :=
  if sender ≠ r.server_state.expected_rebuttal then
    some (Outcome.threw "Not expecting rebuttal from client", r)
  else
    let decided : Option Round :=
      if rebuttal.1 ≥ r.servers.Count then some { r with server_state.bad_dude := sender }
      else
        match r.servers.GetId rebuttal.1 with
        | none => none
        | some server =>
          match r.clients.GetIdentity sender, r.servers.GetIdentity server with
          | some ci, some si =>
            let shared_secret := c.VerifySharedSecret ci.dh_key si.dh_key rebuttal.2
            if shared_secret.isEmpty then some { r with server_state.bad_dude := sender }
            else if rebuttal.1 ≥ r.server_state.server_bits.length then
              some { r with server_state.bad_dude := sender }
            else
              let bphase := WriteInt r.server_state.current_blame.third (zeroBytes 4) 0
              let seed := c.ComputeHash (shared_secret ++ bphase ++ r.nonce)
              let accuse_idx := r.server_state.current_blame.second
              if accuse_idx < 0 then none
              else
                let byte_idx := accuse_idx.toNat / 8
                let bit_idx := accuse_idx.toNat % 8
                let tmp := c.GenerateBlock seed (byte_idx + 1)
                match tmp.get? byte_idx, r.server_state.server_bits.get? rebuttal.1.toNat with
                | some b, some server_bit =>
                  if ((b &&& bit_masks (bit_idx % 8)) != 0) == server_bit then
                    some { r with server_state.bad_dude := sender }
                  else some { r with server_state.bad_dude := server }
                | _, _ => none
          | _, _ => none
    match decided with
    | none => none
    | some r => (StateComplete r).map (fun r => (Outcome.ok (), r))

/-- The Qt operation `QBitArray::operator^=`: the result has the length of the longer
operand, the missing bits of the shorter one read as 0. -/
def QBitArray.xor : QBitArray → QBitArray → QBitArray
  | a :: as, b :: bs => (a != b) :: QBitArray.xor as bs
  | [], bs => bs
  | as, [] => as

/-- The XOR of all `actual` vectors and of all `expected` vectors of
`blame_bits`, each started from `GetServers().Count()` zero bits: the first
loop of `FindMismatch`. -/
def FindMismatch.totals (count : Nat) (blame_bits : QMap (QBitArray × QBitArray)) :
    QBitArray × QBitArray :=
  blame_bits.foldl
    (fun acc entry => (QBitArray.xor acc.1 entry.2.1, QBitArray.xor acc.2 entry.2.2))
    (List.replicate count false, List.replicate count false)

/-- The scan of `mismatch` in `FindMismatch`: the first index, from `idx`
on, whose bit is set. -/
def FindMismatch.first : QBitArray → Nat → Option Nat
  | [], _ => none
  | b :: rest, idx => if b then some idx else FindMismatch.first rest (idx + 1)

/-- The last loop of `FindMismatch`: bit `first` of the `expected` vector of
each roster server, written to `server_bits[idx++]`. -/
def FindMismatch.bits (blame_bits : QMap (QBitArray × QBitArray)) (first : Nat) :
    List PublicIdentity → Nat → QBitArray → Option QBitArray
  | [], _, server_bits => some server_bits
  | pid :: rest, idx, server_bits =>
    let pair := (QMap.find pid.id blame_bits).getD ([], [])
    match pair.2.get? first with
    | none => none
    | some b =>
      if idx < server_bits.length then
        FindMismatch.bits blame_bits first rest (idx + 1) (server_bits.set idx b)
      else none

/-- The member function `CSDCNetRound::FindMismatch`. -/
def FindMismatch (r : Round) : Option (Outcome (Int × QBitArray)) :=
  match FindMismatch.totals r.servers.Count r.server_state.blame_bits with
  | (actual, expected) =>
    if actual = expected then some (Outcome.threw "False accusation")
    else
      let mismatch := QBitArray.xor actual expected
      match FindMismatch.first mismatch 0 with
      | none => some (Outcome.ok (-1, []))
      | some first =>
        let server_bits := List.replicate r.server_state.blame_bits.length false
        match FindMismatch.bits r.server_state.blame_bits first r.servers 0 server_bits with
        | none => none
        | some server_bits => some (Outcome.ok ((first : Int), server_bits))

/-! ## Validation and the cleartext -/

/-- Modelled from the spec: `RoundStateMachine::SetState`, used "only for
accusation forks and terminal states"; the entry action of the state is a
function of its own in this file and is not run here. -/
def SetState (r : Round) (s : States) : Round := { r with sm_state := s }

/-- Modelled from the spec: `Roster::GetKey(id)`, the signing key of the
identity with that id. -/
def Roster.GetKeyOf (ro : Roster) (id : Id) : Option QByteArray :=
  (ro.GetIdentity id).map (fun p => p.key)

/-- The member function `CSDCNetRound::HandleServerValidation`, for a message from `sender`
(`from` in the source) that carries `signature`. -/
def HandleServerValidation (c : Crypto) (r : Round) (sender : Id) (signature : QByteArray) :
    Option (Outcome Unit × Round) :=
  if !r.IsServer then some (Outcome.threw "Not a server", r)
  else if !r.servers.Contains sender then some (Outcome.threw "Not a server", r)
  else if r.server_state.handled_servers.contains sender then
    some (Outcome.threw "Already have signature.", r)
  else
    match r.servers.GetKeyOf sender with
    | none => none
    | some key =>
      if !c.Verify key r.server_state.signed_hash signature then
        some (Outcome.threw "Signature doesn't match.", r)
      else
        let r := { r with
          server_state.handled_servers := QSet.insert sender r.server_state.handled_servers,
          server_state.signatures :=
            QMap.insert (r.servers.GetIndex sender) signature r.server_state.signatures }
        if r.server_state.handled_servers.length = r.servers.Count then
          (StateComplete r).map (fun r => (Outcome.ok (), r))
        else some (Outcome.ok (), r)

/-- Modelled from the spec: the dispatch of a sequence of `SERVER_VALIDATION`
messages by the state machine ("messages ... arriving in a state whose
expected tag they do not match are dropped"): each message is handed to
`HandleServerValidation` while the state is
`SERVER_WAIT_FOR_SERVER_VALIDATION`; a throwing handler leaves the state it
returns. -/
def validations (c : Crypto) : List (Id × QByteArray) → Round → Option Round
  | [], r => some r
  | (sender, signature) :: rest, r =>
    if r.sm_state = States.SERVER_WAIT_FOR_SERVER_VALIDATION then
      match HandleServerValidation c r sender signature with
      | none => none
      | some (_, r) => validations c rest r
    else validations c rest r

/-- The member function `CSDCNetRound::PushCleartext`. On a server `_state` and `_server_state`
are one object (`_state = _server_state` in `InitServer`), so
`_server_state->cleartext` is the member `cleartext` of `_state`. -/
def PushCleartext (c : Crypto) (cfg : Config) (r : Round) : Option Round :=
  let r := { r with sent := r.sent ++
    [Packet.SERVER_CLEARTEXT r.nonce r.phase r.server_state.signatures r.state.cleartext
      r.server_state.handled_clients] }
  match ProcessCleartext c cfg r with
  | none => none
  | some r =>
    if r.state.start_accuse then some (SetState r States.STARTING_BLAME_SHUFFLE)
    else StateComplete r

/-- The loop of `HandleServerCleartext` over the server indices: `some
false` at the first signature that does not verify. `signatures[idx]` reads
the local `QHash`, an absent entry as the empty signature. -/
def HandleServerCleartext.verified (c : Crypto) (servers : Roster) (signed_hash : QByteArray)
    (signatures : QMap QByteArray) : List Nat → Option Bool
  | [] => some true
  | idx :: rest =>
    match servers.GetKey idx with
    | none => none
    | some key =>
      if !c.Verify key signed_hash ((QMap.find idx signatures).getD []) then some false
      else HandleServerCleartext.verified c servers signed_hash signatures rest

/-- The member function `CSDCNetRound::HandleServerCleartext`, for a message from `sender`
(`from` in the source) that carries `signatures`, `cleartext` and `online`. -/
def HandleServerCleartext (c : Crypto) (cfg : Config) (r : Round) (sender : Id)
    (signatures : QMap QByteArray) (cleartext : QByteArray) (online : QBitArray) :
    Option (Outcome Unit × Round) :=
  if r.IsServer then some (Outcome.threw "Not a client", r)
  else if r.state.my_server ≠ sender then some (Outcome.threw "Not a server", r)
  else if cleartext.length ≠ r.state.msg_length then
    some (Outcome.threw ("Cleartext size mismatch: " ++ toString cleartext.length ++
      " :: " ++ toString r.state.msg_length), r)
  else
    let signed_hash := c.ComputeHash (cleartext ++ streamBits online)
    match HandleServerCleartext.verified c r.servers signed_hash signatures
        (List.range r.servers.Count) with
    | none => none
    | some false => some (Outcome.ok (), Stop r "Failed to verify signatures")
    | some true =>
      match ProcessCleartext c cfg { r with state.cleartext := cleartext } with
      | none => none
      | some r =>
        if r.state.start_accuse then
          some (Outcome.ok (), SetState r States.STARTING_BLAME_SHUFFLE)
        else (StateComplete r).map (fun r => (Outcome.ok (), r))

/-! ## The verdict -/

/-- Modelled from the spec: what `QDataStream` writes for the blame triple
followed by the id of the bad member ("`verdict_hash = H(current_blame ||
bad_dude)`"). -/
def streamVerdict (blame : Triple) (bad_dude : Id) : QByteArray :=
  encodeInt blame.first ++ encodeInt blame.second ++ encodeInt blame.third ++
    encodeInt bad_dude

/-- The member function `CSDCNetRound::SubmitVerdictSignature`. -/
def SubmitVerdictSignature (c : Crypto) (r : Round) : Option Round :=
  let verdict := streamVerdict r.server_state.current_blame r.server_state.bad_dude
  let verdict_hash := c.ComputeHash verdict
  let signature := c.Sign r.key verdict_hash
  let packet := Packet.SERVER_VERDICT_SIGNATURE r.nonce r.phase signature
  StateComplete { r with server_state.verdict_hash := verdict_hash, sent := r.sent ++ [packet] }

/-- The member function `CSDCNetRound::HandleVerdictSignature`, for a message from `sender`
(`from` in the source) that carries `signature`. -/
def HandleVerdictSignature (c : Crypto) (r : Round) (sender : Id) (signature : QByteArray) :
    Option (Outcome Unit × Round) :=
  if !r.IsServer then some (Outcome.threw "Not a server", r)
  else if !r.servers.Contains sender then some (Outcome.threw "Not a server", r)
  else if QMap.contains r.server_state.verdict_signatures sender then
    some (Outcome.threw "Already have signature.", r)
  else
    match r.servers.GetKeyOf sender with
    | none => none
    | some key =>
      if !c.Verify key r.server_state.verdict_hash signature then
        some (Outcome.threw "Signature doesn't match.", r)
      else
        let verdict_signatures :=
          QMap.insert sender signature r.server_state.verdict_signatures
        let r := { r with server_state.verdict_signatures := verdict_signatures }
        if r.server_state.verdict_signatures.length = r.servers.Count then
          (StateComplete r).map (fun r => (Outcome.ok (), r))
        else some (Outcome.ok (), r)

/-- Modelled from the spec: the dispatch of a sequence of
`SERVER_VERDICT_SIGNATURE` messages by the state machine: each message is
handed to `HandleVerdictSignature` while the state is
`SERVER_WAIT_FOR_VERDICT_SIGNATURE`, and dropped otherwise. -/
def verdictSignatures (c : Crypto) : List (Id × QByteArray) → Round → Option Round
  | [], r => some r
  | (sender, signature) :: rest, r =>
    if r.sm_state = States.SERVER_WAIT_FOR_VERDICT_SIGNATURE then
      match HandleVerdictSignature c r sender signature with
      | none => none
      | some (_, r) => verdictSignatures c rest r
    else verdictSignatures c rest r

/-- The loop of `PushVerdict` over the roster: `verdict_signatures[pid.GetId()]`
reads through the non-const `operator[]`, which inserts an empty signature
for an absent id. -/
def PushVerdict.signatures : List PublicIdentity → QMap QByteArray →
    List QByteArray × QMap QByteArray
  | [], verdict_signatures => ([], verdict_signatures)
  | pid :: rest, verdict_signatures =>
    let verdict_signatures := QMap.touch pid.id [] verdict_signatures
    let signature := (QMap.find pid.id verdict_signatures).getD []
    let (signatures, verdict_signatures) := PushVerdict.signatures rest verdict_signatures
    (signature :: signatures, verdict_signatures)

/-- The member function `CSDCNetRound::PushVerdict`. `SetSuccessful` and `SetBadMembers` of the
base round record their argument. -/
def PushVerdict (r : Round) : Round :=
  let (signatures, verdict_signatures) :=
    PushVerdict.signatures r.servers r.server_state.verdict_signatures
  let packet := Packet.SERVER_VERDICT r.nonce r.phase r.server_state.current_blame
    r.server_state.bad_dude signatures
  let r := { r with server_state.verdict_signatures := verdict_signatures,
                    sent := r.sent ++ [packet] }
  Stop { r with successful := false, bad_members := [r.server_state.bad_dude] }
    "Bad member found and reported"

/-- The loop of `GetRebuttal` over `base_seeds`: the first index whose pad
bit differs from `server_bits[idx]`; `none` when `server_bits` is read outside
its bits. -/
def GetRebuttal.search (c : Crypto) (nonce bphase : QByteArray) (byte_idx bit_idx : Nat)
    (server_bits : QBitArray) : List QByteArray → Nat → Option (Option Nat)
  | [], _ => some none
  | base_seed :: rest, idx =>
    let tmp := c.GenerateBlock (c.ComputeHash (base_seed ++ bphase ++ nonce)) (byte_idx + 1)
    match tmp.get? byte_idx, server_bits.get? idx with
    | some b, some server_bit =>
      if ((b &&& bit_masks bit_idx) != 0) != server_bit then some (some idx)
      else GetRebuttal.search c nonce bphase byte_idx bit_idx server_bits rest (idx + 1)
    | _, _ => none

/-- The member function `CSDCNetRound::GetRebuttal`. A negative `accuse_idx` indexes `tmp` or
`bit_masks` outside its bounds, and `phase % GetServers().Count()` is the
remainder of the C++ division. -/
def GetRebuttal (c : Crypto) (r : Round) (phase accuse_idx : Int) (server_bits : QBitArray) :
    Option (Int × QByteArray) :=
  if accuse_idx < 0 then none
  else
    let bphase := WriteInt phase (zeroBytes 4) 0
    let byte_idx := accuse_idx.toNat / 8
    let bit_idx := accuse_idx.toNat % 8
    match GetRebuttal.search c r.nonce bphase byte_idx bit_idx server_bits
        r.state.base_seeds 0 with
    | none => none
    | some found =>
      let bidx : Option Int :=
        match found with
        | some idx => some (idx : Int)
        | none => if r.servers.Count = 0 then none else some (phase.tmod r.servers.Count)
      match bidx with
      | none => none
      | some bidx =>
        match r.servers.GetId bidx with
        | none => none
        | some bid =>
          match r.servers.GetIdentity bid with
          | none => none
          | some identity => some (bidx, c.ProveSharedSecret r.dh_key identity.dh_key)

/-- The payload of a `SERVER_REBUTTAL_OR_VERDICT` message after nonce and
phase: the flag `verdict` and what follows it in the stream. -/
inductive RebuttalOrVerdict where
  | request (phase accuse_idx : Int) (server_bits : QBitArray)
  | verdict (blame : Triple) (bad_dude : Id) (signatures : List QByteArray)
deriving DecidableEq, Repr

/-- The loop of `HandleRebuttalOrVerdict` over the roster of servers:
`some false` at the first signature that does not verify, `none` when
`signatures[idx++]` reads the `QVector` outside its entries. -/
def HandleRebuttalOrVerdict.verified (c : Crypto) (verdict_hash : QByteArray)
    (signatures : List QByteArray) : List PublicIdentity → Nat → Option Bool
  | [], _ => some true
  | pid :: rest, idx =>
    match signatures.get? idx with
    | none => none
    | some signature =>
      if !c.Verify pid.key verdict_hash signature then some false
      else HandleRebuttalOrVerdict.verified c verdict_hash signatures rest (idx + 1)

/-- The member function `CSDCNetRound::HandleRebuttalOrVerdict`, for a message from `sender`
(`from` in the source). -/
def HandleRebuttalOrVerdict (c : Crypto) (r : Round) (sender : Id) (msg : RebuttalOrVerdict) :
    Option (Outcome Unit × Round) :=
  if r.IsServer then some (Outcome.threw "Not a client", r)
  else if !r.servers.Contains sender then some (Outcome.threw "Not a server", r)
  else
    match msg with
    | RebuttalOrVerdict.request phase accuse_idx server_bits =>
      match GetRebuttal c r phase accuse_idx server_bits with
      | none => none
      | some rebuttal =>
        some (Outcome.ok (), { r with sent := r.sent ++
          [Packet.CLIENT_REBUTTAL sender r.nonce r.phase rebuttal] })
    | RebuttalOrVerdict.verdict blame bad_dude signatures =>
      let verdict_hash := c.ComputeHash (streamVerdict blame bad_dude)
      match HandleRebuttalOrVerdict.verified c verdict_hash signatures r.servers 0 with
      | none => none
      | some false => some (Outcome.threw "Invalid verdict signature", r)
      | some true =>
        some (Outcome.ok (),
          Stop { r with successful := false, bad_members := [bad_dude] }
            "Bad member found and reported")

/-! ## Reading a slot -/

/-- The offset at which the slot loop of `ProcessCleartext` starts: the
bytes of the bitmap, `GetClients().Count() / 8`, one more when the count is
not a multiple of 8. -/
def ProcessCleartext.base (r : Round) : Nat :=
  r.clients.Count / 8 + (if r.clients.Count % 8 ≠ 0 then 1 else 0)

/-- The offset of slot `owner` in the cleartext of a phase: the bytes of
the bitmap, then the slots that precede it in `next_messages`. -/
def ProcessCleartext.start (r : Round) (owner : Nat) : Nat :=
  ProcessCleartext.base r + GenerateCiphertext.offset owner r.state.next_messages

/-- The local `msg_ppp` of the slot loop for slot `owner`: `msg_length` bytes
of the cleartext from the offset of the slot. -/
def ProcessCleartext.msg_ppp (r : Round) (owner msg_length : Nat) : QByteArray :=
  (r.state.cleartext.drop (ProcessCleartext.start r owner)).take msg_length

/-- The local `vkey` of the slot loop: the anonymous key of the slot in the
build with `CSBR_SIGN_SLOTS` (the digest build has none). -/
def ProcessCleartext.vkey (cfg : Config) (st : State) (owner : Nat) : Option QByteArray :=
  if cfg.CSBR_SIGN_SLOTS then st.anonymous_keys.get? owner else some []

/-- The local `sig_length` of the slot loop. -/
def ProcessCleartext.sig_length (c : Crypto) (cfg : Config) (vkey : QByteArray) : Nat :=
  if cfg.CSBR_SIGN_SLOTS then c.GetSignatureLength vkey else c.GetDigestSize

/-- The local `msg_p` of the slot loop: `msg_pp` without its last
`sig_length` bytes. -/
def ProcessCleartext.msg_p (c : Crypto) (cfg : Config) (vkey msg_pp : QByteArray) :
    QByteArray :=
  msg_pp.take (msg_pp.length - ProcessCleartext.sig_length c cfg vkey)

/-- The local `sig` of the slot loop: the `sig_length` bytes after `msg_p`. -/
def ProcessCleartext.sig (c : Crypto) (cfg : Config) (vkey msg_pp : QByteArray) :
    QByteArray :=
  (msg_pp.drop (ProcessCleartext.msg_p c cfg vkey msg_pp).length).take
    (ProcessCleartext.sig_length c cfg vkey)

/-- The local `bad_message` of the slot loop: the authenticator check
failed. -/
def ProcessCleartext.bad_message (c : Crypto) (cfg : Config) (vkey msg_pp : QByteArray) :
    Bool :=
  if cfg.CSBR_SIGN_SLOTS then !c.Verify vkey msg_pp (ProcessCleartext.sig c cfg vkey msg_pp)
  else c.ComputeHash (ProcessCleartext.msg_p c cfg vkey msg_pp)
    != ProcessCleartext.sig c cfg vkey msg_pp

/-- An entry `(owner, msg_length)` of `next_messages` is closed, or it has
room for a seed, the nine header bytes and its authenticator, there is a key
to check it, and in the slot of the local participant `last_ciphertext`
covers it. -/
def ProcessCleartext.room (c : Crypto) (cfg : Config) (st : State) (e : Nat × Nat) : Bool :=
  e.2 == 0 ||
  ((match ProcessCleartext.vkey cfg st e.1 with
    | none => false
    | some vkey =>
      decide (c.OptimalSeedSize + 9 + ProcessCleartext.sig_length c cfg vkey ≤ e.2)) &&
   (decide ((e.1 : Int) ≠ st.my_idx) || decide (e.2 ≤ st.last_ciphertext.length)))

/-- The cleartext and the layout of a phase fit together, so that
`ProcessCleartext` reads nothing outside an array: the anonymous key table has
an entry for every client, the cleartext covers the bitmap and every slot of
`next_messages`, and every entry of `next_messages` has `room`. -/
def ProcessCleartext.wellFormed (c : Crypto) (cfg : Config) (r : Round) : Bool :=
  decide (r.clients.Count ≤ r.state.anonymous_keys.length) &&
  decide (ProcessCleartext.base r + (r.state.next_messages.map Prod.snd).sum
    ≤ r.state.cleartext.length) &&
  r.state.next_messages.all (ProcessCleartext.room c cfg r.state)

/-- The accusation flag of a slot: byte 0 of what `Derandomize` makes of
`msg_ppp`, and 0 when that is nothing. -/
def ProcessCleartext.flag (c : Crypto) (msg_ppp : QByteArray) : Nat :=
  match Derandomize c msg_ppp with
  | none => 0
  | some msg_pp => msg_pp.getD 0 0

/-- The lines of the slot loop that deal with a slot without a message
(`msg_pp.isEmpty()`): the slot is carried forward, and the participant's own
slot is marked for retransmission. -/
def ProcessCleartext.missing (v : ProcessCleartext.Vars) (owner msg_length : Nat) :
    Option ProcessCleartext.Vars :=
  let v := ProcessCleartext.keep v owner msg_length
  if v.r.state.my_idx = (owner : Int) then
    some { v with r := { v.r with state.read := false, state.slot_open := true } }
  else some v

/-- The lines of the slot loop that deal with a slot whose authenticator
check failed: the slot is carried forward, and in its own slot a participant
that is not accusing yet searches `msg_ppp` for the bit to blame. -/
def ProcessCleartext.blame (v : ProcessCleartext.Vars) (owner msg_length : Nat)
    (msg_ppp : QByteArray) : Option ProcessCleartext.Vars :=
  let v := ProcessCleartext.keep v owner msg_length
  if (owner : Int) = v.r.state.my_idx && !v.r.state.accuse then
    let r := { v.r with state.read := false, state.slot_open := true }
    match ProcessCleartext.search r.state.last_ciphertext msg_ppp 0 with
    | none => none
    | some none => some { v with r := r }
    | some (some (pidx, bidx)) =>
      let idx : Int := ((v.offset - msg_length + pidx) * 8 + bidx : Nat)
      some { v with r := { r with
        state.accuse_idx := idx,
        state.accuse := true,
        state.blame_phase := r.phase } }
  else some v

/-- The lines of the slot loop that read the accusation flag `msg_p[0]`. -/
def ProcessCleartext.flagged (v : ProcessCleartext.Vars) (owner flag : Nat) :
    ProcessCleartext.Vars :=
  if flag ≠ 0 then
    let r := { v.r with state.start_accuse := true, state.accuser := owner }
    if (owner : Int) = r.state.my_idx then
      { v with r := { r with state.my_accuse := r.state.accuse } }
    else { v with r := r }
  else v

/-- The lines of the slot loop that follow a passed authenticator check:
the phase and the next length are read from the header, and the payload is
handed to the sink. `next_msg_length += next` is the sum of the program's
`int` as long as it is below `2 ^ 31`. -/
def ProcessCleartext.deliver (v : ProcessCleartext.Vars) (owner msg_length : Nat)
    (msg_p : QByteArray) : Option ProcessCleartext.Vars :=
  match ReadInt msg_p 1, ReadInt msg_p 5 with
  | some phase, some next =>
    if phase ≠ (v.r.phase : Int) then
      some (ProcessCleartext.keep v owner msg_length)
    else if next < 0 then some (ProcessCleartext.keep v owner msg_length)
    else
      let v := if next > 0 then
          { v with next_msgs := QMap.insert owner next.toNat v.next_msgs,
                   next_msg_length := v.next_msg_length + next.toNat }
        else v
      let msg := msg_p.drop 9
      if !msg.isEmpty then
        some { v with r := { v.r with pushed := v.r.pushed ++ [(owner, msg)] } }
      else some v
  | _, _ => none

/-- The round without what the slot loop of `ProcessCleartext` writes: the
data pushed to the sink and the flags `read`, `slot_open`, `accuse`,
`start_accuse`, `my_accuse`, `accuser`, `accuse_idx` and `blame_phase` are
set to their defaults. -/
def ProcessCleartext.fixed (r : Round) : Round :=
  let st := { r.state with read := true, slot_open := false, accuse := false,
                           start_accuse := false, my_accuse := false, accuser := -1,
                           accuse_idx := 0, blame_phase := -1 }
  { r with pushed := [], state := st }

/-! ## The bootstrap of the bulk phases -/

/-- The member function `CSDCNetRound::SetupRngSeeds`. -/
def SetupRngSeeds (c : Crypto) (r : Round) : Round :=
  let roster := if r.IsServer then r.clients else r.servers
  let seeds := roster.map (fun gc =>
    if gc.id = r.local_id then [] else c.GetSharedSecret r.dh_key gc.dh_key)
  { r with state.base_seeds := r.state.base_seeds ++ seeds }

/-- The member function `CSDCNetRound::PrepareForBulk`. -/
def PrepareForBulk (c : Crypto) (r : Round) : Option Round :=
  let msg_length := r.clients.Count / 8 + (if r.clients.Count % 8 ≠ 0 then 1 else 0)
  let r := { r with state.msg_length := msg_length, state.base_msg_length := msg_length }
  StateComplete (SetupRngSeeds c r)

/-! ## Collecting the client ciphertexts -/

/-- The number of bits of `n`; `fuel` bounds the recursion, and `n` itself is
fuel enough. -/
def bitLength : Nat → Nat → Nat
  | 0, _ => 0
  | fuel + 1, n => if n = 0 then 0 else bitLength fuel (n / 2) + 1

/-- The rounding of a floating-point operation of C++ (IEEE 754 binary
arithmetic, to nearest, ties to even), applied to the natural number `a` and
`digits` significant bits: the `s` bits that `a` has beyond `digits` are
dropped, and the rest is incremented when the dropped bits are more than half
a unit, or exactly half a unit with an odd rest. The exponent range of the
format is not modelled. -/
def roundToDigits (digits a : Nat) : Nat :=
  let s := bitLength a a - digits
  let q := a / 2 ^ s
  let q := if 2 * (a % 2 ^ s) > 2 ^ s ∨ (2 * (a % 2 ^ s) = 2 ^ s ∧ q % 2 = 1) then q + 1 else q
  q * 2 ^ s

/-- The value of `int(allowed_clients.count() * CLIENT_PERCENTAGE)`: the count
is converted to the floating-point type, the product is rounded to the format,
and `int(...)` drops the fractional part. -/
def SetOnlineClients.expected (p : FloatConstant) (count : Nat) : Nat :=
  roundToDigits p.digits (roundToDigits p.digits count * p.mantissa) / 2 ^ p.exponent

/-- The member function `CSDCNetRound::SetOnlineClients`, the entry action of
`SERVER_WAIT_FOR_CLIENT_CIPHERTEXT`. `now` is what `MSecsSinceEpoch()`
returns. The product `allowed_clients.count() * CLIENT_PERCENTAGE` is a
floating-point product, and `int(...)` drops its fractional part; the
conversion of a product outside the range of `int` is undefined, here `none`. -/
def SetOnlineClients (cfg : Config) (r : Round) (now : Int) : Option Round :=
  if r.server_state.allowed_clients.length = 0 then StateComplete r
  else
    let expected_clients : Nat :=
      SetOnlineClients.expected cfg.CLIENT_PERCENTAGE r.server_state.allowed_clients.length
    if expected_clients ≥ 2147483648 then none
    else
      some { r with queued := r.queued ++ [cfg.CLIENT_SUBMISSION_WINDOW],
                    server_state.start_of_phase := now,
                    server_state.expected_clients := expected_clients }

/-- The member function `CSDCNetRound::HandleClientCiphertext`, for a message from `sender`
(`from` in the source) that carries `payload`. `now` is what
`MSecsSinceEpoch()` returns if it is called. `_server_state->msg_length` is
the member `msg_length` of `_state`, the same object. -/
def HandleClientCiphertext (r : Round) (now : Int) (sender : Id) (payload : QByteArray) :
    Option (Outcome Unit × Round) :=
  if !r.IsServer then some (Outcome.threw "Not a server", r)
  else
    let idx := r.clients.GetIndex sender
    if !r.server_state.allowed_clients.contains sender then
      some (Outcome.threw "Not allowed to submit a ciphertext", r)
    else
      match r.server_state.handled_clients.get? idx with
      | none => none
      | some true => some (Outcome.threw "Already have ciphertext", r)
      | some false =>
        if payload.length ≠ r.state.msg_length then
          some (Outcome.threw ("Incorrect message length, got " ++ toString payload.length ++
            " expected " ++ toString r.state.msg_length), r)
        else
          let r := { r with
            server_state.handled_clients := r.server_state.handled_clients.set idx true,
            server_state.client_ciphertexts :=
              r.server_state.client_ciphertexts ++ [(idx, payload)] }
          let r := updatePhaseLog r (fun l =>
            { l with messages := QMap.insert idx payload l.messages })
          if r.server_state.allowed_clients.length = r.server_state.client_ciphertexts.length then
            (StateComplete r).map (fun r => (Outcome.ok (), r))
          else if (r.server_state.client_ciphertexts.length : Int)
              = r.server_state.expected_clients then
            let window := now - r.server_state.start_of_phase
            some (Outcome.ok (), { r with queued := r.queued ++ [window] })
          else some (Outcome.ok (), r)

/-- The round `HandleClientCiphertext` builds from a submission it accepts,
before the tests on the counts. -/
def HandleClientCiphertext.recorded (r : Round) (sender : Id) (payload : QByteArray) : Round :=
  updatePhaseLog
    { r with
      server_state.handled_clients :=
        r.server_state.handled_clients.set (r.clients.GetIndex sender) true,
      server_state.client_ciphertexts :=
        r.server_state.client_ciphertexts ++ [(r.clients.GetIndex sender, payload)] }
    (fun l => { l with messages := QMap.insert (r.clients.GetIndex sender) payload l.messages })

/-! ## Exchanging the client lists -/

/-- Modelled from the spec: `Overlay::IsServer(id)` ("`is_server(id)`"), taken
to hold of the ids of the roster of servers. -/
def Overlay.IsServer (r : Round) (id : Id) : Bool := r.servers.Contains id

/-- The Qt operation `QBitArray::operator|=`: the result has the length of the longer
operand, the missing bits of the shorter one read as 0. -/
def QBitArray.or : QBitArray → QBitArray → QBitArray
  | a :: as, b :: bs => (a || b) :: QBitArray.or as bs
  | [], bs => bs
  | as, [] => as

/-- The loop of `HandleServerClientList` over the indices of `clients`: for
every index the test reads `clients.at(0)`, which is there whenever the loop
has a turn. -/
def HandleServerClientList.attribute (clients : QBitArray) (sidx : Nat) :
    List Nat → QMap Nat → QMap Nat
  | [], client_to_server => client_to_server
  | idx :: rest, client_to_server =>
    if clients.getD 0 false then
      HandleServerClientList.attribute clients sidx rest (QMap.insert idx sidx client_to_server)
    else HandleServerClientList.attribute clients sidx rest client_to_server

/-- The member function `CSDCNetRound::HandleServerClientList`, for a message from `sender`
(`from` in the source) that carries the bitmap `clients`. The function does
not test `IsServer()`; `Q_ASSERT(_server_state)` stands for it. -/
def HandleServerClientList (r : Round) (sender : Id) (clients : QBitArray) :
    Option (Outcome Unit × Round) :=
  if !Overlay.IsServer r sender then some (Outcome.threw "Not a server", r)
  else if !r.IsServer then none
  else if r.server_state.handled_servers.contains sender then
    some (Outcome.threw "Already have client list", r)
  else
    let r := { r with
      server_state.handled_clients := QBitArray.or r.server_state.handled_clients clients,
      server_state.handled_servers := QSet.insert sender r.server_state.handled_servers }
    let sidx := r.servers.GetIndex sender
    let attributed := fun (l : PhaseLog) =>
      HandleServerClientList.attribute clients sidx (List.range clients.length)
        l.client_to_server
    let r := updatePhaseLog r (fun l => { l with client_to_server := attributed l })
    if r.server_state.handled_servers.length = r.servers.Count then
      (StateComplete r).map (fun r => (Outcome.ok (), r))
    else some (Outcome.ok (), r)

/-- The member function `CSDCNetRound::SubmitClientList`, the entry action of
`SERVER_WAIT_FOR_CLIENT_LISTS`. -/
def SubmitClientList (r : Round) : Round :=
  { r with sent := r.sent ++
      [Packet.SERVER_CLIENT_LIST r.nonce r.phase r.server_state.handled_clients] }

/-- Modelled from the spec: the dispatch of a sequence of `SERVER_CLIENT_LIST`
messages by the state machine ("messages ... arriving in a state whose
expected tag they do not match are dropped"): each message is handed to
`HandleServerClientList` while the state is `SERVER_WAIT_FOR_CLIENT_LISTS`. -/
def clientLists : List (Id × QBitArray) → Round → Option Round
  | [], r => some r
  | (sender, clients) :: rest, r =>
    if r.sm_state = States.SERVER_WAIT_FOR_CLIENT_LISTS then
      match HandleServerClientList r sender clients with
      | none => none
      | some (_, r) => clientLists rest r
    else clientLists rest r

/-! ## Exchanging the commitments -/

/-- The member function `CSDCNetRound::HandleServerCommit`, for a message from `sender`
(`from` in the source) that carries `commit`. -/
def HandleServerCommit (r : Round) (sender : Id) (commit : QByteArray) :
    Option (Outcome Unit × Round) :=
  if !r.IsServer then some (Outcome.threw "Not a server", r)
  else if !r.servers.Contains sender then some (Outcome.threw "Not a server", r)
  else if r.server_state.handled_servers.contains sender then
    some (Outcome.threw "Already have commit", r)
  else
    let r := { r with
      server_state.handled_servers := QSet.insert sender r.server_state.handled_servers,
      server_state.server_commits :=
        QMap.insert (r.servers.GetIndex sender) commit r.server_state.server_commits }
    if r.server_state.handled_servers.length = r.servers.Count then
      (StateComplete r).map (fun r => (Outcome.ok (), r))
    else some (Outcome.ok (), r)

/-- Modelled from the spec: the dispatch of a sequence of `SERVER_COMMIT`
messages by the state machine: each message is handed to
`HandleServerCommit` while the state is `SERVER_WAIT_FOR_SERVER_COMMITS`, and
dropped otherwise. -/
def commits : List (Id × QByteArray) → Round → Option Round
  | [], r => some r
  | (sender, commit) :: rest, r =>
    if r.sm_state = States.SERVER_WAIT_FOR_SERVER_COMMITS then
      match HandleServerCommit r sender commit with
      | none => none
      | some (_, r) => commits rest r
    else commits rest r

/-! ## The blame shuffle and the blame bits -/

/-- The checks of one turn of the loop of `ProcessBlameShuffle` on the entry
`blame` of the sink: `some none` when the entry is skipped, `some (some t)`
when it is a valid accusation with the triple `t`, and `none` when a read
falls outside an array (`ReadInt` beyond `msg`, `message_offsets` or
`anonymous_keys` outside their entries). The divisions are those of C++. -/
def ProcessBlameShuffle.check (c : Crypto) (r : Round) (blame : QByteArray) :
    Option (Option Triple) :=
  if blame.length ≤ 8 then some none
  else
    let msg := blame.take 12
    let signature := blame.drop 12
    match ReadInt msg 0, ReadInt msg 4, ReadInt msg 8 with
    | some owner_idx, some accuse_idx, some phase =>
      let accuse_bidx : Int := accuse_idx.tdiv 8 + (if accuse_idx.tmod 8 ≠ 0 then 1 else 0)
      if phase < 0 || !QMap.contains r.server_state.phase_logs phase.toNat then some none
      else if owner_idx < 0 || owner_idx ≥ r.state.anonymous_keys.length then some none
      else
        match QMap.find phase.toNat r.server_state.phase_logs with
        | none => none
        | some phase_log =>
          match phase_log.message_offsets.get? owner_idx.toNat with
          | none => none
          | some start =>
            let last : Option Nat :=
              if owner_idx + 1 = phase_log.message_offsets.length then
                some phase_log.message_length
              else phase_log.message_offsets.get? (owner_idx.toNat + 1)
            match last with
            | none => none
            | some last =>
              if ((last : Int) - start + accuse_bidx) < 0 then some none
              else
                match r.state.anonymous_keys.get? owner_idx.toNat with
                | none => none
                | some key =>
                  if !c.Verify key msg signature then some none
                  else some (some
                    { first := owner_idx, second := accuse_idx, third := phase })
    | _, _, _ => none

/-- The loop of `ProcessBlameShuffle` over the entries of the sink. -/
def ProcessBlameShuffle.records (c : Crypto) : List QByteArray → Round → Option Round
  | [], r => some r
  | blame :: rest, r =>
    match ProcessBlameShuffle.check c r blame with
    | none => none
    | some none => ProcessBlameShuffle.records c rest r
    | some (some found) =>
      let r := if !r.server_state.accuse_found then
          { r with server_state.current_blame := found, server_state.accuse_found := true }
        else r
      ProcessBlameShuffle.records c rest r

/-- The member function `CSDCNetRound::ProcessBlameShuffle`. `blame_sink` holds the data of the
entries of `_blame_sink`, in order. -/
def ProcessBlameShuffle (c : Crypto) (r : Round) (blame_sink : List QByteArray) :
    Option (Outcome Unit × Round) :=
  if !r.IsServer then (StateComplete r).map (fun r => (Outcome.ok (), r))
  else
    match ProcessBlameShuffle.records c blame_sink r with
    | none => none
    | some r =>
      if r.server_state.accuse_found then (StateComplete r).map (fun r => (Outcome.ok (), r))
      else some (Outcome.threw "Missing accusation", r)

/-- Modelled from the spec: `PhaseLog::GetBitAtIndex(server_id, accuse_idx)`
("the single bit that a specific server contributed"): bit `accuse_idx % 8`
of byte `accuse_idx / 8` of the message logged for that server; no result
when the log holds no such byte. -/
def PhaseLog.GetBitAtIndex (log : PhaseLog) (bid : Id) (msg_idx : Int) : Option Bool :=
  if msg_idx < 0 then none
  else
    match QMap.find bid log.server_messages with
    | none => none
    | some message =>
      (message.get? (msg_idx.toNat / 8)).map
        (fun b => (b &&& bit_masks (msg_idx.toNat % 8)) != 0)

/-- The two loops of `HandleBlameBits` that XOR the bits of a vector into
`actual`. -/
def HandleBlameBits.actual (bits : QBitArray) (actual : Bool) : Bool :=
  bits.foldl (fun acc b => acc != b) actual

/-- The member function `CSDCNetRound::HandleBlameBits`, for a message from `sender` (`from`
in the source) that carries `blame_bits`. `phase_logs[...]` of a phase without
a log yields a null pointer, which is then dereferenced. -/
def HandleBlameBits (r : Round) (sender : Id) (blame_bits : QBitArray × QBitArray) :
    Option (Outcome Unit × Round) :=
  if !r.IsServer then some (Outcome.threw "Not a server", r)
  else if !r.servers.Contains sender then some (Outcome.threw "Not a server", r)
  else if QMap.contains r.server_state.blame_bits sender then
    some (Outcome.threw "Already have blame bits.", r)
  else
    let phase_log : Option PhaseLog :=
      if r.server_state.current_blame.third < 0 then none
      else QMap.find r.server_state.current_blame.third.toNat r.server_state.phase_logs
    match phase_log with
    | none => none
    | some phase_log =>
      match phase_log.GetBitAtIndex sender r.server_state.current_blame.second with
      | none => none
      | some expected =>
        let actual := HandleBlameBits.actual blame_bits.2
          (HandleBlameBits.actual blame_bits.1 false)
        if actual ≠ expected then
          some (Outcome.threw "Blame bits do not match what was sent", r)
        else
          let stored := QMap.insert sender blame_bits r.server_state.blame_bits
          let r := { r with server_state.blame_bits := stored }
          if r.server_state.blame_bits.length = r.servers.Count then
            (StateComplete r).map (fun r => (Outcome.ok (), r))
          else some (Outcome.ok (), r)

/-- Modelled from the spec: the dispatch of a sequence of `SERVER_BLAME_BITS`
messages by the state machine: each message is handed to `HandleBlameBits`
while the state is `SERVER_WAITING_FOR_BLAME_BITS`, and dropped otherwise. -/
def blameBits : List (Id × (QBitArray × QBitArray)) → Round → Option Round
  | [], r => some r
  | (sender, blame_bits) :: rest, r =>
    if r.sm_state = States.SERVER_WAITING_FOR_BLAME_BITS then
      match HandleBlameBits r sender blame_bits with
      | none => none
      | some (_, r) => blameBits rest r
    else blameBits rest r

/-! ## The rebuttal request and the blame data -/

/-- The member function `CSDCNetRound::RequestRebuttal`. An exception of `FindMismatch` leaves
the function; the message `SERVER_REBUTTAL_OR_VERDICT` with the flag `false`
is recorded as `SERVER_REBUTTAL_REQUEST`. -/
def RequestRebuttal (r : Round) : Option (Outcome Unit × Round) :=
  match FindMismatch r with
  | none => none
  | some (Outcome.threw what) => some (Outcome.threw what, r)
  | some (Outcome.ok pair) =>
    let gidx := pair.1
    if gidx = -1 then some (Outcome.ok (), r)
    else
      let server_bits := pair.2
      match r.clients.GetId gidx with
      | none => none
      | some id =>
        let r := { r with server_state.expected_rebuttal := id,
                          server_state.server_bits := server_bits }
        let accuse_idx := r.server_state.current_blame.second
        let phase := r.server_state.current_blame.third
        let packet := Packet.SERVER_REBUTTAL_REQUEST id r.nonce r.phase phase accuse_idx
          server_bits
        (StateComplete { r with sent := r.sent ++ [packet] }).map (fun r => (Outcome.ok (), r))

/-- The member function `CSDCNetRound::GetBlameData`: the data of the pair it returns.
`Serialization::WriteUInt` is taken to write the four bytes `WriteInt`
writes. -/
def GetBlameData (c : Crypto) (r : Round) : QByteArray :=
  if !r.state.my_accuse then []
  else
    let msg := zeroBytes 12
    let msg := WriteInt r.state.my_idx msg 0
    let msg := WriteInt r.state.accuse_idx msg 4
    let msg := WriteInt r.state.blame_phase msg 8
    let signature := c.Sign r.state.anonymous_key msg
    msg ++ signature

/-! ## The checks of the blame phase, in the words of the specification -/

/-- The bit the rebuttal compares with `server_bits[s]`, in the words of the
spec: bit `accuse_idx mod 8` of byte `accuse_idx div 8` of
`PRNG(H(seed_s || phase || nonce))`, the generator being run for the
`accuse_idx div 8 + 1` bytes that hold the bit. -/
def GetRebuttal.pad_bit (c : Crypto) (r : Round) (phase : Int) (accuse_idx s : Nat) : Bool :=
  let seed := c.ComputeHash (r.state.base_seeds.getD s [] ++ WriteInt phase (zeroBytes 4) 0
    ++ r.nonce)
  ((c.GenerateBlock seed (accuse_idx / 8 + 1)).getD (accuse_idx / 8) 0
    &&& bit_masks (accuse_idx % 8)) != 0

/-- An entry `blame` of the blame sink passes every check of
`ProcessBlameShuffle` with the triple `t`, in the words of the spec: it has
more than 8 bytes and its first 12 bytes hold `t`; the phase `t.third` still
has a phase log; `t.first` is the index of an anonymous key; the offset check
of the slot in that log (`end - start + accuse_bidx` is not negative) passes;
and the signature that follows the 12 bytes verifies over them under
`anonymous_keys[t.first]`. -/
def ProcessBlameShuffle.passes (c : Crypto) (r : Round) (blame : QByteArray) (t : Triple) :
    Prop :=
  8 < blame.length ∧
  ReadInt (blame.take 12) 0 = some t.first ∧
  ReadInt (blame.take 12) 4 = some t.second ∧
  ReadInt (blame.take 12) 8 = some t.third ∧
  0 ≤ t.third ∧ QMap.contains r.server_state.phase_logs t.third.toNat = true ∧
  0 ≤ t.first ∧ t.first < r.state.anonymous_keys.length ∧
  ∃ phase_log start last key,
    QMap.find t.third.toNat r.server_state.phase_logs = some phase_log ∧
    phase_log.message_offsets.get? t.first.toNat = some start ∧
    (if t.first + 1 = phase_log.message_offsets.length then some phase_log.message_length
      else phase_log.message_offsets.get? (t.first.toNat + 1)) = some last ∧
    0 ≤ (last : Int) - start + (t.second.tdiv 8 + (if t.second.tmod 8 ≠ 0 then 1 else 0)) ∧
    r.state.anonymous_keys.get? t.first.toNat = some key ∧
    c.Verify key (blame.take 12) (blame.drop 12) = true

/-! ## The slot message and its reservation; the log of the pads -/

/-- The round after one turn of the first loop of `GenerateCiphertext` on a
server: `current_phase_log->my_sub_ciphertexts[key] = tmsg`. -/
def GenerateCiphertext.logged (r : Round) (key : Nat) (tmsg : QByteArray) : Round :=
  updatePhaseLog r (fun l =>
    { l with my_sub_ciphertexts := QMap.insert key tmsg l.my_sub_ciphertexts })

/-- The local `msg` of `GenerateSlotMessage`, the message that goes into the
slot: `next_msg` when `read` is set, `last_msg` otherwise. -/
def GenerateSlotMessage.msg (st : State) : QByteArray :=
  if st.read then st.next_msg else st.last_msg

/-- The local `sig` of `GenerateSlotMessage`: the signature under the
anonymous key in the build with `CSBR_SIGN_SLOTS`, the digest otherwise. -/
def GenerateSlotMessage.sig (c : Crypto) (cfg : Config) (st : State) (msg_p : QByteArray) :
    QByteArray :=
  if cfg.CSBR_SIGN_SLOTS then c.Sign st.anonymous_key msg_p else c.ComputeHash msg_p

/-- The slot of the client is reserved for the message it sends next:
`next_messages[my_idx]` is `SlotHeaderLength(my_idx)` plus the length of the
message `GenerateSlotMessage` puts into the slot. -/
def GenerateSlotMessage.reserved (c : Crypto) (st : State) : Bool :=
  match SlotHeaderLength c st st.my_idx with
  | none => false
  | some header =>
    QMap.find st.my_idx.toNat st.next_messages
      == some (header + (GenerateSlotMessage.msg st).length)

/-! ## Concrete inputs -/

/-- A round object of one client and one server in a build with
`QT_NO_DEBUG`, before `InitServer`. -/
def releaseServer : Round :=
  { QT_NO_DEBUG := true, clients := [{ id := 10 }], servers := [{ id := 20 }] }

/-- A server state in which one server sent an `actual` vector of two zero
bits and an `expected` vector of one zero bit. -/
def mismatchedLengths : Round :=
  { IsServer := true, servers := [{ id := 20 }],
    server_state := { blame_bits := [(20, ([false, false], [false]))] } }

/-- A server state with the blame bits of two servers over three clients. -/
def twoServerBlame : Round :=
  { IsServer := true, servers := [{ id := 20 }, { id := 21 }],
    server_state := { blame_bits :=
      [(20, ([false, true, false], [false, false, true])),
       (21, ([true, false, false], [true, false, true]))] } }


/-- A server of two servers and one client, waiting for the rebuttal of
client `10` about bit 3 of phase 1. -/
def awaitingRebuttal : Round :=
  { IsServer := true, clients := [{ id := 10, dh_key := [1] }],
    servers := [{ id := 20, dh_key := [2] }, { id := 21, dh_key := [3] }],
    sm_state := States.SERVER_WAIT_FOR_CLIENT_REBUTTAL, phase := 2,
    server_state := { expected_rebuttal := 10, server_bits := [false, true],
                      current_blame := { first := 0, second := 3, third := 1 },
                      phase_logs := [(0, {}), (1, {}), (2, {})], current_phase_log := 2 } }

/-- A server of two servers waiting for the revealed ciphertexts of phase 0;
server `21` committed to `[5]`. -/
def awaitingCiphertexts : Round :=
  { IsServer := true, clients := [{ id := 10 }],
    servers := [{ id := 20 }, { id := 21 }],
    sm_state := States.SERVER_WAIT_FOR_SERVER_CIPHERTEXT,
    state := { msg_length := 1, base_msg_length := 1 },
    server_state := { server_commits := [(0, [4]), (1, [5])],
                      phase_logs := [(0, {})], current_phase_log := 0 } }

/-- The same server after server `21` has revealed its ciphertext `[5]`. -/
def revealedOnce : Round :=
  { awaitingCiphertexts with
    server_state := { awaitingCiphertexts.server_state with
                      handled_servers := [21],
                      server_ciphertexts := [(1, [5])] } }

/-- The owner of slot 0 in phase 1, not accusing, with the payload "hi"
pending and its slot open with the 14 bytes the payload needs
(`SlotHeaderLength` is 12 under `toyCrypto`). -/
def slotOwner : Round :=
  { clients := [{ id := 10 }], servers := [{ id := 20 }], phase := 1,
    state := { my_idx := 0, anonymous_key := [3], anonymous_keys := [[3]],
               next_msg := [104, 105], slot_open := true, read := true,
               next_messages := [(0, 14)], msg_length := 15, base_msg_length := 1 } }

/-- Another participant of the same round in phase 1, holding `cleartext`. -/
def slotReader (cleartext : QByteArray) : Round :=
  { clients := [{ id := 10 }], servers := [{ id := 20 }], phase := 1,
    state := { my_idx := -1, anonymous_keys := [[3]], cleartext := cleartext,
               next_messages := [(0, 14)], msg_length := 15, base_msg_length := 1 } }

/-- The build with `CSBR_SIGN_SLOTS`. -/
def signedSlots : Config := { CSBR_SIGN_SLOTS := true }

/-- The build without `CSBR_SIGN_SLOTS`: slots carry a digest. -/
def digestSlots : Config := { CSBR_SIGN_SLOTS := false }

/-- The slot message `slotOwner` builds under `signedSlots` when the seed
drawn is `[5, 6]` and the data source has nothing more. -/
def signedSlotMessage : QByteArray := [5, 6, 5, 5, 5, 5, 4, 5, 5, 5, 9, 109, 108, 228]

/-- The slot message `slotOwner` builds under `digestSlots` when the seed
drawn is `[5, 6]` and the data source has nothing more. -/
def digestSlotMessage : QByteArray := [5, 6, 5, 5, 5, 5, 4, 5, 5, 5, 9, 109, 108, 219]

/-- Client `i` of a phase with two clients and one server: client 0 (seed
`[7]` with the server) has data pending and opens its slot 0, client 1 (seed
`[8]`) has nothing to send. -/
def twoClients (i : Nat) : Round :=
  if i = 0 then
    { clients := [{ id := 10 }, { id := 11 }], servers := [{ id := 20 }], local_id := 10,
      state := { base_seeds := [[7]], msg_length := 1, base_msg_length := 1, my_idx := 0,
                 next_msg := [104] } }
  else
    { clients := [{ id := 10 }, { id := 11 }], servers := [{ id := 20 }], local_id := 11,
      state := { base_seeds := [[8]], msg_length := 1, base_msg_length := 1, my_idx := 1 } }

/-- The same phase with the two anonymous slots exchanged between the two
roster clients: client 1 now owns slot 0 and has the data pending. -/
def twoClientsSwapped (i : Nat) : Round :=
  if i = 0 then
    { clients := [{ id := 10 }, { id := 11 }], servers := [{ id := 20 }], local_id := 10,
      state := { base_seeds := [[7]], msg_length := 1, base_msg_length := 1, my_idx := 1 } }
  else
    { clients := [{ id := 10 }, { id := 11 }], servers := [{ id := 20 }], local_id := 11,
      state := { base_seeds := [[8]], msg_length := 1, base_msg_length := 1, my_idx := 0,
                 next_msg := [104] } }

/-- The ciphertext client `i` of `clients` submits when its data source has
nothing more and no seed is drawn. -/
def submitted (clients : Nat → Round) (i : Nat) : QByteArray × Round :=
  (SubmitClientCiphertext toyCrypto {} (clients i) [] []).getD ([], {})

/-- The one server of that phase, holding the ciphertexts of both clients of
`clients`. -/
def oneServer (clients : Nat → Round) : Round :=
  { IsServer := true, clients := [{ id := 10 }, { id := 11 }], servers := [{ id := 20 }],
    local_id := 20,
    state := { base_seeds := [[7], [8]], msg_length := 1, base_msg_length := 1 },
    server_state := { handled_clients := [true, true],
                      client_ciphertexts :=
                        [(1, (submitted clients 1).1), (0, (submitted clients 0).1)],
                      phase_logs := [(0, {})], current_phase_log := 0 } }

/-- The server after `SubmitCommit`. -/
def committed (clients : Nat → Round) : Round :=
  (SubmitCommit toyCrypto {} (oneServer clients) [] []).getD {}

/-- The server once it holds the revealed ciphertext of every server. -/
def revealed (clients : Nat → Round) : Round :=
  { committed clients with
    server_state.server_ciphertexts :=
      [(0, (committed clients).server_state.my_ciphertext)] }

/-- The execution of the phase in which `clients` are the two clients. -/
def twoClientPhase (clients : Nat → Round) : Execution :=
  { cl := clients, cdata := fun _ => [], crand := fun _ => [],
    ct := fun i => (submitted clients i).1, cl' := fun i => (submitted clients i).2,
    sv := fun _ => oneServer clients, sdata := fun _ => [], srand := fun _ => [],
    sv' := fun _ => committed clients, R := revealed clients }

/-- A participant that owns no slot, in phase 1 of a round with two clients
whose slots are both open with 12 bytes; the cleartext it holds carries in
slot 0 a message whose byte 0 is `0xFF` and in slot 1 a message whose byte 0
is `0x01`, each with its digest. -/
def twoFlags : Round :=
  { clients := [{ id := 10 }, { id := 11 }], servers := [{ id := 20 }], phase := 1,
    state := { my_idx := -1, anonymous_keys := [[3], [4]],
               cleartext := [0, 5, 6, 250, 5, 5, 5, 4, 5, 5, 5, 9, 9,
                                5, 6, 4, 5, 5, 5, 4, 5, 5, 5, 9, 11],
               next_messages := [(0, 12), (1, 12)], msg_length := 25, base_msg_length := 1 } }


/-- A client of a round with two servers (signing keys `[1]` and `[2]`),
waiting for a verdict. -/
def awaitingVerdict : Round :=
  { clients := [{ id := 10 }],
    servers := [{ id := 20, key := [1] }, { id := 21, key := [2] }],
    sm_state := States.WAITING_FOR_DATA_REQUEST_OR_VERDICT }

/-- The client of `slotReader` attached to server 20, whose signing key is
`[1]`, in the state in which it waits for the cleartext of phase 1. -/
def awaitingCleartext : Round :=
  { clients := [{ id := 10 }], servers := [{ id := 20, key := [1] }], phase := 1,
    sm_state := States.CLIENT_WAIT_FOR_CLEARTEXT,
    state := { my_idx := -1, anonymous_keys := [[3]], my_server := 20,
               next_messages := [(0, 14)], msg_length := 15, base_msg_length := 1 } }

/-- Server 20 of a round with two servers (signing keys `[1]` and `[2]`) and
one client, after the last server ciphertext of a phase came in. -/
def awaitingValidations : Round :=
  { IsServer := true, clients := [{ id := 10 }],
    servers := [{ id := 20, key := [1] }, { id := 21, key := [2] }],
    local_id := 20, key := [1],
    sm_state := States.SERVER_WAIT_FOR_SERVER_CIPHERTEXT,
    state := { msg_length := 1, base_msg_length := 1 },
    server_state := { handled_clients := [true], handled_servers := [20, 21],
                      server_ciphertexts := [(0, [1]), (1, [0])],
                      signatures := [(0, [77]), (1, [78])] } }

/-- The owner of slot 0 of `slotReader`, reading a cleartext of phase 1 in
which bit 1 of the first byte of its slot was flipped from 0 to 1 on the way:
the slot it sent, kept in `last_ciphertext`, is `digestSlotMessage`. -/
def corruptedOwner : Round :=
  { clients := [{ id := 10 }], servers := [{ id := 20 }], phase := 1,
    state := { my_idx := 0, anonymous_key := [3], anonymous_keys := [[3]],
               cleartext := [0, 7, 6, 5, 5, 5, 5, 4, 5, 5, 5, 9, 109, 108, 219],
               last_ciphertext := digestSlotMessage,
               next_messages := [(0, 14)], msg_length := 15, base_msg_length := 1 } }

/-- A participant reading a cleartext of phase 1 in which no slot is open
yet and bit 0 of the bitmap is set. -/
def bitmapReader : Round :=
  { clients := [{ id := 10 }], servers := [{ id := 20 }], phase := 1,
    state := { my_idx := -1, anonymous_keys := [[3]], cleartext := [1],
               msg_length := 1, base_msg_length := 1 } }

/-- A client whose slot 0 is closed and that has the payload "hi" pending, in
phase 1 of a round with one client, sharing the seed `[7]` with its server. -/
def closedOwner : Round :=
  { clients := [{ id := 10 }], servers := [{ id := 20 }], phase := 1,
    state := { my_idx := 0, anonymous_key := [3], anonymous_keys := [[3]],
               anonymous_rngs := [[7]], next_msg := [104, 105],
               msg_length := 1, base_msg_length := 1 } }

/-- A server of a round with three clients and two servers that enters
`SERVER_WAIT_FOR_CLIENT_CIPHERTEXT` in phase 0: the three clients are
allowed and none has submitted. -/
def entering : Round :=
  { IsServer := true, clients := [{ id := 10 }, { id := 11 }, { id := 12 }],
    servers := [{ id := 20 }, { id := 21 }], local_id := 20,
    sm_state := States.SERVER_WAIT_FOR_CLIENT_CIPHERTEXT,
    state := { msg_length := 1, base_msg_length := 1 },
    server_state := { allowed_clients := [10, 11, 12],
                      handled_clients := [false, false, false],
                      phase_logs := [(0, {})], current_phase_log := 0 } }

/-- The constants with a hard deadline of 500 ms and a `CLIENT_PERCENTAGE`
of one half. -/
def halfPercentage : Config :=
  { CLIENT_SUBMISSION_WINDOW := 500, CLIENT_PERCENTAGE := { mantissa := 1, exponent := 1 } }

/-- The constant 0.29 as a `double`: `5224175567749775 / 2 ^ 54`. -/
def double029 : FloatConstant := { mantissa := 5224175567749775, exponent := 54 }

/-- The constant 0.29 as a `float`: `9730785 / 2 ^ 25`. -/
def float029 : FloatConstant := { mantissa := 9730785, exponent := 25, digits := 24 }

/-- The server `entering` after `SetOnlineClients` at time 100. -/
def collecting : Round := (SetOnlineClients halfPercentage entering 100).getD {}

/-- The one server of `oneServer twoClients`, waiting for client lists. -/
def listed : Round :=
  { oneServer twoClients with sm_state := States.SERVER_WAIT_FOR_CLIENT_LISTS }

/-- Server `id` of a round with two clients and two servers, waiting for
client lists in phase 0 with the inclusion bitmap `bitmap`. -/
def listing (id : Id) (bitmap : QBitArray) : Round :=
  { IsServer := true, clients := [{ id := 10 }, { id := 11 }],
    servers := [{ id := 20 }, { id := 21 }], local_id := id,
    sm_state := States.SERVER_WAIT_FOR_CLIENT_LISTS,
    server_state := { handled_clients := bitmap,
                      phase_logs := [(0, {})], current_phase_log := 0 } }

/-- A server in phase 2 that waits for the blame shuffle; the one anonymous
key is `[3]`, and the log of phase 1 has the slot of owner 0 at offset 1 of a
cleartext of 15 bytes. -/
def shuffled : Round :=
  { IsServer := true, clients := [{ id := 10 }],
    servers := [{ id := 20 }, { id := 21 }], local_id := 20, phase := 2,
    sm_state := States.WAITING_FOR_BLAME_SHUFFLE,
    state := { anonymous_keys := [[3]], msg_length := 15, base_msg_length := 1 },
    server_state := { phase_logs := [(1, { phase := 1, message_offsets := [1],
                                           message_length := 15 }), (2, { phase := 2 })],
                      current_phase_log := 2 } }

/-- The entry of the blame sink in which owner 0 accuses bit `accuse_idx`
(below 256) of phase 1, signed with the key `[3]` under `toyCrypto`. -/
def accusation (accuse_idx : Nat) : QByteArray :=
  [0, 0, 0, 0, 0, 0, 0, accuse_idx, 0, 0, 0, 1, (3 + accuse_idx + 1) % 256]

/-- A server that waits for blame bits about bit 3 of phase 1, in which
server `20` sent the byte 0 and server `21` the byte 8. -/
def crossChecking : Round :=
  { IsServer := true, clients := [{ id := 10 }],
    servers := [{ id := 20 }, { id := 21 }], local_id := 20, phase := 2,
    sm_state := States.SERVER_WAITING_FOR_BLAME_BITS,
    server_state := { accuse_found := true,
                      current_blame := { first := 0, second := 3, third := 1 },
                      phase_logs := [(1, { phase := 1,
                                           server_messages := [(20, [0]), (21, [8])] }),
                                     (2, { phase := 2 })],
                      current_phase_log := 2 } }

/-- A client of a round with two servers, holding the base seeds `[2]` and
`[3]` it shares with them. -/
def rebutting : Round :=
  { clients := [{ id := 10, dh_key := [1] }],
    servers := [{ id := 20, dh_key := [2] }, { id := 21, dh_key := [3] }],
    local_id := 10, dh_key := [1], phase := 2,
    sm_state := States.WAITING_FOR_DATA_REQUEST_OR_VERDICT,
    state := { my_idx := 0, base_seeds := [[2], [3]] } }

/-- A server that waits for blame bits about bit 3 of phase 1, in which both
servers sent the byte 0. -/
def reconciling : Round :=
  { IsServer := true, clients := [{ id := 10 }, { id := 11 }, { id := 12 }],
    servers := [{ id := 20 }, { id := 21 }], local_id := 20, phase := 2,
    sm_state := States.SERVER_WAITING_FOR_BLAME_BITS,
    server_state := { accuse_found := true,
                      current_blame := { first := 0, second := 3, third := 1 },
                      phase_logs := [(1, { phase := 1,
                                           server_messages := [(20, [0]), (21, [0])] }),
                                     (2, { phase := 2 })],
                      current_phase_log := 2 } }

/-- The server of `twoServerBlame` in a round with three clients, about to
request the rebuttal. -/
def requesting : Round :=
  { twoServerBlame with
    clients := [{ id := 10 }, { id := 11 }, { id := 12 }],
    sm_state := States.SERVER_REQUEST_CLIENT_REBUTTAL }

/-- A participant that owns no slot, reading a cleartext of phase 1 whose
slot 0, open with 12 bytes, decodes to a message with byte 0 equal to `0xFF`
and a digest that does not match. -/
def unauthenticatedFlag : Round :=
  { clients := [{ id := 10 }], servers := [{ id := 20 }], phase := 1,
    state := { my_idx := -1, anonymous_keys := [[3]],
               cleartext := [0, 5, 6, 250, 5, 5, 5, 4, 5, 5, 5, 9, 8],
               next_messages := [(0, 12)], msg_length := 13, base_msg_length := 1 } }

/-- A server of two clients, both included in the phase, that holds an
empty base seed for client 0 and the seed `[8]` for client 1. -/
def emptySeedServer : Round :=
  { IsServer := true, clients := [{ id := 10 }, { id := 11 }], servers := [{ id := 20 }],
    local_id := 20,
    state := { base_seeds := [[], [8]], msg_length := 1, base_msg_length := 1 },
    server_state := { handled_clients := [true, true],
                      phase_logs := [(0, {})], current_phase_log := 0 } }

/-- The client `slotOwner` after it has built its slot message with the seed
`[5, 6]`, the data source having nothing more, holding `cleartext`. -/
def slotOwnerAfter (cleartext : QByteArray) : Round :=
  match GenerateSlotMessage toyCrypto digestSlots slotOwner [] [[5, 6]] with
  | some (_, r) => { r with state.cleartext := cleartext }
  | none => slotOwner

/-- A client whose slot 0 is closed and that has nothing pending, in phase 1
of a round with one client. -/
def idleOwner : Round :=
  { clients := [{ id := 10 }], servers := [{ id := 20 }], phase := 1,
    state := { my_idx := 0, anonymous_key := [3], anonymous_keys := [[3]],
               msg_length := 1, base_msg_length := 1 } }

/-- The client `idleOwner` after it found the data "hi" and flipped its bit
in a ciphertext of one zero byte, holding `cleartext`. -/
def idleOwnerAfter (cleartext : QByteArray) : Round :=
  match GenerateCiphertext.write toyCrypto digestSlots [0] 1 idleOwner.state [104, 105]
      [[5, 6]] with
  | some (_, st) => { idleOwner with state := { st with cleartext := cleartext } }
  | none => idleOwner

/-- The client `slotOwner` after it has built its slot message with the seed
`[5, 6]`, the data source holding five more bytes, which are now its
`next_msg`; holding `cleartext`. -/
def slotOwnerPending (cleartext : QByteArray) : Round :=
  match GenerateSlotMessage toyCrypto digestSlots slotOwner [1, 2, 3, 4, 5] [[5, 6]] with
  | some (_, r) => { r with state.cleartext := cleartext }
  | none => slotOwner

/-- A slot message of phase 0 under `digestSlots` with the seed `[5, 6]`: it
carries "hi", declares 12 bytes, and its digest matches. -/
def staleSlotMessage : QByteArray := [5, 6, 5, 5, 5, 5, 5, 5, 5, 5, 9, 109, 108, 216]
/-! ## Lemmas on `Xor` -/

theorem Xor_length (d a b : QByteArray) : (Xor d a b).length = d.length := by
  induction d generalizing a b with
  | nil => cases a <;> cases b <;> simp [Xor]
  | cons x xs ih =>
    cases a with
    | nil => simp [Xor]
    | cons y ys =>
      cases b with
      | nil => simp [Xor]
      | cons z zs => simp [Xor, ih]

theorem Xor_cancel (a b : QByteArray) (h : a.length = b.length) :
    Xor a a (Xor a a b) = b := by
  induction a generalizing b with
  | nil =>
    cases b with
    | nil => simp [Xor]
    | cons z zs => simp at h
  | cons x xs ih =>
    cases b with
    | nil => simp at h
    | cons z zs =>
      simp only [List.length_cons, Nat.add_right_cancel_iff] at h
      simp [Xor, ih zs h, Nat.xor_cancel_left]

/-! ## Randomize and Derandomize -/

theorem Randomize_eq_some (c : Crypto) (rand : List QByteArray) (m : QByteArray)
    (hdraw : ∃ s ∈ rand, s ≠ NullSeed c) :
    ∃ seed ∈ rand, seed ≠ NullSeed c ∧
      Randomize c rand m =
        some (seed ++ Xor (c.GenerateBlock seed m.length) (c.GenerateBlock seed m.length) m) := by
  induction rand with
  | nil => obtain ⟨s, hs, _⟩ := hdraw; simp at hs
  | cons s rest ih =>
    by_cases hs : s = NullSeed c
    · obtain ⟨t, ht, htn⟩ := hdraw
      have ht' : t ∈ rest := by
        rcases List.mem_cons.mp ht with h | h
        · exact absurd (h ▸ hs) htn
        · exact h
      obtain ⟨seed, hmem, hne, heq⟩ := ih ⟨t, ht', htn⟩
      exact ⟨seed, List.mem_cons_of_mem _ hmem, hne, by simp [Randomize, hs, heq]⟩
    · exact ⟨s, List.mem_cons_self _ _, hs, by simp [Randomize, hs]⟩

theorem Derandomize_seed_append (c : Crypto) (seed m : QByteArray)
    (hlen : seed.length = c.OptimalSeedSize) (hne : seed ≠ NullSeed c) :
    Derandomize c (seed ++ Xor (c.GenerateBlock seed m.length) (c.GenerateBlock seed m.length) m)
      = some m := by
  have hg : (c.GenerateBlock seed m.length).length = m.length := c.GenerateBlock_size _ _
  have hx : (Xor (c.GenerateBlock seed m.length) (c.GenerateBlock seed m.length) m).length
      = m.length := by rw [Xor_length, hg]
  unfold Derandomize
  have h1 : ¬ (seed ++ Xor (c.GenerateBlock seed m.length)
      (c.GenerateBlock seed m.length) m).length < c.OptimalSeedSize := by
    simp [hlen]
  rw [if_neg h1]
  have h2 : (seed ++ Xor (c.GenerateBlock seed m.length)
      (c.GenerateBlock seed m.length) m).take c.OptimalSeedSize = seed := by
    rw [← hlen]; simp
  simp only [h2, if_neg hne]
  have h3 : (seed ++ Xor (c.GenerateBlock seed m.length)
      (c.GenerateBlock seed m.length) m).drop seed.length
      = Xor (c.GenerateBlock seed m.length) (c.GenerateBlock seed m.length) m := by
    simp
  rw [h3, hx, Xor_cancel _ _ hg]

/-- C2. Randomize/Derandomize round trip: for every non-empty byte string `m`
and every run of the seed-drawing loop whose draws have the seed size and
contain a seed other than the null seed, `Randomize` returns a text and
`Derandomize` maps that text back to `m`. -/
theorem Derandomize_Randomize (c : Crypto) (rand : List QByteArray) (m : QByteArray)
    (_hm : m ≠ [])
    (hsize : ∀ s ∈ rand, s.length = c.OptimalSeedSize)
    (hdraw : ∃ s ∈ rand, s ≠ NullSeed c) :
    ∃ r, Randomize c rand m = some r ∧ Derandomize c r = some m := by
  obtain ⟨seed, hmem, hne, heq⟩ := Randomize_eq_some c rand m hdraw
  exact ⟨_, heq, Derandomize_seed_append c seed m (hsize seed hmem) hne⟩

theorem Derandomize_Randomize_witness :
    ([7] : QByteArray) ≠ [] ∧
    ∃ r, Randomize toyCrypto [[0, 0], [5, 6]] [7] = some r ∧
      Derandomize toyCrypto r = some [7] :=
  ⟨by decide, Derandomize_Randomize toyCrypto [[0, 0], [5, 6]] [7] (by decide)
    (by decide) ⟨[5, 6], by decide, by decide⟩⟩

/-- C3. For every byte string `x`, `Derandomize (NullSeed ++ x)` is the empty
byte string. -/
theorem Derandomize_NullSeed (c : Crypto) (x : QByteArray) :
    Derandomize c (NullSeed c ++ x) = some [] := by
  have hlen : (NullSeed c).length = c.OptimalSeedSize := by simp [NullSeed, zeroBytes]
  unfold Derandomize
  have h1 : ¬ (NullSeed c ++ x).length < c.OptimalSeedSize := by simp [hlen]
  rw [if_neg h1]
  have h2 : (NullSeed c ++ x).take c.OptimalSeedSize = NullSeed c := by
    rw [← hlen]; simp
  simp [h2]

/-! ## FindMismatch -/

theorem QBitArray.xor_length (a b : QBitArray) :
    (QBitArray.xor a b).length = max a.length b.length := by
  induction a generalizing b with
  | nil => cases b <;> simp [QBitArray.xor]
  | cons x xs ih =>
    cases b with
    | nil => simp [QBitArray.xor]
    | cons y ys => simp [QBitArray.xor, ih, Nat.succ_max_succ]

theorem QBitArray.xor_getD (a b : QBitArray) (i : Nat) :
    (QBitArray.xor a b).getD i false = (a.getD i false != b.getD i false) := by
  induction a generalizing b i with
  | nil => cases b <;> simp [QBitArray.xor]
  | cons x xs ih =>
    cases b with
    | nil => simp [QBitArray.xor]
    | cons y ys =>
      cases i with
      | zero => simp [QBitArray.xor]
      | succ k => simpa [QBitArray.xor] using ih ys k

theorem FindMismatch.first_none (l : QBitArray) (idx : Nat)
    (h : FindMismatch.first l idx = none) : ∀ j, l.getD j false = false := by
  induction l generalizing idx with
  | nil => intro j; simp
  | cons b rest ih =>
    intro j
    cases b with
    | true => simp [FindMismatch.first] at h
    | false =>
      simp only [FindMismatch.first] at h
      cases j with
      | zero => simp
      | succ k => simpa using ih (idx + 1) (by simpa using h) k

theorem FindMismatch.first_some (l : QBitArray) (idx k : Nat)
    (h : FindMismatch.first l idx = some k) :
    idx ≤ k ∧ l.getD (k - idx) false = true ∧ ∀ j, j < k - idx → l.getD j false = false := by
  induction l generalizing idx with
  | nil => simp [FindMismatch.first] at h
  | cons b rest ih =>
    cases b with
    | true =>
      simp only [FindMismatch.first, if_true, Option.some.injEq] at h
      subst h
      simp
    | false =>
      simp only [FindMismatch.first] at h
      have h' : FindMismatch.first rest (idx + 1) = some k := by simpa using h
      obtain ⟨h1, h2, h3⟩ := ih (idx + 1) h'
      have hk : k - idx = (k - (idx + 1)) + 1 := by omega
      refine ⟨by omega, ?_, ?_⟩
      · rw [hk]; simpa using h2
      · intro j hj
        cases j with
        | zero => simp
        | succ m =>
          have : m < k - (idx + 1) := by omega
          simpa using h3 m this

theorem QMap.find_mem {V : Type} (k : Nat) (v : V) (m : QMap V)
    (h : QMap.find k m = some v) : (k, v) ∈ m := by
  induction m with
  | nil => simp [QMap.find] at h
  | cons e rest ih =>
    obtain ⟨k', v'⟩ := e
    by_cases hk : k = k'
    · subst hk
      simp [QMap.find] at h
      simp [h]
    · simp [QMap.find, hk] at h
      exact List.mem_cons_of_mem _ (ih h)

theorem FindMismatch.fold_length (n : Nat) (bb : QMap (QBitArray × QBitArray))
    (hlen : ∀ e ∈ bb, e.2.1.length = n ∧ e.2.2.length = n) (a e : QBitArray)
    (hae : a.length = e.length) :
    (bb.foldl (fun acc entry =>
        (QBitArray.xor acc.1 entry.2.1, QBitArray.xor acc.2 entry.2.2)) (a, e)).1.length =
    (bb.foldl (fun acc entry =>
        (QBitArray.xor acc.1 entry.2.1, QBitArray.xor acc.2 entry.2.2)) (a, e)).2.length := by
  induction bb generalizing a e with
  | nil => simpa using hae
  | cons x rest ih =>
    simp only [List.foldl_cons]
    apply ih (fun y hy => hlen y (List.mem_cons_of_mem _ hy))
    rw [QBitArray.xor_length, QBitArray.xor_length, hae,
      (hlen x (List.mem_cons_self _ _)).1, (hlen x (List.mem_cons_self _ _)).2]

theorem FindMismatch.fold_beyond (n i : Nat) (hi : n ≤ i)
    (bb : QMap (QBitArray × QBitArray))
    (hlen : ∀ e ∈ bb, e.2.1.length = n ∧ e.2.2.length = n) (a e : QBitArray)
    (hae : a.getD i false = e.getD i false) :
    (bb.foldl (fun acc entry =>
        (QBitArray.xor acc.1 entry.2.1, QBitArray.xor acc.2 entry.2.2)) (a, e)).1.getD i false =
    (bb.foldl (fun acc entry =>
        (QBitArray.xor acc.1 entry.2.1, QBitArray.xor acc.2 entry.2.2)) (a, e)).2.getD i false := by
  induction bb generalizing a e with
  | nil => simpa using hae
  | cons x rest ih =>
    simp only [List.foldl_cons]
    apply ih (fun y hy => hlen y (List.mem_cons_of_mem _ hy))
    have h1 : x.2.1.getD i false = false :=
      List.getD_eq_default _ _ (by rw [(hlen x (List.mem_cons_self _ _)).1]; exact hi)
    have h2 : x.2.2.getD i false = false :=
      List.getD_eq_default _ _ (by rw [(hlen x (List.mem_cons_self _ _)).2]; exact hi)
    rw [QBitArray.xor_getD, QBitArray.xor_getD, h1, h2, hae]

theorem QBitArray.eq_of_getD (a e : QBitArray) (hlen : a.length = e.length)
    (h : ∀ i, a.getD i false = e.getD i false) : a = e := by
  apply List.ext_getElem hlen
  intro i h1 h2
  have := h i
  rw [List.getD_eq_getElem _ _ h1, List.getD_eq_getElem _ _ h2] at this
  exact this

theorem List.take_succ_set {α : Type} (l : List α) (idx : Nat) (b : α)
    (h : idx < l.length) : (l.set idx b).take (idx + 1) = l.take idx ++ [b] := by
  induction l generalizing idx with
  | nil => simp at h
  | cons x xs ih =>
    cases idx with
    | zero => simp
    | succ k => simpa using ih k (by simpa using h)

theorem List.drop_succ_set {α : Type} (l : List α) (idx k : Nat) (b : α) :
    (l.set idx b).drop (idx + 1 + k) = l.drop (idx + 1 + k) := by
  induction l generalizing idx with
  | nil => simp
  | cons x xs ih =>
    cases idx with
    | zero => simp [Nat.add_comm 1 k]
    | succ j =>
      have e : j + 1 + 1 + k = (j + 1 + k) + 1 := by omega
      rw [e]
      simpa using ih j

theorem FindMismatch.bits_eq (bb : QMap (QBitArray × QBitArray)) (first : Nat)
    (rest : List PublicIdentity) (idx : Nat) (sb : QBitArray)
    (hin : ∀ pid ∈ rest, first < ((QMap.find pid.id bb).getD ([], [])).2.length)
    (hlen : idx + rest.length ≤ sb.length) :
    FindMismatch.bits bb first rest idx sb =
      some (sb.take idx ++
        rest.map (fun pid => ((QMap.find pid.id bb).getD ([], [])).2.getD first false) ++
        sb.drop (idx + rest.length)) := by
  induction rest generalizing idx sb with
  | nil => simp [FindMismatch.bits]
  | cons pid rest ih =>
    have h0 := hin pid (List.mem_cons_self _ _)
    simp only [List.length_cons] at hlen
    have hidx : idx < sb.length := by omega
    simp only [FindMismatch.bits]
    rw [List.get?_eq_get h0]
    simp only [hidx, if_true]
    rw [ih (idx + 1) _ (fun q hq => hin q (List.mem_cons_of_mem _ hq))
      (by simp only [List.length_set]; omega)]
    congr 1
    rw [List.take_succ_set _ _ _ hidx, List.drop_succ_set]
    have e : idx + (pid :: rest).length = idx + 1 + rest.length := by
      simp only [List.length_cons]; omega
    rw [e]
    simp [List.getElem?_eq_getElem h0]


/-- C10, as stated, fails: the XOR of the actual vectors and the XOR of the
expected vectors differ (in length only), `FindMismatch` does not fail, and
it returns no index: it returns `(-1, empty)`. -/
theorem FindMismatch_length_counterexample :
    (FindMismatch.totals mismatchedLengths.servers.Count
        mismatchedLengths.server_state.blame_bits).1 ≠
      (FindMismatch.totals mismatchedLengths.servers.Count
        mismatchedLengths.server_state.blame_bits).2 ∧
    FindMismatch mismatchedLengths = some (Outcome.ok (-1, [])) := by
  decide

/-- C10, amended. With `A` the XOR of all received actual vectors and `E` the
XOR of all received expected vectors, `FindMismatch` fails with "False
accusation" if and only if `A = E`; otherwise, when every received vector has
one common length `n` and every roster server has sent its blame bits, it
returns the lowest index `i` at which `A` and `E` differ, together with
`server_bits` where `server_bits[k]` is bit `i` of the expected vector sent
by the `k`-th server of the roster. -/
theorem FindMismatch_spec (r : Round) (n : Nat) :
    (FindMismatch r = some (Outcome.threw "False accusation") ↔
      (FindMismatch.totals r.servers.Count r.server_state.blame_bits).1 =
        (FindMismatch.totals r.servers.Count r.server_state.blame_bits).2) ∧
    ((FindMismatch.totals r.servers.Count r.server_state.blame_bits).1 ≠
        (FindMismatch.totals r.servers.Count r.server_state.blame_bits).2 →
      (∀ e ∈ r.server_state.blame_bits, e.2.1.length = n ∧ e.2.2.length = n) →
      r.server_state.blame_bits.length = r.servers.Count →
      (∀ pid ∈ r.servers, (QMap.find pid.id r.server_state.blame_bits).isSome) →
      ∃ i : Nat, i < n ∧
        (FindMismatch.totals r.servers.Count r.server_state.blame_bits).1.getD i false ≠
          (FindMismatch.totals r.servers.Count r.server_state.blame_bits).2.getD i false ∧
        (∀ j, j < i →
          (FindMismatch.totals r.servers.Count r.server_state.blame_bits).1.getD j false =
            (FindMismatch.totals r.servers.Count r.server_state.blame_bits).2.getD j false) ∧
        FindMismatch r = some (Outcome.ok ((i : Int),
          r.servers.map (fun pid =>
            ((QMap.find pid.id r.server_state.blame_bits).getD ([], [])).2.getD i false)))) := by
  constructor
  · constructor
    · intro h
      by_contra hne
      unfold FindMismatch at h
      simp only [if_neg hne] at h
      split at h
      · simp at h
      · split at h <;> simp at h
    · intro h
      unfold FindMismatch
      simp only [if_pos h]
  · intro hne hlen hcount hsent
    have hlenAE := FindMismatch.fold_length n r.server_state.blame_bits hlen
      (List.replicate r.servers.Count false) (List.replicate r.servers.Count false) rfl
    have hbeyond : ∀ i, n ≤ i →
        (FindMismatch.totals r.servers.Count r.server_state.blame_bits).1.getD i false =
        (FindMismatch.totals r.servers.Count r.server_state.blame_bits).2.getD i false :=
      fun i hi => FindMismatch.fold_beyond n i hi r.server_state.blame_bits hlen _ _ rfl
    -- the scan finds a set bit
    cases hfirst : FindMismatch.first
        (QBitArray.xor (FindMismatch.totals r.servers.Count r.server_state.blame_bits).1
          (FindMismatch.totals r.servers.Count r.server_state.blame_bits).2) 0 with
    | none =>
      exfalso
      apply hne
      apply QBitArray.eq_of_getD _ _ hlenAE
      intro i
      have := FindMismatch.first_none _ _ hfirst i
      rw [QBitArray.xor_getD] at this
      simpa using this
    | some i =>
      obtain ⟨-, h2, h3⟩ := FindMismatch.first_some _ _ _ hfirst
      simp only [Nat.sub_zero] at h2 h3
      rw [QBitArray.xor_getD] at h2
      have hdiff : (FindMismatch.totals r.servers.Count r.server_state.blame_bits).1.getD i false ≠
          (FindMismatch.totals r.servers.Count r.server_state.blame_bits).2.getD i false := by
        intro he; rw [he] at h2; simp at h2
      have hin : i < n := by
        by_contra hge
        exact hdiff (hbeyond i (Nat.le_of_not_lt hge))
      refine ⟨i, hin, hdiff, ?_, ?_⟩
      · intro j hj
        have := h3 j hj
        rw [QBitArray.xor_getD] at this
        simpa using this
      · have hbits := FindMismatch.bits_eq r.server_state.blame_bits i r.servers 0
          (List.replicate r.server_state.blame_bits.length false)
          (by
            intro pid hpid
            have hs := hsent pid hpid
            obtain ⟨pair, hpair⟩ := Option.isSome_iff_exists.mp hs
            have hmem := QMap.find_mem _ _ _ hpair
            rw [hpair]
            simp only [Option.getD_some]
            rw [(hlen _ hmem).2]
            exact hin)
          (by simp [hcount, Roster.Count])
        unfold FindMismatch
        simp only [if_neg hne, hfirst, hbits]
        simp [hcount, Roster.Count]

theorem FindMismatch_spec_witness :
    ∃ i : Nat, i < 3 ∧
      (FindMismatch.totals twoServerBlame.servers.Count
          twoServerBlame.server_state.blame_bits).1.getD i false ≠
        (FindMismatch.totals twoServerBlame.servers.Count
          twoServerBlame.server_state.blame_bits).2.getD i false ∧
      (∀ j, j < i →
        (FindMismatch.totals twoServerBlame.servers.Count
            twoServerBlame.server_state.blame_bits).1.getD j false =
          (FindMismatch.totals twoServerBlame.servers.Count
            twoServerBlame.server_state.blame_bits).2.getD j false) ∧
      FindMismatch twoServerBlame = some (Outcome.ok ((i : Int),
        twoServerBlame.servers.map (fun pid =>
          ((QMap.find pid.id twoServerBlame.server_state.blame_bits).getD ([], [])).2.getD
            i false))) :=
  (FindMismatch_spec twoServerBlame 3).2 (by decide) (by decide) (by decide) (by decide)

/-! ## HandleRebuttal -/

/-- C9, at the failing inputs. A rebuttal that names a negative server index
is not turned into a verdict against the client: the only range test is
`rebuttal.first >= GetServers().Count()`, so `HandleRebuttal` goes on to
`GetServers().GetId(rebuttal.first)`, an access outside the roster. -/
theorem HandleRebuttal_negative_index (c : Crypto) (r : Round) (k : Int)
    (proof : QByteArray) (hk : k < 0) :
    HandleRebuttal c r r.server_state.expected_rebuttal (k, proof) = none := by
  have h1 : ¬ (k ≥ (r.servers.Count : Int)) := by
    have : (0 : Int) ≤ (r.servers.Count : Int) := Int.ofNat_nonneg _
    omega
  simp [HandleRebuttal, h1, Roster.GetId, hk]

theorem HandleRebuttal_negative_index_witness :
    ((-1 : Int) < 0) ∧
    HandleRebuttal toyCrypto awaitingRebuttal
      awaitingRebuttal.server_state.expected_rebuttal (-1, [7]) = none :=
  ⟨by decide, HandleRebuttal_negative_index toyCrypto awaitingRebuttal (-1) [7] (by decide)⟩

/-! ## CycleComplete -/

theorem QMap.keys_insert_last {V : Type} (k : Nat) (v : V) (m : QMap V)
    (h : ∀ k' ∈ QMap.keys m, k' < k) : QMap.keys (QMap.insert k v m) = QMap.keys m ++ [k] := by
  induction m with
  | nil => simp [QMap.insert, QMap.keys]
  | cons e rest ih =>
    obtain ⟨k', v'⟩ := e
    have hk : k' < k := h k' (by simp [QMap.keys])
    have h1 : ¬ k < k' := by omega
    have h2 : ¬ k = k' := by omega
    have ih' := ih (fun x hx => h x (by simp [QMap.keys] at hx ⊢; exact Or.inr hx))
    simp only [QMap.insert, h1, h2, if_false]
    simp only [QMap.keys, List.map_cons, List.cons_append] at ih' ⊢
    rw [ih']

theorem QMap.keys_remove {V : Type} (k : Nat) (m : QMap V) :
    QMap.keys (QMap.remove k m) = (QMap.keys m).filter (fun x => x != k) := by
  induction m with
  | nil => simp [QMap.remove, QMap.keys]
  | cons e rest ih =>
    obtain ⟨k', v'⟩ := e
    simp only [QMap.remove, QMap.keys] at ih ⊢
    by_cases hk : k' = k
    · simp [List.filter_cons, hk, ih]
    · simp [List.filter_cons, hk, ih]

theorem QMap.contains_iff {V : Type} (k : Nat) (m : QMap V) :
    QMap.contains m k = true ↔ k ∈ QMap.keys m := by
  induction m with
  | nil => simp [QMap.contains, QMap.find, QMap.keys]
  | cons e rest ih =>
    obtain ⟨k', v'⟩ := e
    by_cases hk : k = k'
    · simp [QMap.contains, QMap.find, QMap.keys, hk]
    · simp only [QMap.contains, QMap.find, QMap.keys, hk, if_false] at ih ⊢
      simp [hk, ih]

theorem CycleComplete_logs (r : Round) (keys : List Nat) (hs : r.IsServer = true)
    (hk : QMap.keys r.server_state.phase_logs = keys)
    (hlt : ∀ k ∈ keys, k < r.phase + 1)
    (hrm : r.QT_NO_DEBUG = false → 5 ≤ r.phase + 1 → r.phase + 1 - 5 ∈ keys) :
    ∃ r', CycleComplete r = some (!r.stop_next, r') ∧ r'.IsServer = true ∧
      r'.phase = r.phase ∧ r'.stop_next = r.stop_next ∧
      r'.QT_NO_DEBUG = r.QT_NO_DEBUG ∧
      QMap.keys r'.server_state.phase_logs =
        (if 5 ≤ r.phase + 1 ∧ r.QT_NO_DEBUG = false then
            keys.filter (fun x => x != r.phase + 1 - 5)
          else keys) ++ [r.phase + 1] := by
  have hall : ∀ log, QMap.keys (QMap.insert (r.phase + 1) log r.server_state.phase_logs) =
      keys ++ [r.phase + 1] := by
    intro log
    rw [QMap.keys_insert_last, hk]
    intro k' hk'
    rw [hk] at hk'
    exact hlt k' hk'
  by_cases h5 : 5 ≤ r.phase + 1
  · cases hd : r.QT_NO_DEBUG
    · have hc : QMap.contains r.server_state.phase_logs (r.phase + 1 - 5) = true := by
        rw [QMap.contains_iff, hk]; exact hrm hd h5
      have hins : ∀ log, QMap.keys (QMap.insert (r.phase + 1) log
          (QMap.remove (r.phase + 1 - 5) r.server_state.phase_logs)) =
          keys.filter (fun x => x != r.phase + 1 - 5) ++ [r.phase + 1] := by
        intro log
        rw [QMap.keys_insert_last, QMap.keys_remove, hk]
        intro k' hk'
        rw [QMap.keys_remove, hk] at hk'
        exact hlt k' (List.mem_of_mem_filter hk')
      have e : r.phase + 1 - 5 = r.phase - 4 := by omega
      rw [e] at hc hins
      cases hstop : r.stop_next <;>
        simp [CycleComplete, Q_ASSERT, hs, h5, hc, hd, hstop, Stop, hins]
    · cases hstop : r.stop_next <;>
        simp [CycleComplete, Q_ASSERT, hs, h5, hd, hstop, Stop, hall]
  · cases hstop : r.stop_next <;>
      simp [CycleComplete, Q_ASSERT, hs, h5, hstop, Stop, hall]

theorem retained_step (m : Nat) :
    (if 5 ≤ m + 1 then (List.range' (m - 4) (min (m + 1) 5)).filter (fun x => x != m + 1 - 5)
      else List.range' (m - 4) (min (m + 1) 5)) ++ [m + 1]
    = List.range' (m + 1 - 4) (min (m + 2) 5) := by
  by_cases h : 4 ≤ m
  · obtain ⟨k, rfl⟩ : ∃ k, m = k + 4 := ⟨m - 4, by omega⟩
    have e1 : min (k + 4 + 1) 5 = 5 := by omega
    have e2 : min (k + 4 + 2) 5 = 5 := by omega
    have e3 : k + 4 + 1 - 5 = k := by omega
    have e4 : k + 4 + 1 - 4 = k + 1 := by omega
    have e5 : k + 4 - 4 = k := by omega
    rw [e1, e2, e3, e4, e5]
    have n1 : ¬ k + 1 + 1 = k := by omega
    have n2 : ¬ k + 1 + 1 + 1 = k := by omega
    have n3 : ¬ k + 1 + 1 + 1 + 1 = k := by omega
    simp [List.range', List.filter_cons, n1, n2, n3]
  · have hm : m < 4 := by omega
    interval_cases m <;> simp [List.range']

/-- The invariant of the phase logs in a debug build: at phase `n` the
retained logs are those of the phases `n - 4 .. n`, as far as they exist. -/
theorem cycles_keys (n m : Nat) (r : Round) (hs : r.IsServer = true) (hp : r.phase = m)
    (hstop : r.stop_next = false) (hd : r.QT_NO_DEBUG = false)
    (hk : QMap.keys r.server_state.phase_logs = List.range' (m - 4) (min (m + 1) 5)) :
    ∃ r', cycles n r = some r' ∧ r'.IsServer = true ∧ r'.phase = m + n ∧
      r'.stop_next = false ∧ r'.QT_NO_DEBUG = false ∧
      QMap.keys r'.server_state.phase_logs = List.range' (m + n - 4) (min (m + n + 1) 5) := by
  induction n generalizing m r with
  | zero => exact ⟨r, rfl, hs, hp, hstop, hd, hk⟩
  | succ n ih =>
    obtain ⟨r1, h1, hs1, hp1, hst1, hd1, hk1⟩ := CycleComplete_logs r _ hs hk
      (by intro k hk'; rw [hp]; simp [List.mem_range'] at hk'; omega)
      (by intro _ h5; rw [hp] at h5 ⊢; simp only [List.mem_range']; exact ⟨0, by omega, by omega⟩)
    simp only [hd, and_true] at hk1
    rw [hp, retained_step m] at hk1
    rw [hstop] at h1 hst1
    rw [hd] at hd1
    obtain ⟨r', h2, hs2, hp2, hst2, hd2, hk2⟩ := ih (m + 1) { r1 with phase := r1.phase + 1 }
      hs1 (by simp [hp1, hp]) hst1 hd1 (by simpa using hk1)
    refine ⟨r', ?_, hs2, by rw [hp2]; omega, hst2, hd2, ?_⟩
    · simp only [cycles, h1]
      simpa using h2
    · have e : m + 1 + n = m + (n + 1) := by omega
      rw [← e]; exact hk2

theorem range_snoc (n : Nat) : List.range' 0 n ++ [n] = List.range' 0 (n + 1) := by
  rw [List.range'_concat]; simp

/-- The phase logs in a build with `QT_NO_DEBUG`: at phase `n` the logs of all
the phases `0 .. n` are there. -/
theorem cycles_all (n m : Nat) (r : Round) (hs : r.IsServer = true) (hp : r.phase = m)
    (hstop : r.stop_next = false) (hd : r.QT_NO_DEBUG = true)
    (hk : QMap.keys r.server_state.phase_logs = List.range' 0 (m + 1)) :
    ∃ r', cycles n r = some r' ∧ r'.IsServer = true ∧ r'.phase = m + n ∧
      r'.stop_next = false ∧ r'.QT_NO_DEBUG = true ∧
      QMap.keys r'.server_state.phase_logs = List.range' 0 (m + n + 1) := by
  induction n generalizing m r with
  | zero => exact ⟨r, rfl, hs, hp, hstop, hd, hk⟩
  | succ n ih =>
    obtain ⟨r1, h1, hs1, hp1, hst1, hd1, hk1⟩ := CycleComplete_logs r _ hs hk
      (by intro k hk'; rw [hp]; simp [List.mem_range'] at hk'; omega)
      (by intro h; rw [hd] at h; exact Bool.noConfusion h)
    simp only [hd, Bool.true_eq_false, and_false, if_false] at hk1
    rw [hp, range_snoc] at hk1
    rw [hstop] at h1 hst1
    rw [hd] at hd1
    obtain ⟨r', h2, hs2, hp2, hst2, hd2, hk2⟩ := ih (m + 1) { r1 with phase := r1.phase + 1 }
      hs1 (by simp [hp1, hp]) hst1 hd1 (by simpa using hk1)
    refine ⟨r', ?_, hs2, by rw [hp2]; omega, hst2, hd2, ?_⟩
    · simp only [cycles, h1]
      simpa using h2
    · have e : m + 1 + n = m + (n + 1) := by omega
      rw [← e]; exact hk2

/-- C7, as the code has it. Phase-log retention: start from the server state
`InitServer` leaves at phase 0 and let any number `p` of bulk cycles
complete; then the call of `CycleComplete` that ends phase `p` returns,
whatever `_stop_next` is by then. The removal of the old log is the argument
of `Q_ASSERT`. In a debug build it runs, and `phase_logs` holds exactly the
logs of the phases `max(0, p - 3) .. p + 1`: at most five, and none of a
phase below `p - 4`. In a build with `QT_NO_DEBUG` it does not run and no
log is ever removed: `phase_logs` holds the logs of all the phases
`0 .. p + 1`, more than five from `p = 4` on, and from `p = 5` on one of a
phase below `p - 4`. -/
theorem CycleComplete_retention (r0 : Round) (connections : List Id) (p : Nat)
    (stop : Bool) (hphase : r0.phase = 0) (hlogs : r0.server_state.phase_logs = [])
    (hstop : r0.stop_next = false) :
    ∃ r, cycles p (InitServer r0 connections) = some r ∧ r.phase = p ∧
      ∃ r', CycleComplete { r with stop_next := stop } = some (!stop, r') ∧
        (r0.QT_NO_DEBUG = false →
          QMap.keys r'.server_state.phase_logs = List.range' (p - 3) (min (p + 2) 5) ∧
          (QMap.keys r'.server_state.phase_logs).length ≤ 5 ∧
          ∀ k ∈ QMap.keys r'.server_state.phase_logs, p - 3 ≤ k ∧ k ≤ p + 1 ∧ ¬ k + 4 < p) ∧
        (r0.QT_NO_DEBUG = true →
          QMap.keys r'.server_state.phase_logs = List.range' 0 (p + 2) ∧
          (4 ≤ p → 5 < (QMap.keys r'.server_state.phase_logs).length) ∧
          (5 ≤ p → ∃ k ∈ QMap.keys r'.server_state.phase_logs, k + 4 < p)) := by
  cases hd : r0.QT_NO_DEBUG
  · obtain ⟨r, h1, hs, hp, hst, hdr, hk⟩ := cycles_keys p 0 (InitServer r0 connections)
      (by simp [InitServer]) (by simp [InitServer, hphase]) (by simp [InitServer, hstop])
      (by simp [InitServer, hd])
      (by simp [InitServer, hphase, hlogs, QMap.insert, QMap.keys])
    simp only [Nat.zero_add] at hp hk
    obtain ⟨r', h2, -, -, -, -, hk2⟩ := CycleComplete_logs { r with stop_next := stop } _
      (by simpa using hs) (by simpa using hk)
      (by intro k hk'; simp [List.mem_range'] at hk' ⊢; omega)
      (by intro _ h5; simp only [hp] at h5 ⊢; simp only [List.mem_range'];
          exact ⟨0, by omega, by omega⟩)
    simp only [hp, hdr, and_true] at hk2
    rw [retained_step p] at hk2
    have e : p + 1 - 4 = p - 3 := by omega
    rw [e] at hk2
    refine ⟨r, h1, hp, r', by simpa using h2, fun _ => ⟨hk2, ?_, ?_⟩,
      fun h => Bool.noConfusion h⟩
    · rw [hk2]; simp
    · intro k hk'
      rw [hk2] at hk'
      simp [List.mem_range'] at hk'
      omega
  · obtain ⟨r, h1, hs, hp, hst, hdr, hk⟩ := cycles_all p 0 (InitServer r0 connections)
      (by simp [InitServer]) (by simp [InitServer, hphase]) (by simp [InitServer, hstop])
      (by simp [InitServer, hd])
      (by simp [InitServer, hphase, hlogs, QMap.insert, QMap.keys])
    simp only [Nat.zero_add] at hp hk
    obtain ⟨r', h2, -, -, -, -, hk2⟩ := CycleComplete_logs { r with stop_next := stop } _
      (by simpa using hs) (by simpa using hk)
      (by intro k hk'; simp [List.mem_range'] at hk' ⊢; omega)
      (by intro h; simp only [hdr] at h; exact Bool.noConfusion h)
    simp only [hp, hdr, Bool.true_eq_false, and_false, if_false] at hk2
    rw [range_snoc] at hk2
    refine ⟨r, h1, hp, r', by simpa using h2, fun h => Bool.noConfusion h,
      fun _ => ⟨hk2, ?_, ?_⟩⟩
    · intro h4; rw [hk2]; simp; omega
    · intro h5
      refine ⟨0, ?_, by omega⟩
      rw [hk2]; simp [List.mem_range']

theorem CycleComplete_retention_witness :
    (∃ r, cycles 5 (InitServer releaseServer [10]) = some r ∧ r.phase = 5 ∧
      ∃ r', CycleComplete { r with stop_next := false } = some (!false, r') ∧
        QMap.keys r'.server_state.phase_logs = List.range' 0 (5 + 2) ∧
        5 < (QMap.keys r'.server_state.phase_logs).length ∧
        ∃ k ∈ QMap.keys r'.server_state.phase_logs, k + 4 < 5) ∧
    (∃ r, cycles 5 (InitServer { releaseServer with QT_NO_DEBUG := false } [10]) = some r ∧
      r.phase = 5 ∧
      ∃ r', CycleComplete { r with stop_next := false } = some (!false, r') ∧
        QMap.keys r'.server_state.phase_logs = List.range' (5 - 3) (min (5 + 2) 5) ∧
        (QMap.keys r'.server_state.phase_logs).length ≤ 5) := by
  constructor
  · obtain ⟨r, h1, h2, r', h3, -, h4⟩ :=
      CycleComplete_retention releaseServer [10] 5 false rfl rfl rfl
    obtain ⟨h5, h6, h7⟩ := h4 rfl
    exact ⟨r, h1, h2, r', h3, h5, h6 (by decide), h7 (by decide)⟩
  · obtain ⟨r, h1, h2, r', h3, h4, -⟩ :=
      CycleComplete_retention { releaseServer with QT_NO_DEBUG := false } [10] 5 false
        rfl rfl rfl
    obtain ⟨h5, h6, -⟩ := h4 rfl
    exact ⟨r, h1, h2, r', h3, h5, h6⟩

/-! ## HandleServerCiphertext -/

theorem QMap.touch_of_find {V : Type} (k : Nat) (d v : V) (m : QMap V)
    (h : QMap.find k m = some v) : QMap.touch k d m = m := by
  simp [QMap.touch, QMap.contains, h]

theorem QMap.find_touch {V : Type} (k : Nat) (d : V) (m : QMap V) :
    (QMap.find k (QMap.touch k d m)).getD d = (QMap.find k m).getD d := by
  unfold QMap.touch
  by_cases h : QMap.contains m k = true
  · simp [h]
  · simp only [h]
    have hnone : QMap.find k m = none := by
      simpa [QMap.contains] using h
    rw [hnone]
    have : ∀ m : QMap V, QMap.find k (QMap.insert k d m) = some d := by
      intro m
      induction m with
      | nil => simp [QMap.insert, QMap.find]
      | cons e rest ih =>
        obtain ⟨k', v'⟩ := e
        by_cases h1 : k < k'
        · simp [QMap.insert, h1, QMap.find]
        · by_cases h2 : k = k'
          · simp [QMap.insert, h1, h2, QMap.find]
          · simp [QMap.insert, h1, h2, QMap.find, ih]
    simp [this]

/-- C5, as stated, fails: a roster server that has already revealed in this
phase sends a second ciphertext of the expected length whose hash differs
from its commitment; the handler fails with "Already have ciphertext", not
with "Does not match commit.". -/
theorem HandleServerCiphertext_duplicate_counterexample :
    revealedOnce.servers.Contains 21 = true ∧
    ([9] : QByteArray).length = revealedOnce.state.msg_length ∧
    QMap.find (revealedOnce.servers.GetIndex 21) revealedOnce.server_state.server_commits
      = some [5] ∧
    toyCrypto.ComputeHash [9] ≠ [5] ∧
    HandleServerCiphertext toyCrypto revealedOnce 21 [9]
      = some (Outcome.threw "Already have ciphertext", revealedOnce) := by
  decide

/-- C5, amended. Commit binding: for every server state and every ciphertext
`c'` of the expected length sent by roster server `s` with `H(c')` different
from the commitment stored for `s`, `HandleServerCiphertext` fails, with
"Does not match commit." when `s` has not revealed yet in this phase and with
"Already have ciphertext" when it has, and it leaves the whole round state as
it was: `c'` is in neither `server_ciphertexts` nor the phase log, `s` is not
added to `handled_servers`, the state machine has not advanced and nothing
was sent, so the cleartext `SubmitValidation` would sign is unchanged. -/
theorem HandleServerCiphertext_commit_binding (c : Crypto) (r : Round) (s : Id)
    (ciphertext commit : QByteArray)
    (hserver : r.IsServer = true)
    (hroster : r.servers.Contains s = true)
    (hlength : ciphertext.length = r.state.msg_length)
    (hcommit : QMap.find (r.servers.GetIndex s) r.server_state.server_commits = some commit)
    (hdiff : c.ComputeHash ciphertext ≠ commit) :
    HandleServerCiphertext c r s ciphertext =
      some (Outcome.threw (if r.server_state.handled_servers.contains s
        then "Already have ciphertext" else "Does not match commit."), r) := by
  unfold HandleServerCiphertext
  by_cases hdup : s ∈ r.server_state.handled_servers
  · simp [hserver, hroster, hdup]
  · simp [hserver, hroster, hdup, hlength, QMap.touch_of_find _ _ _ _ hcommit, hcommit, hdiff]
    cases r
    simp_all

theorem HandleServerCiphertext_commit_binding_witness :
    HandleServerCiphertext toyCrypto awaitingCiphertexts 21 [9] =
      some (Outcome.threw (if awaitingCiphertexts.server_state.handled_servers.contains 21
        then "Already have ciphertext" else "Does not match commit."), awaitingCiphertexts) :=
  HandleServerCiphertext_commit_binding toyCrypto awaitingCiphertexts 21 [9] [5]
    (by decide) (by decide) (by decide) (by decide) (by decide)

/-- C6, as stated, fails: on a commit/reveal mismatch the handler throws and
`Stop` is not invoked: no stop reason is recorded and the state machine stays
in `SERVER_WAIT_FOR_SERVER_CIPHERTEXT`. -/
theorem HandleServerCiphertext_no_stop_counterexample :
    toyCrypto.ComputeHash [9] ≠
      (QMap.find (awaitingCiphertexts.servers.GetIndex 21)
        awaitingCiphertexts.server_state.server_commits).getD [] ∧
    ∃ r', HandleServerCiphertext toyCrypto awaitingCiphertexts 21 [9]
        = some (Outcome.threw "Does not match commit.", r') ∧
      r'.stopped = none ∧ r'.sm_state = States.SERVER_WAIT_FOR_SERVER_CIPHERTEXT ∧
      r'.stopped ≠ some "Does not match commit." := by
  refine ⟨by decide, awaitingCiphertexts, by decide, by decide, by decide, by decide⟩

/-- C6, amended. A commit/reveal mismatch is reported as a fault, not as a
stop: when `HandleServerCiphertext` on a server receives, from a roster
server that has not revealed yet, a ciphertext of the expected length whose
hash differs from the sender's stored commitment, it throws the
`QRunTimeError` "Does not match commit."; it does not invoke `Stop`: the stop
reason, the interrupted flag and the state of the state machine are as
before. -/
theorem HandleServerCiphertext_mismatch_throws (c : Crypto) (r : Round) (s : Id)
    (ciphertext : QByteArray)
    (hserver : r.IsServer = true)
    (hroster : r.servers.Contains s = true)
    (hfresh : r.server_state.handled_servers.contains s = false)
    (hlength : ciphertext.length = r.state.msg_length)
    (hdiff : c.ComputeHash ciphertext ≠
      (QMap.find (r.servers.GetIndex s) r.server_state.server_commits).getD []) :
    ∃ r', HandleServerCiphertext c r s ciphertext
        = some (Outcome.threw "Does not match commit.", r') ∧
      r'.stopped = r.stopped ∧ r'.interrupted = r.interrupted ∧ r'.sm_state = r.sm_state := by
  unfold HandleServerCiphertext
  have hd : c.ComputeHash ciphertext ≠
      (QMap.find (r.servers.GetIndex s)
        (QMap.touch (r.servers.GetIndex s) [] r.server_state.server_commits)).getD [] := by
    rw [QMap.find_touch]; exact hdiff
  have hmem : s ∉ r.server_state.handled_servers := by simpa using hfresh
  simp [hserver, hroster, hmem, hlength, hd]

theorem HandleServerCiphertext_mismatch_throws_witness :
    ∃ r', HandleServerCiphertext toyCrypto awaitingCiphertexts 21 [9]
        = some (Outcome.threw "Does not match commit.", r') ∧
      r'.stopped = awaitingCiphertexts.stopped ∧
      r'.interrupted = awaitingCiphertexts.interrupted ∧
      r'.sm_state = awaitingCiphertexts.sm_state :=
  HandleServerCiphertext_mismatch_throws toyCrypto awaitingCiphertexts 21 [9]
    (by decide) (by decide) (by decide) (by decide) (by decide)

/-! ## Slot messages through ProcessCleartext -/

/-- C4, at the failing input. In the build with `CSBR_SIGN_SLOTS` the owner
of slot 0 builds its slot message for the payload "hi" in phase 1; the
signature it carries verifies over the bytes that were signed (`msg_p`), yet
`ProcessCleartext`, which verifies it over `msg_pp` (message and signature
together), rejects the unmodified slot: nothing reaches the sink and the
slot keeps its 14 bytes instead of the 12 written in the header. In the
digest build the same run delivers "hi" and adopts the length 12. -/
theorem ProcessCleartext_signed_slot_rejected :
    (GenerateSlotMessage toyCrypto signedSlots slotOwner [] [[5, 6]]).map Prod.fst
      = some signedSlotMessage ∧
    (Derandomize toyCrypto signedSlotMessage).map
        (fun msg_pp => (toyCrypto.Verify [3] (msg_pp.take 11) (msg_pp.drop 11),
          toyCrypto.Verify [3] msg_pp (msg_pp.drop 11), ReadInt msg_pp 5, msg_pp.drop 9))
      = some (true, false, some 12, [104, 105, 225]) ∧
    (ProcessCleartext toyCrypto signedSlots (slotReader (0 :: signedSlotMessage))).map
        (fun r => (r.pushed, r.state.next_messages, r.state.msg_length))
      = some ([], [(0, 14)], 15) ∧
    (GenerateSlotMessage toyCrypto digestSlots slotOwner [] [[5, 6]]).map Prod.fst
      = some digestSlotMessage ∧
    (ProcessCleartext toyCrypto digestSlots (slotReader (0 :: digestSlotMessage))).map
        (fun r => (r.pushed, r.state.next_messages, r.state.msg_length))
      = some ([(0, [104, 105])], [(0, 12)], 13) := by
  refine ⟨?_, ?_, ?_, ?_, ?_⟩
  · rfl
  · rfl
  · rfl
  · rfl
  · rfl

/-! ## XOR sums -/

theorem xsum_nil : xsum [] = 0 := rfl

theorem xsum_cons (a : Nat) (l : List Nat) : xsum (a :: l) = a ^^^ xsum l := rfl

theorem xsum_append (l1 l2 : List Nat) : xsum (l1 ++ l2) = xsum l1 ^^^ xsum l2 := by
  induction l1 with
  | nil => simp [xsum_nil]
  | cons a l ih => simp [xsum_cons, ih, Nat.xor_assoc]

theorem xsum_perm {l1 l2 : List Nat} (h : l1.Perm l2) : xsum l1 = xsum l2 := by
  induction h with
  | nil => rfl
  | cons a _ ih => simp [xsum_cons, ih]
  | swap a b l =>
    simp only [xsum_cons]
    rw [← Nat.xor_assoc, ← Nat.xor_assoc, Nat.xor_comm b a]
  | trans _ _ ih1 ih2 => exact ih1.trans ih2

theorem xsum_map_xor {α : Type} (l : List α) (f g : α → Nat) :
    xsum (l.map (fun a => f a ^^^ g a)) = xsum (l.map f) ^^^ xsum (l.map g) := by
  induction l with
  | nil => simp [xsum_nil]
  | cons a l ih =>
    simp only [List.map_cons, xsum_cons, ih]
    rw [Nat.xor_assoc, Nat.xor_assoc]
    congr 1
    rw [← Nat.xor_assoc, ← Nat.xor_assoc, Nat.xor_comm (g a)]

theorem xsum_map_zero {α : Type} (l : List α) : xsum (l.map (fun _ => 0)) = 0 := by
  induction l with
  | nil => rfl
  | cons a l ih => simp only [List.map_cons, xsum_cons, ih]; rfl

theorem xsum_swap {α β : Type} (l1 : List α) (l2 : List β) (f : α → β → Nat) :
    xsum (l1.map (fun a => xsum (l2.map (fun b => f a b)))) =
    xsum (l2.map (fun b => xsum (l1.map (fun a => f a b)))) := by
  induction l1 with
  | nil => simp only [List.map_nil, xsum_nil, xsum_map_zero]
  | cons a l ih =>
    simp only [List.map_cons, xsum_cons, ih]
    rw [← xsum_map_xor]

theorem xsum_flatMap {α : Type} (l : List α) (f : α → List Nat) :
    xsum (l.flatMap f) = xsum (l.map (fun a => xsum (f a))) := by
  induction l with
  | nil => rfl
  | cons a l ih => simp [List.flatMap_cons, xsum_append, xsum_cons, ih]

theorem xsum_congr {α : Type} (l : List α) (f g : α → Nat) (h : ∀ a ∈ l, f a = g a) :
    xsum (l.map f) = xsum (l.map g) := by
  rw [List.map_congr_left h]

/-! ## `Xor` byte by byte -/

theorem Xor_self_getD (acc x : QByteArray) (k : Nat) :
    (Xor acc acc x).getD k 0 = if k < acc.length then acc.getD k 0 ^^^ x.getD k 0 else 0 := by
  induction acc generalizing x k with
  | nil => simp [Xor]
  | cons a as ih =>
    cases x with
    | nil =>
      simp only [Xor]
      by_cases h : k < (a :: as).length
      · simp only [h, if_true]; simp
      · simp only [h, if_false]
        exact List.getD_eq_default _ _ (by omega)
    | cons b bs =>
      cases k with
      | zero => simp [Xor]
      | succ j =>
        have := ih bs j
        simp only [Xor, List.length_cons, Nat.add_lt_add_iff_right]
        simpa using this

theorem foldl_Xor_length (xs : List QByteArray) (acc : QByteArray) :
    (xs.foldl (fun acc x => Xor acc acc x) acc).length = acc.length := by
  induction xs generalizing acc with
  | nil => rfl
  | cons x xs ih => simp [List.foldl_cons, ih, Xor_length]

theorem foldl_Xor_getD (xs : List QByteArray) (acc : QByteArray) (k : Nat)
    (hk : k < acc.length) :
    (xs.foldl (fun acc x => Xor acc acc x) acc).getD k 0 =
      acc.getD k 0 ^^^ xsum (xs.map (fun x => x.getD k 0)) := by
  induction xs generalizing acc with
  | nil => simp [xsum_nil]
  | cons x xs ih =>
    simp only [List.foldl_cons, List.map_cons, xsum_cons]
    rw [ih _ (by rw [Xor_length]; exact hk), Xor_self_getD, if_pos hk, Nat.xor_assoc]

theorem zeroBytes_getD (n k : Nat) : (zeroBytes n).getD k 0 = 0 := by
  unfold zeroBytes
  by_cases h : k < n
  · rw [List.getD_eq_getElem _ _ (by simpa using h)]; simp
  · exact List.getD_eq_default _ _ (by simpa using h)

theorem xorAll_length (n : Nat) (xs : List QByteArray) : (xorAll n xs).length = n := by
  simp [xorAll, foldl_Xor_length, zeroBytes]

theorem xorAll_getD (n : Nat) (xs : List QByteArray) (k : Nat) (hk : k < n) :
    (xorAll n xs).getD k 0 = xsum (xs.map (fun x => x.getD k 0)) := by
  unfold xorAll
  rw [foldl_Xor_getD _ _ _ (by simpa [zeroBytes] using hk), zeroBytes_getD]
  simp

theorem bytes_ext (a b : QByteArray) (n : Nat) (ha : a.length = n) (hb : b.length = n)
    (h : ∀ k, k < n → a.getD k 0 = b.getD k 0) : a = b := by
  apply List.ext_getElem (by rw [ha, hb])
  intro i h1 h2
  have := h i (by rw [← ha]; exact h1)
  rw [List.getD_eq_getElem _ _ h1, List.getD_eq_getElem _ _ h2] at this
  exact this

/-! ## GenerateCiphertext: pads and contribution -/

theorem withLogs_withLogs (r : Round) (a b : QMap PhaseLog) :
    withLogs (withLogs r a) b = withLogs r b := rfl

theorem withLogs_self (r : Round) : withLogs r r.server_state.phase_logs = r := rfl

theorem GenerateCiphertext.pads_spec (c : Crypto) (rngs : List QByteArray) (jdx : Nat)
    (acc : QByteArray) (r : Round) :
    ∃ logs, GenerateCiphertext.pads c rngs jdx acc r =
      ((rngs.map (fun s => c.GenerateBlock s r.state.msg_length)).foldl
        (fun acc x => Xor acc acc x) acc, withLogs r logs) := by
  induction rngs generalizing jdx acc r with
  | nil => exact ⟨r.server_state.phase_logs, rfl⟩
  | cons s rest ih =>
    simp only [GenerateCiphertext.pads, List.map_cons, List.foldl_cons]
    by_cases hs : r.IsServer = true
    · simp only [hs, if_true]
      obtain ⟨logs, h⟩ := ih (jdx + 1) (Xor acc acc (c.GenerateBlock s r.state.msg_length))
        (updatePhaseLog r (fun l =>
          { l with
            my_sub_ciphertexts :=
              QMap.insert ((QMap.find jdx r.server_state.rng_to_gidx).getD 0)
                (c.GenerateBlock s r.state.msg_length) l.my_sub_ciphertexts }))
      exact ⟨logs, h⟩
    · simp only [hs]
      exact ih (jdx + 1) _ r
/-! ## The slot write, byte by byte -/

/-- The slot write of `GenerateCiphertext.write` over `x`. -/
theorem splice_zero (m x : QByteArray) (h : m.length ≤ x.length) :
    (Xor m m (x.take m.length) ++ x.drop m.length).length = x.length ∧
    ∀ k, (Xor m m (x.take m.length) ++ x.drop m.length).getD k 0 =
      x.getD k 0 ^^^
        (Xor m m ((zeroBytes x.length).take m.length) ++ (zeroBytes x.length).drop m.length).getD k 0 := by
  induction m generalizing x with
  | nil =>
    refine ⟨by simp [Xor], fun k => ?_⟩
    simp only [Xor, List.length_nil, List.drop_zero, List.nil_append]
    rw [zeroBytes_getD]; simp
  | cons b ms ih =>
    cases x with
    | nil => simp at h
    | cons a xs =>
      simp only [List.length_cons, Nat.add_le_add_iff_right] at h
      obtain ⟨h1, h2⟩ := ih xs h
      constructor
      · simp only [List.length_cons, List.take_succ_cons, Xor, List.drop_succ_cons,
          List.cons_append]
        simp only [List.length_cons, h1]
      · intro k
        simp only [List.length_cons, List.take_succ_cons, Xor, List.drop_succ_cons,
          List.cons_append, zeroBytes, List.replicate_succ]
        cases k with
        | zero => simp [Nat.xor_comm]
        | succ j =>
          have := h2 j
          simp only [zeroBytes] at this
          simpa using this

theorem splice (off : Nat) (m x : QByteArray) (h : off + m.length ≤ x.length) :
    (x.take off ++ Xor m m ((x.drop off).take m.length) ++ x.drop (off + m.length)).length
      = x.length ∧
    ∀ k, (x.take off ++ Xor m m ((x.drop off).take m.length) ++
        x.drop (off + m.length)).getD k 0 =
      x.getD k 0 ^^^
        ((zeroBytes x.length).take off ++
          Xor m m (((zeroBytes x.length).drop off).take m.length) ++
          (zeroBytes x.length).drop (off + m.length)).getD k 0 := by
  induction off generalizing x with
  | zero =>
    have := splice_zero m x (by omega)
    simpa using this
  | succ n ih =>
    cases x with
    | nil => simp at h
    | cons a xs =>
      have h' : n + m.length ≤ xs.length := by simp at h; omega
      obtain ⟨h1, h2⟩ := ih xs h'
      have e : n + 1 + m.length = (n + m.length) + 1 := by omega
      constructor
      · rw [e]
        simp only [List.take_succ_cons, List.drop_succ_cons, List.cons_append,
          List.length_cons]
        rw [h1]
      · intro k
        rw [e]
        simp only [List.take_succ_cons, List.drop_succ_cons, List.cons_append,
          List.length_cons, zeroBytes, List.replicate_succ]
        cases k with
        | zero => simp
        | succ j =>
          have := h2 j
          simp only [zeroBytes] at this
          simpa using this

theorem set_getD (x : QByteArray) (i v k : Nat) (hi : i < x.length) :
    (x.set i v).getD k 0 = if k = i then v else x.getD k 0 := by
  by_cases hk : k = i
  · subst hk
    simp [List.getD_eq_getElem?_getD, List.getElem?_set, hi]
  · simp only [hk, if_false, List.getD_eq_getElem?_getD]
    rw [List.getElem?_set_ne (Ne.symm hk)]

theorem GenerateCiphertext.write_decompose (c : Crypto) (cfg : Config) (x : QByteArray)
    (phase : Nat) (st : State) (data : QByteArray) (rand : List QByteArray)
    (ct : QByteArray) (st' : State)
    (h : GenerateCiphertext.write c cfg x phase st data rand = some (ct, st')) :
    ∃ u, GenerateCiphertext.write c cfg (zeroBytes x.length) phase st data rand
        = some (u, st') ∧
      ct.length = x.length ∧ u.length = x.length ∧
      ∀ k, ct.getD k 0 = x.getD k 0 ^^^ u.getD k 0 := by
  have hz : (zeroBytes x.length).length = x.length := by simp [zeroBytes]
  unfold GenerateCiphertext.write at h ⊢
  by_cases hopen : st.slot_open = true
  · simp only [hopen, if_true] at h ⊢
    cases hg : GenerateSlotMessage.build c cfg phase st data rand with
    | none => simp [hg] at h
    | some res =>
      obtain ⟨m, q⟩ := res
      simp only [hg] at h ⊢
      by_cases hfit : st.base_msg_length +
          GenerateCiphertext.offset st.my_idx st.next_messages + m.length > x.length
      · simp [hfit] at h
      · simp only [hfit, if_false, Option.some.injEq, Prod.mk.injEq, Xor_length] at h
        obtain ⟨h1, h2⟩ := h
        simp only [hz, hfit, if_false, Xor_length]
        obtain ⟨s1, s2⟩ := splice (st.base_msg_length +
          GenerateCiphertext.offset st.my_idx st.next_messages) m x (by omega)
        obtain ⟨z1, -⟩ := splice (st.base_msg_length +
          GenerateCiphertext.offset st.my_idx st.next_messages) m
          (zeroBytes x.length) (by rw [hz]; omega)
        refine ⟨_, by rw [h2], ?_, ?_, ?_⟩
        · rw [← h1]; exact s1
        · rw [z1, hz]
        · intro k; rw [← h1]; exact s2 k
  · have hopen' : st.slot_open = false := by simpa using hopen
    simp only [hopen', Bool.false_eq_true, if_false] at h ⊢
    cases hcd : CheckData st data with
    | mk b q =>
      simp only [hcd] at h ⊢
      cases b with
      | false =>
        simp only [Option.some.injEq, Prod.mk.injEq] at h
        obtain ⟨rfl, rfl⟩ := h
        refine ⟨_, rfl, rfl, hz, ?_⟩
        intro k; rw [zeroBytes_getD]; simp
      | true =>
        simp only at h ⊢
        by_cases hneg : q.my_idx < 0
        · simp [hneg] at h
        · simp only [hneg, if_false, List.get?_eq_getElem?] at h ⊢
          cases hget : x[q.my_idx.toNat / 8]? with
          | none => simp [hget] at h
          | some b0 =>
            simp only [hget, Option.some.injEq, Prod.mk.injEq] at h
            obtain ⟨rfl, rfl⟩ := h
            have hi : q.my_idx.toNat / 8 < x.length := by
              by_contra hge
              rw [List.getElem?_eq_none (by omega)] at hget
              simp at hget
            have hzget : (zeroBytes x.length)[q.my_idx.toNat / 8]? = some 0 := by
              simp [zeroBytes, hi]
            simp only [hzget]
            refine ⟨_, rfl, by simp, by simp [zeroBytes], ?_⟩
            intro k
            rw [set_getD _ _ _ _ hi, set_getD _ _ _ _ (by rw [hz]; exact hi),
              zeroBytes_getD]
            by_cases hk : k = q.my_idx.toNat / 8
            · subst hk
              simp [hget]
            · simp [hk]

/-! ## What the slot write reads -/

theorem build_slotView (c : Crypto) (cfg : Config) (phase : Nat) (st : State)
    (data : QByteArray) (rand : List QByteArray) :
    (GenerateSlotMessage.build c cfg phase (slotView st) data rand).map Prod.fst =
    (GenerateSlotMessage.build c cfg phase st data rand).map Prod.fst := by
  unfold GenerateSlotMessage.build
  cases hread : st.read <;> cases hacc : st.accuse <;> cases hc : cfg.CSBR_CLOSE_SLOT <;>
    cases h1 : (st.next_msg.length == 0) <;> cases h2 : (data.length == 0) <;>
    simp only [slotView, hread, hacc, hc, h1, h2, SlotHeaderLength, Bool.false_eq_true, if_false,
      if_true, Bool.and_true, Bool.and_false, Bool.true_and, Bool.false_and, Bool.not_true,
      Bool.not_false] <;>
    (generalize (if st.my_idx < 0 then none else
        Option.map (fun k => 9 + c.GetSignatureLength k + c.OptimalSeedSize)
          (st.anonymous_keys.get? st.my_idx.toNat)) = A
     cases A with
     | none => rfl
     | some header_length =>
       simp only []
       generalize Randomize c rand _ = R
       cases R <;> rfl)

theorem CheckData_slotView (st : State) (data : QByteArray) :
    (CheckData (slotView st) data).1 = (CheckData st data).1 ∧
    (CheckData (slotView st) data).2.my_idx = (CheckData st data).2.my_idx := by
  unfold CheckData
  cases h : st.next_msg.isEmpty <;> simp [slotView, h]

theorem GenerateCiphertext.write_slotView (c : Crypto) (cfg : Config) (x : QByteArray)
    (phase : Nat) (st : State) (data : QByteArray) (rand : List QByteArray) :
    (GenerateCiphertext.write c cfg x phase (slotView st) data rand).map Prod.fst =
    (GenerateCiphertext.write c cfg x phase st data rand).map Prod.fst := by
  unfold GenerateCiphertext.write
  have e1 : (slotView st).slot_open = st.slot_open := rfl
  have e2 : (slotView st).base_msg_length = st.base_msg_length := rfl
  have e3 : (slotView st).my_idx = st.my_idx := rfl
  have e4 : (slotView st).next_messages = st.next_messages := rfl
  rw [e1, e2, e3, e4]
  cases hopen : st.slot_open
  · simp only [Bool.false_eq_true, if_false]
    obtain ⟨c1, c2⟩ := CheckData_slotView st data
    revert c1 c2
    cases CheckData (slotView st) data with
    | mk b1 q1 =>
      cases CheckData st data with
      | mk b2 q2 =>
        intro c1 c2
        simp only at c1 c2
        subst c1
        cases b1 with
        | false => rfl
        | true =>
          simp only [c2]
          split
          · rfl
          · cases x.get? (q2.my_idx.toNat / 8) <;> rfl
  · simp only [if_true]
    have hb := build_slotView c cfg phase st data rand
    revert hb
    cases GenerateSlotMessage.build c cfg phase (slotView st) data rand with
    | none =>
      cases GenerateSlotMessage.build c cfg phase st data rand with
      | none => intro _; rfl
      | some p => intro hb; simp at hb
    | some p1 =>
      cases GenerateSlotMessage.build c cfg phase st data rand with
      | none => intro hb; simp at hb
      | some p2 =>
        intro hb
        obtain ⟨m1, q1⟩ := p1
        obtain ⟨m2, q2⟩ := p2
        simp only [Option.map_some', Option.some.injEq] at hb
        subst hb
        simp only []
        split <;> rfl

theorem unpadded_congr (c : Crypto) (cfg : Config) (r1 r2 : Round) (data : QByteArray)
    (rand : List QByteArray) (hview : slotView r1.state = slotView r2.state)
    (hphase : r1.phase = r2.phase) (hlen : r1.state.msg_length = r2.state.msg_length) :
    unpadded c cfg r1 data rand = unpadded c cfg r2 data rand := by
  have h1 := GenerateCiphertext.write_slotView c cfg (zeroBytes r1.state.msg_length) r1.phase
    r1.state data rand
  have h2 := GenerateCiphertext.write_slotView c cfg (zeroBytes r2.state.msg_length) r2.phase
    r2.state data rand
  rw [hview, hphase, hlen] at h1
  rw [h1] at h2
  unfold unpadded
  rw [← hlen] at h2 ⊢
  rw [← hphase] at h2 ⊢
  revert h2
  cases GenerateCiphertext.write c cfg (zeroBytes r1.state.msg_length) r1.phase r1.state
      data rand with
  | none =>
    cases GenerateCiphertext.write c cfg (zeroBytes r1.state.msg_length) r1.phase r2.state
        data rand with
    | none => intro _; rfl
    | some p => intro h; simp at h
  | some p1 =>
    cases GenerateCiphertext.write c cfg (zeroBytes r1.state.msg_length) r1.phase r2.state
        data rand with
    | none => intro h; simp at h
    | some p2 =>
      intro h
      simp only [Option.map_some', Option.some.injEq] at h
      simp only [h]

/-! ## One ciphertext, byte by byte -/

/-- Byte `k` of the XOR of the pads derived from a list of base seeds. -/
theorem pads_getD (c : Crypto) (phase : Nat) (nonce : QByteArray) (L : Nat)
    (seeds : List QByteArray) (k : Nat) :
    xsum ((((seeds.filter (fun base_seed => !base_seed.isEmpty)).map
        (fun base_seed => c.ComputeHash (base_seed ++ WriteInt phase (zeroBytes 4) 0 ++ nonce))).map
        (fun s => c.GenerateBlock s L)).map (fun x => x.getD k 0)) =
    xsum (seeds.map (fun s => (pad c phase nonce L s).getD k 0)) := by
  induction seeds with
  | nil => rfl
  | cons s rest ih =>
    by_cases hs : s.isEmpty = true
    · simp only [List.filter_cons, hs, Bool.not_true, Bool.false_eq_true, if_false,
        List.map_cons, xsum_cons, pad, if_true, zeroBytes_getD]
      rw [ih]
      simp [pad]
    · simp only [List.filter_cons, hs, Bool.not_false, if_true, List.map_cons, xsum_cons,
        pad, if_false]
      rw [ih]
      simp [pad]

/-- A ciphertext is, byte by byte, the XOR of the blocks of the generators
and of the contribution without pads. -/
theorem GenerateCiphertext_getD (c : Crypto) (cfg : Config) (r : Round) (data : QByteArray)
    (rand : List QByteArray) (ct : QByteArray) (r' : Round)
    (h : GenerateCiphertext c cfg r data rand = some (ct, r')) :
    ct.length = r.state.msg_length ∧
    (unpadded c cfg r data rand).length = r.state.msg_length ∧
    ∀ k, k < r.state.msg_length → ct.getD k 0 =
      xsum ((r.state.anonymous_rngs.map
        (fun s => c.GenerateBlock s r.state.msg_length)).map (fun x => x.getD k 0)) ^^^
      (unpadded c cfg r data rand).getD k 0 := by
  unfold GenerateCiphertext at h
  obtain ⟨logs, hp⟩ := GenerateCiphertext.pads_spec c r.state.anonymous_rngs 0
    (zeroBytes r.state.msg_length) r
  rw [hp] at h
  simp only [] at h
  have hst : (withLogs r logs).state = r.state := rfl
  have hph : (withLogs r logs).phase = r.phase := rfl
  rw [hst, hph] at h
  cases hw : GenerateCiphertext.write c cfg
      ((r.state.anonymous_rngs.map (fun s => c.GenerateBlock s r.state.msg_length)).foldl
        (fun acc x => Xor acc acc x) (zeroBytes r.state.msg_length)) r.phase r.state data rand with
  | none => simp [hw] at h
  | some p =>
    obtain ⟨ct0, st'⟩ := p
    rw [hw] at h
    simp only [Option.some.injEq, Prod.mk.injEq] at h
    obtain ⟨rfl, -⟩ := h
    obtain ⟨u, hu, l1, l2, hk⟩ := GenerateCiphertext.write_decompose _ _ _ _ _ _ _ _ _ hw
    have hlen : ((r.state.anonymous_rngs.map
        (fun s => c.GenerateBlock s r.state.msg_length)).foldl
        (fun acc x => Xor acc acc x) (zeroBytes r.state.msg_length)).length
        = r.state.msg_length := by
      rw [foldl_Xor_length]; simp [zeroBytes]
    rw [hlen] at hu l1 l2
    have hun : unpadded c cfg r data rand = u := by
      unfold unpadded; rw [hu]
    refine ⟨l1, by rw [hun]; exact l2, ?_⟩
    intro k hk'
    rw [hk k, hun, foldl_Xor_getD _ _ _ (by simpa [zeroBytes] using hk'), zeroBytes_getD]
    simp

theorem SetupRngs_client (c : Crypto) (r : Round) (hclient : r.IsServer = false) :
    ∃ rngs, SetupRngs c r = some { r with state.anonymous_rngs := rngs } ∧
      rngs = (r.state.base_seeds.filter (fun base_seed => !base_seed.isEmpty)).map
        (fun base_seed =>
          c.ComputeHash (base_seed ++ WriteInt r.phase (zeroBytes 4) 0 ++ r.nonce)) :=
  ⟨_, by simp only [SetupRngs, hclient, Bool.false_eq_true, if_false], rfl⟩

theorem SubmitClientCiphertext_getD (c : Crypto) (cfg : Config) (r : Round)
    (data : QByteArray) (rand : List QByteArray) (ct : QByteArray) (r' : Round)
    (hclient : r.IsServer = false)
    (h : SubmitClientCiphertext c cfg r data rand = some (ct, r')) :
    ct.length = r.state.msg_length ∧
    (unpadded c cfg r data rand).length = r.state.msg_length ∧
    ∀ k, k < r.state.msg_length → ct.getD k 0 =
      xsum (r.state.base_seeds.map
        (fun s => (pad c r.phase r.nonce r.state.msg_length s).getD k 0)) ^^^
      (unpadded c cfg r data rand).getD k 0 := by
  unfold SubmitClientCiphertext at h
  obtain ⟨rngs, hs, hr⟩ := SetupRngs_client c r hclient
  rw [hs] at h
  simp only [] at h
  cases hg : GenerateCiphertext c cfg { r with state.anonymous_rngs := rngs } data rand with
  | none => simp [hg] at h
  | some p =>
    obtain ⟨ct0, r2⟩ := p
    simp only [hg, Option.some.injEq, Prod.mk.injEq] at h
    obtain ⟨rfl, -⟩ := h
    obtain ⟨l1, l2, hk⟩ := GenerateCiphertext_getD c cfg _ data rand _ _ hg
    have hun := unpadded_congr c cfg { r with state.anonymous_rngs := rngs } r data rand
      rfl rfl rfl
    rw [hun] at l2 hk
    refine ⟨l1, l2, ?_⟩
    intro k hk'
    rw [hk k hk']
    simp only []
    rw [hr, pads_getD]

theorem included_cons (h : Bool) (hs : List Bool) :
    included (h :: hs) = (if h then [0] else []) ++ (included hs).map (· + 1) := by
  unfold included
  rw [List.length_cons, List.range_succ_eq_map, List.filter_cons, List.filter_map]
  cases h <;> simp [Function.comp_def]

theorem SetupRngs.seeds_spec (bs : List QByteArray) (hs : List Bool) (idx : Nat)
    (seeds : List QByteArray) (g : QMap Nat) (seeds' : List QByteArray) (g' : QMap Nat)
    (h : SetupRngs.seeds bs hs idx seeds g = some (seeds', g')) :
    seeds' = seeds ++ (included hs).map (fun i => bs.getD (i + idx) []) := by
  induction hs generalizing idx seeds g with
  | nil =>
    simp only [SetupRngs.seeds, Option.some.injEq, Prod.mk.injEq] at h
    simp [included, h.1]
  | cons b rest ih =>
    rw [included_cons]
    cases b with
    | false =>
      simp only [SetupRngs.seeds, Bool.not_false, if_true] at h
      rw [ih _ _ _ h]
      simp only [Bool.false_eq_true, if_false, List.nil_append, List.map_map]
      congr 1
      apply List.map_congr_left
      intro i _
      simp only [Function.comp]
      congr 1; omega
    | true =>
      simp only [SetupRngs.seeds, Bool.not_true, Bool.false_eq_true, if_false,
        List.get?_eq_getElem?] at h
      cases hget : bs[idx]? with
      | none => simp [hget] at h
      | some s =>
        simp only [hget] at h
        rw [ih _ _ _ h]
        simp only [if_true, List.append_assoc, List.singleton_append, List.map_cons,
          List.map_map, Nat.zero_add, List.cons_append, List.nil_append]
        congr 1
        have hs : bs.getD idx [] = s := by
          rw [List.getD_eq_getElem?_getD, hget]; rfl
        rw [hs]
        congr 1
        apply List.map_congr_left
        intro i _
        simp only [Function.comp]
        congr 1; omega

theorem SetupRngs_server (c : Crypto) (r r1 : Round) (hserver : r.IsServer = true)
    (h : SetupRngs c r = some r1) :
    r1.state.anonymous_rngs =
      (((included r.server_state.handled_clients).map
          (fun i => r.state.base_seeds.getD i [])).filter
          (fun base_seed => !base_seed.isEmpty)).map
        (fun base_seed =>
          c.ComputeHash (base_seed ++ WriteInt r.phase (zeroBytes 4) 0 ++ r.nonce)) ∧
    slotView r1.state = slotView r.state ∧ r1.state.msg_length = r.state.msg_length ∧
    r1.phase = r.phase ∧ r1.IsServer = true ∧
    r1.server_state.handled_clients = r.server_state.handled_clients ∧
    r1.server_state.client_ciphertexts = r.server_state.client_ciphertexts := by
  simp only [SetupRngs, hserver, if_true] at h
  cases hs : SetupRngs.seeds r.state.base_seeds r.server_state.handled_clients 0 [] [] with
  | none => simp [hs] at h
  | some p =>
    obtain ⟨seeds, g⟩ := p
    simp only [hs, Option.some.injEq] at h
    have := SetupRngs.seeds_spec _ _ _ _ _ _ _ hs
    simp only [List.nil_append, Nat.add_zero] at this
    subst h
    subst this
    exact ⟨rfl, rfl, rfl, rfl, rfl, rfl, rfl⟩

theorem GenerateCiphertext.write_no_slot (c : Crypto) (cfg : Config) (x : QByteArray)
    (phase : Nat) (st : State) (data : QByteArray) (rand : List QByteArray)
    (ct : QByteArray) (st' : State) (hidx : st.my_idx < 0)
    (h : GenerateCiphertext.write c cfg x phase st data rand = some (ct, st')) : ct = x := by
  unfold GenerateCiphertext.write at h
  cases hopen : st.slot_open
  · simp only [hopen, Bool.false_eq_true, if_false] at h
    have hcd : (CheckData st data).2.my_idx = st.my_idx := by
      unfold CheckData
      cases st.next_msg.isEmpty <;> simp
    revert hcd h
    cases CheckData st data with
    | mk b q =>
      intro h hcd
      cases b with
      | false =>
        simp only [Option.some.injEq, Prod.mk.injEq] at h
        exact h.1.symm
      | true =>
        have hq : q.my_idx < 0 := by rw [show q.my_idx = st.my_idx from hcd]; exact hidx
        simp [hq] at h
  · simp only [hopen, if_true] at h
    have hb : GenerateSlotMessage.build c cfg phase st data rand = none := by
      unfold GenerateSlotMessage.build
      cases st.read <;> simp [SlotHeaderLength, hidx]
    simp [hb] at h

/-- A participant that owns no slot (`my_idx < 0`) contributes nothing of
its own whenever `GenerateCiphertext` has a result. -/
theorem unpadded_no_slot (c : Crypto) (cfg : Config) (r : Round) (data : QByteArray)
    (rand : List QByteArray) (ct : QByteArray) (r' : Round) (hidx : r.state.my_idx < 0)
    (h : GenerateCiphertext c cfg r data rand = some (ct, r')) :
    unpadded c cfg r data rand = zeroBytes r.state.msg_length := by
  unfold GenerateCiphertext at h
  obtain ⟨logs, hp⟩ := GenerateCiphertext.pads_spec c r.state.anonymous_rngs 0
    (zeroBytes r.state.msg_length) r
  rw [hp] at h
  simp only [] at h
  have hst : (withLogs r logs).state = r.state := rfl
  have hph : (withLogs r logs).phase = r.phase := rfl
  rw [hst, hph] at h
  cases hw : GenerateCiphertext.write c cfg
      ((r.state.anonymous_rngs.map (fun s => c.GenerateBlock s r.state.msg_length)).foldl
        (fun acc x => Xor acc acc x) (zeroBytes r.state.msg_length)) r.phase r.state data rand with
  | none => simp [hw] at h
  | some p =>
    obtain ⟨ct0, st'⟩ := p
    obtain ⟨u, hu, -, -, -⟩ := GenerateCiphertext.write_decompose _ _ _ _ _ _ _ _ _ hw
    have hlen : ((r.state.anonymous_rngs.map
        (fun s => c.GenerateBlock s r.state.msg_length)).foldl
        (fun acc x => Xor acc acc x) (zeroBytes r.state.msg_length)).length
        = r.state.msg_length := by
      rw [foldl_Xor_length]; simp [zeroBytes]
    rw [hlen] at hu
    have := GenerateCiphertext.write_no_slot _ _ _ _ _ _ _ _ _ hidx hu
    unfold unpadded
    rw [hu, this]

theorem GenerateCiphertext_server_state (c : Crypto) (cfg : Config) (r : Round)
    (data : QByteArray) (rand : List QByteArray) (ct : QByteArray) (r' : Round)
    (h : GenerateCiphertext c cfg r data rand = some (ct, r')) :
    r'.server_state.handled_clients = r.server_state.handled_clients ∧
    r'.server_state.client_ciphertexts = r.server_state.client_ciphertexts := by
  unfold GenerateCiphertext at h
  obtain ⟨logs, hp⟩ := GenerateCiphertext.pads_spec c r.state.anonymous_rngs 0
    (zeroBytes r.state.msg_length) r
  rw [hp] at h
  simp only [] at h
  split at h
  · simp at h
  · simp only [Option.some.injEq, Prod.mk.injEq] at h
    obtain ⟨-, rfl⟩ := h
    exact ⟨rfl, rfl⟩

theorem GenerateServerCiphertext.clients_spec (handled_clients : QBitArray)
    (cc : List (Nat × QByteArray)) (ct : QByteArray)
    (hall : ∀ e ∈ cc, e.1 ∈ included handled_clients) :
    GenerateServerCiphertext.clients handled_clients cc ct =
      some ((cc.map Prod.snd).foldl (fun acc x => Xor acc acc x) ct) := by
  induction cc generalizing ct with
  | nil => rfl
  | cons e rest ih =>
    obtain ⟨idx, text⟩ := e
    have hin := hall (idx, text) (List.mem_cons_self _ _)
    simp only [included, List.mem_filter, List.mem_range] at hin
    have hget : handled_clients.get? idx = some true := by
      rw [List.get?_eq_getElem?, List.getElem?_eq_getElem hin.1]
      have := hin.2
      rw [List.getD_eq_getElem _ _ hin.1] at this
      rw [this]
    simp only [GenerateServerCiphertext.clients, hget, List.map_cons, List.foldl_cons]
    exact ih _ (fun e he => hall e (List.mem_cons_of_mem _ he))

/-- The ciphertext of a server that owns no slot is, byte by byte, the XOR
of its pads with the included clients and of the client ciphertexts it
accepted. -/
theorem SubmitCommit_getD (c : Crypto) (cfg : Config) (r : Round) (data : QByteArray)
    (rand : List QByteArray) (r' : Round) (hserver : r.IsServer = true)
    (hidx : r.state.my_idx < 0)
    (hall : ∀ e ∈ r.server_state.client_ciphertexts,
      e.1 ∈ included r.server_state.handled_clients)
    (h : SubmitCommit c cfg r data rand = some r') :
    r'.server_state.my_ciphertext.length = r.state.msg_length ∧
    ∀ k, k < r.state.msg_length → r'.server_state.my_ciphertext.getD k 0 =
      xsum ((included r.server_state.handled_clients).map (fun i =>
        (pad c r.phase r.nonce r.state.msg_length (r.state.base_seeds.getD i [])).getD k 0)) ^^^
      xsum (r.server_state.client_ciphertexts.map (fun e => e.2.getD k 0)) := by
  unfold SubmitCommit at h
  cases h1 : SetupRngs c r with
  | none => simp [h1] at h
  | some r1 =>
    simp only [h1] at h
    obtain ⟨hrngs, hview, hlen, hphase, -, hH, hcc⟩ := SetupRngs_server c r r1 hserver h1
    have hidx1 : r1.state.my_idx < 0 := by
      have : (slotView r1.state).my_idx = (slotView r.state).my_idx := by rw [hview]
      have e : r1.state.my_idx = r.state.my_idx := this
      rw [e]; exact hidx
    cases h2 : GenerateServerCiphertext c cfg r1 data rand with
    | none => simp [h2] at h
    | some r2 =>
      simp only [h2, Option.some.injEq] at h
      subst h
      unfold GenerateServerCiphertext at h2
      cases h3 : GenerateCiphertext c cfg r1 data rand with
      | none => simp [h3] at h2
      | some p =>
        obtain ⟨ct, r3⟩ := p
        simp only [h3] at h2
        obtain ⟨l1, -, hk⟩ := GenerateCiphertext_getD c cfg r1 data rand ct r3 h3
        obtain ⟨hH3, hcc3⟩ := GenerateCiphertext_server_state c cfg r1 data rand ct r3 h3
        have hun : unpadded c cfg r1 data rand = zeroBytes r.state.msg_length := by
          rw [unpadded_no_slot c cfg r1 data rand ct r3 hidx1 h3, hlen]
        rw [hH3, hH, hcc3, hcc, GenerateServerCiphertext.clients_spec _ _ _ hall] at h2
        simp only [] at h2
        split at h2
        · simp at h2
        · simp only [Option.some.injEq] at h2
          subst h2
          simp only []
          rw [hlen] at l1 hk
          refine ⟨by rw [foldl_Xor_length]; exact l1, ?_⟩
          intro k hk'
          rw [foldl_Xor_getD _ _ _ (by rw [l1]; exact hk'), hk k hk', hun, zeroBytes_getD,
            hrngs, pads_getD]
          simp only [List.map_map, Nat.xor_zero]
          rfl

/-! ## The cleartext of a phase -/

theorem map_eq_map_range {α : Type} (l : List QByteArray) (f : QByteArray → α) :
    l.map f = (List.range l.length).map (fun j => f (l.getD j [])) := by
  apply List.ext_getElem (by simp)
  intro i h1 h2
  simp only [List.length_map] at h1
  simp [List.getElem?_eq_getElem h1]

/-- The cleartext of a phase, byte by byte: every pad enters twice and
cancels, the contributions of the included clients remain. -/
theorem cleartext_getD (c : Crypto) (cfg : Config) (Ns L phase : Nat) (nonce : QByteArray)
    (H : QBitArray)
    (cl : Nat → Round) (cdata : Nat → QByteArray) (crand : Nat → List QByteArray)
    (ct : Nat → QByteArray) (cl' : Nat → Round)
    (sv : Nat → Round) (sdata : Nat → QByteArray) (srand : Nat → List QByteArray)
    (sv' : Nat → Round) (R : Round)
    (hcl : ∀ i ∈ included H, (cl i).IsServer = false ∧ (cl i).state.msg_length = L ∧
      (cl i).phase = phase ∧ (cl i).nonce = nonce ∧ (cl i).state.base_seeds.length = Ns ∧
      SubmitClientCiphertext c cfg (cl i) (cdata i) (crand i) = some (ct i, cl' i))
    (hsv : ∀ j, j < Ns → (sv j).IsServer = true ∧ (sv j).state.msg_length = L ∧
      (sv j).phase = phase ∧ (sv j).nonce = nonce ∧
      (sv j).server_state.handled_clients = H ∧ (sv j).state.my_idx < 0 ∧
      SubmitCommit c cfg (sv j) (sdata j) (srand j) = some (sv' j))
    (hpad : ∀ i ∈ included H, ∀ j, j < Ns →
      pad c phase nonce L ((cl i).state.base_seeds.getD j []) =
        pad c phase nonce L ((sv j).state.base_seeds.getD i []))
    (hacc : List.Perm
      ((List.range Ns).flatMap (fun j => (sv j).server_state.client_ciphertexts))
      ((included H).map (fun i => (i, ct i))))
    (hR : R.state.msg_length = L)
    (hrev : List.Perm R.server_state.server_ciphertexts
      ((List.range Ns).map (fun j => (j, (sv' j).server_state.my_ciphertext)))) :
    (SubmitValidation c R).state.cleartext.length = L ∧
    ∀ k, k < L → (SubmitValidation c R).state.cleartext.getD k 0 =
      xsum ((included H).map
        (fun i => (unpadded c cfg (cl i) (cdata i) (crand i)).getD k 0)) := by
  have hclear : (SubmitValidation c R).state.cleartext =
      xorAll L (R.server_state.server_ciphertexts.map Prod.snd) := by
    simp [SubmitValidation, SubmitValidation.cleartext, xorAll, QMap.values, hR]
  rw [hclear]
  refine ⟨xorAll_length _ _, ?_⟩
  intro k hk
  rw [xorAll_getD _ _ _ hk]
  simp only [List.map_map]
  -- the revealed ciphertexts, server by server
  have hall : ∀ j, j < Ns → ∀ e ∈ (sv j).server_state.client_ciphertexts,
      e.1 ∈ included (sv j).server_state.handled_clients := by
    intro j hj e he
    rw [(hsv j hj).2.2.2.2.1]
    have hmem : e ∈ (List.range Ns).flatMap (fun j => (sv j).server_state.client_ciphertexts) :=
      List.mem_flatMap.mpr ⟨j, List.mem_range.mpr hj, he⟩
    have := hacc.mem_iff.mp hmem
    obtain ⟨i, hi, rfl⟩ := List.mem_map.mp this
    exact hi
  have hserver : ∀ j ∈ List.range Ns,
      ((fun x : QByteArray => x.getD k 0) ∘ Prod.snd)
        (j, (sv' j).server_state.my_ciphertext) =
      xsum ((included H).map (fun i =>
        (pad c phase nonce L ((sv j).state.base_seeds.getD i [])).getD k 0)) ^^^
      xsum ((sv j).server_state.client_ciphertexts.map (fun e => e.2.getD k 0)) := by
    intro j hj
    have hj' := List.mem_range.mp hj
    obtain ⟨h1, h2, h3, h4, h5, h6, h8⟩ := hsv j hj'
    obtain ⟨-, hb⟩ := SubmitCommit_getD c cfg (sv j) (sdata j) (srand j) (sv' j) h1 h6
      (hall j hj') h8
    have := hb k (by rw [h2]; exact hk)
    rw [h2, h3, h4, h5] at this
    simpa using this
  have hclient : ∀ i ∈ included H, (ct i).getD k 0 =
      xsum ((List.range Ns).map (fun j =>
        (pad c phase nonce L ((sv j).state.base_seeds.getD i [])).getD k 0)) ^^^
      (unpadded c cfg (cl i) (cdata i) (crand i)).getD k 0 := by
    intro i hi
    obtain ⟨h1, h2, h3, h4, h5, h6⟩ := hcl i hi
    obtain ⟨-, -, hb⟩ := SubmitClientCiphertext_getD c cfg (cl i) (cdata i) (crand i) (ct i)
      (cl' i) h1 h6
    have := hb k (by rw [h2]; exact hk)
    rw [h2, h3, h4, map_eq_map_range, h5] at this
    rw [this]
    congr 1
    apply xsum_congr
    intro j hj
    rw [hpad i hi j (List.mem_range.mp hj)]
  calc xsum (R.server_state.server_ciphertexts.map ((fun x => x.getD k 0) ∘ Prod.snd))
      = xsum (((List.range Ns).map (fun j => (j, (sv' j).server_state.my_ciphertext))).map
          ((fun x => x.getD k 0) ∘ Prod.snd)) := xsum_perm (hrev.map _)
    _ = xsum ((List.range Ns).map (fun j =>
          xsum ((included H).map (fun i =>
            (pad c phase nonce L ((sv j).state.base_seeds.getD i [])).getD k 0)) ^^^
          xsum ((sv j).server_state.client_ciphertexts.map (fun e => e.2.getD k 0)))) := by
        rw [List.map_map]
        exact xsum_congr _ _ _ hserver
    _ = xsum ((List.range Ns).map (fun j =>
          xsum ((included H).map (fun i =>
            (pad c phase nonce L ((sv j).state.base_seeds.getD i [])).getD k 0)))) ^^^
        xsum (((List.range Ns).flatMap
          (fun j => (sv j).server_state.client_ciphertexts)).map (fun e => e.2.getD k 0)) := by
        rw [xsum_map_xor]
        congr 1
        rw [List.map_flatMap, xsum_flatMap]
    _ = xsum ((List.range Ns).map (fun j =>
          xsum ((included H).map (fun i =>
            (pad c phase nonce L ((sv j).state.base_seeds.getD i [])).getD k 0)))) ^^^
        xsum (((included H).map (fun i => (i, ct i))).map (fun e => e.2.getD k 0)) := by
        rw [xsum_perm (hacc.map _)]
    _ = xsum ((List.range Ns).map (fun j =>
          xsum ((included H).map (fun i =>
            (pad c phase nonce L ((sv j).state.base_seeds.getD i [])).getD k 0)))) ^^^
        (xsum ((included H).map (fun i => xsum ((List.range Ns).map (fun j =>
            (pad c phase nonce L ((sv j).state.base_seeds.getD i [])).getD k 0)))) ^^^
          xsum ((included H).map
            (fun i => (unpadded c cfg (cl i) (cdata i) (crand i)).getD k 0))) := by
        congr 1
        rw [List.map_map, ← xsum_map_xor]
        exact xsum_congr _ _ _ hclient
    _ = xsum ((included H).map
          (fun i => (unpadded c cfg (cl i) (cdata i) (crand i)).getD k 0)) := by
        rw [xsum_swap (included H) (List.range Ns), ← Nat.xor_assoc, Nat.xor_self,
          Nat.zero_xor]

/-- C1. DC-net reconstruction. In a phase with `Ns` servers, let every
included client submit the ciphertext `SubmitClientCiphertext` builds and
every server, holding the same `handled_clients` and owning no anonymous
slot (`my_idx < 0`, as `ProcessKeyShuffle` leaves it on a server), build its
ciphertext with `SubmitCommit` (`SetupRngs`, then `GenerateServerCiphertext`).
If each included client's ciphertext is accepted by exactly one server and
the pad a client derives for a server equals the pad that server derives for
that client, then the cleartext `SubmitValidation` computes as the XOR of all
server ciphertexts is the XOR of the included clients' contributions without
pads (their bitmap flips and slot messages). -/
theorem SubmitValidation_cleartext (c : Crypto) (cfg : Config) (Ns L phase : Nat)
    (nonce : QByteArray) (H : QBitArray)
    (cl : Nat → Round) (cdata : Nat → QByteArray) (crand : Nat → List QByteArray)
    (ct : Nat → QByteArray) (cl' : Nat → Round)
    (sv : Nat → Round) (sdata : Nat → QByteArray) (srand : Nat → List QByteArray)
    (sv' : Nat → Round) (R : Round)
    (hcl : ∀ i ∈ included H, (cl i).IsServer = false ∧ (cl i).state.msg_length = L ∧
      (cl i).phase = phase ∧ (cl i).nonce = nonce ∧ (cl i).state.base_seeds.length = Ns ∧
      SubmitClientCiphertext c cfg (cl i) (cdata i) (crand i) = some (ct i, cl' i))
    (hsv : ∀ j, j < Ns → (sv j).IsServer = true ∧ (sv j).state.msg_length = L ∧
      (sv j).phase = phase ∧ (sv j).nonce = nonce ∧
      (sv j).server_state.handled_clients = H ∧ (sv j).state.my_idx < 0 ∧
      SubmitCommit c cfg (sv j) (sdata j) (srand j) = some (sv' j))
    (hpad : ∀ i ∈ included H, ∀ j, j < Ns →
      pad c phase nonce L ((cl i).state.base_seeds.getD j []) =
        pad c phase nonce L ((sv j).state.base_seeds.getD i []))
    (hacc : List.Perm
      ((List.range Ns).flatMap (fun j => (sv j).server_state.client_ciphertexts))
      ((included H).map (fun i => (i, ct i))))
    (hR : R.state.msg_length = L)
    (hrev : List.Perm R.server_state.server_ciphertexts
      ((List.range Ns).map (fun j => (j, (sv' j).server_state.my_ciphertext)))) :
    (SubmitValidation c R).state.cleartext =
      xorAll L ((included H).map (fun i => unpadded c cfg (cl i) (cdata i) (crand i))) := by
  obtain ⟨hlen, hbytes⟩ := cleartext_getD c cfg Ns L phase nonce H cl cdata crand ct cl'
    sv sdata srand sv' R hcl hsv hpad hacc hR hrev
  apply bytes_ext _ _ L hlen (xorAll_length _ _)
  intro k hk
  rw [hbytes k hk, xorAll_getD _ _ _ hk, List.map_map]
  rfl

theorem SubmitValidation_cleartext_witness :
    (SubmitValidation toyCrypto (revealed twoClients)).state.cleartext =
      xorAll 1 ((included [true, true]).map
        (fun i => unpadded toyCrypto {} (twoClients i) [] [])) :=
  SubmitValidation_cleartext toyCrypto {} 1 1 0 [] [true, true]
    twoClients (fun _ => []) (fun _ => [])
    (fun i => (submitted twoClients i).1) (fun i => (submitted twoClients i).2)
    (fun _ => oneServer twoClients) (fun _ => []) (fun _ => []) (fun _ => committed twoClients)
    (revealed twoClients)
    (by decide) (by decide) (by decide) (by decide) (by decide) (by decide)

/-- C8. Unlinkability as permutation invariance. Take two executions of one
phase with the same included clients `H`, in which the roster clients are
permuted over the anonymous slots by `π`: in the second execution client
`π i` holds the slot that client `i` holds in the first, that is the same
slot index and layout, the same pending messages and flags, the same data
and the same seed drawn for the slot message. Then the cleartexts the
servers compute in `SubmitValidation` are identical. -/
theorem SubmitValidation_cleartext_permuted (c : Crypto) (cfg : Config) (Ns L phase : Nat)
    (nonce : QByteArray) (H : QBitArray) (e1 e2 : Execution) (π : Nat → Nat)
    (h1 : e1.completed c cfg Ns L phase nonce H)
    (h2 : e2.completed c cfg Ns L phase nonce H)
    (hπ : List.Perm ((included H).map π) (included H))
    (hslot : ∀ i ∈ included H,
      slotView (e2.cl (π i)).state = slotView (e1.cl i).state ∧
      e2.cdata (π i) = e1.cdata i ∧ e2.crand (π i) = e1.crand i) :
    (SubmitValidation c e1.R).state.cleartext = (SubmitValidation c e2.R).state.cleartext := by
  obtain ⟨a1, a2, a3, a4, a5, a6⟩ := h1
  obtain ⟨b1, b2, b3, b4, b5, b6⟩ := h2
  obtain ⟨hlen1, hb1⟩ := cleartext_getD c cfg Ns L phase nonce H e1.cl e1.cdata e1.crand
    e1.ct e1.cl' e1.sv e1.sdata e1.srand e1.sv' e1.R a1 a2 a3 a4 a5 a6
  obtain ⟨hlen2, hb2⟩ := cleartext_getD c cfg Ns L phase nonce H e2.cl e2.cdata e2.crand
    e2.ct e2.cl' e2.sv e2.sdata e2.srand e2.sv' e2.R b1 b2 b3 b4 b5 b6
  apply bytes_ext _ _ L hlen1 hlen2
  intro k hk
  rw [hb1 k hk, hb2 k hk]
  have hperm := xsum_perm ((hπ.map
    (fun i => (unpadded c cfg (e2.cl i) (e2.cdata i) (e2.crand i)).getD k 0)))
  rw [← hperm, List.map_map]
  apply xsum_congr
  intro i hi
  have hmem : π i ∈ included H := hπ.mem_iff.mp (List.mem_map.mpr ⟨i, hi, rfl⟩)
  obtain ⟨hv, hd, hr⟩ := hslot i hi
  obtain ⟨-, l1, p1, -⟩ := a1 i hi
  obtain ⟨-, l2, p2, -⟩ := b1 (π i) hmem
  simp only [Function.comp]
  rw [hd, hr, unpadded_congr c cfg (e2.cl (π i)) (e1.cl i) _ _ hv (by rw [p1, p2])
    (by rw [l1, l2])]

theorem SubmitValidation_cleartext_permuted_witness :
    (SubmitValidation toyCrypto (twoClientPhase twoClients).R).state.cleartext =
      (SubmitValidation toyCrypto (twoClientPhase twoClientsSwapped).R).state.cleartext :=
  SubmitValidation_cleartext_permuted toyCrypto {} 1 1 0 [] [true, true]
    (twoClientPhase twoClients) (twoClientPhase twoClientsSwapped) (fun i => 1 - i)
    (by decide) (by decide) (by decide) (by decide)

/-! ## The transition tables -/

/-- C20. Transition tables: the edges configured with `AddTransition` give
every state at most one successor, for a server and for a client, and they
are the specified chains: the bootstrap chain and the edge into the blame
shuffle set up by the constructor, then for a server the bulk cycle through
`SERVER_PUSH_CLEARTEXT` (the cycle state) back to
`SERVER_WAIT_FOR_CLIENT_CIPHERTEXT` and the blame chain up to
`SERVER_SHARE_VERDICT`, which has no successor; for a client the edge into
`CLIENT_WAIT_FOR_CLEARTEXT`, its loop on itself (the cycle state) and the edge
into `WAITING_FOR_DATA_REQUEST_OR_VERDICT`. There is no other edge. -/
theorem transitions_chains :
    (∀ isServer, ∀ e1 ∈ transitions isServer, ∀ e2 ∈ transitions isServer,
      e1.1 = e2.1 → e1.2 = e2.2) ∧
    (∀ isServer,
      nextState isServer States.OFFLINE = some States.SHUFFLING ∧
      nextState isServer States.SHUFFLING = some States.PROCESS_BOOTSTRAP ∧
      nextState isServer States.PROCESS_BOOTSTRAP = some States.PREPARE_FOR_BULK ∧
      nextState isServer States.STARTING_BLAME_SHUFFLE
        = some States.WAITING_FOR_BLAME_SHUFFLE) ∧
    (nextState true States.PREPARE_FOR_BULK = some States.SERVER_WAIT_FOR_CLIENT_CIPHERTEXT ∧
      nextState true States.SERVER_WAIT_FOR_CLIENT_CIPHERTEXT
        = some States.SERVER_WAIT_FOR_CLIENT_LISTS ∧
      nextState true States.SERVER_WAIT_FOR_CLIENT_LISTS
        = some States.SERVER_WAIT_FOR_SERVER_COMMITS ∧
      nextState true States.SERVER_WAIT_FOR_SERVER_COMMITS
        = some States.SERVER_WAIT_FOR_SERVER_CIPHERTEXT ∧
      nextState true States.SERVER_WAIT_FOR_SERVER_CIPHERTEXT
        = some States.SERVER_WAIT_FOR_SERVER_VALIDATION ∧
      nextState true States.SERVER_WAIT_FOR_SERVER_VALIDATION
        = some States.SERVER_PUSH_CLEARTEXT ∧
      nextState true States.SERVER_PUSH_CLEARTEXT
        = some States.SERVER_WAIT_FOR_CLIENT_CIPHERTEXT ∧
      cycleState true = States.SERVER_PUSH_CLEARTEXT) ∧
    (nextState true States.WAITING_FOR_BLAME_SHUFFLE = some States.SERVER_TRANSMIT_BLAME_BITS ∧
      nextState true States.SERVER_TRANSMIT_BLAME_BITS
        = some States.SERVER_WAITING_FOR_BLAME_BITS ∧
      nextState true States.SERVER_WAITING_FOR_BLAME_BITS
        = some States.SERVER_REQUEST_CLIENT_REBUTTAL ∧
      nextState true States.SERVER_REQUEST_CLIENT_REBUTTAL
        = some States.SERVER_WAIT_FOR_CLIENT_REBUTTAL ∧
      nextState true States.SERVER_WAIT_FOR_CLIENT_REBUTTAL
        = some States.SERVER_EXCHANGE_VERDICT_SIGNATURE ∧
      nextState true States.SERVER_EXCHANGE_VERDICT_SIGNATURE
        = some States.SERVER_WAIT_FOR_VERDICT_SIGNATURE ∧
      nextState true States.SERVER_WAIT_FOR_VERDICT_SIGNATURE
        = some States.SERVER_SHARE_VERDICT ∧
      nextState true States.SERVER_SHARE_VERDICT = none) ∧
    (nextState false States.PREPARE_FOR_BULK = some States.CLIENT_WAIT_FOR_CLEARTEXT ∧
      nextState false States.CLIENT_WAIT_FOR_CLEARTEXT
        = some States.CLIENT_WAIT_FOR_CLEARTEXT ∧
      cycleState false = States.CLIENT_WAIT_FOR_CLEARTEXT ∧
      nextState false States.WAITING_FOR_BLAME_SHUFFLE
        = some States.WAITING_FOR_DATA_REQUEST_OR_VERDICT ∧
      nextState false States.WAITING_FOR_DATA_REQUEST_OR_VERDICT = none) ∧
    (transitions true).length = 18 ∧ (transitions false).length = 7 := by
  refine ⟨?_, ?_, ?_, ?_, ?_, ?_, ?_⟩
  · intro isServer
    cases isServer <;> decide
  · intro isServer
    cases isServer <;> decide
  · decide
  · decide
  · decide
  · decide
  · decide

/-! ## Validation signatures -/

theorem QMap.find_insert_self {V : Type} (k : Nat) (v : V) (m : QMap V) :
    QMap.find k (QMap.insert k v m) = some v := by
  induction m with
  | nil => simp [QMap.insert, QMap.find]
  | cons e rest ih =>
    obtain ⟨k', v'⟩ := e
    by_cases h1 : k < k'
    · simp [QMap.insert, h1, QMap.find]
    · by_cases h2 : k = k'
      · simp [QMap.insert, h1, h2, QMap.find]
      · simp [QMap.insert, h1, h2, QMap.find, ih]

theorem QMap.find_insert_ne {V : Type} (k k' : Nat) (v : V) (m : QMap V) (h : k ≠ k') :
    QMap.find k (QMap.insert k' v m) = QMap.find k m := by
  induction m with
  | nil => simp [QMap.insert, QMap.find, h]
  | cons e rest ih =>
    obtain ⟨k'', v''⟩ := e
    by_cases h1 : k' < k''
    · simp [QMap.insert, h1, QMap.find, h]
    · by_cases h2 : k' = k''
      · subst h2
        simp [QMap.insert, QMap.find, h]
      · simp only [QMap.insert, h1, h2, if_false, QMap.find, ih]

theorem Roster.Contains_iff (ro : Roster) (s : Id) :
    ro.Contains s = true ↔ s ∈ ro.map (fun p => p.id) := by
  simp only [Roster.Contains, List.any_eq_true, beq_iff_eq, List.mem_map]

/-- In a roster without repeated ids, the lookups by id and by index agree. -/
theorem Roster.lookup_of_nodup (ro : Roster) (i : Nat) (p : PublicIdentity)
    (hnd : (ro.map (fun p => p.id)).Nodup) (hp : ro[i]? = some p) :
    ro.GetIndex p.id = i ∧ ro.GetKeyOf p.id = some p.key ∧ ro.GetKey i = some p.key := by
  induction ro generalizing i with
  | nil => simp at hp
  | cons q rest ih =>
    simp only [List.map_cons, List.nodup_cons, List.mem_map, not_exists, not_and] at hnd
    cases i with
    | zero =>
      simp only [List.getElem?_cons_zero, Option.some.injEq] at hp
      subst hp
      simp [Roster.GetIndex, Roster.GetKeyOf, Roster.GetIdentity, Roster.GetKey, List.findIdx_cons]
    | succ i =>
      simp only [List.getElem?_cons_succ] at hp
      obtain ⟨h1, h2, h3⟩ := ih i hnd.2 hp
      have hne : q.id ≠ p.id := fun h => hnd.1 p (List.getElem?_mem hp) h.symm
      have hne' : (q.id == p.id) = false := by simpa using hne
      refine ⟨?_, ?_, ?_⟩
      · simp only [Roster.GetIndex] at h1 ⊢
        simp [List.findIdx_cons, hne', h1]
      · simp only [Roster.GetKeyOf, Roster.GetIdentity] at h2 ⊢
        simp [List.find?_cons, hne', h2]
      · simp only [Roster.GetKey] at h3 ⊢
        simpa using h3

/-- A duplicate-free set of roster ids with as many members as the roster
has entries is the whole roster, and the roster has no repeated id. -/
theorem Roster.all_counted (ro : Roster) (handled : List Id) (hnd : handled.Nodup)
    (hsub : ∀ s ∈ handled, ro.Contains s = true) (hlen : handled.length = ro.Count) :
    (ro.map (fun p => p.id)).Nodup ∧ ∀ p ∈ ro, p.id ∈ handled := by
  have hsub' : handled ⊆ ro.map (fun p => p.id) := fun s hs =>
    (Roster.Contains_iff ro s).mp (hsub s hs)
  have hperm : List.Perm handled (ro.map (fun p => p.id)) :=
    (List.subperm_of_subset hnd hsub').perm_of_length_le (by simp [hlen, Roster.Count])
  refine ⟨hperm.nodup_iff.mp hnd, ?_⟩
  intro p hp
  exact hperm.mem_iff.mpr (List.mem_map.mpr ⟨p, hp, rfl⟩)

theorem Roster.GetIndex_inj (ro : Roster) (s t : Id) (hs : ro.Contains s = true)
    (ht : ro.Contains t = true) (h : ro.GetIndex s = ro.GetIndex t) : s = t := by
  have key : ∀ u, ro.Contains u = true →
      ∃ p, ro[ro.GetIndex u]? = some p ∧ p.id = u := by
    intro u hu
    have hex : ∃ x ∈ ro, (fun p : PublicIdentity => p.id == u) x = true := by
      simpa [Roster.Contains] using hu
    have hlt : ro.GetIndex u < ro.length := List.findIdx_lt_length_of_exists hex
    refine ⟨ro[ro.GetIndex u], List.getElem?_eq_getElem hlt, ?_⟩
    have := @List.findIdx_getElem _ (fun p : PublicIdentity => p.id == u) ro hlt
    simpa [Roster.GetIndex] using this
  obtain ⟨p, hp, hps⟩ := key s hs
  obtain ⟨q, hq, hqt⟩ := key t ht
  rw [h, hq] at hp
  cases hp
  rw [← hps, ← hqt]

theorem Roster.GetKeyOf_isSome (ro : Roster) (s : Id) (hs : ro.Contains s = true) :
    ∃ key, ro.GetKeyOf s = some key := by
  simp only [Roster.Contains, List.any_eq_true] at hs
  obtain ⟨p, hp, hps⟩ := hs
  cases hf : ro.find? (fun p => p.id == s) with
  | none =>
    have := List.find?_eq_none.mp hf p hp
    simp [hps] at this
  | some q => exact ⟨q.key, by simp [Roster.GetKeyOf, Roster.GetIdentity, hf]⟩

theorem StateComplete_step (r : Round) (s s' : States) (hserver : r.IsServer = true)
    (hs : r.sm_state = s) (hcycle : s ≠ States.SERVER_PUSH_CLEARTEXT)
    (hnext : nextState true s = some s') :
    StateComplete r =
      some { r with server_state.handled_servers := [], sm_state := s' } := by
  subst hs
  simp [StateComplete, BeforeStateTransition, hserver, cycleState, hcycle, hnext]

/-- One `SERVER_VALIDATION` message handled while the server waits for
validations: the handler returns; it keeps the rosters, the signed hash, the
cleartext and the inclusion bitmap; and either the server still waits, every
counted server is a distinct roster server whose stored signature verifies,
or it has advanced to `SERVER_PUSH_CLEARTEXT` and the signature of every
roster server verifies. -/
theorem HandleServerValidation_step (c : Crypto) (r : Round) (sender : Id)
    (signature : QByteArray) (hserver : r.IsServer = true)
    (hstate : r.sm_state = States.SERVER_WAIT_FOR_SERVER_VALIDATION)
    (hnd : r.server_state.handled_servers.Nodup)
    (hinv : ∀ s ∈ r.server_state.handled_servers, r.servers.Contains s = true ∧
      ∃ key sig, r.servers.GetKeyOf s = some key ∧
        QMap.find (r.servers.GetIndex s) r.server_state.signatures = some sig ∧
        c.Verify key r.server_state.signed_hash sig = true) :
    ∃ o r', HandleServerValidation c r sender signature = some (o, r') ∧
      r'.IsServer = true ∧ r'.servers = r.servers ∧
      r'.server_state.signed_hash = r.server_state.signed_hash ∧
      r'.state.cleartext = r.state.cleartext ∧
      r'.server_state.handled_clients = r.server_state.handled_clients ∧
      ((r'.sm_state = States.SERVER_WAIT_FOR_SERVER_VALIDATION ∧
          r'.server_state.handled_servers.Nodup ∧
          ∀ s ∈ r'.server_state.handled_servers, r'.servers.Contains s = true ∧
            ∃ key sig, r'.servers.GetKeyOf s = some key ∧
              QMap.find (r'.servers.GetIndex s) r'.server_state.signatures = some sig ∧
              c.Verify key r'.server_state.signed_hash sig = true) ∨
        (r'.sm_state = States.SERVER_PUSH_CLEARTEXT ∧
          ∀ i, i < r'.servers.Count → ∃ key sig, r'.servers.GetKey i = some key ∧
            QMap.find i r'.server_state.signatures = some sig ∧
            c.Verify key r'.server_state.signed_hash sig = true)) := by
  unfold HandleServerValidation
  simp only [hserver, Bool.not_true, Bool.false_eq_true, if_false]
  by_cases hc : r.servers.Contains sender = true
  swap
  · have hc' : r.servers.Contains sender = false := by simpa using hc
    simp only [hc', Bool.not_false, if_true]
    exact ⟨_, _, rfl, hserver, rfl, rfl, rfl, rfl, Or.inl ⟨hstate, hnd, hinv⟩⟩
  simp only [hc, Bool.not_true, Bool.false_eq_true, if_false]
  by_cases hdup : r.server_state.handled_servers.contains sender = true
  · simp only [hdup, if_true]
    exact ⟨_, _, rfl, hserver, rfl, rfl, rfl, rfl, Or.inl ⟨hstate, hnd, hinv⟩⟩
  have hdup' : r.server_state.handled_servers.contains sender = false := by simpa using hdup
  have hnotin : sender ∉ r.server_state.handled_servers := by simpa using hdup
  simp only [hdup', Bool.false_eq_true, if_false]
  obtain ⟨key, hkey⟩ := Roster.GetKeyOf_isSome r.servers sender hc
  simp only [hkey]
  cases hv : c.Verify key r.server_state.signed_hash signature with
  | false =>
    simp only [Bool.not_false, if_true]
    exact ⟨_, _, rfl, hserver, rfl, rfl, rfl, rfl, Or.inl ⟨hstate, hnd, hinv⟩⟩
  | true =>
    simp only [Bool.not_true, Bool.false_eq_true, if_false, QSet.insert, hdup']
    -- the invariant after the signature is stored
    have hnd' : (r.server_state.handled_servers ++ [sender]).Nodup := by
      rw [List.nodup_append]
      refine ⟨hnd, List.nodup_singleton _, ?_⟩
      intro a ha hb
      simp only [List.mem_singleton] at hb
      subst hb
      exact hnotin ha
    have hinv' : ∀ s ∈ r.server_state.handled_servers ++ [sender],
        r.servers.Contains s = true ∧
        ∃ key sig, r.servers.GetKeyOf s = some key ∧
          QMap.find (r.servers.GetIndex s)
            (QMap.insert (r.servers.GetIndex sender) signature r.server_state.signatures)
              = some sig ∧
          c.Verify key r.server_state.signed_hash sig = true := by
      intro s hs
      rcases List.mem_append.mp hs with h | h
      · obtain ⟨h1, k, sg, h2, h3, h4⟩ := hinv s h
        refine ⟨h1, k, sg, h2, ?_, h4⟩
        rw [QMap.find_insert_ne _ _ _ _ ?_, h3]
        intro heq
        have := Roster.GetIndex_inj r.servers s sender h1 hc heq
        subst this
        exact hnotin h
      · simp only [List.mem_singleton] at h
        subst h
        exact ⟨hc, key, signature, hkey, QMap.find_insert_self _ _ _, hv⟩
    by_cases hcount : (r.server_state.handled_servers ++ [sender]).length = r.servers.Count
    · simp only [hcount, if_true]
      have hsc : ∀ x : Round, x.IsServer = true →
          x.sm_state = States.SERVER_WAIT_FOR_SERVER_VALIDATION →
          StateComplete x = some { x with server_state.handled_servers := [],
                                          sm_state := States.SERVER_PUSH_CLEARTEXT } :=
        fun x h1 h2 => StateComplete_step x _ _ h1 h2 (by decide) (by decide)
      simp only [hsc, hstate, Option.map_some']
      refine ⟨_, _, rfl, rfl, rfl, rfl, rfl, rfl, Or.inr ⟨rfl, ?_⟩⟩
      intro i hi
      obtain ⟨hids, hall⟩ := Roster.all_counted r.servers _ hnd' (fun s hs => (hinv' s hs).1) hcount
      have hi' : i < r.servers.length := hi
      have hp : r.servers[i]? = some r.servers[i] := List.getElem?_eq_getElem hi'
      obtain ⟨e1, e2, e3⟩ := Roster.lookup_of_nodup r.servers i _ hids hp
      obtain ⟨-, k, sg, h2, h3, h4⟩ := hinv' _ (hall _ (List.getElem_mem hi'))
      rw [e2] at h2
      cases h2
      rw [e1] at h3
      exact ⟨_, sg, e3, h3, h4⟩
    · simp only [hcount, if_false]
      exact ⟨_, _, rfl, rfl, rfl, rfl, rfl, rfl, Or.inl ⟨hstate, hnd', hinv'⟩⟩

/-- A run of `SERVER_VALIDATION` messages keeps what one message keeps. -/
theorem validations_inv (c : Crypto) (msgs : List (Id × QByteArray)) (r : Round)
    (hserver : r.IsServer = true)
    (hinv : (r.sm_state = States.SERVER_WAIT_FOR_SERVER_VALIDATION ∧
          r.server_state.handled_servers.Nodup ∧
          ∀ s ∈ r.server_state.handled_servers, r.servers.Contains s = true ∧
            ∃ key sig, r.servers.GetKeyOf s = some key ∧
              QMap.find (r.servers.GetIndex s) r.server_state.signatures = some sig ∧
              c.Verify key r.server_state.signed_hash sig = true) ∨
        (r.sm_state = States.SERVER_PUSH_CLEARTEXT ∧
          ∀ i, i < r.servers.Count → ∃ key sig, r.servers.GetKey i = some key ∧
            QMap.find i r.server_state.signatures = some sig ∧
            c.Verify key r.server_state.signed_hash sig = true)) :
    ∃ r', validations c msgs r = some r' ∧
      r'.servers = r.servers ∧
      r'.server_state.signed_hash = r.server_state.signed_hash ∧
      r'.state.cleartext = r.state.cleartext ∧
      r'.server_state.handled_clients = r.server_state.handled_clients ∧
      (r'.sm_state = States.SERVER_PUSH_CLEARTEXT →
        ∀ i, i < r'.servers.Count → ∃ key sig, r'.servers.GetKey i = some key ∧
          QMap.find i r'.server_state.signatures = some sig ∧
          c.Verify key r'.server_state.signed_hash sig = true) := by
  induction msgs generalizing r with
  | nil =>
    refine ⟨r, rfl, rfl, rfl, rfl, rfl, ?_⟩
    intro hs
    rcases hinv with ⟨h, -⟩ | ⟨-, h⟩
    · rw [h] at hs; exact absurd hs (by decide)
    · exact h
  | cons m rest ih =>
    obtain ⟨sender, signature⟩ := m
    unfold validations
    rcases hinv with ⟨hstate, hnd, hall⟩ | ⟨hstate, hgoal⟩
    · simp only [hstate, if_true]
      obtain ⟨o, r1, h1, hs1, e1, e2, e3, e4, hinv1⟩ :=
        HandleServerValidation_step c r sender signature hserver hstate hnd hall
      simp only [h1]
      obtain ⟨r', h', f1, f2, f3, f4, hgoal⟩ := ih r1 hs1 hinv1
      exact ⟨r', h', by rw [f1, e1], by rw [f2, e2], by rw [f3, e3], by rw [f4, e4], hgoal⟩
    · have hne : ¬ r.sm_state = States.SERVER_WAIT_FOR_SERVER_VALIDATION := by
        rw [hstate]; decide
      simp only [hne, if_false]
      exact ih r hserver (Or.inr ⟨hstate, hgoal⟩)

/-! ## The slot loop of `ProcessCleartext` -/

theorem Derandomize_defined (c : Crypto) (t : QByteArray) (h : c.OptimalSeedSize ≤ t.length) :
    ∃ m, Derandomize c t = some m ∧ (m = [] ∨ m.length + c.OptimalSeedSize = t.length) := by
  unfold Derandomize
  rw [if_neg (by omega)]
  by_cases hs : t.take c.OptimalSeedSize = NullSeed c
  · exact ⟨[], by simp [hs], Or.inl rfl⟩
  · simp only [hs, if_false]
    refine ⟨_, rfl, Or.inr ?_⟩
    rw [Xor_length, c.GenerateBlock_size]
    simp only [List.length_drop, List.length_take]
    omega

theorem ReadInt_defined (array : QByteArray) (offset : Nat) (h : offset + 4 ≤ array.length) :
    ∃ v, ReadInt array offset = some v := by
  unfold ReadInt
  have hl : 4 ≤ (array.drop offset).length := by simp only [List.length_drop]; omega
  match hd : array.drop offset, hl with
  | b0 :: b1 :: b2 :: b3 :: rest, _ => exact ⟨_, rfl⟩

theorem ProcessCleartext.slot_eq (c : Crypto) (cfg : Config) (v : ProcessCleartext.Vars)
    (owner msg_length : Nat) :
    ProcessCleartext.slot c cfg v owner msg_length =
      if msg_length = 0 then some v
      else if v.offset + msg_length > v.r.state.cleartext.length then none
      else
        match Derandomize c ((v.r.state.cleartext.drop v.offset).take msg_length) with
        | none => none
        | some msg_pp =>
          if msg_pp.isEmpty then
            ProcessCleartext.missing { v with offset := v.offset + msg_length } owner msg_length
          else
            match ProcessCleartext.vkey cfg v.r.state owner with
            | none => none
            | some vkey =>
              if msg_pp.length < ProcessCleartext.sig_length c cfg vkey then none
              else
                match (if ProcessCleartext.bad_message c cfg vkey msg_pp then
                    ProcessCleartext.blame { v with offset := v.offset + msg_length }
                      owner msg_length ((v.r.state.cleartext.drop v.offset).take msg_length)
                  else some { v with offset := v.offset + msg_length }) with
                | none => none
                | some v2 =>
                  match (ProcessCleartext.msg_p c cfg vkey msg_pp).get? 0 with
                  | none => none
                  | some flag =>
                    if ProcessCleartext.bad_message c cfg vkey msg_pp then
                      some (ProcessCleartext.flagged v2 owner flag)
                    else
                      ProcessCleartext.deliver (ProcessCleartext.flagged v2 owner flag)
                        owner msg_length (ProcessCleartext.msg_p c cfg vkey msg_pp) := by
  rfl

/-- What every stage of the slot loop keeps: the offset, the round apart
from the flags and the sink, and the entries of `next_msgs` of the other
slots. -/
theorem ProcessCleartext.missing_frame (v v' : ProcessCleartext.Vars) (owner msg_length : Nat)
    (h : ProcessCleartext.missing v owner msg_length = some v') :
    v'.offset = v.offset ∧ ProcessCleartext.fixed v'.r = ProcessCleartext.fixed v.r ∧
    v'.next_msgs = QMap.insert owner msg_length v.next_msgs ∧
    v'.next_msg_length = v.next_msg_length + msg_length := by
  unfold ProcessCleartext.missing at h
  simp only [ProcessCleartext.keep] at h
  split at h <;> (simp only [Option.some.injEq] at h; subst h; exact ⟨rfl, rfl, rfl, rfl⟩)

theorem ProcessCleartext.blame_frame (v v' : ProcessCleartext.Vars) (owner msg_length : Nat)
    (msg_ppp : QByteArray) (h : ProcessCleartext.blame v owner msg_length msg_ppp = some v') :
    v'.offset = v.offset ∧ ProcessCleartext.fixed v'.r = ProcessCleartext.fixed v.r ∧
    v'.next_msgs = QMap.insert owner msg_length v.next_msgs ∧
    v'.next_msg_length = v.next_msg_length + msg_length := by
  unfold ProcessCleartext.blame at h
  simp only [ProcessCleartext.keep] at h
  split at h
  · split at h
    · exact Option.noConfusion h
    · simp only [Option.some.injEq] at h; subst h; exact ⟨rfl, rfl, rfl, rfl⟩
    · simp only [Option.some.injEq] at h; subst h; exact ⟨rfl, rfl, rfl, rfl⟩
  · simp only [Option.some.injEq] at h; subst h; exact ⟨rfl, rfl, rfl, rfl⟩

theorem ProcessCleartext.flagged_frame (v : ProcessCleartext.Vars) (owner flag : Nat) :
    (ProcessCleartext.flagged v owner flag).offset = v.offset ∧
    ProcessCleartext.fixed (ProcessCleartext.flagged v owner flag).r
      = ProcessCleartext.fixed v.r ∧
    (ProcessCleartext.flagged v owner flag).next_msgs = v.next_msgs ∧
    (ProcessCleartext.flagged v owner flag).next_msg_length = v.next_msg_length := by
  simp only [ProcessCleartext.flagged]
  split_ifs <;> exact ⟨rfl, rfl, rfl, rfl⟩

theorem ProcessCleartext.deliver_frame (v v' : ProcessCleartext.Vars) (owner msg_length : Nat)
    (msg_p : QByteArray) (h : ProcessCleartext.deliver v owner msg_length msg_p = some v') :
    v'.offset = v.offset ∧ ProcessCleartext.fixed v'.r = ProcessCleartext.fixed v.r ∧
    ∀ k, k ≠ owner → QMap.find k v'.next_msgs = QMap.find k v.next_msgs := by
  unfold ProcessCleartext.deliver at h
  simp only [ProcessCleartext.keep] at h
  split at h
  · rename_i phase next _ _
    split at h
    · simp only [Option.some.injEq] at h; subst h
      exact ⟨rfl, rfl, fun k hk => QMap.find_insert_ne _ _ _ _ hk⟩
    · split at h
      · simp only [Option.some.injEq] at h; subst h
        exact ⟨rfl, rfl, fun k hk => QMap.find_insert_ne _ _ _ _ hk⟩
      · by_cases hn : next > 0
        · simp only [hn, if_true] at h
          split at h <;>
            (simp only [Option.some.injEq] at h; subst h
             exact ⟨rfl, rfl, fun k hk => QMap.find_insert_ne _ _ _ _ hk⟩)
        · simp only [hn, if_false] at h
          split at h <;>
            (simp only [Option.some.injEq] at h; subst h
             exact ⟨rfl, rfl, fun k hk => rfl⟩)
  · exact Option.noConfusion h

theorem ProcessCleartext.slot_frame (c : Crypto) (cfg : Config) (v v' : ProcessCleartext.Vars)
    (owner msg_length : Nat) (h : ProcessCleartext.slot c cfg v owner msg_length = some v') :
    v'.offset = v.offset + msg_length ∧
    ProcessCleartext.fixed v'.r = ProcessCleartext.fixed v.r ∧
    ∀ k, k ≠ owner → QMap.find k v'.next_msgs = QMap.find k v.next_msgs := by
  rw [ProcessCleartext.slot_eq] at h
  by_cases h0 : msg_length = 0
  · simp only [h0, if_true, Option.some.injEq] at h
    subst h
    exact ⟨by simp [h0], rfl, fun _ _ => rfl⟩
  simp only [h0, if_false] at h
  split at h
  · exact Option.noConfusion h
  split at h
  · exact Option.noConfusion h
  rename_i msg_pp _
  split at h
  · obtain ⟨h1, h2, h3, -⟩ := ProcessCleartext.missing_frame _ _ _ _ h
    exact ⟨h1, h2, fun k hk => by rw [h3]; exact QMap.find_insert_ne _ _ _ _ hk⟩
  split at h
  · exact Option.noConfusion h
  rename_i vkey _
  split at h
  · exact Option.noConfusion h
  split at h
  · exact Option.noConfusion h
  rename_i v2 hv2
  split at h
  · exact Option.noConfusion h
  rename_i flag _
  obtain ⟨f1, f2, f3, -⟩ := ProcessCleartext.flagged_frame v2 owner flag
  by_cases hbad : ProcessCleartext.bad_message c cfg vkey msg_pp = true
  · simp only [hbad, if_true, Option.some.injEq] at h hv2
    subst h
    obtain ⟨b1, b2, b3, -⟩ := ProcessCleartext.blame_frame _ _ _ _ _ hv2
    exact ⟨by rw [f1, b1], by rw [f2, b2],
      fun k hk => by rw [f3, b3]; exact QMap.find_insert_ne _ _ _ _ hk⟩
  · simp only [hbad, if_false, Option.some.injEq, Bool.false_eq_true] at h hv2
    subst hv2
    obtain ⟨d1, d2, d3⟩ := ProcessCleartext.deliver_frame _ _ _ _ _ h
    exact ⟨by rw [d1, f1], by rw [d2, f2], fun k hk => by rw [d3 k hk, f3]⟩

theorem ProcessCleartext.slots_append (c : Crypto) (cfg : Config) (l1 l2 : List (Nat × Nat))
    (v : ProcessCleartext.Vars) :
    ProcessCleartext.slots c cfg (l1 ++ l2) v =
      (ProcessCleartext.slots c cfg l1 v).bind (ProcessCleartext.slots c cfg l2) := by
  induction l1 generalizing v with
  | nil => rfl
  | cons e rest ih =>
    obtain ⟨owner, msg_length⟩ := e
    simp only [List.cons_append, ProcessCleartext.slots]
    cases ProcessCleartext.slot c cfg v owner msg_length with
    | none => rfl
    | some v1 => exact ih v1

theorem ProcessCleartext.slots_frame (c : Crypto) (cfg : Config) (l : List (Nat × Nat))
    (v v' : ProcessCleartext.Vars) (h : ProcessCleartext.slots c cfg l v = some v') :
    v'.offset = v.offset + (l.map Prod.snd).sum ∧
    ProcessCleartext.fixed v'.r = ProcessCleartext.fixed v.r ∧
    ∀ k, k ∉ QMap.keys l → QMap.find k v'.next_msgs = QMap.find k v.next_msgs := by
  induction l generalizing v with
  | nil =>
    simp only [ProcessCleartext.slots, Option.some.injEq] at h
    subst h
    exact ⟨by simp, rfl, fun _ _ => rfl⟩
  | cons e rest ih =>
    obtain ⟨owner, msg_length⟩ := e
    simp only [ProcessCleartext.slots] at h
    cases h1 : ProcessCleartext.slot c cfg v owner msg_length with
    | none => simp [h1] at h
    | some v1 =>
      simp only [h1] at h
      obtain ⟨a1, a2, a3⟩ := ProcessCleartext.slot_frame c cfg v v1 owner msg_length h1
      obtain ⟨b1, b2, b3⟩ := ih v1 h
      refine ⟨?_, by rw [b2, a2], ?_⟩
      · rw [b1, a1]; simp only [List.map_cons, List.sum_cons]; omega
      · intro k hk
        simp only [QMap.keys, List.map_cons, List.mem_cons, not_or] at hk
        rw [b3 k (by simpa [QMap.keys] using hk.2), a3 k hk.1]

/-- An entry of a map whose keys increase strictly splits the map into the
entries before it and the entries after it, none of which has its key. -/
theorem QMap.split_at {V : Type} (m : QMap V) (k : Nat) (x : V)
    (hkeys : (QMap.keys m).Pairwise (fun a b => a < b)) (hmem : (k, x) ∈ m) :
    ∃ pre post, m = pre ++ (k, x) :: post ∧
      (∀ e ∈ pre, e.1 < k) ∧ (∀ e ∈ post, k < e.1) := by
  induction m with
  | nil => simp at hmem
  | cons e rest ih =>
    simp only [QMap.keys, List.map_cons, List.pairwise_cons, List.mem_map,
      forall_exists_index, and_imp, forall_apply_eq_imp_iff₂] at hkeys
    rcases List.mem_cons.mp hmem with h | h
    · subst h
      exact ⟨[], rest, rfl, by simp, fun e he => hkeys.1 e he⟩
    · obtain ⟨pre, post, h1, h2, h3⟩ := ih (by simpa [QMap.keys] using hkeys.2) h
      refine ⟨e :: pre, post, by rw [h1]; rfl, ?_, h3⟩
      intro e' he'
      rcases List.mem_cons.mp he' with h' | h'
      · subst h'
        exact hkeys.1 (k, x) h
      · exact h2 e' h'

theorem GenerateCiphertext.offset_append (k : Nat) (pre l : QMap Nat)
    (hpre : ∀ e ∈ pre, e.1 ≠ k) :
    GenerateCiphertext.offset (k : Int) (pre ++ l) =
      (pre.map Prod.snd).sum + GenerateCiphertext.offset (k : Int) l := by
  induction pre with
  | nil => simp
  | cons e rest ih =>
    obtain ⟨owner, length⟩ := e
    have hne : ¬ ((owner : Int) = (k : Int)) := by
      have := hpre (owner, length) (List.mem_cons_self _ _)
      simpa using this
    simp only [List.cons_append, GenerateCiphertext.offset, hne, if_false, List.map_cons,
      List.sum_cons]
    have := ih (fun e he => hpre e (List.mem_cons_of_mem _ he))
    simp only [List.append_eq] at this ⊢
    omega

theorem GenerateCiphertext.offset_head (k : Nat) (x : Nat) (post : QMap Nat) :
    GenerateCiphertext.offset (k : Int) ((k, x) :: post) = 0 := by
  simp [GenerateCiphertext.offset]

/-- The offset of a slot is the sum of the lengths of the slots with a
smaller owner index. -/
theorem GenerateCiphertext.offset_sum (m : QMap Nat) (k : Nat) (x : Nat)
    (hkeys : (QMap.keys m).Pairwise (fun a b => a < b)) (hmem : (k, x) ∈ m) :
    GenerateCiphertext.offset (k : Int) m =
      ((m.filter (fun e => decide (e.1 < k))).map Prod.snd).sum := by
  obtain ⟨pre, post, h1, h2, h3⟩ := QMap.split_at m k x hkeys hmem
  subst h1
  rw [GenerateCiphertext.offset_append k pre _ (fun e he => by have := h2 e he; omega),
    GenerateCiphertext.offset_head]
  have hpre : pre.filter (fun e => decide (e.1 < k)) = pre := by
    apply List.filter_eq_self.mpr
    intro e he
    simpa using h2 e he
  have hpost : ((k, x) :: post).filter (fun e => decide (e.1 < k)) = [] := by
    apply List.filter_eq_nil_iff.mpr
    intro e he
    rcases List.mem_cons.mp he with h | h
    · subst h; simp
    · have := h3 e h
      simp only [decide_eq_true_eq, not_lt]
      omega
  rw [List.filter_append, hpre, hpost]
  simp

theorem ProcessCleartext.room_fixed (c : Crypto) (cfg : Config) (r : Round) (e : Nat × Nat) :
    ProcessCleartext.room c cfg r.state e
      = ProcessCleartext.room c cfg (ProcessCleartext.fixed r).state e := rfl

theorem ProcessCleartext.cleartext_fixed (r : Round) :
    r.state.cleartext = (ProcessCleartext.fixed r).state.cleartext := rfl

theorem ProcessCleartext.search_defined (last_ciphertext : QByteArray) (msg : QByteArray)
    (pidx : Nat) (h : pidx + msg.length ≤ last_ciphertext.length) :
    ∃ res, ProcessCleartext.search last_ciphertext msg pidx = some res := by
  induction msg generalizing pidx with
  | nil => exact ⟨none, rfl⟩
  | cons actual rest ih =>
    simp only [List.length_cons] at h
    have hlt : pidx < last_ciphertext.length := by omega
    unfold ProcessCleartext.search
    simp only [List.get?_eq_getElem?, List.getElem?_eq_getElem hlt]
    split
    · exact ih (pidx + 1) (by omega)
    · split
      · exact ⟨_, rfl⟩
      · exact ih (pidx + 1) (by omega)

theorem ProcessCleartext.blame_defined (v : ProcessCleartext.Vars) (owner msg_length : Nat)
    (msg_ppp : QByteArray)
    (h : (owner : Int) = v.r.state.my_idx → msg_ppp.length ≤ v.r.state.last_ciphertext.length) :
    ∃ v', ProcessCleartext.blame v owner msg_length msg_ppp = some v' := by
  unfold ProcessCleartext.blame
  simp only [ProcessCleartext.keep]
  split
  · rename_i hc
    simp only [Bool.and_eq_true, decide_eq_true_eq] at hc
    obtain ⟨res, hres⟩ := ProcessCleartext.search_defined v.r.state.last_ciphertext msg_ppp 0
      (by have := h hc.1; omega)
    simp only [hres]
    cases res with
    | none => exact ⟨_, rfl⟩
    | some p => obtain ⟨pidx, bidx⟩ := p; exact ⟨_, rfl⟩
  · exact ⟨_, rfl⟩

theorem ProcessCleartext.deliver_defined (v : ProcessCleartext.Vars) (owner msg_length : Nat)
    (msg_p : QByteArray) (h : 9 ≤ msg_p.length) :
    ∃ v', ProcessCleartext.deliver v owner msg_length msg_p = some v' := by
  obtain ⟨phase, h1⟩ := ReadInt_defined msg_p 1 (by omega)
  obtain ⟨next, h5⟩ := ReadInt_defined msg_p 5 (by omega)
  unfold ProcessCleartext.deliver
  simp only [h1, h5]
  split_ifs <;> exact ⟨_, rfl⟩

theorem ProcessCleartext.missing_defined (v : ProcessCleartext.Vars) (owner msg_length : Nat) :
    ∃ v', ProcessCleartext.missing v owner msg_length = some v' := by
  unfold ProcessCleartext.missing
  simp only []
  split_ifs <;> exact ⟨_, rfl⟩

/-- What `room` gives for an open slot. -/
theorem ProcessCleartext.room_open (c : Crypto) (cfg : Config) (st : State)
    (owner msg_length : Nat) (h : ProcessCleartext.room c cfg st (owner, msg_length) = true)
    (h0 : msg_length ≠ 0) :
    ∃ vkey, ProcessCleartext.vkey cfg st owner = some vkey ∧
      c.OptimalSeedSize + 9 + ProcessCleartext.sig_length c cfg vkey ≤ msg_length ∧
      ((owner : Int) = st.my_idx → msg_length ≤ st.last_ciphertext.length) := by
  unfold ProcessCleartext.room at h
  simp only [beq_iff_eq, h0, Bool.false_or, Bool.and_eq_true, Bool.or_eq_true,
    decide_eq_true_eq] at h
  simp only [false_or] at h
  obtain ⟨h1, h2⟩ := h
  generalize ProcessCleartext.vkey cfg st owner = o at h1 ⊢
  cases o with
  | none => simp at h1
  | some vkey =>
    simp only [decide_eq_true_eq] at h1
    refine ⟨vkey, rfl, h1, ?_⟩
    intro heq
    rcases h2 with h2 | h2
    · exact absurd heq h2
    · exact h2

theorem ProcessCleartext.slot_defined (c : Crypto) (cfg : Config) (v : ProcessCleartext.Vars)
    (owner msg_length : Nat) (hfit : v.offset + msg_length ≤ v.r.state.cleartext.length)
    (hroom : ProcessCleartext.room c cfg v.r.state (owner, msg_length) = true) :
    ∃ v', ProcessCleartext.slot c cfg v owner msg_length = some v' := by
  rw [ProcessCleartext.slot_eq]
  by_cases h0 : msg_length = 0
  · exact ⟨v, by simp [h0]⟩
  obtain ⟨vkey, hk, hlen, hlast⟩ := ProcessCleartext.room_open c cfg _ _ _ hroom h0
  have hppp : ((v.r.state.cleartext.drop v.offset).take msg_length).length = msg_length := by
    simp only [List.length_take, List.length_drop]; omega
  obtain ⟨msg_pp, hd, hm⟩ := Derandomize_defined c
    ((v.r.state.cleartext.drop v.offset).take msg_length) (by rw [hppp]; omega)
  simp only [h0, if_false, gt_iff_lt, not_lt.mpr hfit, hd]
  by_cases he : msg_pp.isEmpty = true
  · simp only [he, if_true]
    exact ProcessCleartext.missing_defined _ _ _
  simp only [he, if_false, hk, Bool.false_eq_true]
  have hne : msg_pp ≠ [] := by
    intro h; rw [h] at he; simp at he
  have hmlen : msg_pp.length + c.OptimalSeedSize = msg_length := by
    rcases hm with h | h
    · exact absurd h hne
    · rw [h, hppp]
  rw [if_neg (by omega)]
  have hp : 9 ≤ (ProcessCleartext.msg_p c cfg vkey msg_pp).length := by
    simp only [ProcessCleartext.msg_p, List.length_take]; omega
  have hflag : ∃ flag, (ProcessCleartext.msg_p c cfg vkey msg_pp).get? 0 = some flag := by
    refine ⟨(ProcessCleartext.msg_p c cfg vkey msg_pp).get ⟨0, by omega⟩, ?_⟩
    simp [List.getElem?_eq_getElem (show 0 < (ProcessCleartext.msg_p c cfg vkey msg_pp).length
      by omega)]
  obtain ⟨flag, hflag⟩ := hflag
  by_cases hbad : ProcessCleartext.bad_message c cfg vkey msg_pp = true
  · simp only [hbad, if_true]
    obtain ⟨v2, hv2⟩ := ProcessCleartext.blame_defined
      { v with offset := v.offset + msg_length } owner msg_length
      ((v.r.state.cleartext.drop v.offset).take msg_length)
      (by intro h; rw [hppp]; exact hlast h)
    simp only [hv2, hflag]
    exact ⟨_, rfl⟩
  · simp only [hbad, if_false, hflag, Bool.false_eq_true]
    exact ProcessCleartext.deliver_defined _ _ _ _ hp

theorem ProcessCleartext.slots_defined (c : Crypto) (cfg : Config) (l : List (Nat × Nat))
    (v : ProcessCleartext.Vars)
    (hfit : v.offset + (l.map Prod.snd).sum ≤ v.r.state.cleartext.length)
    (hroom : ∀ e ∈ l, ProcessCleartext.room c cfg v.r.state e = true) :
    ∃ v', ProcessCleartext.slots c cfg l v = some v' := by
  induction l generalizing v with
  | nil => exact ⟨v, rfl⟩
  | cons e rest ih =>
    obtain ⟨owner, msg_length⟩ := e
    simp only [List.map_cons, List.sum_cons] at hfit
    obtain ⟨v1, h1⟩ := ProcessCleartext.slot_defined c cfg v owner msg_length (by omega)
      (hroom _ (List.mem_cons_self _ _))
    obtain ⟨a1, a2, -⟩ := ProcessCleartext.slot_frame c cfg v v1 owner msg_length h1
    simp only [ProcessCleartext.slots, h1]
    apply ih v1
    · rw [a1, ProcessCleartext.cleartext_fixed, a2, ← ProcessCleartext.cleartext_fixed]; omega
    · intro e he
      rw [ProcessCleartext.room_fixed, a2, ← ProcessCleartext.room_fixed]
      exact hroom e (List.mem_cons_of_mem _ he)

/-! ## The bitmap loop and the whole of `ProcessCleartext` -/

theorem SlotHeaderLength_defined (c : Crypto) (st : State) (idx : Nat)
    (h : idx < st.anonymous_keys.length) :
    ∃ length, SlotHeaderLength c st idx = some length := by
  unfold SlotHeaderLength
  have hneg : ¬ ((idx : Int) < 0) := by omega
  simp only [hneg, if_false, Int.toNat_ofNat, List.get?_eq_getElem?,
    List.getElem?_eq_getElem h, Option.map_some']
  exact ⟨_, rfl⟩

/-- The bitmap loop gives every slot whose bit is set in the cleartext its
header length, and leaves the other entries as they were. -/
theorem ProcessCleartext.bitmap_spec (c : Crypto) (st : State) (l : List Nat)
    (next_msgs : QMap Nat) (next_msg_length : Nat)
    (hl : ∀ idx ∈ l, idx / 8 < st.cleartext.length ∧ idx < st.anonymous_keys.length) :
    ∃ res, ProcessCleartext.bitmap c st l next_msgs next_msg_length = some res ∧
      ∀ k, QMap.find k res.1 =
        if k ∈ l ∧ st.cleartext.getD (k / 8) 0 &&& bit_masks (k % 8) ≠ 0
        then SlotHeaderLength c st k else QMap.find k next_msgs := by
  induction l generalizing next_msgs next_msg_length with
  | nil => exact ⟨_, rfl, by simp⟩
  | cons idx rest ih =>
    obtain ⟨h1, h2⟩ := hl idx (List.mem_cons_self _ _)
    have hrest := fun i hi => hl i (List.mem_cons_of_mem _ hi)
    unfold ProcessCleartext.bitmap
    simp only [List.get?_eq_getElem?, List.getElem?_eq_getElem h1]
    have hget : st.cleartext.getD (idx / 8) 0 = st.cleartext[idx / 8] := by
      simp [List.getD_eq_getElem?_getD, List.getElem?_eq_getElem h1]
    by_cases hb : st.cleartext[idx / 8] &&& bit_masks (idx % 8) ≠ 0
    · obtain ⟨length, hlen⟩ := SlotHeaderLength_defined c st idx h2
      simp only [hb, if_true, hlen, ne_eq, not_false_eq_true]
      obtain ⟨res, hres, hfind⟩ := ih (QMap.insert idx length next_msgs)
        (next_msg_length + length) hrest
      refine ⟨res, hres, ?_⟩
      intro k
      rw [hfind k]
      by_cases hk : k = idx
      · subst hk
        by_cases hin : k ∈ rest ∧ st.cleartext.getD (k / 8) 0 &&& bit_masks (k % 8) ≠ 0
        · have : k ∈ k :: rest ∧ st.cleartext.getD (k / 8) 0 &&& bit_masks (k % 8) ≠ 0 :=
            ⟨List.mem_cons_self _ _, hin.2⟩
          rw [if_pos hin, if_pos this]
        · have : k ∈ k :: rest ∧ st.cleartext.getD (k / 8) 0 &&& bit_masks (k % 8) ≠ 0 :=
            ⟨List.mem_cons_self _ _, by rw [hget]; exact hb⟩
          rw [if_neg hin, if_pos this, QMap.find_insert_self, hlen]
      · rw [QMap.find_insert_ne _ _ _ _ hk]
        simp only [List.mem_cons, hk, false_or]
    · simp only [hb, if_false]
      obtain ⟨res, hres, hfind⟩ := ih next_msgs next_msg_length hrest
      refine ⟨res, hres, ?_⟩
      intro k
      rw [hfind k]
      by_cases hk : k = idx
      · subst hk
        have hb' : ¬ (st.cleartext.getD (k / 8) 0 &&& bit_masks (k % 8) ≠ 0) := by
          rw [hget]; exact hb
        simp only [hb', and_false, if_false]
      · simp only [List.mem_cons, hk, false_or]

theorem ProcessCleartext.base_le (n : Nat) (idx : Nat) (h : idx < n) :
    idx / 8 < n / 8 + (if n % 8 ≠ 0 then 1 else 0) := by
  split_ifs <;> omega

/-- What `wellFormed` says. -/
theorem ProcessCleartext.wellFormed_iff (c : Crypto) (cfg : Config) (r : Round) :
    ProcessCleartext.wellFormed c cfg r = true ↔
      r.clients.Count ≤ r.state.anonymous_keys.length ∧
      ProcessCleartext.base r + (r.state.next_messages.map Prod.snd).sum
        ≤ r.state.cleartext.length ∧
      ∀ e ∈ r.state.next_messages, ProcessCleartext.room c cfg r.state e = true := by
  simp [ProcessCleartext.wellFormed, and_assoc]

/-- The run of `ProcessCleartext` on a well-formed layout: the bitmap loop
returns `next_msgs`, the slot loop returns its variables `v`, and the result
is the round these carry, with `next_messages` and `msg_length` replaced. -/
theorem ProcessCleartext_run (c : Crypto) (cfg : Config) (r : Round)
    (hwf : ProcessCleartext.wellFormed c cfg r = true) :
    ∃ next_msgs next_msg_length r0 v r',
      ProcessCleartext.bitmap c r.state (List.range r.clients.Count) []
        r.state.base_msg_length = some (next_msgs, next_msg_length) ∧
      (∀ k, QMap.find k next_msgs =
        if k < r.clients.Count ∧ r.state.cleartext.getD (k / 8) 0 &&& bit_masks (k % 8) ≠ 0
        then SlotHeaderLength c r.state k else none) ∧
      r0.state = r.state ∧ r0.phase = r.phase ∧ r0.sent = r.sent ∧ r0.pushed = r.pushed ∧
      ProcessCleartext.slots c cfg r.state.next_messages
        { r := r0, offset := ProcessCleartext.base r, next_msgs := next_msgs,
          next_msg_length := next_msg_length } = some v ∧
      ProcessCleartext c cfg r = some r' ∧
      r'.state = { v.r.state with next_messages := v.next_msgs,
                                  msg_length := v.next_msg_length } ∧
      r'.sent = v.r.sent ∧ r'.pushed = v.r.pushed ∧ r'.phase = v.r.phase := by
  obtain ⟨hk, hfit, hroom⟩ := (ProcessCleartext.wellFormed_iff c cfg r).mp hwf
  have hbase : ProcessCleartext.base r ≤ r.state.cleartext.length := by omega
  obtain ⟨res, hres, hfind⟩ := ProcessCleartext.bitmap_spec c r.state
    (List.range r.clients.Count) [] r.state.base_msg_length (by
      intro idx hidx
      have hlt := List.mem_range.mp hidx
      refine ⟨?_, by omega⟩
      have := ProcessCleartext.base_le r.clients.Count idx hlt
      unfold ProcessCleartext.base at hbase
      omega)
  obtain ⟨next_msgs, next_msg_length⟩ := res
  have hst : ∀ (r : Round) (b : Bool) (f : PhaseLog → PhaseLog),
      (if b then updatePhaseLog r f else r).state = r.state ∧
      (if b then updatePhaseLog r f else r).phase = r.phase ∧
      (if b then updatePhaseLog r f else r).sent = r.sent ∧
      (if b then updatePhaseLog r f else r).pushed = r.pushed := by
    intro r b f; cases b <;> exact ⟨rfl, rfl, rfl, rfl⟩
  let offsets := ProcessCleartext.offsets r.state.next_messages (List.range r.clients.Count)
    (ProcessCleartext.base r)
  let f : PhaseLog → PhaseLog := fun l =>
    { l with message_offsets := l.message_offsets ++ offsets }
  let r0 : Round := if r.IsServer then updatePhaseLog r f else r
  have hr0 : r0.state = r.state := (hst r _ _).1
  obtain ⟨v, hv⟩ := ProcessCleartext.slots_defined c cfg r.state.next_messages
    { r := r0, offset := ProcessCleartext.base r, next_msgs := next_msgs,
      next_msg_length := next_msg_length }
    (by simp only []; rw [hr0]; exact hfit)
    (by intro e he; simp only []; rw [hr0]; exact hroom e he)
  let g : PhaseLog → PhaseLog := fun l => { l with message_length := v.offset }
  let r1 : Round := if v.r.IsServer then updatePhaseLog v.r g else v.r
  let r' : Round :=
    { r1 with state.next_messages := v.next_msgs, state.msg_length := v.next_msg_length }
  have hr1 := hst v.r v.r.IsServer g
  refine ⟨next_msgs, next_msg_length, r0, v, r', hres, ?_, (hst r _ _).1, (hst r _ _).2.1,
    (hst r _ _).2.2.1, (hst r _ _).2.2.2, hv, ?_, ?_, hr1.2.2.1, hr1.2.2.2, hr1.2.1⟩
  · intro k
    rw [hfind k]
    simp [QMap.find]
  · unfold ProcessCleartext
    simp only [hres]
    have e := (hst r r.IsServer f).1
    simp only [r0, f, offsets, ProcessCleartext.base] at hv e
    simp only [e, hv]
  · show ({ r1.state with next_messages := v.next_msgs, msg_length := v.next_msg_length }
      : State) = _
    rw [show r1.state = v.r.state from hr1.1]

/-- What `fixed` keeps. -/
theorem ProcessCleartext.fixed_fields (a b : Round)
    (h : ProcessCleartext.fixed a = ProcessCleartext.fixed b) :
    a.state.cleartext = b.state.cleartext ∧ a.phase = b.phase ∧
    a.state.anonymous_keys = b.state.anonymous_keys ∧ a.state.my_idx = b.state.my_idx ∧
    a.state.last_ciphertext = b.state.last_ciphertext ∧ a.sent = b.sent ∧
    a.state.next_messages = b.state.next_messages ∧ a.clients = b.clients :=
  ⟨congrArg (fun r => r.state.cleartext) h, congrArg (fun r => r.phase) h,
   congrArg (fun r => r.state.anonymous_keys) h, congrArg (fun r => r.state.my_idx) h,
   congrArg (fun r => r.state.last_ciphertext) h, congrArg (fun r => r.sent) h,
   congrArg (fun r => r.state.next_messages) h, congrArg (fun r => r.clients) h⟩

/-- The turn of one entry inside the slot loop. -/
theorem ProcessCleartext.slots_at (c : Crypto) (cfg : Config) (pre post : List (Nat × Nat))
    (owner msg_length : Nat) (v vf : ProcessCleartext.Vars)
    (h : ProcessCleartext.slots c cfg (pre ++ (owner, msg_length) :: post) v = some vf) :
    ∃ v1 v2, ProcessCleartext.slots c cfg pre v = some v1 ∧
      ProcessCleartext.slot c cfg v1 owner msg_length = some v2 ∧
      ProcessCleartext.slots c cfg post v2 = some vf := by
  rw [ProcessCleartext.slots_append] at h
  cases h1 : ProcessCleartext.slots c cfg pre v with
  | none => simp [h1] at h
  | some v1 =>
    simp only [h1, Option.some_bind, ProcessCleartext.slots] at h
    cases h2 : ProcessCleartext.slot c cfg v1 owner msg_length with
    | none => simp [h2] at h
    | some v2 =>
      simp only [h2] at h
      exact ⟨v1, v2, rfl, h2, h⟩

/-- A closed slot (length 0) is skipped, so the loop keeps the entries of
`next_msgs` of slots that are closed or absent. -/
theorem ProcessCleartext.slots_closed (c : Crypto) (cfg : Config) (l : List (Nat × Nat))
    (v v' : ProcessCleartext.Vars) (k : Nat)
    (h : ProcessCleartext.slots c cfg l v = some v')
    (hk : ∀ e ∈ l, e.1 = k → e.2 = 0) :
    QMap.find k v'.next_msgs = QMap.find k v.next_msgs := by
  induction l generalizing v with
  | nil =>
    simp only [ProcessCleartext.slots, Option.some.injEq] at h
    subst h; rfl
  | cons e rest ih =>
    obtain ⟨owner, msg_length⟩ := e
    simp only [ProcessCleartext.slots] at h
    cases h1 : ProcessCleartext.slot c cfg v owner msg_length with
    | none => simp [h1] at h
    | some v1 =>
      simp only [h1] at h
      rw [ih v1 h (fun e he => hk e (List.mem_cons_of_mem _ he))]
      by_cases hown : owner = k
      · have h0 : msg_length = 0 := hk (owner, msg_length) (List.mem_cons_self _ _) hown
        rw [ProcessCleartext.slot_eq] at h1
        simp only [h0, if_true, Option.some.injEq] at h1
        subst h1; rfl
      · exact (ProcessCleartext.slot_frame c cfg v v1 owner msg_length h1).2.2 k
          (fun hc => hown hc.symm)

/-- C17. Slot-open advertisement. A participant whose slot is closed, that
has data pending (left over in `next_msg` or just taken from the data source)
and whose bitmap byte lies in the message, gets from `GenerateCiphertext` the
XOR of its pads with byte `my_idx / 8` XORed with `bit_masks[my_idx % 8]`
and nothing else changed, and its slot is marked open. And for every
well-formed cleartext, `ProcessCleartext` returns and reserves
`next_messages[i] = SlotHeaderLength(i)` for every slot `i < Nc` whose bitmap
bit is set and whose slot was not open in that phase. -/
theorem slot_open_advertisement (c : Crypto) (cfg : Config) :
    (∀ (r : Round) (data : QByteArray) (rand : List QByteArray) (idx : Nat),
      r.state.slot_open = false → (r.state.next_msg ≠ [] ∨ data ≠ []) →
      r.state.my_idx = (idx : Int) → idx / 8 < r.state.msg_length →
      ∃ r', GenerateCiphertext c cfg r data rand =
          some ((xorAll r.state.msg_length (r.state.anonymous_rngs.map
              (fun s => c.GenerateBlock s r.state.msg_length))).set (idx / 8)
            ((xorAll r.state.msg_length (r.state.anonymous_rngs.map
              (fun s => c.GenerateBlock s r.state.msg_length))).getD (idx / 8) 0
              ^^^ bit_masks (idx % 8)), r') ∧
        r'.state.slot_open = true ∧ r'.state.read = false) ∧
    (∀ (r : Round) (i : Nat), ProcessCleartext.wellFormed c cfg r = true →
      i < r.clients.Count →
      r.state.cleartext.getD (i / 8) 0 &&& bit_masks (i % 8) ≠ 0 →
      (∀ e ∈ r.state.next_messages, e.1 = i → e.2 = 0) →
      ∃ r' length, ProcessCleartext c cfg r = some r' ∧
        SlotHeaderLength c r.state i = some length ∧
        QMap.find i r'.state.next_messages = some length) := by
  constructor
  · intro r data rand idx hclosed hdata hidx hroom
    unfold GenerateCiphertext
    obtain ⟨logs, hp⟩ := GenerateCiphertext.pads_spec c r.state.anonymous_rngs 0
      (zeroBytes r.state.msg_length) r
    rw [hp]
    simp only []
    have hst : (withLogs r logs).state = r.state := rfl
    have hph : (withLogs r logs).phase = r.phase := rfl
    rw [hst, hph]
    have hlen : (xorAll r.state.msg_length (r.state.anonymous_rngs.map
        (fun s => c.GenerateBlock s r.state.msg_length))).length = r.state.msg_length :=
      xorAll_length _ _
    have hget : (xorAll r.state.msg_length (r.state.anonymous_rngs.map
        (fun s => c.GenerateBlock s r.state.msg_length))).get? (idx / 8) =
        some ((xorAll r.state.msg_length (r.state.anonymous_rngs.map
          (fun s => c.GenerateBlock s r.state.msg_length))).getD (idx / 8) 0) := by
      rw [List.get?_eq_getElem?, List.getD_eq_getElem?_getD,
        List.getElem?_eq_getElem (by rw [hlen]; exact hroom)]
      rfl
    have hneg : ¬ ((idx : Int) < 0) := by omega
    unfold GenerateCiphertext.write
    simp only [hclosed, Bool.false_eq_true, if_false, CheckData]
    by_cases hn : r.state.next_msg = []
    · have hd : data ≠ [] := by
        rcases hdata with h | h
        · exact absurd hn h
        · exact h
      have hd' : data.isEmpty = false := by
        cases data with
        | nil => exact absurd rfl hd
        | cons _ _ => rfl
      simp only [hn, List.isEmpty_nil, Bool.not_true, Bool.false_eq_true, if_false, hd',
        Bool.not_false, hidx, hneg, Int.toNat_ofNat]
      erw [hget]
      exact ⟨_, rfl, rfl, rfl⟩
    · have hn' : r.state.next_msg.isEmpty = false := by
        cases hx : r.state.next_msg with
        | nil => exact absurd hx hn
        | cons _ _ => rfl
      simp only [hn', Bool.not_false, if_true, hidx, hneg, if_false, Int.toNat_ofNat]
      erw [hget]
      exact ⟨_, rfl, rfl, rfl⟩
  · intro r i hwf hi hbit hclosed
    obtain ⟨next_msgs, next_msg_length, r0, v, r', -, hfind, -, -, -, -, hv, hrun, hstate, -⟩ :=
      ProcessCleartext_run c cfg r hwf
    obtain ⟨hkeys, -, -⟩ := (ProcessCleartext.wellFormed_iff c cfg r).mp hwf
    obtain ⟨length, hlen⟩ := SlotHeaderLength_defined c r.state i (by omega)
    refine ⟨r', length, hrun, hlen, ?_⟩
    rw [hstate]
    show QMap.find i v.next_msgs = some length
    rw [ProcessCleartext.slots_closed c cfg _ _ _ i hv hclosed]
    show QMap.find i next_msgs = some length
    rw [hfind i, if_pos ⟨hi, hbit⟩, hlen]


/-! ## The layout of a slot message -/

theorem encodeInt_length (v : Int) : (encodeInt v).length = 4 := rfl

/-- The nine header bytes `GenerateSlotMessage` writes: the flag, the phase
and the next length. -/
theorem slot_header_bytes (accuse : Bool) (phase length : Int) (payload : QByteArray) :
    WriteInt length
        (WriteInt phase (if accuse then (zeroBytes 9).set 0 255 else zeroBytes 9) 1) 5 ++ payload
      = (if accuse then 255 else 0) :: (encodeInt phase ++ encodeInt length ++ payload) := by
  cases accuse <;> simp [WriteInt, zeroBytes, encodeInt, List.replicate]

theorem SlotHeaderLength_congr (c : Crypto) (st st' : State) (owner : Int)
    (h : st'.anonymous_keys = st.anonymous_keys) :
    SlotHeaderLength c st' owner = SlotHeaderLength c st owner := by
  simp [SlotHeaderLength, h]

/-- C19, as stated, fails: an accusing client with the payload "hi" pending
builds a plaintext whose bytes from 9 on are two zero bytes, not the payload,
and whose length field is the bare header length 12. -/
theorem GenerateSlotMessage_accusing_counterexample :
    ((GenerateSlotMessage.build toyCrypto digestSlots 1
        { slotOwner.state with accuse := true } [] [[5, 6]]).bind
      (fun p => Derandomize toyCrypto p.1)).map
        (fun msg_pp => (msg_pp.take 9, (msg_pp.drop 9).take 2))
      = some ([255, 0, 0, 0, 1, 0, 0, 0, 12], [0, 0]) ∧
    slotOwner.state.next_msg = [104, 105] := by
  constructor
  · rfl
  · rfl

/-- C19, amended. Slot payload layout: for every client state whose
anonymous key table has an entry for its slot, and every run of the
seed-drawing loop, `GenerateSlotMessage` returns a text, and the plaintext it
builds before `Randomize` (what `Derandomize` gives back) consists of byte 0 =
0xFF if the client is accusing and 0x00 otherwise, bytes 1..4 = the current
phase, bytes 5..8 = the next slot length (the pending next message plus the
header length; 0 when `CSBR_CLOSE_SLOT` is set and nothing is pending; the
bare header length when accusing), bytes 9.. = the user payload when the
client is not accusing and as many zero bytes when it is, followed by the
authenticator (signature under the anonymous key, or digest) computed over
all the preceding bytes. -/
theorem GenerateSlotMessage_layout (c : Crypto) (cfg : Config) (phase : Nat) (st : State)
    (data : QByteArray) (rand : List QByteArray) (header_length : Nat)
    (hkey : SlotHeaderLength c st st.my_idx = some header_length)
    (hsize : ∀ s ∈ rand, s.length = c.OptimalSeedSize)
    (hdraw : ∃ s ∈ rand, s ≠ NullSeed c) :
    ∃ text st' msg pending msg_p,
      GenerateSlotMessage.build c cfg phase st data rand = some (text, st') ∧
      msg = (if st.read then st.next_msg else st.last_msg) ∧
      pending = (if st.read then data else st.next_msg) ∧
      msg_p = (if st.accuse then 255 else 0) ::
        (encodeInt phase ++
         encodeInt (if st.accuse then (header_length : Int)
           else if cfg.CSBR_CLOSE_SLOT && pending.length == 0 then 0
           else ((pending.length + header_length : Nat) : Int)) ++
         (if st.accuse then zeroBytes msg.length else msg)) ∧
      Derandomize c text = some (msg_p ++
        (if cfg.CSBR_SIGN_SLOTS then c.Sign st.anonymous_key msg_p
          else c.ComputeHash msg_p)) := by
  have hne : ∀ m : QByteArray, Randomize c rand m ≠ none := by
    intro m h
    obtain ⟨seed, -, -, heq⟩ := Randomize_eq_some c rand m hdraw
    rw [h] at heq
    exact Option.noConfusion heq
  have hd : ∀ (m text : QByteArray), Randomize c rand m = some text →
      Derandomize c text = some m := by
    intro m text h
    obtain ⟨seed, hmem, hnull, heq⟩ := Randomize_eq_some c rand m hdraw
    rw [h] at heq
    cases heq
    exact Derandomize_seed_append c seed m (hsize seed hmem) hnull
  have e1 := slot_header_bytes true
  have e0 := slot_header_bytes false
  simp only [if_true, Bool.false_eq_true, if_false] at e1 e0
  unfold GenerateSlotMessage.build
  cases hread : st.read
  · simp only [Bool.false_eq_true, if_false]
    simp only [SlotHeaderLength] at hkey ⊢
    simp only [hkey]
    cases hacc : st.accuse <;>
      cases hb : (cfg.CSBR_CLOSE_SLOT && List.length st.next_msg == 0) <;>
      simp only [hacc, hb, if_true, if_false, Bool.false_eq_true] <;>
      split <;> rename_i heq <;>
      first
        | exact absurd heq (hne _)
        | (refine ⟨_, _, _, _, _, rfl, rfl, rfl, rfl, ?_⟩
           try simp only [hread, hacc, hb, if_true, if_false, Bool.false_eq_true]
           rw [hd _ _ heq]
           simp [e1, e0])
  · simp only [if_true]
    simp only [SlotHeaderLength] at hkey ⊢
    simp only [hkey]
    cases hacc : st.accuse <;>
      cases hb : (cfg.CSBR_CLOSE_SLOT && List.length data == 0) <;>
      simp only [hacc, hb, if_true, if_false, Bool.false_eq_true] <;>
      split <;> rename_i heq <;>
      first
        | exact absurd heq (hne _)
        | (refine ⟨_, _, _, _, _, rfl, rfl, rfl, rfl, ?_⟩
           try simp only [hread, hacc, hb, if_true, if_false, Bool.false_eq_true]
           rw [hd _ _ heq]
           simp [e1, e0])

/-! ## HandleServerCleartext -/

theorem HandleServerCleartext.verified_true_iff (c : Crypto) (servers : Roster)
    (signed_hash : QByteArray) (signatures : QMap QByteArray) (l : List Nat) :
    HandleServerCleartext.verified c servers signed_hash signatures l = some true ↔
      ∀ i ∈ l, ∃ key, servers.GetKey i = some key ∧
        c.Verify key signed_hash ((QMap.find i signatures).getD []) = true := by
  induction l with
  | nil => simp [HandleServerCleartext.verified]
  | cons idx rest ih =>
    unfold HandleServerCleartext.verified
    cases hk : servers.GetKey idx with
    | none => simp [hk]
    | some key =>
      cases hv : c.Verify key signed_hash ((QMap.find idx signatures).getD []) with
      | false => simp [hk, hv]
      | true => simp [hk, hv, ih]

theorem HandleServerCleartext.verified_defined (c : Crypto) (servers : Roster)
    (signed_hash : QByteArray) (signatures : QMap QByteArray) (l : List Nat)
    (h : ∀ i ∈ l, i < servers.Count) :
    HandleServerCleartext.verified c servers signed_hash signatures l ≠ none := by
  induction l with
  | nil => simp [HandleServerCleartext.verified]
  | cons idx rest ih =>
    unfold HandleServerCleartext.verified
    have hidx : idx < servers.length := h idx (List.mem_cons_self _ _)
    have hk : servers.GetKey idx = some (servers.get ⟨idx, hidx⟩).key := by
      simp [Roster.GetKey, List.getElem?_eq_getElem hidx]
    rw [hk]
    simp only []
    split
    · simp
    · exact ih (fun i hi => h i (List.mem_cons_of_mem _ hi))

/-- C12. `HandleServerCleartext` adopts a cleartext exactly when the receiver
is a client, the sender is its own server, the cleartext has `msg_length`
bytes and, for every server index `i < Ns`, the supplied signature `i`
verifies under server `i`'s key over `H(cleartext || online)`: it then stores
the cleartext and runs `ProcessCleartext` on it, and goes on to the blame
shuffle or completes the state. When a signature fails, the round is stopped
with "Failed to verify signatures"; in every other case the handler throws;
in both, the state (cleartext, `next_messages`, `msg_length` and all the
rest) is as before. -/
theorem HandleServerCleartext_adopts (c : Crypto) (cfg : Config) (r : Round) (sender : Id)
    (signatures : QMap QByteArray) (cleartext : QByteArray) (online : QBitArray) :
    (r.IsServer = false → r.state.my_server = sender →
      cleartext.length = r.state.msg_length →
      (∀ i, i < r.servers.Count → ∃ key, r.servers.GetKey i = some key ∧
        c.Verify key (c.ComputeHash (cleartext ++ streamBits online))
          ((QMap.find i signatures).getD []) = true) →
      HandleServerCleartext c cfg r sender signatures cleartext online =
        (ProcessCleartext c cfg { r with state.cleartext := cleartext }).bind (fun r' =>
          if r'.state.start_accuse then
            some (Outcome.ok (), SetState r' States.STARTING_BLAME_SHUFFLE)
          else (StateComplete r').map (fun r'' => (Outcome.ok (), r'')))) ∧
    (r.IsServer = false → r.state.my_server = sender →
      cleartext.length = r.state.msg_length →
      ¬ (∀ i, i < r.servers.Count → ∃ key, r.servers.GetKey i = some key ∧
        c.Verify key (c.ComputeHash (cleartext ++ streamBits online))
          ((QMap.find i signatures).getD []) = true) →
      HandleServerCleartext c cfg r sender signatures cleartext online =
        some (Outcome.ok (), Stop r "Failed to verify signatures") ∧
      (Stop r "Failed to verify signatures").stopped = some "Failed to verify signatures" ∧
      (Stop r "Failed to verify signatures").state = r.state) ∧
    (¬ (r.IsServer = false ∧ r.state.my_server = sender ∧
        cleartext.length = r.state.msg_length) →
      ∃ what, HandleServerCleartext c cfg r sender signatures cleartext online =
        some (Outcome.threw what, r)) := by
  have hiff := HandleServerCleartext.verified_true_iff c r.servers
    (c.ComputeHash (cleartext ++ streamBits online)) signatures (List.range r.servers.Count)
  have hdef := HandleServerCleartext.verified_defined c r.servers
    (c.ComputeHash (cleartext ++ streamBits online)) signatures (List.range r.servers.Count)
    (fun i hi => List.mem_range.mp hi)
  simp only [List.mem_range] at hiff
  refine ⟨?_, ?_, ?_⟩
  · intro h1 h2 h3 h4
    have hv := hiff.mpr h4
    unfold HandleServerCleartext
    simp only [h1, h2, h3, hv, Bool.false_eq_true, if_false, ne_eq, not_true_eq_false]
    generalize ProcessCleartext c cfg _ = x
    cases x <;> rfl
  · intro h1 h2 h3 h4
    refine ⟨?_, rfl, rfl⟩
    have hv : HandleServerCleartext.verified c r.servers
        (c.ComputeHash (cleartext ++ streamBits online)) signatures
        (List.range r.servers.Count) = some false := by
      cases hx : HandleServerCleartext.verified c r.servers
          (c.ComputeHash (cleartext ++ streamBits online)) signatures
          (List.range r.servers.Count) with
      | none => exact absurd hx hdef
      | some b =>
        cases b with
        | false => rfl
        | true => exact absurd (hiff.mp hx) h4
    unfold HandleServerCleartext
    simp only [h1, h2, h3, hv, Bool.false_eq_true, if_false, ne_eq, not_true_eq_false]
  · intro h
    unfold HandleServerCleartext
    by_cases h1 : r.IsServer = true
    · exact ⟨"Not a client", by simp only [h1, if_true]⟩
    · have h1' : r.IsServer = false := by simpa using h1
      by_cases h2 : r.state.my_server = sender
      · by_cases h3 : cleartext.length = r.state.msg_length
        · exact absurd ⟨h1', h2, h3⟩ h
        · exact ⟨"Cleartext size mismatch: " ++ toString cleartext.length ++ " :: " ++
            toString r.state.msg_length, by
              simp only [h1', h2, h3, Bool.false_eq_true, if_false, ne_eq,
                not_true_eq_false, not_false_eq_true, if_true]⟩
      · exact ⟨"Not a server", by
          simp only [h1', h2, Bool.false_eq_true, if_false, ne_eq,
            not_false_eq_true, if_true]⟩

/-! ## The verdict -/

theorem HandleRebuttalOrVerdict.verdict_accepted_iff (c : Crypto) (verdict_hash : QByteArray)
    (signatures : List QByteArray) (servers : List PublicIdentity) (idx : Nat) :
    HandleRebuttalOrVerdict.verified c verdict_hash signatures servers idx = some true ↔
      ∀ k pid, servers[k]? = some pid →
        ∃ sig, signatures[idx + k]? = some sig ∧
          c.Verify pid.key verdict_hash sig = true := by
  induction servers generalizing idx with
  | nil => simp [HandleRebuttalOrVerdict.verified]
  | cons p rest ih =>
    unfold HandleRebuttalOrVerdict.verified
    simp only [List.get?_eq_getElem?]
    constructor
    · intro h k pid hk
      cases hs : signatures[idx]? with
      | none => simp [hs] at h
      | some sig =>
        simp only [hs] at h
        cases hv : c.Verify p.key verdict_hash sig with
        | false => simp [hv] at h
        | true =>
          simp only [hv, Bool.not_true, Bool.false_eq_true, if_false] at h
          cases k with
          | zero =>
            simp only [List.getElem?_cons_zero, Option.some.injEq] at hk
            subst hk
            exact ⟨sig, by simpa using hs, hv⟩
          | succ k =>
            simp only [List.getElem?_cons_succ] at hk
            have := (ih (idx + 1)).mp h k pid hk
            simpa [Nat.add_assoc, Nat.add_comm 1 k] using this
    · intro h
      obtain ⟨sig, hs, hv⟩ := h 0 p (by simp)
      simp only [Nat.add_zero] at hs
      simp only [hs, hv, Bool.not_true, Bool.false_eq_true, if_false]
      apply (ih (idx + 1)).mpr
      intro k pid hk
      have := h (k + 1) pid (by simpa using hk)
      simpa [Nat.add_assoc, Nat.add_comm 1 k] using this

theorem HandleRebuttalOrVerdict.verdict_checked (c : Crypto) (verdict_hash : QByteArray)
    (signatures : List QByteArray) (servers : List PublicIdentity) (idx : Nat)
    (h : idx + servers.length ≤ signatures.length) :
    HandleRebuttalOrVerdict.verified c verdict_hash signatures servers idx ≠ none := by
  induction servers generalizing idx with
  | nil => simp [HandleRebuttalOrVerdict.verified]
  | cons p rest ih =>
    unfold HandleRebuttalOrVerdict.verified
    simp only [List.length_cons] at h
    have hidx : idx < signatures.length := by omega
    simp only [List.get?_eq_getElem?, List.getElem?_eq_getElem hidx]
    split
    · simp
    · exact ih (idx + 1) (by omega)

theorem HandleRebuttalOrVerdict.verified_short (c : Crypto) (verdict_hash : QByteArray)
    (signatures : List QByteArray) (servers : List PublicIdentity) (idx : Nat)
    (hle : idx ≤ signatures.length) (hshort : signatures.length < idx + servers.length)
    (hall : ∀ k pid sig, servers[k]? = some pid → signatures[idx + k]? = some sig →
      c.Verify pid.key verdict_hash sig = true) :
    HandleRebuttalOrVerdict.verified c verdict_hash signatures servers idx = none := by
  induction servers generalizing idx with
  | nil => simp at hshort; omega
  | cons p rest ih =>
    unfold HandleRebuttalOrVerdict.verified
    simp only [List.get?_eq_getElem?]
    cases hs : signatures[idx]? with
    | none => rfl
    | some sig =>
      have hv := hall 0 p sig (by simp) (by simpa using hs)
      simp only [hv, Bool.not_true, Bool.false_eq_true, if_false]
      have hlt : idx < signatures.length := by
        by_contra hcon
        rw [List.getElem?_eq_none (by omega)] at hs
        exact Option.noConfusion hs
      apply ih (idx + 1) (by omega) (by simp only [List.length_cons] at hshort; omega)
      intro k pid sig' hk hs'
      exact hall (k + 1) pid sig' (by simpa using hk)
        (by simpa [Nat.add_assoc, Nat.add_comm 1 k] using hs')

/-! ## The verdict a server assembles -/

theorem QMap.keys_insert_new {V : Type} (k : Nat) (v : V) (m : QMap V)
    (h : k ∉ QMap.keys m) : (QMap.keys (QMap.insert k v m)).Perm (k :: QMap.keys m) := by
  induction m with
  | nil => simp [QMap.insert, QMap.keys]
  | cons e rest ih =>
    obtain ⟨k', v'⟩ := e
    simp only [QMap.keys, List.map_cons, List.mem_cons, not_or] at h
    by_cases h1 : k < k'
    · simp [QMap.insert, h1, QMap.keys]
    · have h2 : ¬ k = k' := h.1
      simp only [QMap.insert, h1, h2, if_false, QMap.keys, List.map_cons]
      exact (List.Perm.cons k' (ih h.2)).trans (List.Perm.swap k k' _)

/-- One `SERVER_VERDICT_SIGNATURE` message handled while the server waits
for verdict signatures: the handler returns; it keeps the roster, the verdict
hash and the blame; the ids under which signatures are stored stay distinct
roster ids whose signature verifies; and the server still waits, or it has
advanced to `SERVER_SHARE_VERDICT` with one signature per roster server. -/
theorem HandleVerdictSignature_step (c : Crypto) (r : Round) (sender : Id)
    (signature : QByteArray) (hserver : r.IsServer = true)
    (hstate : r.sm_state = States.SERVER_WAIT_FOR_VERDICT_SIGNATURE)
    (hnd : (QMap.keys r.server_state.verdict_signatures).Nodup)
    (hinv : ∀ s ∈ QMap.keys r.server_state.verdict_signatures, r.servers.Contains s = true ∧
      ∃ key sig, r.servers.GetKeyOf s = some key ∧
        QMap.find s r.server_state.verdict_signatures = some sig ∧
        c.Verify key r.server_state.verdict_hash sig = true) :
    ∃ o r', HandleVerdictSignature c r sender signature = some (o, r') ∧
      r'.IsServer = true ∧ r'.servers = r.servers ∧
      r'.server_state.verdict_hash = r.server_state.verdict_hash ∧
      r'.server_state.current_blame = r.server_state.current_blame ∧
      r'.server_state.bad_dude = r.server_state.bad_dude ∧
      r'.nonce = r.nonce ∧ r'.phase = r.phase ∧
      (QMap.keys r'.server_state.verdict_signatures).Nodup ∧
      (∀ s ∈ QMap.keys r'.server_state.verdict_signatures, r'.servers.Contains s = true ∧
        ∃ key sig, r'.servers.GetKeyOf s = some key ∧
          QMap.find s r'.server_state.verdict_signatures = some sig ∧
          c.Verify key r'.server_state.verdict_hash sig = true) ∧
      (r'.sm_state = States.SERVER_WAIT_FOR_VERDICT_SIGNATURE ∨
        (r'.sm_state = States.SERVER_SHARE_VERDICT ∧
          (QMap.keys r'.server_state.verdict_signatures).length = r'.servers.Count)) := by
  unfold HandleVerdictSignature
  simp only [hserver, Bool.not_true, Bool.false_eq_true, if_false]
  by_cases hc : r.servers.Contains sender = true
  swap
  · have hc' : r.servers.Contains sender = false := by simpa using hc
    simp only [hc', Bool.not_false, if_true]
    exact ⟨_, _, rfl, hserver, rfl, rfl, rfl, rfl, rfl, rfl, hnd, hinv, Or.inl hstate⟩
  simp only [hc, Bool.not_true, Bool.false_eq_true, if_false]
  by_cases hdup : QMap.contains r.server_state.verdict_signatures sender = true
  · simp only [hdup, if_true]
    exact ⟨_, _, rfl, hserver, rfl, rfl, rfl, rfl, rfl, rfl, hnd, hinv, Or.inl hstate⟩
  have hdup' : QMap.contains r.server_state.verdict_signatures sender = false := by
    simpa using hdup
  have hnotin : sender ∉ QMap.keys r.server_state.verdict_signatures := fun hm =>
    hdup ((QMap.contains_iff sender _).mpr hm)
  simp only [hdup', Bool.false_eq_true, if_false]
  obtain ⟨key, hkey⟩ := Roster.GetKeyOf_isSome r.servers sender hc
  simp only [hkey]
  cases hv : c.Verify key r.server_state.verdict_hash signature with
  | false =>
    simp only [Bool.not_false, if_true]
    exact ⟨_, _, rfl, hserver, rfl, rfl, rfl, rfl, rfl, rfl, hnd, hinv, Or.inl hstate⟩
  | true =>
    simp only [Bool.not_true, Bool.false_eq_true, if_false]
    have hperm := QMap.keys_insert_new sender signature r.server_state.verdict_signatures hnotin
    have hnd' : (QMap.keys
        (QMap.insert sender signature r.server_state.verdict_signatures)).Nodup :=
      hperm.nodup_iff.mpr (List.nodup_cons.mpr ⟨hnotin, hnd⟩)
    have hinv' : ∀ s ∈ QMap.keys
          (QMap.insert sender signature r.server_state.verdict_signatures),
        r.servers.Contains s = true ∧
        ∃ key sig, r.servers.GetKeyOf s = some key ∧
          QMap.find s (QMap.insert sender signature r.server_state.verdict_signatures)
            = some sig ∧
          c.Verify key r.server_state.verdict_hash sig = true := by
      intro s hs
      rcases List.mem_cons.mp (hperm.mem_iff.mp hs) with h | h
      · subst h
        exact ⟨hc, key, signature, hkey, QMap.find_insert_self _ _ _, hv⟩
      · obtain ⟨h1, k, sg, h2, h3, h4⟩ := hinv s h
        refine ⟨h1, k, sg, h2, ?_, h4⟩
        rw [QMap.find_insert_ne _ _ _ _ ?_, h3]
        intro heq
        subst heq
        exact hnotin h
    have hlen : (QMap.keys (QMap.insert sender signature
        r.server_state.verdict_signatures)).length =
        (QMap.insert sender signature r.server_state.verdict_signatures).length := by
      simp [QMap.keys]
    by_cases hcount : (QMap.insert sender signature
        r.server_state.verdict_signatures).length = r.servers.Count
    · simp only [hcount, if_true]
      have hsc : ∀ x : Round, x.IsServer = true →
          x.sm_state = States.SERVER_WAIT_FOR_VERDICT_SIGNATURE →
          StateComplete x = some { x with server_state.handled_servers := [],
                                          sm_state := States.SERVER_SHARE_VERDICT } :=
        fun x h1 h2 => StateComplete_step x _ _ h1 h2 (by decide) (by decide)
      simp only [hsc, hserver, hstate, Option.map_some']
      exact ⟨_, _, rfl, rfl, rfl, rfl, rfl, rfl, rfl, rfl, hnd', hinv',
        Or.inr ⟨rfl, by rw [hlen]; exact hcount⟩⟩
    · simp only [hcount, if_false]
      exact ⟨_, _, rfl, rfl, rfl, rfl, rfl, rfl, rfl, rfl, hnd', hinv', Or.inl hstate⟩

/-- A run of `SERVER_VERDICT_SIGNATURE` messages keeps what one message
keeps. -/
theorem verdictSignatures_inv (c : Crypto) (msgs : List (Id × QByteArray)) (r : Round)
    (hserver : r.IsServer = true)
    (hnd : (QMap.keys r.server_state.verdict_signatures).Nodup)
    (hinv : ∀ s ∈ QMap.keys r.server_state.verdict_signatures, r.servers.Contains s = true ∧
      ∃ key sig, r.servers.GetKeyOf s = some key ∧
        QMap.find s r.server_state.verdict_signatures = some sig ∧
        c.Verify key r.server_state.verdict_hash sig = true)
    (hst : r.sm_state = States.SERVER_WAIT_FOR_VERDICT_SIGNATURE ∨
      (r.sm_state = States.SERVER_SHARE_VERDICT ∧
        (QMap.keys r.server_state.verdict_signatures).length = r.servers.Count)) :
    ∃ r', verdictSignatures c msgs r = some r' ∧
      r'.servers = r.servers ∧
      r'.server_state.verdict_hash = r.server_state.verdict_hash ∧
      r'.server_state.current_blame = r.server_state.current_blame ∧
      r'.server_state.bad_dude = r.server_state.bad_dude ∧
      r'.nonce = r.nonce ∧ r'.phase = r.phase ∧
      (QMap.keys r'.server_state.verdict_signatures).Nodup ∧
      (∀ s ∈ QMap.keys r'.server_state.verdict_signatures, r'.servers.Contains s = true ∧
        ∃ key sig, r'.servers.GetKeyOf s = some key ∧
          QMap.find s r'.server_state.verdict_signatures = some sig ∧
          c.Verify key r'.server_state.verdict_hash sig = true) ∧
      (r'.sm_state = States.SERVER_SHARE_VERDICT →
        (QMap.keys r'.server_state.verdict_signatures).length = r'.servers.Count) := by
  induction msgs generalizing r with
  | nil =>
    refine ⟨r, rfl, rfl, rfl, rfl, rfl, rfl, rfl, hnd, hinv, ?_⟩
    intro hs
    rcases hst with h | ⟨-, h⟩
    · rw [h] at hs; exact absurd hs (by decide)
    · exact h
  | cons m rest ih =>
    obtain ⟨sender, signature⟩ := m
    unfold verdictSignatures
    rcases hst with hstate | ⟨hstate, hlen⟩
    · simp only [hstate, if_true]
      obtain ⟨o, r1, h1, hs1, e1, e2, e3, e4, e5, e6, hnd1, hinv1, hst1⟩ :=
        HandleVerdictSignature_step c r sender signature hserver hstate hnd hinv
      simp only [h1]
      obtain ⟨r', h', f1, f2, f3, f4, f5, f6, g⟩ := ih r1 hs1 hnd1 hinv1 hst1
      exact ⟨r', h', by rw [f1, e1], by rw [f2, e2], by rw [f3, e3], by rw [f4, e4],
        by rw [f5, e5], by rw [f6, e6], g⟩
    · have hne : ¬ r.sm_state = States.SERVER_WAIT_FOR_VERDICT_SIGNATURE := by
        rw [hstate]; decide
      simp only [hne, if_false]
      exact ih r hserver hnd hinv (Or.inr ⟨hstate, hlen⟩)

/-- The loop of `PushVerdict` over a part of the roster, when every id of it
has a stored signature: the map is left as it is and the vector holds the
stored signatures in roster order. -/
theorem PushVerdict.signatures_spec (ro : List PublicIdentity) (m : QMap QByteArray)
    (h : ∀ p ∈ ro, p.id ∈ QMap.keys m) :
    PushVerdict.signatures ro m = (ro.map (fun p => (QMap.find p.id m).getD []), m) := by
  induction ro with
  | nil => rfl
  | cons p rest ih =>
    have hp : QMap.contains m p.id = true :=
      (QMap.contains_iff p.id m).mpr (h p (List.mem_cons_self _ _))
    simp only [PushVerdict.signatures, QMap.touch, hp, if_true, List.map_cons,
      ih (fun q hq => h q (List.mem_cons_of_mem _ hq))]

/-- The verdict of a server carries a verifying signature per roster
server: from `SERVER_EXCHANGE_VERDICT_SIGNATURE` with no verdict signature
stored yet, `SubmitVerdictSignature` and any run of `SERVER_VERDICT_SIGNATURE`
messages return; if the server has then reached `SERVER_SHARE_VERDICT`,
`PushVerdict` sends a verdict with one signature per roster server, in roster
order, each verifying under that server's key over `H(blame || bad_dude)`. -/
theorem PushVerdict_verdict (c : Crypto) (s : Round) (msgs : List (Id × QByteArray))
    (hserver : s.IsServer = true)
    (hstate : s.sm_state = States.SERVER_EXCHANGE_VERDICT_SIGNATURE)
    (hempty : s.server_state.verdict_signatures = []) :
    ∃ s1 s2, SubmitVerdictSignature c s = some s1 ∧
      s1.sm_state = States.SERVER_WAIT_FOR_VERDICT_SIGNATURE ∧
      verdictSignatures c msgs s1 = some s2 ∧
      (s2.sm_state = States.SERVER_SHARE_VERDICT →
        ∃ signatures : List QByteArray, signatures.length = s.servers.Count ∧
          Packet.SERVER_VERDICT s.nonce s.phase s.server_state.current_blame
            s.server_state.bad_dude signatures ∈ (PushVerdict s2).sent ∧
          ∀ (i : Nat) (pid : PublicIdentity), s.servers[i]? = some pid →
            ∃ sig, signatures[i]? = some sig ∧
              c.Verify pid.key (c.ComputeHash
                (streamVerdict s.server_state.current_blame s.server_state.bad_dude)) sig
                = true) := by
  let verdict_hash :=
    c.ComputeHash (streamVerdict s.server_state.current_blame s.server_state.bad_dude)
  let packet := Packet.SERVER_VERDICT_SIGNATURE s.nonce s.phase (c.Sign s.key verdict_hash)
  let s0 : Round := { s with server_state.verdict_hash := verdict_hash,
                             sent := s.sent ++ [packet] }
  have hstep := StateComplete_step s0 _ States.SERVER_WAIT_FOR_VERDICT_SIGNATURE hserver hstate
    (by decide) (by decide)
  obtain ⟨s2, h2, e1, e2, e3, e4, e5, e6, hnd, hinv, hlen⟩ := verdictSignatures_inv c msgs
    { s0 with server_state.handled_servers := [],
              sm_state := States.SERVER_WAIT_FOR_VERDICT_SIGNATURE }
    hserver (by show (QMap.keys s.server_state.verdict_signatures).Nodup
                rw [hempty]; exact List.nodup_nil)
    (by intro k hk
        have hk' : k ∈ QMap.keys s.server_state.verdict_signatures := hk
        rw [hempty] at hk'
        exact absurd hk' (List.not_mem_nil k))
    (Or.inl rfl)
  simp only [] at e1 e2 e3 e4 e5 e6
  refine ⟨_, s2, hstep, rfl, h2, ?_⟩
  intro hshare
  have hcount := hlen hshare
  obtain ⟨hids, hall⟩ := Roster.all_counted s2.servers
    (QMap.keys s2.server_state.verdict_signatures) hnd (fun k hk => (hinv k hk).1) hcount
  have hspec := PushVerdict.signatures_spec s2.servers s2.server_state.verdict_signatures hall
  refine ⟨s2.servers.map (fun p => (QMap.find p.id s2.server_state.verdict_signatures).getD []),
    ?_, ?_, ?_⟩
  · rw [List.length_map, e1]
    rfl
  · simp only [PushVerdict, hspec, Stop, e3, e4, e5, e6]
    simp
  · intro i pid hp
    rw [← e1] at hp
    obtain ⟨-, a2, -⟩ := Roster.lookup_of_nodup s2.servers i pid hids hp
    obtain ⟨-, key, sig, b1, b2, b3⟩ := hinv pid.id (hall pid (List.getElem?_mem hp))
    rw [a2] at b1
    cases b1
    refine ⟨sig, ?_, ?_⟩
    · rw [List.getElem?_map, hp]
      simp [b2]
    · rw [e2] at b3
      exact b3

/-- C11, at the failing input and beside it. For a verdict message from a
roster server to a client: the client marks the round unsuccessful with
`bad_members = [bad_dude]` and stops it exactly when, for every server index
`i < Ns`, `signatures[i]` is there and verifies under server `i`'s key over
`H(blame || bad_dude)`; with `Ns` signatures or more, a failing one makes it
throw "Invalid verdict signature" and leave the round as it was. But a
message with fewer than `Ns` signatures, all of them verifying, is not
rejected: `signatures[idx++]` reads the vector outside its entries. A verdict
that `PushVerdict` assembles from the signatures `HandleVerdictSignature`
accepted has `Ns` signatures and is accepted. -/
theorem HandleRebuttalOrVerdict_short_verdict (c : Crypto) (r : Round) (sender : Id)
    (blame : Triple) (bad_dude : Id) (signatures : List QByteArray)
    (hclient : r.IsServer = false) (hsender : r.servers.Contains sender = true) :
    (HandleRebuttalOrVerdict c r sender (RebuttalOrVerdict.verdict blame bad_dude signatures) =
        some (Outcome.ok (),
          Stop { r with successful := false, bad_members := [bad_dude] }
            "Bad member found and reported") ↔
      ∀ (i : Nat) (pid : PublicIdentity), r.servers[i]? = some pid →
        ∃ sig, signatures[i]? = some sig ∧
          c.Verify pid.key (c.ComputeHash (streamVerdict blame bad_dude)) sig = true) ∧
    (r.servers.Count ≤ signatures.length →
      ¬ (∀ (i : Nat) (pid : PublicIdentity), r.servers[i]? = some pid →
        ∃ sig, signatures[i]? = some sig ∧
          c.Verify pid.key (c.ComputeHash (streamVerdict blame bad_dude)) sig = true) →
      HandleRebuttalOrVerdict c r sender (RebuttalOrVerdict.verdict blame bad_dude signatures) =
        some (Outcome.threw "Invalid verdict signature", r)) ∧
    (signatures.length < r.servers.Count →
      (∀ (i : Nat) (pid : PublicIdentity) (sig : QByteArray),
          r.servers[i]? = some pid → signatures[i]? = some sig →
        c.Verify pid.key (c.ComputeHash (streamVerdict blame bad_dude)) sig = true) →
      HandleRebuttalOrVerdict c r sender (RebuttalOrVerdict.verdict blame bad_dude signatures) =
        none) ∧
    (∀ (s : Round) (msgs : List (Id × QByteArray)),
      s.IsServer = true → s.sm_state = States.SERVER_EXCHANGE_VERDICT_SIGNATURE →
      s.server_state.verdict_signatures = [] → s.servers = r.servers →
      s.server_state.current_blame = blame → s.server_state.bad_dude = bad_dude →
      ∃ s1 s2, SubmitVerdictSignature c s = some s1 ∧ verdictSignatures c msgs s1 = some s2 ∧
        (s2.sm_state = States.SERVER_SHARE_VERDICT →
          ∃ sigs : List QByteArray, sigs.length = r.servers.Count ∧
            Packet.SERVER_VERDICT s.nonce s.phase blame bad_dude sigs ∈ (PushVerdict s2).sent ∧
            HandleRebuttalOrVerdict c r sender (RebuttalOrVerdict.verdict blame bad_dude sigs) =
              some (Outcome.ok (),
                Stop { r with successful := false, bad_members := [bad_dude] }
                  "Bad member found and reported"))) := by
  have hiff := HandleRebuttalOrVerdict.verdict_accepted_iff c
    (c.ComputeHash (streamVerdict blame bad_dude)) signatures r.servers 0
  simp only [Nat.zero_add] at hiff
  have hred : ∀ sigs : List QByteArray, HandleRebuttalOrVerdict c r sender
      (RebuttalOrVerdict.verdict blame bad_dude sigs) =
      match HandleRebuttalOrVerdict.verified c (c.ComputeHash (streamVerdict blame bad_dude))
          sigs r.servers 0 with
      | none => none
      | some false => some (Outcome.threw "Invalid verdict signature", r)
      | some true =>
        some (Outcome.ok (),
          Stop { r with successful := false, bad_members := [bad_dude] }
            "Bad member found and reported") := by
    intro sigs
    unfold HandleRebuttalOrVerdict
    simp [hclient, hsender]
  rw [hred signatures]
  refine ⟨?_, ?_, ?_, ?_⟩
  · rw [← hiff]
    cases HandleRebuttalOrVerdict.verified c (c.ComputeHash (streamVerdict blame bad_dude))
        signatures r.servers 0 with
    | none => simp
    | some b => cases b <;> simp
  · intro hlen hnot
    have hdef := HandleRebuttalOrVerdict.verdict_checked c
      (c.ComputeHash (streamVerdict blame bad_dude)) signatures r.servers 0
      (by simpa [Roster.Count] using hlen)
    rw [← hiff] at hnot
    cases hx : HandleRebuttalOrVerdict.verified c (c.ComputeHash (streamVerdict blame bad_dude))
        signatures r.servers 0 with
    | none => exact absurd hx hdef
    | some b =>
      cases b with
      | false => rfl
      | true => exact absurd hx hnot
  · intro hshort hall
    rw [HandleRebuttalOrVerdict.verified_short c _ signatures r.servers 0 (Nat.zero_le _)
      (by simpa [Roster.Count] using hshort)
      (by intro k pid sig hk hs; exact hall k pid sig hk (by simpa using hs))]
  · intro s msgs hsv hst hempty hros hbl hbd
    subst hbl hbd
    obtain ⟨s1, s2, a1, -, a3, a4⟩ := PushVerdict_verdict c s msgs hsv hst hempty
    refine ⟨s1, s2, a1, a3, ?_⟩
    intro hshare
    obtain ⟨sigs, b1, b2, b3⟩ := a4 hshare
    refine ⟨sigs, by rw [← hros]; exact b1, b2, ?_⟩
    have hacc := (HandleRebuttalOrVerdict.verdict_accepted_iff c
      (c.ComputeHash (streamVerdict s.server_state.current_blame s.server_state.bad_dude))
      sigs r.servers 0).mpr (by
        intro k pid hk
        rw [← hros] at hk
        simpa using b3 k pid hk)
    rw [hred sigs, hacc]


/-! ## What the broadcast of the cleartext sends -/

/-- The packets a round has sent are kept by `ProcessCleartext`. -/
theorem ProcessCleartext_sent (c : Crypto) (cfg : Config) (r r' : Round)
    (h : ProcessCleartext c cfg r = some r') : r'.sent = r.sent := by
  have hst : ∀ (r : Round) (b : Bool) (f : PhaseLog → PhaseLog),
      (if b then updatePhaseLog r f else r).sent = r.sent := by
    intro r b f; cases b <;> rfl
  unfold ProcessCleartext at h
  split at h
  · exact Option.noConfusion h
  simp only [] at h
  split at h
  · exact Option.noConfusion h
  rename_i v hv
  simp only [Option.some.injEq] at h
  subst h
  obtain ⟨-, a2, -⟩ := ProcessCleartext.slots_frame c cfg _ _ v hv
  have hs := (ProcessCleartext.fixed_fields _ _ a2).2.2.2.2.2.1
  simp only [] at hs
  show (if v.r.IsServer = true then updatePhaseLog v.r _ else v.r).sent = r.sent
  have e1 := hst v.r v.r.IsServer (fun l => { l with message_length := v.offset })
  simp only [] at e1
  rw [e1, hs]
  exact hst r r.IsServer _

/-- The packets a round has sent are kept by `StateComplete`. -/
theorem StateComplete_sent (r r' : Round) (h : StateComplete r = some r') :
    r'.sent = r.sent := by
  have hb : (BeforeStateTransition r).sent = r.sent := by
    unfold BeforeStateTransition; split <;> rfl
  have hcc : ∀ (q : Round) (b : Bool) (q' : Round), CycleComplete q = some (b, q') →
      q'.sent = q.sent := by
    intro q b q' hq
    unfold CycleComplete at hq
    simp only [] at hq
    split at hq
    · exact Option.noConfusion hq
    rename_i q1 hq1
    have h1 : q1.sent = q.sent := by
      split at hq1
      · split at hq1
        · exact Option.noConfusion hq1
        · simp only [Option.some.injEq] at hq1; subst hq1; rfl
      · simp only [Option.some.injEq] at hq1; subst hq1; rfl
    split at hq <;>
      (simp only [Option.some.injEq, Prod.mk.injEq] at hq
       obtain ⟨-, rfl⟩ := hq
       exact h1)
  unfold StateComplete at h
  simp only [] at h
  split at h
  · exact Option.noConfusion h
  · rename_i q hq
    simp only [Option.some.injEq] at h
    subst h
    split at hq
    · split at hq
      · exact Option.noConfusion hq
      · simp at hq
      · rename_i q1 hq1
        simp only [Option.some.injEq, Prod.mk.injEq, Bool.false_eq_true, false_and] at hq
        obtain ⟨-, rfl⟩ := hq
        rw [hcc _ _ _ hq1, hb]
    · simp at hq
  · rename_i q hq
    have hq' : q.sent = r.sent := by
      split at hq
      · split at hq
        · exact Option.noConfusion hq
        · rename_i q1 hq1
          simp only [Option.some.injEq, Prod.mk.injEq, true_and] at hq
          subst hq
          show q1.sent = r.sent
          rw [hcc _ _ _ hq1, hb]
        · simp at hq
      · simp only [Option.some.injEq, Prod.mk.injEq, true_and] at hq
        subst hq
        exact hb
    split at h <;>
      (simp only [Option.some.injEq] at h
       subst h
       exact hq')

/-- C13. Let a server complete `SERVER_WAIT_FOR_SERVER_CIPHERTEXT`, run
`SubmitValidation` on entering `SERVER_WAIT_FOR_SERVER_VALIDATION`, and be
handed any sequence of `SERVER_VALIDATION` messages. All of this returns,
and if the server has then reached `SERVER_PUSH_CLEARTEXT`, where
`PushCleartext` runs, its `signatures` map holds, for each of the `Ns` roster
servers, a signature that verifies under that server's key over the
`signed_hash = H(cleartext || handled_clients)` of this phase; these are the
signatures in the packet `PushCleartext` sends. -/
theorem PushCleartext_signatures (c : Crypto) (cfg : Config) (r : Round)
    (msgs : List (Id × QByteArray)) (hserver : r.IsServer = true)
    (hstate : r.sm_state = States.SERVER_WAIT_FOR_SERVER_CIPHERTEXT) :
    ∃ r1 r2, StateComplete r = some r1 ∧
      r1.sm_state = States.SERVER_WAIT_FOR_SERVER_VALIDATION ∧
      validations c msgs (SubmitValidation c r1) = some r2 ∧
      (r2.sm_state = States.SERVER_PUSH_CLEARTEXT →
        r2.server_state.signed_hash =
          c.ComputeHash (r2.state.cleartext ++ streamBits r2.server_state.handled_clients) ∧
        (∀ i, i < r2.servers.Count → ∃ key sig, r2.servers.GetKey i = some key ∧
          QMap.find i r2.server_state.signatures = some sig ∧
          c.Verify key r2.server_state.signed_hash sig = true) ∧
        ∀ r3, PushCleartext c cfg r2 = some r3 →
          Packet.SERVER_CLEARTEXT r2.nonce r2.phase r2.server_state.signatures
            r2.state.cleartext r2.server_state.handled_clients ∈ r3.sent) := by
  have hstep := StateComplete_step r _ States.SERVER_WAIT_FOR_SERVER_VALIDATION hserver hstate
    (by decide) (by decide)
  obtain ⟨r2, h2, -, e2, e3, e4, hall⟩ := validations_inv c msgs
    (SubmitValidation c { r with server_state.handled_servers := [],
                                 sm_state := States.SERVER_WAIT_FOR_SERVER_VALIDATION })
    hserver (Or.inl ⟨rfl, List.nodup_nil, fun s hs => absurd hs (List.not_mem_nil s)⟩)
  refine ⟨_, r2, hstep, rfl, h2, ?_⟩
  intro hpush
  refine ⟨?_, hall hpush, ?_⟩
  · rw [e2, e3, e4]
    rfl
  · intro r3 h3
    unfold PushCleartext at h3
    simp only [] at h3
    split at h3
    · exact Option.noConfusion h3
    rename_i q hq
    have hqs := ProcessCleartext_sent c cfg _ q hq
    simp only [] at hqs
    have hr3 : r3.sent = q.sent := by
      split at h3
      · simp only [Option.some.injEq] at h3
        subst h3
        rfl
      · exact StateComplete_sent q r3 h3
    rw [hr3, hqs]
    simp


/-! ## The next length of a slot -/

theorem ProcessCleartext.deliver_next (v v' : ProcessCleartext.Vars) (owner msg_length : Nat)
    (msg_p : QByteArray) (h : ProcessCleartext.deliver v owner msg_length msg_p = some v') :
    ∃ phase next, ReadInt msg_p 1 = some phase ∧ ReadInt msg_p 5 = some next ∧
      QMap.find owner v'.next_msgs =
        if phase ≠ (v.r.phase : Int) then some msg_length
        else if next < 0 then some msg_length
        else if 0 < next then some next.toNat
        else QMap.find owner v.next_msgs := by
  unfold ProcessCleartext.deliver at h
  simp only [ProcessCleartext.keep] at h
  split at h
  · rename_i phase next h1 h5
    refine ⟨phase, next, h1, h5, ?_⟩
    by_cases hp : phase ≠ (v.r.phase : Int)
    · simp only [hp, if_true, Option.some.injEq, ne_eq, not_false_eq_true] at h ⊢
      subst h
      exact QMap.find_insert_self _ _ _
    · simp only [hp, if_false] at h ⊢
      by_cases hn : next < 0
      · simp only [hn, if_true, Option.some.injEq] at h ⊢
        subst h
        exact QMap.find_insert_self _ _ _
      · simp only [hn, if_false] at h ⊢
        by_cases hpos : next > 0
        · have hpos' : 0 < next := hpos
          simp only [hpos, if_true] at h
          simp only [hpos', if_true]
          split at h <;>
            (simp only [Option.some.injEq] at h; subst h
             exact QMap.find_insert_self _ _ _)
        · have hpos' : ¬ 0 < next := hpos
          simp only [hpos, if_false] at h
          simp only [hpos', if_false]
          split at h <;> (simp only [Option.some.injEq] at h; subst h; rfl)
  · exact Option.noConfusion h

/-- The entry of `next_msgs` that the turn of an open slot leaves for its
owner. -/
theorem ProcessCleartext.slot_next (c : Crypto) (cfg : Config) (v v' : ProcessCleartext.Vars)
    (owner msg_length : Nat) (h0 : msg_length ≠ 0)
    (h : ProcessCleartext.slot c cfg v owner msg_length = some v') :
    ∃ msg_pp, Derandomize c ((v.r.state.cleartext.drop v.offset).take msg_length)
        = some msg_pp ∧
      (msg_pp = [] → QMap.find owner v'.next_msgs = some msg_length) ∧
      (msg_pp ≠ [] → ∃ vkey, ProcessCleartext.vkey cfg v.r.state owner = some vkey ∧
        (ProcessCleartext.bad_message c cfg vkey msg_pp = true →
          QMap.find owner v'.next_msgs = some msg_length) ∧
        (ProcessCleartext.bad_message c cfg vkey msg_pp = false →
          ∃ phase next,
            ReadInt (ProcessCleartext.msg_p c cfg vkey msg_pp) 1 = some phase ∧
            ReadInt (ProcessCleartext.msg_p c cfg vkey msg_pp) 5 = some next ∧
            QMap.find owner v'.next_msgs =
              if phase ≠ (v.r.phase : Int) then some msg_length
              else if next < 0 then some msg_length
              else if 0 < next then some next.toNat
              else QMap.find owner v.next_msgs)) := by
  rw [ProcessCleartext.slot_eq] at h
  simp only [h0, if_false] at h
  split at h
  · exact Option.noConfusion h
  split at h
  · exact Option.noConfusion h
  rename_i msg_pp hd
  refine ⟨msg_pp, hd, ?_, ?_⟩
  · intro he
    subst he
    simp only [List.isEmpty_nil, if_true] at h
    rw [(ProcessCleartext.missing_frame _ _ _ _ h).2.2.1]
    exact QMap.find_insert_self _ _ _
  · intro hne
    have he : msg_pp.isEmpty = false := by
      cases msg_pp with
      | nil => exact absurd rfl hne
      | cons _ _ => rfl
    simp only [he, Bool.false_eq_true, if_false] at h
    split at h
    · exact Option.noConfusion h
    rename_i vkey hk
    refine ⟨vkey, hk, ?_, ?_⟩
    · intro hbad
      simp only [hbad, if_true] at h
      split at h
      · exact Option.noConfusion h
      split at h
      · exact Option.noConfusion h
      rename_i v2 hv2
      split at h
      · exact Option.noConfusion h
      rename_i flag _
      simp only [Option.some.injEq] at h
      subst h
      rw [(ProcessCleartext.flagged_frame v2 owner flag).2.2.1,
        (ProcessCleartext.blame_frame _ _ _ _ _ hv2).2.2.1]
      exact QMap.find_insert_self _ _ _
    · intro hgood
      simp only [hgood, Bool.false_eq_true, if_false] at h
      split at h
      · exact Option.noConfusion h
      split at h
      · exact Option.noConfusion h
      rename_i flag _
      obtain ⟨phase, next, h1, h5, hfind⟩ := ProcessCleartext.deliver_next _ _ _ _ _ h
      refine ⟨phase, next, h1, h5, ?_⟩
      rw [hfind, (ProcessCleartext.flagged_frame _ owner flag).2.2.1]
      have hp : (ProcessCleartext.flagged
          { r := v.r, offset := v.offset + msg_length, next_msgs := v.next_msgs,
            next_msg_length := v.next_msg_length } owner flag).r.phase = v.r.phase :=
        (ProcessCleartext.fixed_fields _ _
          (ProcessCleartext.flagged_frame _ owner flag).2.1).2.1
      rw [hp]

/-- C14. `ProcessCleartext` next-length rule. On a well-formed layout
`ProcessCleartext` returns, and for every open slot `o` of current length
`L > 0` whose bitmap bit is clear in the cleartext: the new
`next_messages[o]` is the next length `n` declared in the slot header if the
slot decodes to a non-empty message, passes authentication, carries the
current phase and `n > 0`; `o` is absent from the new `next_messages` if all
of these hold and `n = 0`; and `next_messages[o] = L` in every other case
(empty decode, failed authentication, wrong phase, negative `n`). -/
theorem ProcessCleartext_next_length (c : Crypto) (cfg : Config) (r : Round) (o L : Nat)
    (hwf : ProcessCleartext.wellFormed c cfg r = true)
    (hkeys : (QMap.keys r.state.next_messages).Pairwise (fun a b => a < b))
    (hmem : (o, L) ∈ r.state.next_messages) (hL : 0 < L)
    (hbit : ¬ (o < r.clients.Count ∧
      r.state.cleartext.getD (o / 8) 0 &&& bit_masks (o % 8) ≠ 0)) :
    ∃ r' msg_pp, ProcessCleartext c cfg r = some r' ∧
      Derandomize c (ProcessCleartext.msg_ppp r o L) = some msg_pp ∧
      (msg_pp = [] → QMap.find o r'.state.next_messages = some L) ∧
      (msg_pp ≠ [] → ∃ vkey, ProcessCleartext.vkey cfg r.state o = some vkey ∧
        (ProcessCleartext.bad_message c cfg vkey msg_pp = true →
          QMap.find o r'.state.next_messages = some L) ∧
        (ProcessCleartext.bad_message c cfg vkey msg_pp = false →
          ∃ phase next,
            ReadInt (ProcessCleartext.msg_p c cfg vkey msg_pp) 1 = some phase ∧
            ReadInt (ProcessCleartext.msg_p c cfg vkey msg_pp) 5 = some next ∧
            QMap.find o r'.state.next_messages =
              if phase ≠ (r.phase : Int) then some L
              else if next < 0 then some L
              else if 0 < next then some next.toNat
              else none)) := by
  obtain ⟨next_msgs, next_msg_length, r0, vf, r', -, hfind, hr0, hp0, -, -, hv, hrun, hstate, -⟩ :=
    ProcessCleartext_run c cfg r hwf
  obtain ⟨pre, post, hsplit, hpre, hpost⟩ := QMap.split_at _ o L hkeys hmem
  rw [hsplit] at hv
  obtain ⟨v1, v2, h1, h2, h3⟩ := ProcessCleartext.slots_at c cfg pre post o L _ vf hv
  obtain ⟨a1, a2, a3⟩ := ProcessCleartext.slots_frame c cfg pre _ v1 h1
  obtain ⟨-, -, b3⟩ := ProcessCleartext.slots_frame c cfg post v2 vf h3
  obtain ⟨f1, f2, f3, -⟩ := ProcessCleartext.fixed_fields _ _ a2
  simp only [] at a1 a3 f1 f2 f3
  have hopre : o ∉ QMap.keys pre := by
    intro hin
    obtain ⟨e, he, heq⟩ := List.mem_map.mp hin
    have := hpre e he
    omega
  have hopost : o ∉ QMap.keys post := by
    intro hin
    obtain ⟨e, he, heq⟩ := List.mem_map.mp hin
    have := hpost e he
    omega
  -- the slot is read at its offset
  have hoff : v1.offset = ProcessCleartext.start r o := by
    rw [a1, ProcessCleartext.start, hsplit,
      GenerateCiphertext.offset_append o pre _ (fun e he => by have := hpre e he; omega),
      GenerateCiphertext.offset_head]
    omega
  have hct : v1.r.state.cleartext = r.state.cleartext := by rw [f1, hr0]
  have hph : v1.r.phase = r.phase := by rw [f2, hp0]
  have hak : ProcessCleartext.vkey cfg v1.r.state o = ProcessCleartext.vkey cfg r.state o := by
    simp only [ProcessCleartext.vkey, f3, hr0]
  have hbefore : QMap.find o v1.next_msgs = none := by
    rw [a3 o hopre, hfind o, if_neg hbit]
  have hafter : QMap.find o r'.state.next_messages = QMap.find o v2.next_msgs := by
    rw [hstate]
    exact b3 o hopost
  obtain ⟨msg_pp, hd, hempty, hfull⟩ :=
    ProcessCleartext.slot_next c cfg v1 v2 o L (by omega) h2
  rw [hoff, hct] at hd
  refine ⟨r', msg_pp, hrun, hd, ?_, ?_⟩
  · intro he
    rw [hafter]
    exact hempty he
  · intro hne
    obtain ⟨vkey, hk, hb, hg⟩ := hfull hne
    rw [hak] at hk
    refine ⟨vkey, hk, ?_, ?_⟩
    · intro hbad
      rw [hafter]
      exact hb hbad
    · intro hgood
      obtain ⟨phase, next, r1, r5, hres⟩ := hg hgood
      refine ⟨phase, next, r1, r5, ?_⟩
      rw [hafter, hres, hph, hbefore]


/-! ## The flags the slot loop writes -/

theorem ProcessCleartext.missing_quiet (v v' : ProcessCleartext.Vars) (owner msg_length : Nat)
    (h : ProcessCleartext.missing v owner msg_length = some v') :
    v'.r.state.accuse = v.r.state.accuse ∧ v'.r.state.accuse_idx = v.r.state.accuse_idx ∧
    v'.r.state.blame_phase = v.r.state.blame_phase ∧
    v'.r.state.start_accuse = v.r.state.start_accuse ∧
    v'.r.state.accuser = v.r.state.accuser ∧ v'.r.state.my_accuse = v.r.state.my_accuse := by
  unfold ProcessCleartext.missing at h
  simp only [ProcessCleartext.keep] at h
  split at h <;>
    (simp only [Option.some.injEq] at h; subst h; exact ⟨rfl, rfl, rfl, rfl, rfl, rfl⟩)

theorem ProcessCleartext.blame_quiet (v v' : ProcessCleartext.Vars) (owner msg_length : Nat)
    (msg_ppp : QByteArray) (h : ProcessCleartext.blame v owner msg_length msg_ppp = some v') :
    v'.r.state.start_accuse = v.r.state.start_accuse ∧
    v'.r.state.accuser = v.r.state.accuser ∧ v'.r.state.my_accuse = v.r.state.my_accuse ∧
    (¬ ((owner : Int) = v.r.state.my_idx ∧ v.r.state.accuse = false) →
      v'.r.state.accuse = v.r.state.accuse ∧ v'.r.state.accuse_idx = v.r.state.accuse_idx ∧
      v'.r.state.blame_phase = v.r.state.blame_phase) := by
  unfold ProcessCleartext.blame at h
  simp only [ProcessCleartext.keep] at h
  split at h
  · rename_i hc
    simp only [Bool.and_eq_true, decide_eq_true_eq, Bool.not_eq_true'] at hc
    split at h
    · exact Option.noConfusion h
    · simp only [Option.some.injEq] at h; subst h
      exact ⟨rfl, rfl, rfl, fun hn => absurd hc hn⟩
    · simp only [Option.some.injEq] at h; subst h
      exact ⟨rfl, rfl, rfl, fun hn => absurd hc hn⟩
  · simp only [Option.some.injEq] at h; subst h
    exact ⟨rfl, rfl, rfl, fun _ => ⟨rfl, rfl, rfl⟩⟩

theorem ProcessCleartext.flagged_state (v : ProcessCleartext.Vars) (owner flag : Nat) :
    (ProcessCleartext.flagged v owner flag).r.state.accuse = v.r.state.accuse ∧
    (ProcessCleartext.flagged v owner flag).r.state.accuse_idx = v.r.state.accuse_idx ∧
    (ProcessCleartext.flagged v owner flag).r.state.blame_phase = v.r.state.blame_phase ∧
    (flag = 0 →
      (ProcessCleartext.flagged v owner flag).r.state.start_accuse = v.r.state.start_accuse ∧
      (ProcessCleartext.flagged v owner flag).r.state.accuser = v.r.state.accuser ∧
      (ProcessCleartext.flagged v owner flag).r.state.my_accuse = v.r.state.my_accuse) ∧
    (flag ≠ 0 →
      (ProcessCleartext.flagged v owner flag).r.state.start_accuse = true ∧
      (ProcessCleartext.flagged v owner flag).r.state.accuser = (owner : Int) ∧
      ((owner : Int) = v.r.state.my_idx →
        (ProcessCleartext.flagged v owner flag).r.state.my_accuse = v.r.state.accuse)) := by
  simp only [ProcessCleartext.flagged]
  by_cases hf : flag = 0
  · simp [hf]
  · by_cases ho : (owner : Int) = v.r.state.my_idx
    · simp [hf, ho]
    · simp [hf, ho]

theorem ProcessCleartext.deliver_state (v v' : ProcessCleartext.Vars) (owner msg_length : Nat)
    (msg_p : QByteArray) (h : ProcessCleartext.deliver v owner msg_length msg_p = some v') :
    v'.r.state = v.r.state := by
  unfold ProcessCleartext.deliver at h
  simp only [ProcessCleartext.keep] at h
  split at h
  · rename_i phase next _ _
    split at h
    · simp only [Option.some.injEq] at h; subst h; rfl
    · split at h
      · simp only [Option.some.injEq] at h; subst h; rfl
      · by_cases hn : next > 0
        · simp only [hn, if_true] at h
          split at h <;> (simp only [Option.some.injEq] at h; subst h; rfl)
        · simp only [hn, if_false] at h
          split at h <;> (simp only [Option.some.injEq] at h; subst h; rfl)
  · exact Option.noConfusion h

theorem List.take_get?_zero {α : Type} (l : List α) (k : Nat) (x d : α)
    (h : (l.take k).get? 0 = some x) : l.getD 0 d = x := by
  cases l with
  | nil => simp at h
  | cons a rest =>
    cases k with
    | zero => simp at h
    | succ k =>
      simp only [List.take_succ_cons, List.get?_cons_zero, Option.some.injEq] at h
      simp [h]

/-- The turn of one slot: a slot of another participant leaves `accuse`,
`accuse_idx` and `blame_phase`; a slot whose flag byte is zero leaves
`start_accuse`, `accuser` and `my_accuse`; a slot whose flag byte is not zero
makes its owner the accuser. -/
theorem ProcessCleartext.slot_flags (c : Crypto) (cfg : Config) (v v' : ProcessCleartext.Vars)
    (owner msg_length : Nat)
    (h : ProcessCleartext.slot c cfg v owner msg_length = some v') :
    (((owner : Int) ≠ v.r.state.my_idx ∨ v.r.state.accuse = true ∨ msg_length = 0) →
      v'.r.state.accuse = v.r.state.accuse ∧ v'.r.state.accuse_idx = v.r.state.accuse_idx ∧
      v'.r.state.blame_phase = v.r.state.blame_phase) ∧
    ((msg_length = 0 ∨
        ProcessCleartext.flag c ((v.r.state.cleartext.drop v.offset).take msg_length) = 0) →
      v'.r.state.start_accuse = v.r.state.start_accuse ∧
      v'.r.state.accuser = v.r.state.accuser ∧ v'.r.state.my_accuse = v.r.state.my_accuse) ∧
    (msg_length ≠ 0 →
      ProcessCleartext.flag c ((v.r.state.cleartext.drop v.offset).take msg_length) ≠ 0 →
      v'.r.state.start_accuse = true ∧ v'.r.state.accuser = (owner : Int) ∧
      ((owner : Int) = v.r.state.my_idx → v'.r.state.my_accuse = v'.r.state.accuse)) := by
  rw [ProcessCleartext.slot_eq] at h
  by_cases h0 : msg_length = 0
  · simp only [h0, if_true, Option.some.injEq] at h
    subst h
    exact ⟨fun _ => ⟨rfl, rfl, rfl⟩, fun _ => ⟨rfl, rfl, rfl⟩, fun hc => absurd h0 hc⟩
  simp only [h0, if_false, false_or, or_false] at h ⊢
  split at h
  · exact Option.noConfusion h
  split at h
  · exact Option.noConfusion h
  rename_i msg_pp hd
  simp only [ProcessCleartext.flag, hd]
  by_cases he : msg_pp.isEmpty = true
  · simp only [he, if_true] at h
    obtain ⟨q1, q2, q3, q4, q5, q6⟩ := ProcessCleartext.missing_quiet _ _ _ _ h
    have hnil : msg_pp = [] := by simpa using he
    subst hnil
    exact ⟨fun _ => ⟨q1, q2, q3⟩, fun _ => ⟨q4, q5, q6⟩, fun _ hc => absurd rfl hc⟩
  simp only [he, if_false, Bool.false_eq_true] at h
  split at h
  · exact Option.noConfusion h
  rename_i vkey hk
  split at h
  · exact Option.noConfusion h
  split at h
  · exact Option.noConfusion h
  rename_i v2 hv2
  split at h
  · exact Option.noConfusion h
  rename_i flag hflag
  have hbyte : msg_pp.getD 0 0 = flag := List.take_get?_zero _ _ _ _ hflag
  rw [hbyte]
  obtain ⟨s1, s2, s3, s4, s5⟩ := ProcessCleartext.flagged_state v2 owner flag
  -- the state after the authenticator check
  have hv2' : v2.r.state.start_accuse = v.r.state.start_accuse ∧
      v2.r.state.accuser = v.r.state.accuser ∧ v2.r.state.my_accuse = v.r.state.my_accuse ∧
      v2.r.state.my_idx = v.r.state.my_idx ∧
      (((owner : Int) ≠ v.r.state.my_idx ∨ v.r.state.accuse = true) →
        v2.r.state.accuse = v.r.state.accuse ∧ v2.r.state.accuse_idx = v.r.state.accuse_idx ∧
        v2.r.state.blame_phase = v.r.state.blame_phase) := by
    by_cases hbad : ProcessCleartext.bad_message c cfg vkey msg_pp = true
    · simp only [hbad, if_true] at hv2
      obtain ⟨b1, b2, b3, b4⟩ := ProcessCleartext.blame_quiet _ _ _ _ _ hv2
      refine ⟨b1, b2, b3, ?_, ?_⟩
      · exact (ProcessCleartext.fixed_fields _ _
          (ProcessCleartext.blame_frame _ _ _ _ _ hv2).2.1).2.2.2.1
      · intro hc
        apply b4
        rintro ⟨e1, e2⟩
        rcases hc with hc | hc
        · exact hc e1
        · simp only [] at e2; rw [e2] at hc; exact Bool.noConfusion hc
    · simp only [hbad, if_false, Option.some.injEq, Bool.false_eq_true] at hv2
      subst hv2
      exact ⟨rfl, rfl, rfl, rfl, fun _ => ⟨rfl, rfl, rfl⟩⟩
  obtain ⟨t1, t2, t3, t4, t5⟩ := hv2'
  -- the state after the last stage
  have hlast : v'.r.state = (ProcessCleartext.flagged v2 owner flag).r.state := by
    by_cases hbad : ProcessCleartext.bad_message c cfg vkey msg_pp = true
    · simp only [hbad, if_true, Option.some.injEq] at h
      subst h; rfl
    · simp only [hbad, if_false, Bool.false_eq_true] at h
      exact ProcessCleartext.deliver_state _ _ _ _ _ h
  rw [hlast]
  refine ⟨?_, ?_, ?_⟩
  · intro hc
    obtain ⟨u1, u2, u3⟩ := t5 hc
    exact ⟨by rw [s1, u1], by rw [s2, u2], by rw [s3, u3]⟩
  · intro hf
    obtain ⟨w1, w2, w3⟩ := s4 hf
    exact ⟨by rw [w1, t1], by rw [w2, t2], by rw [w3, t3]⟩
  · intro _ hf
    obtain ⟨w1, w2, w3⟩ := s5 hf
    refine ⟨w1, w2, ?_⟩
    intro ho
    rw [w3 (by rw [t4]; exact ho), s1]


theorem ProcessCleartext.slots_accuse_other (c : Crypto) (cfg : Config) (l : List (Nat × Nat))
    (v v' : ProcessCleartext.Vars) (h : ProcessCleartext.slots c cfg l v = some v')
    (hl : ∀ e ∈ l, (e.1 : Int) ≠ v.r.state.my_idx ∨ e.2 = 0) :
    v'.r.state.accuse = v.r.state.accuse ∧ v'.r.state.accuse_idx = v.r.state.accuse_idx ∧
    v'.r.state.blame_phase = v.r.state.blame_phase := by
  induction l generalizing v with
  | nil =>
    simp only [ProcessCleartext.slots, Option.some.injEq] at h
    subst h; exact ⟨rfl, rfl, rfl⟩
  | cons e rest ih =>
    obtain ⟨owner, msg_length⟩ := e
    simp only [ProcessCleartext.slots] at h
    cases h1 : ProcessCleartext.slot c cfg v owner msg_length with
    | none => simp [h1] at h
    | some v1 =>
      simp only [h1] at h
      have hmy : v1.r.state.my_idx = v.r.state.my_idx :=
        (ProcessCleartext.fixed_fields _ _
          (ProcessCleartext.slot_frame c cfg v v1 owner msg_length h1).2.1).2.2.2.1
      obtain ⟨a1, a2, a3⟩ := (ProcessCleartext.slot_flags c cfg v v1 owner msg_length h1).1 (by
        rcases hl (owner, msg_length) (List.mem_cons_self _ _) with h' | h'
        · exact Or.inl h'
        · exact Or.inr (Or.inr h'))
      obtain ⟨b1, b2, b3⟩ := ih v1 h (fun e he => by
        rw [hmy]; exact hl e (List.mem_cons_of_mem _ he))
      exact ⟨by rw [b1, a1], by rw [b2, a2], by rw [b3, a3]⟩

theorem ProcessCleartext.slots_unflagged (c : Crypto) (cfg : Config) (l : List (Nat × Nat))
    (v v' : ProcessCleartext.Vars) (h : ProcessCleartext.slots c cfg l v = some v')
    (hl : ∀ pre e post, l = pre ++ e :: post → e.2 = 0 ∨
      ProcessCleartext.flag c
        ((v.r.state.cleartext.drop (v.offset + (pre.map Prod.snd).sum)).take e.2) = 0) :
    v'.r.state.start_accuse = v.r.state.start_accuse ∧
    v'.r.state.accuser = v.r.state.accuser ∧ v'.r.state.my_accuse = v.r.state.my_accuse := by
  induction l generalizing v with
  | nil =>
    simp only [ProcessCleartext.slots, Option.some.injEq] at h
    subst h; exact ⟨rfl, rfl, rfl⟩
  | cons e rest ih =>
    obtain ⟨owner, msg_length⟩ := e
    simp only [ProcessCleartext.slots] at h
    cases h1 : ProcessCleartext.slot c cfg v owner msg_length with
    | none => simp [h1] at h
    | some v1 =>
      simp only [h1] at h
      obtain ⟨f1, f2, -⟩ := ProcessCleartext.slot_frame c cfg v v1 owner msg_length h1
      have hct : v1.r.state.cleartext = v.r.state.cleartext :=
        (ProcessCleartext.fixed_fields _ _ f2).1
      obtain ⟨a1, a2, a3⟩ := (ProcessCleartext.slot_flags c cfg v v1 owner msg_length h1).2.1 (by
        have := hl [] (owner, msg_length) rest rfl
        simpa using this)
      obtain ⟨b1, b2, b3⟩ := ih v1 h (by
        intro pre e post hsplit
        have := hl ((owner, msg_length) :: pre) e post (by rw [hsplit]; rfl)
        rw [hct, f1]
        simpa [Nat.add_assoc] using this)
      exact ⟨by rw [b1, a1], by rw [b2, a2], by rw [b3, a3]⟩

theorem QMap.keys_before {V : Type} (pre post : QMap V) (e : Nat × V)
    (hkeys : (QMap.keys (pre ++ e :: post)).Pairwise (fun a b => a < b)) :
    (∀ a ∈ pre, a.1 < e.1) ∧ (∀ a ∈ post, e.1 < a.1) := by
  simp only [QMap.keys, List.map_append, List.map_cons, List.pairwise_append,
    List.pairwise_cons, List.mem_map, List.mem_cons, forall_exists_index, and_imp,
    forall_apply_eq_imp_iff₂] at hkeys
  obtain ⟨-, ⟨h2, -⟩, h3⟩ := hkeys
  exact ⟨fun a ha => h3 a ha e.1 (Or.inl rfl), fun a ha => h2 a ha⟩

/-- The offset of the slot of an entry, from where the entry stands. -/
theorem ProcessCleartext.start_at (r : Round) (pre post : QMap Nat) (e : Nat × Nat)
    (hsplit : r.state.next_messages = pre ++ e :: post)
    (hkeys : (QMap.keys r.state.next_messages).Pairwise (fun a b => a < b)) :
    ProcessCleartext.start r e.1 = ProcessCleartext.base r + (pre.map Prod.snd).sum := by
  rw [hsplit] at hkeys
  obtain ⟨h1, -⟩ := QMap.keys_before pre post e hkeys
  obtain ⟨k, x⟩ := e
  rw [ProcessCleartext.start, hsplit,
    GenerateCiphertext.offset_append k pre _ (fun a ha => by have := h1 a ha; simp at this; omega),
    GenerateCiphertext.offset_head]
  omega

/-- C15, as stated, fails: slot 0 decodes to a message whose byte 0 is the
accusation flag `0xFF`, slot 1 to a message whose byte 0 is `0x01`;
`ProcessCleartext` ends with `accuser = 1`, the index of a slot that does not
carry the flag `0xFF`. -/
theorem ProcessCleartext_accuser_counterexample :
    (Derandomize toyCrypto (ProcessCleartext.msg_ppp twoFlags 0 12)).map (fun m => m.getD 0 0)
      = some 255 ∧
    (Derandomize toyCrypto (ProcessCleartext.msg_ppp twoFlags 1 12)).map (fun m => m.getD 0 0)
      = some 1 ∧
    (ProcessCleartext toyCrypto digestSlots twoFlags).map
        (fun r => (r.state.start_accuse, r.state.accuser)) = some (true, 1) := by
  refine ⟨?_, ?_, ?_⟩
  · rfl
  · rfl
  · rfl

/-- C15, amended. Accusation flag detection: for every well-formed cleartext
in which some open slot decodes to a message whose byte 0 is not zero,
`ProcessCleartext` returns with `start_accuse = true` and `accuser` equal to
the index of the highest-indexed such slot, and when that slot is the local
participant's own, `my_accuse` is the local `accuse` flag. -/
theorem ProcessCleartext_accuser (c : Crypto) (cfg : Config) (r : Round) (o L : Nat)
    (hwf : ProcessCleartext.wellFormed c cfg r = true)
    (hkeys : (QMap.keys r.state.next_messages).Pairwise (fun a b => a < b))
    (hmem : (o, L) ∈ r.state.next_messages) (hL : 0 < L)
    (hflag : ProcessCleartext.flag c (ProcessCleartext.msg_ppp r o L) ≠ 0)
    (hlast : ∀ e ∈ r.state.next_messages, o < e.1 → e.2 = 0 ∨
      ProcessCleartext.flag c (ProcessCleartext.msg_ppp r e.1 e.2) = 0) :
    ∃ r', ProcessCleartext c cfg r = some r' ∧
      r'.state.start_accuse = true ∧ r'.state.accuser = (o : Int) ∧
      ((o : Int) = r.state.my_idx → r'.state.my_accuse = r'.state.accuse) := by
  obtain ⟨next_msgs, next_msg_length, r0, vf, r', -, -, hr0, -, -, -, hv, hrun, hstate, -⟩ :=
    ProcessCleartext_run c cfg r hwf
  obtain ⟨pre, post, hsplit, hpre, hpost⟩ := QMap.split_at _ o L hkeys hmem
  have hv' := hv
  rw [hsplit] at hv'
  obtain ⟨v1, v2, h1, h2, h3⟩ := ProcessCleartext.slots_at c cfg pre post o L _ vf hv'
  obtain ⟨a1, a2, -⟩ := ProcessCleartext.slots_frame c cfg pre _ v1 h1
  obtain ⟨b1, b2, -⟩ := ProcessCleartext.slot_frame c cfg v1 v2 o L h2
  obtain ⟨f1, -, -, f4, -⟩ := ProcessCleartext.fixed_fields _ _ a2
  obtain ⟨g1, -, -, g4, -⟩ := ProcessCleartext.fixed_fields _ _ b2
  simp only [] at a1 f1 f4
  have hoff : v1.offset = ProcessCleartext.start r o := by
    rw [a1, ProcessCleartext.start_at r pre post (o, L) hsplit hkeys]
  have hct : v1.r.state.cleartext = r.state.cleartext := by rw [f1, hr0]
  have hmy : v1.r.state.my_idx = r.state.my_idx := by rw [f4, hr0]
  -- the turn of slot `o`
  obtain ⟨s1, s2, s3⟩ := (ProcessCleartext.slot_flags c cfg v1 v2 o L h2).2.2 (by omega)
    (by rw [hoff, hct]; exact hflag)
  -- the turns after it
  obtain ⟨u1, u2, u3⟩ := ProcessCleartext.slots_unflagged c cfg post v2 vf h3 (by
    intro p1 e p2 hp
    have hsplit2 : r.state.next_messages = (pre ++ (o, L) :: p1) ++ e :: p2 := by
      rw [hsplit, hp]; simp
    have hstart := ProcessCleartext.start_at r _ p2 e hsplit2 hkeys
    have hmem2 : e ∈ r.state.next_messages := by rw [hsplit2]; simp
    have hgt : o < e.1 := hpost e (by rw [hp]; simp)
    rcases hlast e hmem2 hgt with h' | h'
    · exact Or.inl h'
    · right
      have e1 : v2.offset + (p1.map Prod.snd).sum = ProcessCleartext.start r e.1 := by
        rw [hstart, b1, a1]
        simp only [List.map_append, List.map_cons, List.sum_append, List.sum_cons]
        omega
      rw [e1, g1, hct]
      exact h')
  refine ⟨r', hrun, ?_, ?_, ?_⟩
  · rw [hstate]; show vf.r.state.start_accuse = true
    rw [u1, s1]
  · rw [hstate]; show vf.r.state.accuser = (o : Int)
    rw [u2, s2]
  · intro hown
    obtain ⟨w1, -, -⟩ := ProcessCleartext.slots_accuse_other c cfg post v2 vf h3 (by
      intro e he
      left
      rw [g4, hmy, ← hown]
      have := hpost e he
      omega)
    rw [hstate]; show vf.r.state.my_accuse = vf.r.state.accuse
    rw [u3, w1]
    exact s3 (by rw [hmy]; exact hown)


/-! ## The accusation search -/

/-- The bit loop returns the first bit of the list that is 0 in `expected`
and differs in `actual`. -/
theorem ProcessCleartext.bit_spec (expected actual : Nat) (l : List Nat) :
    (ProcessCleartext.bit expected actual l = none →
      ∀ k ∈ l, ¬ (expected &&& bit_masks k = 0 ∧ actual &&& bit_masks k ≠ 0)) ∧
    (∀ k, ProcessCleartext.bit expected actual l = some k →
      ∃ pre post, l = pre ++ k :: post ∧
        (expected &&& bit_masks k = 0 ∧ actual &&& bit_masks k ≠ 0) ∧
        ∀ k' ∈ pre, ¬ (expected &&& bit_masks k' = 0 ∧ actual &&& bit_masks k' ≠ 0)) := by
  induction l with
  | nil =>
    refine ⟨fun _ k hk => by simp at hk, fun k h => ?_⟩
    simp [ProcessCleartext.bit] at h
  | cons b rest ih =>
    obtain ⟨ih1, ih2⟩ := ih
    unfold ProcessCleartext.bit
    simp only []
    by_cases heq : actual &&& bit_masks b = expected &&& bit_masks b
    · have hno : ¬ (expected &&& bit_masks b = 0 ∧ actual &&& bit_masks b ≠ 0) := by
        rintro ⟨h1, h2⟩; rw [heq] at h2; exact h2 h1
      simp only [heq, if_true]
      refine ⟨fun h k hk => ?_, fun k h => ?_⟩
      · rcases List.mem_cons.mp hk with rfl | hk'
        · exact hno
        · exact ih1 h k hk'
      · obtain ⟨pre, post, e, hf, hpre⟩ := ih2 k h
        refine ⟨b :: pre, post, by rw [e]; rfl, hf, ?_⟩
        intro k' hk'
        rcases List.mem_cons.mp hk' with rfl | hk''
        · exact hno
        · exact hpre k' hk''
    · simp only [heq, if_false]
      by_cases hexp : expected &&& bit_masks b ≠ 0
      · have hno : ¬ (expected &&& bit_masks b = 0 ∧ actual &&& bit_masks b ≠ 0) := by
          rintro ⟨h1, -⟩; exact hexp h1
        simp only [hexp, if_true, ne_eq, not_false_eq_true]
        refine ⟨fun h k hk => ?_, fun k h => ?_⟩
        · rcases List.mem_cons.mp hk with rfl | hk'
          · exact hno
          · exact ih1 h k hk'
        · obtain ⟨pre, post, e, hf, hpre⟩ := ih2 k h
          refine ⟨b :: pre, post, by rw [e]; rfl, hf, ?_⟩
          intro k' hk'
          rcases List.mem_cons.mp hk' with rfl | hk''
          · exact hno
          · exact hpre k' hk''
      · have hz : expected &&& bit_masks b = 0 := by simpa using hexp
        simp only [hexp, if_false]
        refine ⟨fun h => by simp at h, fun k h => ?_⟩
        simp only [Option.some.injEq] at h
        subst h
        refine ⟨[], rest, rfl, ⟨hz, ?_⟩, by simp⟩
        intro ha
        exact heq (by rw [ha, hz])

/-- The bit loop over the eight bits of a byte. -/
theorem ProcessCleartext.bit_byte (expected actual : Nat) :
    (ProcessCleartext.bit expected actual [0, 1, 2, 3, 4, 5, 6, 7] = none →
      ∀ k, k < 8 → ¬ (expected &&& bit_masks k = 0 ∧ actual &&& bit_masks k ≠ 0)) ∧
    (∀ k, ProcessCleartext.bit expected actual [0, 1, 2, 3, 4, 5, 6, 7] = some k →
      k < 8 ∧ (expected &&& bit_masks k = 0 ∧ actual &&& bit_masks k ≠ 0) ∧
      ∀ k', k' < k → ¬ (expected &&& bit_masks k' = 0 ∧ actual &&& bit_masks k' ≠ 0)) := by
  obtain ⟨h1, h2⟩ := ProcessCleartext.bit_spec expected actual [0, 1, 2, 3, 4, 5, 6, 7]
  refine ⟨fun h k hk => h1 h k (by
    have : k ∈ List.range 8 := List.mem_range.mpr hk
    simpa [List.range, List.range.loop] using this), fun k h => ?_⟩
  obtain ⟨pre, post, e, hf, hpre⟩ := h2 k h
  have hrange : ([0, 1, 2, 3, 4, 5, 6, 7] : List Nat) = List.range 8 := by decide
  rw [hrange] at e
  have hk : k < 8 := by
    have : k ∈ List.range 8 := by rw [e]; simp
    exact List.mem_range.mp this
  have hlen : pre.length = k := by
    have h1 := congrArg (fun l => l[pre.length]?) e
    simp only [List.getElem?_append_right (Nat.le_refl _), Nat.sub_self,
      List.getElem?_cons_zero] at h1
    have hlt : pre.length < 8 := by
      have := congrArg List.length e
      simp at this
      omega
    rw [List.getElem?_range hlt] at h1
    exact Option.some.inj h1
  refine ⟨hk, hf, ?_⟩
  intro k' hk'
  apply hpre
  have h2 := congrArg (fun l => l[k']?) e
  simp only [] at h2
  rw [List.getElem?_range (by omega), List.getElem?_append_left (by omega)] at h2
  exact List.getElem?_mem h2.symm

/-- The search returns the first position, in byte order then bit order, at
which a bit is 0 in `last_ciphertext` and 1 in the slot as received. -/
theorem ProcessCleartext.search_spec (last_ciphertext msg : QByteArray) (pidx : Nat)
    (res : Option (Nat × Nat))
    (h : ProcessCleartext.search last_ciphertext msg pidx = some res) :
    (res = none → ∀ i, i < msg.length → ∀ k, k < 8 →
      ¬ (last_ciphertext.getD (pidx + i) 0 &&& bit_masks k = 0 ∧
         msg.getD i 0 &&& bit_masks k ≠ 0)) ∧
    (∀ p k, res = some (p, k) → ∃ i, p = pidx + i ∧ i < msg.length ∧ k < 8 ∧
      (last_ciphertext.getD p 0 &&& bit_masks k = 0 ∧ msg.getD i 0 &&& bit_masks k ≠ 0) ∧
      ∀ i' k', k' < 8 → (i' < i ∨ (i' = i ∧ k' < k)) →
        ¬ (last_ciphertext.getD (pidx + i') 0 &&& bit_masks k' = 0 ∧
           msg.getD i' 0 &&& bit_masks k' ≠ 0)) := by
  induction msg generalizing pidx with
  | nil =>
    simp only [ProcessCleartext.search, Option.some.injEq] at h
    subst h
    exact ⟨fun _ i hi => by simp at hi, fun p k hc => by simp at hc⟩
  | cons actual rest ih =>
    unfold ProcessCleartext.search at h
    simp only [List.get?_eq_getElem?] at h
    cases hg : last_ciphertext[pidx]? with
    | none => simp [hg] at h
    | some expected =>
      simp only [hg] at h
      have hexp : last_ciphertext[pidx]?.getD 0 = expected := by simp [hg]
      obtain ⟨hb1, hb2⟩ := ProcessCleartext.bit_byte expected actual
      -- no flip in this byte
      have hskip : (∀ k, k < 8 →
            ¬ (expected &&& bit_masks k = 0 ∧ actual &&& bit_masks k ≠ 0)) →
          ProcessCleartext.search last_ciphertext rest (pidx + 1) = some res →
          (res = none → ∀ i, i < (actual :: rest).length → ∀ k, k < 8 →
            ¬ (last_ciphertext.getD (pidx + i) 0 &&& bit_masks k = 0 ∧
               (actual :: rest).getD i 0 &&& bit_masks k ≠ 0)) ∧
          (∀ p k, res = some (p, k) → ∃ i, p = pidx + i ∧ i < (actual :: rest).length ∧
            k < 8 ∧
            (last_ciphertext.getD p 0 &&& bit_masks k = 0 ∧
              (actual :: rest).getD i 0 &&& bit_masks k ≠ 0) ∧
            ∀ i' k', k' < 8 → (i' < i ∨ (i' = i ∧ k' < k)) →
              ¬ (last_ciphertext.getD (pidx + i') 0 &&& bit_masks k' = 0 ∧
                 (actual :: rest).getD i' 0 &&& bit_masks k' ≠ 0)) := by
        intro hnone hrest
        obtain ⟨r1, r2⟩ := ih (pidx + 1) hrest
        refine ⟨?_, ?_⟩
        · intro hres i hi k hk
          cases i with
          | zero => simpa [hexp] using hnone k hk
          | succ i =>
            have := r1 hres i (by simpa using hi) k hk
            simpa [Nat.add_assoc, Nat.add_comm 1 i] using this
        · intro p k hres
          obtain ⟨i, e1, e2, e3, e4, e5⟩ := r2 p k hres
          refine ⟨i + 1, by omega, by simpa using e2, e3, by simpa using e4, ?_⟩
          intro i' k' hk' hlt
          cases i' with
          | zero => simpa [hexp] using hnone k' hk'
          | succ i' =>
            have := e5 i' k' hk' (by omega)
            simpa [Nat.add_assoc, Nat.add_comm 1 i'] using this
      by_cases heq : expected = actual
      · simp only [heq, if_true] at h
        apply hskip _ h
        intro k _ hc
        rw [heq] at hc
        exact hc.2 hc.1
      · simp only [heq, if_false] at h
        cases hbit : ProcessCleartext.bit expected actual [0, 1, 2, 3, 4, 5, 6, 7] with
        | none =>
          simp only [hbit] at h
          exact hskip (hb1 hbit) h
        | some bidx =>
          simp only [hbit, Option.some.injEq] at h
          subst h
          obtain ⟨c1, c2, c3⟩ := hb2 bidx hbit
          refine ⟨fun hc => by simp at hc, ?_⟩
          intro p k hpk
          simp only [Option.some.injEq, Prod.mk.injEq] at hpk
          obtain ⟨rfl, rfl⟩ := hpk
          refine ⟨0, rfl, by simp, c1, by simpa [hexp] using c2, ?_⟩
          intro i' k' hk' hlt
          rcases hlt with hlt | ⟨rfl, hlt⟩
          · omega
          · simpa [hexp] using c3 k' hlt


/-- The blame stage in the slot of a participant that is not accusing: the
search returns, and its result decides `accuse`, `accuse_idx` and
`blame_phase`. -/
theorem ProcessCleartext.blame_spec (v v' : ProcessCleartext.Vars) (owner msg_length : Nat)
    (msg_ppp : QByteArray) (h : ProcessCleartext.blame v owner msg_length msg_ppp = some v')
    (hown : (owner : Int) = v.r.state.my_idx) (hacc : v.r.state.accuse = false) :
    ∃ res, ProcessCleartext.search v.r.state.last_ciphertext msg_ppp 0 = some res ∧
      (res = none → v'.r.state.accuse = false ∧ v'.r.state.accuse_idx = v.r.state.accuse_idx ∧
        v'.r.state.blame_phase = v.r.state.blame_phase) ∧
      (∀ p k, res = some (p, k) → v'.r.state.accuse = true ∧
        v'.r.state.blame_phase = (v.r.phase : Int) ∧
        v'.r.state.accuse_idx = (((v.offset - msg_length + p) * 8 + k : Nat) : Int)) := by
  unfold ProcessCleartext.blame at h
  simp only [ProcessCleartext.keep, hown, hacc, decide_True, Bool.not_false, Bool.and_self,
    if_true] at h
  cases hs : ProcessCleartext.search v.r.state.last_ciphertext msg_ppp 0 with
  | none => simp [hs] at h
  | some res =>
    refine ⟨res, rfl, ?_, ?_⟩
    · intro hres
      subst hres
      simp only [hs, Option.some.injEq] at h
      subst h
      exact ⟨rfl, rfl, rfl⟩
    · intro p k hres
      subst hres
      simp only [hs, Option.some.injEq] at h
      subst h
      exact ⟨rfl, rfl, rfl⟩

/-- The turn of the slot of a participant that is not accusing, when the
authenticator check of the slot fails. -/
theorem ProcessCleartext.slot_blame (c : Crypto) (cfg : Config) (v v' : ProcessCleartext.Vars)
    (owner msg_length : Nat) (vkey msg_pp : QByteArray)
    (h : ProcessCleartext.slot c cfg v owner msg_length = some v')
    (h0 : msg_length ≠ 0)
    (hown : (owner : Int) = v.r.state.my_idx) (hacc : v.r.state.accuse = false)
    (hmsg : Derandomize c ((v.r.state.cleartext.drop v.offset).take msg_length) = some msg_pp)
    (hne : msg_pp ≠ [])
    (hkey : ProcessCleartext.vkey cfg v.r.state owner = some vkey)
    (hbad : ProcessCleartext.bad_message c cfg vkey msg_pp = true) :
    ∃ res, ProcessCleartext.search v.r.state.last_ciphertext
        ((v.r.state.cleartext.drop v.offset).take msg_length) 0 = some res ∧
      (res = none → v'.r.state.accuse = false ∧ v'.r.state.accuse_idx = v.r.state.accuse_idx ∧
        v'.r.state.blame_phase = v.r.state.blame_phase) ∧
      (∀ p k, res = some (p, k) → v'.r.state.accuse = true ∧
        v'.r.state.blame_phase = (v.r.phase : Int) ∧
        v'.r.state.accuse_idx = (((v.offset + p) * 8 + k : Nat) : Int)) := by
  rw [ProcessCleartext.slot_eq] at h
  have he : msg_pp.isEmpty = false := by
    cases msg_pp with
    | nil => exact absurd rfl hne
    | cons a l => rfl
  simp only [h0, if_false, hmsg, he, Bool.false_eq_true, hkey, hbad, if_true] at h
  split at h
  · exact Option.noConfusion h
  split at h
  · exact Option.noConfusion h
  split at h
  · exact Option.noConfusion h
  rename_i v2 hv2
  split at h
  · exact Option.noConfusion h
  rename_i flag hflag
  simp only [Option.some.injEq] at h
  subst h
  obtain ⟨s1, s2, s3, -, -⟩ := ProcessCleartext.flagged_state v2 owner flag
  obtain ⟨res, r1, r2, r3⟩ := ProcessCleartext.blame_spec _ _ _ _ _ hv2 hown hacc
  refine ⟨res, r1, ?_, ?_⟩
  · intro hres
    obtain ⟨t1, t2, t3⟩ := r2 hres
    exact ⟨by rw [s1, t1], by rw [s2, t2], by rw [s3, t3]⟩
  · intro p k hres
    obtain ⟨t1, t2, t3⟩ := r3 p k hres
    refine ⟨by rw [s1, t1], by rw [s3, t2], ?_⟩
    rw [s2, t3]
    congr 1
    show (v.offset + msg_length - msg_length + p) * 8 + k = (v.offset + p) * 8 + k
    rw [Nat.add_sub_cancel]

/-- C16. Accusation bit localisation: when the slot of the local participant
fails its authenticator check in a well-formed cleartext of phase `p` and the
participant is not accusing yet, `ProcessCleartext` returns with
`accuse = true`, `blame_phase = p` and `accuse_idx = 8 * (slot_start + b) + k`,
where `(b, k)` is the first position, in byte order then bit order, at which
the bit of `last_ciphertext` is 0 and the bit of the slot as received is 1, and
`slot_start` is the offset of the slot in the cleartext; when there is no such
position it returns with `accuse = false` and `accuse_idx` as it was. -/
theorem ProcessCleartext_accuse_idx (c : Crypto) (cfg : Config) (r : Round) (o L : Nat)
    (vkey msg_pp : QByteArray)
    (hwf : ProcessCleartext.wellFormed c cfg r = true)
    (hkeys : (QMap.keys r.state.next_messages).Pairwise (fun a b => a < b))
    (hmem : (o, L) ∈ r.state.next_messages) (hL : 0 < L)
    (hown : (o : Int) = r.state.my_idx) (hacc : r.state.accuse = false)
    (hmsg : Derandomize c (ProcessCleartext.msg_ppp r o L) = some msg_pp) (hne : msg_pp ≠ [])
    (hkey : ProcessCleartext.vkey cfg r.state o = some vkey)
    (hbad : ProcessCleartext.bad_message c cfg vkey msg_pp = true) :
    ∃ r', ProcessCleartext c cfg r = some r' ∧
      (∀ b k, b < L → k < 8 →
        (r.state.last_ciphertext.getD b 0 &&& bit_masks k = 0 ∧
          (ProcessCleartext.msg_ppp r o L).getD b 0 &&& bit_masks k ≠ 0) →
        (∀ b' k', k' < 8 → (b' < b ∨ (b' = b ∧ k' < k)) →
          ¬ (r.state.last_ciphertext.getD b' 0 &&& bit_masks k' = 0 ∧
             (ProcessCleartext.msg_ppp r o L).getD b' 0 &&& bit_masks k' ≠ 0)) →
        r'.state.accuse = true ∧ r'.state.blame_phase = (r.phase : Int) ∧
        r'.state.accuse_idx = ((8 * (ProcessCleartext.start r o + b) + k : Nat) : Int)) ∧
      ((∀ b k, b < L → k < 8 →
          ¬ (r.state.last_ciphertext.getD b 0 &&& bit_masks k = 0 ∧
             (ProcessCleartext.msg_ppp r o L).getD b 0 &&& bit_masks k ≠ 0)) →
        r'.state.accuse = false ∧ r'.state.accuse_idx = r.state.accuse_idx) := by
  obtain ⟨next_msgs, next_msg_length, r0, vf, r', -, -, hr0, hph, -, -, hv, hrun, hstate, -⟩ :=
    ProcessCleartext_run c cfg r hwf
  obtain ⟨-, hfit, -⟩ := (ProcessCleartext.wellFormed_iff c cfg r).mp hwf
  obtain ⟨pre, post, hsplit, hpre, hpost⟩ := QMap.split_at _ o L hkeys hmem
  have hv' := hv
  rw [hsplit] at hv'
  obtain ⟨v1, v2, h1, h2, h3⟩ := ProcessCleartext.slots_at c cfg pre post o L _ vf hv'
  obtain ⟨a1, a2, -⟩ := ProcessCleartext.slots_frame c cfg pre _ v1 h1
  obtain ⟨b1, b2, -⟩ := ProcessCleartext.slot_frame c cfg v1 v2 o L h2
  obtain ⟨f1, f2, f3, f4, f5, -⟩ := ProcessCleartext.fixed_fields _ _ a2
  obtain ⟨g1, -, -, g4, -⟩ := ProcessCleartext.fixed_fields _ _ b2
  simp only [] at a1 f1 f2 f3 f4 f5
  have hoff : v1.offset = ProcessCleartext.start r o := by
    rw [a1, ProcessCleartext.start_at r pre post (o, L) hsplit hkeys]
  have hct : v1.r.state.cleartext = r.state.cleartext := by rw [f1, hr0]
  have hmy : v1.r.state.my_idx = r.state.my_idx := by rw [f4, hr0]
  have hlc : v1.r.state.last_ciphertext = r.state.last_ciphertext := by rw [f5, hr0]
  have hak : v1.r.state.anonymous_keys = r.state.anonymous_keys := by rw [f3, hr0]
  have hp : v1.r.phase = r.phase := by rw [f2, hph]
  -- the turns before the slot
  obtain ⟨p1, p2, p3⟩ := ProcessCleartext.slots_accuse_other c cfg pre _ v1 h1 (by
    intro e he
    left
    show (e.1 : Int) ≠ r0.state.my_idx
    rw [hr0, ← hown]
    have := hpre e he
    omega)
  simp only [] at p1 p2 p3
  rw [hr0] at p1 p2 p3
  -- the turns after it
  obtain ⟨w1, w2, w3⟩ := ProcessCleartext.slots_accuse_other c cfg post v2 vf h3 (by
    intro e he
    left
    rw [g4, hmy, ← hown]
    have := hpost e he
    omega)
  -- the turn of the slot
  have hlen : (ProcessCleartext.msg_ppp r o L).length = L := by
    have hs := ProcessCleartext.start_at r pre post (o, L) hsplit hkeys
    rw [hsplit] at hfit
    simp only [List.map_append, List.map_cons, List.sum_append, List.sum_cons] at hfit
    simp only [ProcessCleartext.msg_ppp, List.length_take, List.length_drop]
    omega
  obtain ⟨res, s1, s2, s3⟩ := ProcessCleartext.slot_blame c cfg v1 v2 o L vkey msg_pp h2
    (by omega) (by rw [hmy]; exact hown) (by rw [p1]; exact hacc)
    (by rw [hoff, hct]; exact hmsg) hne
    (by simpa only [ProcessCleartext.vkey, hak] using hkey) hbad
  rw [hoff, hct, hlc] at s1
  change ProcessCleartext.search r.state.last_ciphertext (ProcessCleartext.msg_ppp r o L) 0
    = some res at s1
  obtain ⟨q1, q2⟩ := ProcessCleartext.search_spec _ _ 0 res s1
  simp only [Nat.zero_add, hlen] at q1 q2
  have hacc' : r'.state.accuse = vf.r.state.accuse := by rw [hstate]
  have hidx' : r'.state.accuse_idx = vf.r.state.accuse_idx := by rw [hstate]
  have hbp' : r'.state.blame_phase = vf.r.state.blame_phase := by rw [hstate]
  refine ⟨r', hrun, ?_, ?_⟩
  · intro b k hb hk hflip hfirst
    cases res with
    | none => exact absurd hflip (q1 rfl b hb k hk)
    | some pk =>
      obtain ⟨p, k0⟩ := pk
      obtain ⟨i, e1, e2, e3, e4, e5⟩ := q2 p k0 rfl
      have e1' : i = p := e1.symm
      subst e1'
      have hib : i = b := by
        rcases Nat.lt_trichotomy i b with hlt | heq | hgt
        · exact absurd e4 (hfirst i k0 e3 (Or.inl hlt))
        · exact heq
        · exact absurd hflip (e5 b k hk (Or.inl hgt))
      subst hib
      have hkk : k0 = k := by
        rcases Nat.lt_trichotomy k0 k with hlt | heq | hgt
        · exact absurd e4 (hfirst i k0 e3 (Or.inr ⟨rfl, hlt⟩))
        · exact heq
        · exact absurd hflip (e5 i k hk (Or.inr ⟨rfl, hgt⟩))
      subst hkk
      obtain ⟨t1, t2, t3⟩ := s3 i k0 rfl
      refine ⟨by rw [hacc', w1, t1], by rw [hbp', w3, t2, hp], ?_⟩
      rw [hidx', w2, t3, hoff]
      congr 1
      omega
  · intro hnone
    cases res with
    | none =>
      obtain ⟨t1, t2, -⟩ := s2 rfl
      exact ⟨by rw [hacc', w1, t1], by rw [hidx', w2, t2, p2]⟩
    | some pk =>
      obtain ⟨p, k0⟩ := pk
      obtain ⟨i, e1, e2, e3, e4, -⟩ := q2 p k0 rfl
      have e1' : i = p := e1.symm
      subst e1'
      exact absurd e4 (hnone i k0 e2 e3)


/-- The state `PrepareForBulk` leaves has `base_msg_length` equal to the
number of bytes of the bitmap, the offset at which `ProcessCleartext` starts
its slot loop. -/
theorem PrepareForBulk_base (c : Crypto) (r : Round)
    (hs : r.sm_state = States.PREPARE_FOR_BULK) :
    ∃ r', PrepareForBulk c r = some r' ∧
      r'.state.base_msg_length = ProcessCleartext.base r' ∧
      r'.state.msg_length = ProcessCleartext.base r' := by
  have hn0 : nextState false States.PREPARE_FOR_BULK
      = some States.CLIENT_WAIT_FOR_CLEARTEXT := by decide
  have hn1 : nextState true States.PREPARE_FOR_BULK
      = some States.SERVER_WAIT_FOR_CLIENT_CIPHERTEXT := by decide
  cases hp : PrepareForBulk c r with
  | none =>
    exfalso
    cases hsv : r.IsServer <;>
      simp [PrepareForBulk, SetupRngSeeds, StateComplete, BeforeStateTransition, hsv, hs,
        cycleState, hn0, hn1] at hp
  | some r' =>
    refine ⟨r', rfl, ?_⟩
    cases hsv : r.IsServer <;>
      (simp only [PrepareForBulk, SetupRngSeeds, StateComplete, BeforeStateTransition, hsv, hs,
        cycleState, hn0, hn1, Bool.false_eq_true, if_false, if_true, reduceCtorEq,
        Option.some.injEq] at hp
       subst hp
       exact ⟨rfl, rfl⟩)

/-- C18. Slot offset agreement: for every `next_messages` map with its keys
in ascending order and every entry `(i, L)` of it, with `base_msg_length` the
number of bytes of the bitmap, `GenerateCiphertext` writes the slot message of
client `i` into `xor_msg` at the offset `base_length` plus the sum of
`next_messages[o]` over the entries `o < i`, and on a well-formed cleartext
`ProcessCleartext` returns and its slot loop reaches the entry `(i, L)` with
`offset` at that same value, from which it takes the `L` bytes of the slot. -/
theorem slot_offset_agreement (c : Crypto) (cfg : Config) (r : Round) (st : State)
    (phase : Nat) (xor_msg data : QByteArray) (rand : List QByteArray) (i L : Nat)
    (hwf : ProcessCleartext.wellFormed c cfg r = true)
    (hkeys : (QMap.keys r.state.next_messages).Pairwise (fun a b => a < b))
    (hmem : (i, L) ∈ r.state.next_messages)
    (hnm : st.next_messages = r.state.next_messages)
    (hbase : st.base_msg_length = ProcessCleartext.base r)
    (hidx : st.my_idx = (i : Int)) (hopen : st.slot_open = true) :
    (∀ my_msg st1, GenerateSlotMessage.build c cfg phase st data rand = some (my_msg, st1) →
      ProcessCleartext.base r +
        ((r.state.next_messages.filter (fun e => decide (e.1 < i))).map Prod.snd).sum
        + my_msg.length ≤ xor_msg.length →
      ∃ offset written,
        offset = ProcessCleartext.base r +
          ((r.state.next_messages.filter (fun e => decide (e.1 < i))).map Prod.snd).sum ∧
        written = Xor my_msg my_msg ((xor_msg.drop offset).take my_msg.length) ∧
        GenerateCiphertext.write c cfg xor_msg phase st data rand =
          some (xor_msg.take offset ++ written ++ xor_msg.drop (offset + written.length), st1)) ∧
    (∃ pre post next_msgs next_msg_length r0 v1 v2 vf r',
      r.state.next_messages = pre ++ (i, L) :: post ∧ r0.state = r.state ∧
      ProcessCleartext.slots c cfg pre
        { r := r0, offset := ProcessCleartext.base r, next_msgs := next_msgs,
          next_msg_length := next_msg_length } = some v1 ∧
      v1.offset = ProcessCleartext.base r +
        ((r.state.next_messages.filter (fun e => decide (e.1 < i))).map Prod.snd).sum ∧
      v1.r.state.cleartext = r.state.cleartext ∧
      ProcessCleartext.slot c cfg v1 i L = some v2 ∧
      ProcessCleartext.slots c cfg post v2 = some vf ∧
      ProcessCleartext c cfg r = some r' ∧
      r'.state = { vf.r.state with next_messages := vf.next_msgs,
                                   msg_length := vf.next_msg_length }) := by
  have hsum := GenerateCiphertext.offset_sum r.state.next_messages i L hkeys hmem
  refine ⟨?_, ?_⟩
  · intro my_msg st1 hbuild hfit
    refine ⟨_, _, rfl, rfl, ?_⟩
    unfold GenerateCiphertext.write
    simp only [hopen, if_true, hbuild, hbase, hidx, hnm, hsum]
    rw [if_neg (by omega)]
  · obtain ⟨next_msgs, next_msg_length, r0, vf, r', -, -, hr0, -, -, -, hv, hrun, hstate, -⟩ :=
      ProcessCleartext_run c cfg r hwf
    obtain ⟨pre, post, hsplit, -, -⟩ := QMap.split_at _ i L hkeys hmem
    have hv' := hv
    rw [hsplit] at hv'
    obtain ⟨v1, v2, h1, h2, h3⟩ := ProcessCleartext.slots_at c cfg pre post i L _ vf hv'
    obtain ⟨a1, a2, -⟩ := ProcessCleartext.slots_frame c cfg pre _ v1 h1
    obtain ⟨f1, -⟩ := ProcessCleartext.fixed_fields _ _ a2
    simp only [] at a1 f1
    refine ⟨pre, post, next_msgs, next_msg_length, r0, v1, v2, vf, r', hsplit, hr0, h1, ?_, ?_,
      h2, h3, hrun, hstate⟩
    · rw [a1, ← hsum, ← ProcessCleartext.start_at r pre post (i, L) hsplit hkeys]
      rfl
    · rw [f1, hr0]


/-! ## The attribution of clients to servers -/

theorem QMap.find_map_at {V : Type} (cur : Nat) (f : V → V) (m : QMap V) (k : Nat) :
    QMap.find k (m.map (fun e => if e.1 = cur then (e.1, f e.2) else e)) =
      (QMap.find k m).map (fun l => if k = cur then f l else l) := by
  induction m with
  | nil => rfl
  | cons e rest ih =>
    obtain ⟨k', l⟩ := e
    rw [List.map_cons]
    by_cases hc : k' = cur
    · rw [if_pos hc]
      by_cases hk : k = k'
      · simp [QMap.find, hk, hc]
      · simp only [QMap.find, hk, if_false]
        exact ih
    · rw [if_neg hc]
      by_cases hk : k = k'
      · simp [QMap.find, hk, hc]
      · simp only [QMap.find, hk, if_false]
        exact ih

theorem updatePhaseLog_find (r : Round) (f : PhaseLog → PhaseLog) (k : Nat) :
    QMap.find k (updatePhaseLog r f).server_state.phase_logs =
      (QMap.find k r.server_state.phase_logs).map
        (fun l => if k = r.server_state.current_phase_log then f l else l) :=
  QMap.find_map_at r.server_state.current_phase_log f r.server_state.phase_logs k

theorem HandleServerClientList.attribute_find (clients : QBitArray) (sidx : Nat)
    (l : List Nat) (m : QMap Nat) (k : Nat) :
    QMap.find k (HandleServerClientList.attribute clients sidx l m) =
      if clients.getD 0 false = true ∧ k ∈ l then some sidx else QMap.find k m := by
  induction l generalizing m with
  | nil => simp [HandleServerClientList.attribute]
  | cons idx rest ih =>
    unfold HandleServerClientList.attribute
    by_cases hb : clients.getD 0 false = true
    · simp only [hb, if_true, ih, true_and, List.mem_cons]
      by_cases hk : k ∈ rest
      · simp [hk]
      · by_cases hki : k = idx
        · subst hki; simp [hk, QMap.find_insert_self]
        · simp [hk, hki, QMap.find_insert_ne _ _ _ _ hki]
    · simp only [hb, if_false, ih, false_and, Bool.false_eq_true]

theorem HandleServerClientList.attribute_clear (clients : QBitArray) (sidx : Nat)
    (l : List Nat) (m : QMap Nat) (h : clients.getD 0 false = false) :
    HandleServerClientList.attribute clients sidx l m = m := by
  induction l generalizing m with
  | nil => rfl
  | cons idx rest ih =>
    unfold HandleServerClientList.attribute
    simp only [h, Bool.false_eq_true, if_false]
    exact ih m

/-- What `HandleServerClientList` does with a list it accepts, up to the
completion of the state. -/
theorem HandleServerClientList_accepts (r : Round) (sender : Id) (clients : QBitArray)
    (hserver : r.IsServer = true)
    (hsender : r.servers.Contains sender = true)
    (hfresh : r.server_state.handled_servers.contains sender = false) :
    HandleServerClientList r sender clients =
      let attributed := fun (l : PhaseLog) =>
        HandleServerClientList.attribute clients (r.servers.GetIndex sender)
          (List.range clients.length) l.client_to_server
      let r1 := updatePhaseLog
        { r with
          server_state.handled_clients := QBitArray.or r.server_state.handled_clients clients,
          server_state.handled_servers := r.server_state.handled_servers ++ [sender] }
        (fun l => { l with client_to_server := attributed l })
      if (r.server_state.handled_servers ++ [sender]).length = r.servers.Count then
        (StateComplete r1).map (fun r => (Outcome.ok (), r))
      else some (Outcome.ok (), r1) := by
  unfold HandleServerClientList
  simp only [Overlay.IsServer, hserver, hsender, hfresh, QSet.insert, Bool.not_true,
    Bool.false_eq_true, if_false]
  rfl

/-- C27, at the failing input and beside it. For a client list that
`HandleServerClientList` accepts from server `s` while it waits for client
lists: when bit 0 of the received bitmap is set, `client_to_server[idx]`
becomes the index of `s` for every client index `idx` below the size of the
bitmap, whatever bit `idx` is; when bit 0 is clear, `client_to_server` is left
as it was, whatever the other bits are. The entries at and beyond the size of
the bitmap are unchanged. -/
theorem HandleServerClientList_attribution (r : Round) (sender : Id) (clients : QBitArray)
    (log : PhaseLog) (hserver : r.IsServer = true)
    (hstate : r.sm_state = States.SERVER_WAIT_FOR_CLIENT_LISTS)
    (hsender : r.servers.Contains sender = true)
    (hfresh : r.server_state.handled_servers.contains sender = false)
    (hlog : QMap.find r.server_state.current_phase_log r.server_state.phase_logs = some log) :
    ∃ r' log', HandleServerClientList r sender clients = some (Outcome.ok (), r') ∧
      r'.server_state.current_phase_log = r.server_state.current_phase_log ∧
      QMap.find r'.server_state.current_phase_log r'.server_state.phase_logs = some log' ∧
      (clients.getD 0 false = true → ∀ idx, QMap.find idx log'.client_to_server =
        if idx < clients.length then some (r.servers.GetIndex sender)
        else QMap.find idx log.client_to_server) ∧
      (clients.getD 0 false = false → log'.client_to_server = log.client_to_server) := by
  rw [HandleServerClientList_accepts r sender clients hserver hsender hfresh]
  simp only []
  let attributed := fun (l : PhaseLog) =>
    HandleServerClientList.attribute clients (r.servers.GetIndex sender)
      (List.range clients.length) l.client_to_server
  let r0 : Round := { r with
    server_state.handled_clients := QBitArray.or r.server_state.handled_clients clients,
    server_state.handled_servers := r.server_state.handled_servers ++ [sender] }
  let r1 := updatePhaseLog r0 (fun l => { l with client_to_server := attributed l })
  have hfind : QMap.find r.server_state.current_phase_log r1.server_state.phase_logs =
      some { log with client_to_server := attributed log } := by
    show QMap.find r.server_state.current_phase_log
      (updatePhaseLog r0 _).server_state.phase_logs = _
    rw [updatePhaseLog_find]
    show (QMap.find r.server_state.current_phase_log r.server_state.phase_logs).map _ = _
    rw [hlog]
    simp [r0]
  have hfinal : ∀ r' : Round,
      r'.server_state.current_phase_log = r.server_state.current_phase_log →
      r'.server_state.phase_logs = r1.server_state.phase_logs →
      r'.server_state.current_phase_log = r.server_state.current_phase_log ∧
      QMap.find r'.server_state.current_phase_log r'.server_state.phase_logs = some
        { log with client_to_server := attributed log } ∧
      (clients.getD 0 false = true → ∀ idx, QMap.find idx (attributed log) =
        if idx < clients.length then some (r.servers.GetIndex sender)
        else QMap.find idx log.client_to_server) ∧
      (clients.getD 0 false = false → attributed log = log.client_to_server) := by
    intro r' e1 e2
    refine ⟨e1, by rw [e1, e2, hfind], ?_, ?_⟩
    · intro hb idx
      show QMap.find idx (HandleServerClientList.attribute _ _ _ _) = _
      rw [HandleServerClientList.attribute_find]
      simp only [hb, true_and, List.mem_range]
    · intro hb
      exact HandleServerClientList.attribute_clear _ _ _ _ hb
  show ∃ r' log', (if (r.server_state.handled_servers ++ [sender]).length = r.servers.Count then
      (StateComplete r1).map (fun r => (Outcome.ok (), r))
    else some (Outcome.ok (), r1)) = some (Outcome.ok (), r') ∧ _
  by_cases hcount : (r.server_state.handled_servers ++ [sender]).length = r.servers.Count
  · rw [if_pos hcount, StateComplete_step r1 _ States.SERVER_WAIT_FOR_SERVER_COMMITS hserver
      hstate (by decide) (by decide)]
    exact ⟨_, _, rfl, hfinal _ rfl rfl⟩
  · rw [if_neg hcount]
    exact ⟨_, _, rfl, hfinal _ rfl rfl⟩

/-! ## The rebuttal of a client -/

/-- The search of `GetRebuttal` returns when `server_bits` has a bit for
every seed, and its result is the first index at which the pad bit differs
from the server's bit. -/
theorem GetRebuttal.search_first (c : Crypto) (nonce bphase : QByteArray)
    (byte_idx bit_idx : Nat) (server_bits : QBitArray) (seeds : List QByteArray) (idx : Nat)
    (hbits : idx + seeds.length ≤ server_bits.length) :
    ∃ res, GetRebuttal.search c nonce bphase byte_idx bit_idx server_bits seeds idx = some res ∧
      (res = none → ∀ k, k < seeds.length →
        (((c.GenerateBlock (c.ComputeHash (seeds.getD k [] ++ bphase ++ nonce))
            (byte_idx + 1)).getD byte_idx 0 &&& bit_masks bit_idx) != 0)
          = server_bits.getD (idx + k) false) ∧
      (∀ s, res = some s → ∃ k, s = idx + k ∧ k < seeds.length ∧
        (((c.GenerateBlock (c.ComputeHash (seeds.getD k [] ++ bphase ++ nonce))
            (byte_idx + 1)).getD byte_idx 0 &&& bit_masks bit_idx) != 0)
          ≠ server_bits.getD (idx + k) false ∧
        ∀ k', k' < k →
          (((c.GenerateBlock (c.ComputeHash (seeds.getD k' [] ++ bphase ++ nonce))
              (byte_idx + 1)).getD byte_idx 0 &&& bit_masks bit_idx) != 0)
            = server_bits.getD (idx + k') false) := by
  induction seeds generalizing idx with
  | nil =>
    refine ⟨none, rfl, fun _ k hk => absurd hk (Nat.not_lt_zero _), fun s hs => ?_⟩
    exact Option.noConfusion hs
  | cons seed rest ih =>
    simp only [List.length_cons] at hbits
    have hlen : (c.GenerateBlock (c.ComputeHash (seed ++ bphase ++ nonce))
        (byte_idx + 1)).length = byte_idx + 1 := c.GenerateBlock_size _ _
    have hb : byte_idx < (c.GenerateBlock (c.ComputeHash (seed ++ bphase ++ nonce))
        (byte_idx + 1)).length := by omega
    have hi : idx < server_bits.length := by omega
    unfold GetRebuttal.search
    simp only [List.get?_eq_getElem?, List.getElem?_eq_getElem hb, List.getElem?_eq_getElem hi]
    have e1 : (c.GenerateBlock (c.ComputeHash (seed ++ bphase ++ nonce))
        (byte_idx + 1)).getD byte_idx 0 = (c.GenerateBlock (c.ComputeHash
          (seed ++ bphase ++ nonce)) (byte_idx + 1))[byte_idx] := by
      rw [List.getD_eq_getElem?_getD, List.getElem?_eq_getElem hb]
      rfl
    have e2 : server_bits.getD idx false = server_bits[idx] := by
      rw [List.getD_eq_getElem?_getD, List.getElem?_eq_getElem hi]
      rfl
    by_cases hd : (((c.GenerateBlock (c.ComputeHash (seed ++ bphase ++ nonce))
        (byte_idx + 1))[byte_idx] &&& bit_masks bit_idx) != 0) != server_bits[idx]
    · rw [if_pos hd]
      refine ⟨some idx, rfl, fun h => Option.noConfusion h, fun s hs => ?_⟩
      simp only [Option.some.injEq] at hs
      subst hs
      refine ⟨0, rfl, by simp, ?_, fun k' hk' => absurd hk' (Nat.not_lt_zero _)⟩
      simp only [List.getD_cons_zero, Nat.add_zero]
      rw [e1, e2]
      simpa using hd
    · rw [if_neg hd]
      obtain ⟨res, h1, h2, h3⟩ := ih (idx + 1) (by omega)
      have heq : (((c.GenerateBlock (c.ComputeHash (seed ++ bphase ++ nonce))
          (byte_idx + 1)).getD byte_idx 0 &&& bit_masks bit_idx) != 0)
          = server_bits.getD idx false := by
        rw [e1, e2]
        simpa using hd
      refine ⟨res, h1, ?_, ?_⟩
      · intro hres k hk
        cases k with
        | zero => simpa using heq
        | succ k =>
          have := h2 hres k (by simpa using hk)
          simpa [Nat.add_assoc, Nat.add_comm 1 k] using this
      · intro s hs
        obtain ⟨k, a1, a2, a3, a4⟩ := h3 s hs
        refine ⟨k + 1, by omega, by simpa using a2, ?_, ?_⟩
        · simpa [Nat.add_assoc, Nat.add_comm 1 k] using a3
        · intro k' hk'
          cases k' with
          | zero => simpa using heq
          | succ k' =>
            have := a4 k' (by omega)
            simpa [Nat.add_assoc, Nat.add_comm 1 k'] using this

theorem Roster.GetIdentity_of_nodup (ro : Roster) (i : Nat) (p : PublicIdentity)
    (hnd : (ro.map (fun p => p.id)).Nodup) (hp : ro[i]? = some p) :
    ro.GetId (i : Int) = some p.id ∧ ro.GetIdentity p.id = some p := by
  constructor
  · simp [Roster.GetId, hp]
  · induction ro generalizing i with
    | nil => simp at hp
    | cons q rest ih =>
      simp only [List.map_cons, List.nodup_cons, List.mem_map, not_exists, not_and] at hnd
      cases i with
      | zero =>
        simp only [List.getElem?_cons_zero, Option.some.injEq] at hp
        subst hp
        simp [Roster.GetIdentity]
      | succ i =>
        simp only [List.getElem?_cons_succ] at hp
        have hne : q.id ≠ p.id := fun h => hnd.1 p (List.getElem?_mem hp) h.symm
        have := ih i hnd.2 hp
        simp only [Roster.GetIdentity] at this ⊢
        rw [List.find?_cons_of_neg _ (by simpa using hne)]
        exact this

/-- C29, at the failing input and beside it. `GetRebuttal` takes `phase` and
`accuse_idx` as they come off the stream, any two integers, with one entry
of `server_bits` per server, at a client that holds one base seed per server
of a roster without repeated ids. A negative `accuse_idx` indexes `tmp` or
`bit_masks` outside its bounds: no result. For an `accuse_idx` that is not
negative: when the pad bit of some server differs from its entry in
`server_bits`, the function returns the least such `s` with the
Diffie-Hellman proof of the secret shared with server `s`, whatever `phase`
is; when no pad bit differs and `phase` is not negative, it returns
`phase mod Ns` with the proof for that server; when no pad bit differs and
`phase` is negative, `phase % Ns` is the remainder of the C++ division, which
is not positive: if it is not zero the roster is indexed at a negative index
and there is no result, if it is zero the function returns server 0. -/
theorem GetRebuttal_first_mismatch (c : Crypto) (r : Round) (phase accuse_idx : Int)
    (server_bits : QBitArray) (hNs : 0 < r.servers.Count)
    (hseeds : r.state.base_seeds.length = r.servers.Count)
    (hbits : server_bits.length = r.servers.Count)
    (hids : (r.servers.map (fun p => p.id)).Nodup) :
    (accuse_idx < 0 → GetRebuttal c r phase accuse_idx server_bits = none) ∧
    (0 ≤ accuse_idx →
      (∀ s, s < r.servers.Count →
        GetRebuttal.pad_bit c r phase accuse_idx.toNat s ≠ server_bits.getD s false →
        (∀ s', s' < s →
          GetRebuttal.pad_bit c r phase accuse_idx.toNat s' = server_bits.getD s' false) →
        ∃ pid, GetRebuttal c r phase accuse_idx server_bits =
            some ((s : Int), c.ProveSharedSecret r.dh_key pid.dh_key) ∧
          r.servers[s]? = some pid) ∧
      ((∀ s, s < r.servers.Count →
          GetRebuttal.pad_bit c r phase accuse_idx.toNat s = server_bits.getD s false) →
        (0 ≤ phase → ∃ pid, GetRebuttal c r phase accuse_idx server_bits =
            some (((phase.toNat % r.servers.Count : Nat) : Int),
              c.ProveSharedSecret r.dh_key pid.dh_key) ∧
          r.servers[phase.toNat % r.servers.Count]? = some pid) ∧
        (phase < 0 → phase.tmod r.servers.Count ≠ 0 →
          GetRebuttal c r phase accuse_idx server_bits = none) ∧
        (phase < 0 → phase.tmod r.servers.Count = 0 →
          ∃ pid, GetRebuttal c r phase accuse_idx server_bits =
              some (0, c.ProveSharedSecret r.dh_key pid.dh_key) ∧
            r.servers[0]? = some pid))) := by
  refine ⟨?_, ?_⟩
  · intro hneg
    unfold GetRebuttal
    simp only [hneg, if_true]
  intro h0'
  have h0 : ¬ (accuse_idx < 0) := by omega
  obtain ⟨res, hres, hnone, hsome⟩ := GetRebuttal.search_first c r.nonce
    (WriteInt phase (zeroBytes 4) 0) (accuse_idx.toNat / 8) (accuse_idx.toNat % 8) server_bits
    r.state.base_seeds 0 (by omega)
  simp only [Nat.zero_add, hseeds] at hnone hsome
  have hlookup : ∀ b : Nat, b < r.servers.Count → ∃ pid, r.servers[b]? = some pid ∧
      r.servers.GetId (b : Int) = some pid.id ∧ r.servers.GetIdentity pid.id = some pid := by
    intro b hb
    have hb' : b < r.servers.length := hb
    have hp : r.servers[b]? = some r.servers[b] := List.getElem?_eq_getElem hb'
    obtain ⟨a1, a2⟩ := Roster.GetIdentity_of_nodup r.servers b _ hids hp
    exact ⟨_, hp, a1, a2⟩
  have hc : ¬ r.servers.Count = 0 := by omega
  cases res with
  | some idx =>
    obtain ⟨k, e1, e2, e3, e4⟩ := hsome idx rfl
    have hk : k = idx := e1.symm
    subst hk
    obtain ⟨pid, p1, p2, p3⟩ := hlookup k e2
    have hrun : GetRebuttal c r phase accuse_idx server_bits =
        some ((k : Int), c.ProveSharedSecret r.dh_key pid.dh_key) := by
      unfold GetRebuttal
      simp only [h0, if_false, hres, p2, p3]
    refine ⟨?_, ?_⟩
    · intro s hs hdiff hfirst
      rcases Nat.lt_trichotomy k s with hlt | heq | hgt
      · exact absurd (hfirst k hlt) e3
      · subst heq
        exact ⟨pid, hrun, p1⟩
      · exact absurd (e4 s hgt) hdiff
    · intro hall
      exact absurd (hall k e2) e3
  | none =>
    refine ⟨?_, ?_⟩
    · intro s hs hdiff _
      exact absurd (hnone rfl s hs) hdiff
    · intro _
      refine ⟨?_, ?_, ?_⟩
      · intro hp
        have hm : phase.toNat % r.servers.Count < r.servers.Count := Nat.mod_lt _ hNs
        obtain ⟨pid, p1, p2, p3⟩ := hlookup _ hm
        have htmod : phase.tmod (r.servers.Count : Int)
            = ((phase.toNat % r.servers.Count : Nat) : Int) := by
          obtain ⟨n, rfl⟩ := Int.eq_ofNat_of_zero_le hp
          rfl
        refine ⟨pid, ?_, p1⟩
        unfold GetRebuttal
        simp only [h0, if_false, hres, hc, htmod, p2, p3]
      · intro hp hne
        have hlt : phase.tmod (r.servers.Count : Int) < 0 := by
          have e1 : phase.tmod (r.servers.Count : Int)
              = -((-phase).tmod (r.servers.Count : Int)) := by
            rw [Int.tmod_def, Int.tmod_def, Int.neg_tdiv]
            ring
          have e2 : 0 ≤ (-phase).tmod (r.servers.Count : Int) :=
            Int.tmod_nonneg _ (by omega)
          omega
        unfold GetRebuttal
        simp only [h0, if_false, hres, hc, Roster.GetId, hlt, if_true]
      · intro _ hz
        obtain ⟨pid, p1, p2, p3⟩ := hlookup 0 hNs
        refine ⟨pid, ?_, p1⟩
        unfold GetRebuttal
        simp only [h0, if_false, hres, hc, hz]
        simp only [Nat.cast_zero] at p2
        simp only [p2, p3]

/-! ## The blame shuffle -/

/-- The checks of `ProcessBlameShuffle` read the phase logs and the anonymous
keys only. -/
theorem ProcessBlameShuffle.check_congr (c : Crypto) (r r' : Round) (blame : QByteArray)
    (hlogs : r'.server_state.phase_logs = r.server_state.phase_logs)
    (hkeys : r'.state.anonymous_keys = r.state.anonymous_keys) :
    ProcessBlameShuffle.check c r' blame = ProcessBlameShuffle.check c r blame := by
  unfold ProcessBlameShuffle.check
  rw [hlogs, hkeys]

/-- An entry of the sink is taken as a valid accusation exactly when it
passes every check. -/
theorem ProcessBlameShuffle.check_valid_iff (c : Crypto) (r : Round) (blame : QByteArray)
    (t : Triple) :
    ProcessBlameShuffle.check c r blame = some (some t) ↔
      ProcessBlameShuffle.passes c r blame t := by
  unfold ProcessBlameShuffle.passes
  unfold ProcessBlameShuffle.check
  by_cases hsize : blame.length ≤ 8
  · simp only [hsize, if_true]
    constructor
    · intro h; simp at h
    · rintro ⟨h, -⟩; omega
  simp only [hsize, if_false]
  cases h0 : ReadInt (blame.take 12) 0 with
  | none => simp
  | some owner_idx =>
    cases h4 : ReadInt (blame.take 12) 4 with
    | none => simp
    | some accuse_idx =>
      cases h8 : ReadInt (blame.take 12) 8 with
      | none => simp
      | some phase =>
        simp only []
        by_cases hph : (decide (phase < 0) ||
            !QMap.contains r.server_state.phase_logs phase.toNat) = true
        · simp only [hph, if_true]
          constructor
          · intro h; simp at h
          · rintro ⟨-, e0, e4, e8, a1, a2, -⟩
            simp only [Option.some.injEq] at e8
            subst e8
            simp only [Bool.or_eq_true, decide_eq_true_eq, Bool.not_eq_true'] at hph
            rcases hph with h | h
            · omega
            · rw [h] at a2; exact absurd a2 (by decide)
        simp only [hph, if_false, Bool.false_eq_true]
        simp only [Bool.or_eq_true, decide_eq_true_eq, Bool.not_eq_true', not_or, not_lt,
          Bool.not_eq_false] at hph
        by_cases how : (decide (owner_idx < 0) ||
            decide (owner_idx ≥ (r.state.anonymous_keys.length : Int))) = true
        · simp only [how, if_true]
          constructor
          · intro h; simp at h
          · rintro ⟨-, e0, -, -, -, -, a3, a4, -⟩
            simp only [Option.some.injEq] at e0
            subst e0
            simp only [Bool.or_eq_true, decide_eq_true_eq] at how
            omega
        simp only [how, if_false, Bool.false_eq_true]
        simp only [Bool.or_eq_true, decide_eq_true_eq, not_or, not_lt, not_le] at how
        cases hlog : QMap.find phase.toNat r.server_state.phase_logs with
        | none =>
          simp only []
          constructor
          · intro h; simp at h
          · rintro ⟨-, -, -, e8, -, -, -, -, pl, st, la, k, b1, -⟩
            simp only [Option.some.injEq] at e8
            subst e8
            rw [hlog] at b1
            exact Option.noConfusion b1
        | some phase_log =>
          simp only []
          cases hstart : phase_log.message_offsets.get? owner_idx.toNat with
          | none =>
            simp only []
            constructor
            · intro h; simp at h
            · rintro ⟨-, e0, -, e8, -, -, -, -, pl, st, la, k, b1, b2, -⟩
              simp only [Option.some.injEq] at e0 e8
              subst e0 e8
              rw [hlog] at b1
              cases b1
              rw [hstart] at b2
              exact Option.noConfusion b2
          | some start =>
            simp only []
            cases hlast : (if owner_idx + 1 = (phase_log.message_offsets.length : Int) then
                some phase_log.message_length
              else phase_log.message_offsets.get? (owner_idx.toNat + 1)) with
            | none =>
              simp only []
              constructor
              · intro h; simp at h
              · rintro ⟨-, e0, -, e8, -, -, -, -, pl, st, la, k, b1, b2, b3, -⟩
                simp only [Option.some.injEq] at e0 e8
                subst e0 e8
                rw [hlog] at b1
                cases b1
                rw [hlast] at b3
                exact Option.noConfusion b3
            | some last =>
              simp only []
              by_cases hoff : ((last : Int) - start +
                  (accuse_idx.tdiv 8 + (if accuse_idx.tmod 8 ≠ 0 then 1 else 0))) < 0
              · simp only [hoff, if_true]
                constructor
                · intro h; simp at h
                · rintro ⟨-, e0, e4, e8, -, -, -, -, pl, st, la, k, b1, b2, b3, b4, -⟩
                  simp only [Option.some.injEq] at e0 e4 e8
                  subst e0 e4 e8
                  rw [hlog] at b1
                  cases b1
                  rw [hstart] at b2
                  cases b2
                  rw [hlast] at b3
                  cases b3
                  omega
              simp only [hoff, if_false]
              cases hkey : r.state.anonymous_keys.get? owner_idx.toNat with
              | none =>
                simp only []
                constructor
                · intro h; simp at h
                · rintro ⟨-, e0, -, e8, -, -, -, -, pl, st, la, k, b1, b2, b3, b4, b5, -⟩
                  simp only [Option.some.injEq] at e0
                  subst e0
                  rw [hkey] at b5
                  exact Option.noConfusion b5
              | some key =>
                simp only []
                cases hv : c.Verify key (blame.take 12) (blame.drop 12) with
                | false =>
                  simp only [Bool.not_false, if_true]
                  constructor
                  · intro h; simp at h
                  · rintro ⟨-, e0, -, e8, -, -, -, -, pl, st, la, k, b1, b2, b3, b4, b5, b6⟩
                    simp only [Option.some.injEq] at e0
                    subst e0
                    rw [hkey] at b5
                    cases b5
                    rw [hv] at b6
                    exact absurd b6 (by decide)
                | true =>
                  simp only [Bool.not_true, Bool.false_eq_true, if_false, Option.some.injEq]
                  constructor
                  · intro h
                    subst h
                    exact ⟨by omega, rfl, rfl, rfl, hph.1, hph.2, how.1, how.2,
                      phase_log, start, last, key, hlog, hstart, hlast, not_lt.mp hoff, hkey, hv⟩
                  · rintro ⟨-, e0, e4, e8, -⟩
                    cases t
                    simp only at e0 e4 e8
                    subst e0 e4 e8
                    rfl

theorem ProcessBlameShuffle.records_found (c : Crypto) (l : List QByteArray) (r : Round)
    (hfound : r.server_state.accuse_found = true)
    (hdef : ∀ b ∈ l, ProcessBlameShuffle.check c r b ≠ none) :
    ProcessBlameShuffle.records c l r = some r := by
  induction l with
  | nil => rfl
  | cons b rest ih =>
    unfold ProcessBlameShuffle.records
    have hrest := ih (fun b' hb' => hdef b' (List.mem_cons_of_mem _ hb'))
    cases hc : ProcessBlameShuffle.check c r b with
    | none => exact absurd hc (hdef b (List.mem_cons_self _ _))
    | some res =>
      cases res with
      | none => exact hrest
      | some t =>
        simp only [hfound, Bool.not_true, Bool.false_eq_true, if_false]
        exact hrest

/-- The loop of `ProcessBlameShuffle`, when no accusation was found before:
the first entry that passes every check sets `current_blame`, and without
such an entry the loop leaves the round as it is. -/
theorem ProcessBlameShuffle.records_first (c : Crypto) (l : List QByteArray) (r : Round)
    (hfresh : r.server_state.accuse_found = false)
    (hdef : ∀ b ∈ l, ProcessBlameShuffle.check c r b ≠ none) :
    (∀ pre b post t, l = pre ++ b :: post → ProcessBlameShuffle.passes c r b t →
      (∀ b' ∈ pre, ∀ t', ¬ ProcessBlameShuffle.passes c r b' t') →
      ProcessBlameShuffle.records c l r = some { r with
        server_state.current_blame := t, server_state.accuse_found := true }) ∧
    ((∀ b ∈ l, ∀ t, ¬ ProcessBlameShuffle.passes c r b t) →
      ProcessBlameShuffle.records c l r = some r) := by
  induction l with
  | nil =>
    refine ⟨fun pre b post t h => ?_, fun _ => rfl⟩
    simp at h
  | cons a rest ih =>
    obtain ⟨ih1, ih2⟩ := ih (fun b' hb' => hdef b' (List.mem_cons_of_mem _ hb'))
    constructor
    · intro pre b post t hsplit hpass hpre
      unfold ProcessBlameShuffle.records
      cases pre with
      | nil =>
        simp only [List.nil_append, List.cons.injEq] at hsplit
        obtain ⟨rfl, rfl⟩ := hsplit
        rw [(ProcessBlameShuffle.check_valid_iff c r a t).mpr hpass]
        simp only [hfresh, Bool.not_false, if_true]
        apply ProcessBlameShuffle.records_found c _ _ rfl
        intro b' hb'
        have hc := ProcessBlameShuffle.check_congr c r
          { r with server_state.current_blame := t, server_state.accuse_found := true }
          b' rfl rfl
        rw [hc]
        exact hdef b' (List.mem_cons_of_mem _ hb')
      | cons p pre' =>
        simp only [List.cons_append, List.cons.injEq] at hsplit
        obtain ⟨rfl, hrest⟩ := hsplit
        cases hc : ProcessBlameShuffle.check c r a with
        | none => exact absurd hc (hdef a (List.mem_cons_self _ _))
        | some res =>
          cases res with
          | none =>
            exact ih1 pre' b post t hrest hpass
              (fun b' hb' => hpre b' (List.mem_cons_of_mem _ hb'))
          | some t' =>
            exact absurd ((ProcessBlameShuffle.check_valid_iff c r a t').mp hc)
              (hpre a (List.mem_cons_self _ _) t')
    · intro hnone
      unfold ProcessBlameShuffle.records
      cases hc : ProcessBlameShuffle.check c r a with
      | none => exact absurd hc (hdef a (List.mem_cons_self _ _))
      | some res =>
        cases res with
        | none => exact ih2 (fun b hb => hnone b (List.mem_cons_of_mem _ hb))
        | some t' =>
          exact absurd ((ProcessBlameShuffle.check_valid_iff c r a t').mp hc)
            (hnone a (List.mem_cons_self _ _) t')

/-- C25. `ProcessBlameShuffle` selection: on a server that waits for the
blame shuffle and has found no accusation yet, with a sink whose entries can
all be checked without a read outside an array, `ProcessBlameShuffle` returns;
`current_blame` becomes the triple `(owner_idx, accuse_idx, phase)` of the
first entry, in the order of the sink, that passes every check, whatever
follows it, and the state advances; if no entry passes, it throws "Missing
accusation" and the round, `current_blame` included, is as before. An entry
whose phase has no phase log does not pass. -/
theorem ProcessBlameShuffle_selection (c : Crypto) (r : Round) (blame_sink : List QByteArray)
    (hserver : r.IsServer = true)
    (hstate : r.sm_state = States.WAITING_FOR_BLAME_SHUFFLE)
    (hfresh : r.server_state.accuse_found = false)
    (hdef : ∀ b ∈ blame_sink, ProcessBlameShuffle.check c r b ≠ none) :
    (∀ pre b post t, blame_sink = pre ++ b :: post → ProcessBlameShuffle.passes c r b t →
      (∀ b' ∈ pre, ∀ t', ¬ ProcessBlameShuffle.passes c r b' t') →
      ∃ r', ProcessBlameShuffle c r blame_sink = some (Outcome.ok (), r') ∧
        r'.server_state.current_blame = t ∧ r'.server_state.accuse_found = true ∧
        r'.sm_state = States.SERVER_TRANSMIT_BLAME_BITS) ∧
    ((∀ b ∈ blame_sink, ∀ t, ¬ ProcessBlameShuffle.passes c r b t) →
      ProcessBlameShuffle c r blame_sink = some (Outcome.threw "Missing accusation", r)) ∧
    (∀ b t, ProcessBlameShuffle.passes c r b t →
      0 ≤ t.third ∧ QMap.contains r.server_state.phase_logs t.third.toNat = true) := by
  obtain ⟨h1, h2⟩ := ProcessBlameShuffle.records_first c blame_sink r hfresh hdef
  refine ⟨?_, ?_, ?_⟩
  · intro pre b post t hsplit hpass hpre
    unfold ProcessBlameShuffle
    simp only [hserver, Bool.not_true, Bool.false_eq_true, if_false,
      h1 pre b post t hsplit hpass hpre, if_true]
    have hsc : ∀ x : Round, x.IsServer = true →
        x.sm_state = States.WAITING_FOR_BLAME_SHUFFLE →
        StateComplete x = some { x with server_state.handled_servers := [],
                                        sm_state := States.SERVER_TRANSMIT_BLAME_BITS } :=
      fun x a1 a2 => StateComplete_step x _ _ a1 a2 (by decide) (by decide)
    simp only [hsc, hserver, hstate, Option.map_some']
    exact ⟨_, rfl, rfl, rfl, rfl⟩
  · intro hnone
    unfold ProcessBlameShuffle
    simp only [hserver, Bool.not_true, Bool.false_eq_true, if_false, h2 hnone, hfresh]
  · intro b t hpass
    exact ⟨hpass.2.2.2.2.1, hpass.2.2.2.2.2.1⟩

theorem Int.tdiv_bidx_nonneg (a : Int) (h : -8 < a) :
    0 ≤ a.tdiv 8 + (if a.tmod 8 ≠ 0 then 1 else 0) := by
  by_cases h0 : 0 ≤ a
  · have := Int.tdiv_nonneg h0 (by decide : (0 : Int) ≤ 8)
    split <;> omega
  · have h1 : a < 0 := by omega
    interval_cases a <;> decide

/-- C26, at the failing input and beside it. A correctly signed entry of the
blame sink, for a phase that has a log and a slot whose offsets are in the
log, is selected as `current_blame` whenever its `accuse_idx` is greater than
`-8`: neither an `accuse_idx` in `-7..-1` nor one beyond `8 * message_length`
fails the test `(end - start + accuse_bidx) < 0`. -/
theorem ProcessBlameShuffle_offset_unchecked (c : Crypto) (r : Round) (blame : QByteArray)
    (t : Triple) (phase_log : PhaseLog) (start last : Nat) (key : QByteArray)
    (hserver : r.IsServer = true)
    (hstate : r.sm_state = States.WAITING_FOR_BLAME_SHUFFLE)
    (hfresh : r.server_state.accuse_found = false)
    (hsize : 8 < blame.length)
    (howner : ReadInt (blame.take 12) 0 = some t.first)
    (haccuse : ReadInt (blame.take 12) 4 = some t.second)
    (hphase : ReadInt (blame.take 12) 8 = some t.third)
    (hretained : 0 ≤ t.third)
    (hlog : QMap.find t.third.toNat r.server_state.phase_logs = some phase_log)
    (hrange : 0 ≤ t.first ∧ t.first < r.state.anonymous_keys.length)
    (hstart : phase_log.message_offsets.get? t.first.toNat = some start)
    (hlast : (if t.first + 1 = phase_log.message_offsets.length
        then some phase_log.message_length
        else phase_log.message_offsets.get? (t.first.toNat + 1)) = some last)
    (hslot : start ≤ last)
    (hkey : r.state.anonymous_keys.get? t.first.toNat = some key)
    (hsig : c.Verify key (blame.take 12) (blame.drop 12) = true)
    (hidx : -8 < t.second) :
    ∃ r', ProcessBlameShuffle c r [blame] = some (Outcome.ok (), r') ∧
      r'.server_state.current_blame = t ∧ r'.server_state.accuse_found = true ∧
      r'.sm_state = States.SERVER_TRANSMIT_BLAME_BITS := by
  have hpass : ProcessBlameShuffle.passes c r blame t := by
    refine ⟨hsize, howner, haccuse, hphase, hretained, ?_, hrange.1, hrange.2,
      phase_log, start, last, key, hlog, hstart, hlast, ?_, hkey, hsig⟩
    · simp [QMap.contains, hlog]
    · have := Int.tdiv_bidx_nonneg t.second hidx
      omega
  have hcheck := (ProcessBlameShuffle.check_valid_iff c r blame t).mpr hpass
  unfold ProcessBlameShuffle
  simp only [hserver, Bool.not_true, Bool.false_eq_true, if_false, ProcessBlameShuffle.records,
    hcheck, hfresh, Bool.not_false, if_true]
  have hsc : ∀ x : Round, x.IsServer = true →
      x.sm_state = States.WAITING_FOR_BLAME_SHUFFLE →
      StateComplete x = some { x with server_state.handled_servers := [],
                                      sm_state := States.SERVER_TRANSMIT_BLAME_BITS } :=
    fun x a1 a2 => StateComplete_step x _ _ a1 a2 (by decide) (by decide)
  simp only [hsc, hserver, hstate, Option.map_some']
  exact ⟨_, rfl, rfl, rfl, rfl⟩

/-! ## Commitments before reveals -/

/-- What `SubmitCommit` keeps: the role, the roster of servers, the state of
the state machine and the set of servers counted. -/
theorem SubmitCommit_frame (c : Crypto) (cfg : Config) (r r' : Round) (data : QByteArray)
    (rand : List QByteArray) (h : SubmitCommit c cfg r data rand = some r') :
    r'.IsServer = r.IsServer ∧ r'.servers = r.servers ∧ r'.sm_state = r.sm_state ∧
    r'.server_state.handled_servers = r.server_state.handled_servers := by
  unfold SubmitCommit at h
  cases h1 : SetupRngs c r with
  | none => simp [h1] at h
  | some r1 =>
    simp only [h1] at h
    have f1 : r1.IsServer = r.IsServer ∧ r1.servers = r.servers ∧ r1.sm_state = r.sm_state ∧
        r1.server_state.handled_servers = r.server_state.handled_servers := by
      unfold SetupRngs at h1
      simp only [] at h1
      split at h1
      · exact Option.noConfusion h1
      · rename_i seeds q hq
        simp only [Option.some.injEq] at h1
        subst h1
        split at hq
        · split at hq
          · exact Option.noConfusion hq
          · simp only [Option.some.injEq, Prod.mk.injEq] at hq
            obtain ⟨-, rfl⟩ := hq
            exact ⟨rfl, rfl, rfl, rfl⟩
        · simp only [Option.some.injEq, Prod.mk.injEq] at hq
          obtain ⟨-, rfl⟩ := hq
          exact ⟨rfl, rfl, rfl, rfl⟩
    cases h2 : GenerateServerCiphertext c cfg r1 data rand with
    | none => simp [h2] at h
    | some r2 =>
      simp only [h2, Option.some.injEq] at h
      subst h
      have f2 : r2.IsServer = r1.IsServer ∧ r2.servers = r1.servers ∧
          r2.sm_state = r1.sm_state ∧
          r2.server_state.handled_servers = r1.server_state.handled_servers := by
        unfold GenerateServerCiphertext at h2
        cases h3 : GenerateCiphertext c cfg r1 data rand with
        | none => simp [h3] at h2
        | some p =>
          obtain ⟨ct, q⟩ := p
          simp only [h3] at h2
          have f3 : q.IsServer = r1.IsServer ∧ q.servers = r1.servers ∧
              q.sm_state = r1.sm_state ∧
              q.server_state.handled_servers = r1.server_state.handled_servers := by
            unfold GenerateCiphertext at h3
            obtain ⟨logs, hp⟩ := GenerateCiphertext.pads_spec c r1.state.anonymous_rngs 0
              (zeroBytes r1.state.msg_length) r1
            rw [hp] at h3
            simp only [] at h3
            split at h3
            · exact Option.noConfusion h3
            · simp only [Option.some.injEq, Prod.mk.injEq] at h3
              obtain ⟨-, rfl⟩ := h3
              exact ⟨rfl, rfl, rfl, rfl⟩
          split at h2
          · exact Option.noConfusion h2
          · split at h2
            · exact Option.noConfusion h2
            · simp only [Option.some.injEq] at h2
              subst h2
              exact f3
      obtain ⟨a1, a2, a3, a4⟩ := f1
      obtain ⟨b1, b2, b3, b4⟩ := f2
      exact ⟨by show r2.IsServer = _; rw [b1, a1], by show r2.servers = _; rw [b2, a2],
        by show r2.sm_state = _; rw [b3, a3],
        by show r2.server_state.handled_servers = _; rw [b4, a4]⟩

/-- One `SERVER_COMMIT` message handled while the server waits for
commitments: the handler returns and keeps the roster; either the server still
waits and every counted server is a distinct roster server whose commitment,
one of those at hand, is stored under its index, or it has advanced to
`SERVER_WAIT_FOR_SERVER_CIPHERTEXT` and such a commitment is stored for every
roster index. -/
theorem HandleServerCommit_step (r : Round) (sender : Id) (commit : QByteArray)
    (seen : List (Id × QByteArray)) (hserver : r.IsServer = true)
    (hstate : r.sm_state = States.SERVER_WAIT_FOR_SERVER_COMMITS)
    (hnd : r.server_state.handled_servers.Nodup)
    (hinv : ∀ s ∈ r.server_state.handled_servers, r.servers.Contains s = true ∧
      ∃ cm, (s, cm) ∈ seen ∧
        QMap.find (r.servers.GetIndex s) r.server_state.server_commits = some cm) :
    ∃ o r', HandleServerCommit r sender commit = some (o, r') ∧
      r'.IsServer = true ∧ r'.servers = r.servers ∧
      ((r'.sm_state = States.SERVER_WAIT_FOR_SERVER_COMMITS ∧
          r'.server_state.handled_servers.Nodup ∧
          ∀ s ∈ r'.server_state.handled_servers, r'.servers.Contains s = true ∧
            ∃ cm, (s, cm) ∈ seen ++ [(sender, commit)] ∧
              QMap.find (r'.servers.GetIndex s) r'.server_state.server_commits = some cm) ∨
        (r'.sm_state = States.SERVER_WAIT_FOR_SERVER_CIPHERTEXT ∧
          ∀ i, i < r'.servers.Count → ∃ s cm, (s, cm) ∈ seen ++ [(sender, commit)] ∧
            r'.servers.Contains s = true ∧ r'.servers.GetIndex s = i ∧
            QMap.find i r'.server_state.server_commits = some cm)) := by
  have hweak : ∀ s ∈ r.server_state.handled_servers, r.servers.Contains s = true ∧
      ∃ cm, (s, cm) ∈ seen ++ [(sender, commit)] ∧
        QMap.find (r.servers.GetIndex s) r.server_state.server_commits = some cm := by
    intro s hs
    obtain ⟨a, cm, b, d⟩ := hinv s hs
    exact ⟨a, cm, List.mem_append_left _ b, d⟩
  unfold HandleServerCommit
  simp only [hserver, Bool.not_true, Bool.false_eq_true, if_false]
  by_cases hc : r.servers.Contains sender = true
  swap
  · have hc' : r.servers.Contains sender = false := by simpa using hc
    simp only [hc', Bool.not_false, if_true]
    exact ⟨_, _, rfl, hserver, rfl, Or.inl ⟨hstate, hnd, hweak⟩⟩
  simp only [hc, Bool.not_true, Bool.false_eq_true, if_false]
  by_cases hdup : r.server_state.handled_servers.contains sender = true
  · simp only [hdup, if_true]
    exact ⟨_, _, rfl, hserver, rfl, Or.inl ⟨hstate, hnd, hweak⟩⟩
  have hdup' : r.server_state.handled_servers.contains sender = false := by simpa using hdup
  have hnotin : sender ∉ r.server_state.handled_servers := by simpa using hdup
  simp only [hdup', Bool.false_eq_true, if_false, QSet.insert]
  have hnd' : (r.server_state.handled_servers ++ [sender]).Nodup := by
    rw [List.nodup_append]
    refine ⟨hnd, List.nodup_singleton _, ?_⟩
    intro a ha hb
    simp only [List.mem_singleton] at hb
    subst hb
    exact hnotin ha
  have hinv' : ∀ s ∈ r.server_state.handled_servers ++ [sender],
      r.servers.Contains s = true ∧
      ∃ cm, (s, cm) ∈ seen ++ [(sender, commit)] ∧
        QMap.find (r.servers.GetIndex s)
          (QMap.insert (r.servers.GetIndex sender) commit r.server_state.server_commits)
            = some cm := by
    intro s hs
    rcases List.mem_append.mp hs with h | h
    · obtain ⟨h1, cm, h2, h3⟩ := hweak s h
      refine ⟨h1, cm, h2, ?_⟩
      rw [QMap.find_insert_ne _ _ _ _ ?_, h3]
      intro heq
      have := Roster.GetIndex_inj r.servers s sender h1 hc heq
      subst this
      exact hnotin h
    · simp only [List.mem_singleton] at h
      subst h
      exact ⟨hc, commit, by simp, QMap.find_insert_self _ _ _⟩
  by_cases hcount : (r.server_state.handled_servers ++ [sender]).length = r.servers.Count
  · simp only [hcount, if_true]
    have hsc : ∀ x : Round, x.IsServer = true →
        x.sm_state = States.SERVER_WAIT_FOR_SERVER_COMMITS →
        StateComplete x = some { x with server_state.handled_servers := [],
                                        sm_state := States.SERVER_WAIT_FOR_SERVER_CIPHERTEXT } :=
      fun x h1 h2 => StateComplete_step x _ _ h1 h2 (by decide) (by decide)
    simp only [hsc, hserver, hstate, Option.map_some']
    refine ⟨_, _, rfl, rfl, rfl, Or.inr ⟨rfl, ?_⟩⟩
    intro i hi
    obtain ⟨hids, hall⟩ := Roster.all_counted r.servers _ hnd' (fun s hs => (hinv' s hs).1) hcount
    have hi' : i < r.servers.length := hi
    have hp : r.servers[i]? = some r.servers[i] := List.getElem?_eq_getElem hi'
    obtain ⟨e1, -, -⟩ := Roster.lookup_of_nodup r.servers i _ hids hp
    obtain ⟨h1, cm, h2, h3⟩ := hinv' _ (hall _ (List.getElem_mem hi'))
    rw [e1] at h3
    exact ⟨_, cm, h2, h1, e1, h3⟩
  · simp only [hcount, if_false]
    exact ⟨_, _, rfl, rfl, rfl, Or.inl ⟨hstate, hnd', hinv'⟩⟩

/-- A run of `SERVER_COMMIT` messages keeps what one message keeps. -/
theorem commits_inv (msgs : List (Id × QByteArray)) (r : Round)
    (seen : List (Id × QByteArray)) (hserver : r.IsServer = true)
    (hinv : (r.sm_state = States.SERVER_WAIT_FOR_SERVER_COMMITS ∧
          r.server_state.handled_servers.Nodup ∧
          ∀ s ∈ r.server_state.handled_servers, r.servers.Contains s = true ∧
            ∃ cm, (s, cm) ∈ seen ∧
              QMap.find (r.servers.GetIndex s) r.server_state.server_commits = some cm) ∨
        (r.sm_state = States.SERVER_WAIT_FOR_SERVER_CIPHERTEXT ∧
          ∀ i, i < r.servers.Count → ∃ s cm, (s, cm) ∈ seen ∧
            r.servers.Contains s = true ∧ r.servers.GetIndex s = i ∧
            QMap.find i r.server_state.server_commits = some cm)) :
    ∃ r', commits msgs r = some r' ∧ r'.servers = r.servers ∧
      (r'.sm_state = States.SERVER_WAIT_FOR_SERVER_COMMITS ∨
        r'.sm_state = States.SERVER_WAIT_FOR_SERVER_CIPHERTEXT) ∧
      (r'.sm_state = States.SERVER_WAIT_FOR_SERVER_CIPHERTEXT →
        ∀ i, i < r'.servers.Count → ∃ s cm, (s, cm) ∈ seen ++ msgs ∧
          r'.servers.Contains s = true ∧ r'.servers.GetIndex s = i ∧
          QMap.find i r'.server_state.server_commits = some cm) := by
  induction msgs generalizing r seen with
  | nil =>
    refine ⟨r, rfl, rfl, ?_, ?_⟩
    · rcases hinv with ⟨h, -⟩ | ⟨h, -⟩
      · exact Or.inl h
      · exact Or.inr h
    · intro hs
      rcases hinv with ⟨h, -⟩ | ⟨-, h⟩
      · rw [h] at hs; exact absurd hs (by decide)
      · simpa using h
  | cons m rest ih =>
    obtain ⟨sender, commit⟩ := m
    unfold commits
    rcases hinv with ⟨hstate, hnd, hall⟩ | ⟨hstate, hgoal⟩
    · simp only [hstate, if_true]
      obtain ⟨o, r1, h1, hs1, e1, hinv1⟩ :=
        HandleServerCommit_step r sender commit seen hserver hstate hnd hall
      simp only [h1]
      obtain ⟨r', h', f1, f2, f3⟩ := ih r1 (seen ++ [(sender, commit)]) hs1 hinv1
      refine ⟨r', h', by rw [f1, e1], f2, ?_⟩
      intro hs i hi
      obtain ⟨s, cm, a, b⟩ := f3 hs i hi
      exact ⟨s, cm, by simpa using a, b⟩
    · have hne : ¬ r.sm_state = States.SERVER_WAIT_FOR_SERVER_COMMITS := by
        rw [hstate]; decide
      simp only [hne, if_false]
      obtain ⟨r', h', f1, f2, f3⟩ := ih r (seen ++ [(sender, commit)]) hserver
        (Or.inr ⟨hstate, fun i hi => by
          obtain ⟨s, cm, a, b⟩ := hgoal i hi
          exact ⟨s, cm, List.mem_append_left _ a, b⟩⟩)
      refine ⟨r', h', f1, f2, ?_⟩
      intro hs i hi
      obtain ⟨s, cm, a, b⟩ := f3 hs i hi
      exact ⟨s, cm, by simpa using a, b⟩

/-- C21. Commit-before-reveal ordering. A server that completes
`SERVER_WAIT_FOR_CLIENT_LISTS` enters `SERVER_WAIT_FOR_SERVER_COMMITS`; after
`SubmitCommit`, whatever `SERVER_COMMIT` messages it is handed, the run
returns with the server still there or in `SERVER_WAIT_FOR_SERVER_CIPHERTEXT`,
and in the latter case a commitment received in this phase from a roster
server of index `i` is stored under every index `i < Ns`. And
`HandleServerCommit` throws on a sender outside the roster and on a sender
already counted, leaving the round as it is, and otherwise stores the
commitment and advances exactly when `Ns` servers are counted. -/
theorem HandleServerCommit_ordering (c : Crypto) (cfg : Config) (r : Round)
    (data : QByteArray) (rand : List QByteArray) (msgs : List (Id × QByteArray))
    (hserver : r.IsServer = true)
    (hstate : r.sm_state = States.SERVER_WAIT_FOR_CLIENT_LISTS) :
    (∃ r1, StateComplete r = some r1 ∧
      r1.sm_state = States.SERVER_WAIT_FOR_SERVER_COMMITS ∧
      ∀ r2, SubmitCommit c cfg r1 data rand = some r2 →
        ∃ r3, commits msgs r2 = some r3 ∧
          (r3.sm_state = States.SERVER_WAIT_FOR_SERVER_COMMITS ∨
            r3.sm_state = States.SERVER_WAIT_FOR_SERVER_CIPHERTEXT) ∧
          (r3.sm_state = States.SERVER_WAIT_FOR_SERVER_CIPHERTEXT →
            ∀ i, i < r.servers.Count → ∃ sender commit, (sender, commit) ∈ msgs ∧
              r.servers.Contains sender = true ∧ r.servers.GetIndex sender = i ∧
              QMap.find i r3.server_state.server_commits = some commit)) ∧
    (∀ (q : Round) (sender : Id) (commit : QByteArray),
      q.servers.Contains sender = false →
      HandleServerCommit q sender commit = some (Outcome.threw "Not a server", q)) ∧
    (∀ (q : Round) (sender : Id) (commit : QByteArray), q.IsServer = true →
      q.servers.Contains sender = true → sender ∈ q.server_state.handled_servers →
      HandleServerCommit q sender commit = some (Outcome.threw "Already have commit", q)) ∧
    (∀ (q : Round) (sender : Id) (commit : QByteArray), q.IsServer = true →
      q.sm_state = States.SERVER_WAIT_FOR_SERVER_COMMITS →
      q.servers.Contains sender = true → sender ∉ q.server_state.handled_servers →
      ∃ q', HandleServerCommit q sender commit = some (Outcome.ok (), q') ∧
        q'.server_state.server_commits =
          QMap.insert (q.servers.GetIndex sender) commit q.server_state.server_commits ∧
        (q.server_state.handled_servers.length + 1 = q.servers.Count →
          q'.sm_state = States.SERVER_WAIT_FOR_SERVER_CIPHERTEXT) ∧
        (q.server_state.handled_servers.length + 1 ≠ q.servers.Count →
          q'.sm_state = States.SERVER_WAIT_FOR_SERVER_COMMITS ∧
          q'.server_state.handled_servers = q.server_state.handled_servers ++ [sender])) := by
  refine ⟨?_, ?_, ?_, ?_⟩
  · refine ⟨_, StateComplete_step r _ States.SERVER_WAIT_FOR_SERVER_COMMITS hserver hstate
      (by decide) (by decide), rfl, ?_⟩
    intro r2 h2
    obtain ⟨a1, a2, a3, a4⟩ := SubmitCommit_frame c cfg _ r2 data rand h2
    simp only [] at a1 a2 a3 a4
    obtain ⟨r3, h3, f1, f2, f3⟩ := commits_inv msgs r2 [] (by rw [a1]; exact hserver)
      (Or.inl ⟨a3, by rw [a4]; exact List.nodup_nil, by
        intro s hs
        rw [a4] at hs
        exact absurd hs (List.not_mem_nil s)⟩)
    refine ⟨r3, h3, f2, ?_⟩
    intro hs i hi
    rw [f1, a2] at f3
    simpa using f3 hs i hi
  · intro q sender commit hc
    unfold HandleServerCommit
    cases q.IsServer <;> simp [hc]
  · intro q sender commit hs hc hdup
    unfold HandleServerCommit
    have hd : q.server_state.handled_servers.contains sender = true := by simpa using hdup
    simp only [hs, hc, hd, Bool.not_true, Bool.false_eq_true, if_false, if_true]
  · intro q sender commit hs hst hc hfresh
    have hf : q.server_state.handled_servers.contains sender = false := by simpa using hfresh
    unfold HandleServerCommit
    simp only [hs, hc, hf, Bool.not_true, Bool.false_eq_true, if_false, QSet.insert,
      List.length_append, List.length_singleton]
    by_cases hcount : q.server_state.handled_servers.length + 1 = q.servers.Count
    · have hsc : ∀ x : Round, x.IsServer = true →
          x.sm_state = States.SERVER_WAIT_FOR_SERVER_COMMITS →
          StateComplete x = some { x with server_state.handled_servers := [],
                                          sm_state := States.SERVER_WAIT_FOR_SERVER_CIPHERTEXT } :=
        fun x h1 h2 => StateComplete_step x _ _ h1 h2 (by decide) (by decide)
      simp only [hcount, if_true, hsc, hs, hst, Option.map_some']
      exact ⟨_, rfl, rfl, fun _ => rfl, fun h => absurd rfl h⟩
    · simp only [hcount, if_false]
      exact ⟨_, rfl, rfl, fun h => False.elim h, fun _ => ⟨hst, rfl⟩⟩

/-! ## The cross-check of the blame bits -/

/-- The loops of `HandleBlameBits` compute a parity: starting from `a`, the
result is `a` XOR "the number of set bits is odd". -/
theorem HandleBlameBits.actual_parity (bits : QBitArray) (a : Bool) :
    HandleBlameBits.actual bits a = (a != decide (bits.count true % 2 = 1)) := by
  unfold HandleBlameBits.actual
  induction bits generalizing a with
  | nil => simp
  | cons b rest ih =>
    rw [List.foldl_cons, ih]
    cases b
    · simp
    · rw [List.count_cons_self]
      cases a <;> by_cases h : List.count true rest % 2 = 1
      · have : ¬ (List.count true rest + 1) % 2 = 1 := by omega
        simp [h, this]
      · have : (List.count true rest + 1) % 2 = 1 := by omega
        simp [h, this]
      · have : ¬ (List.count true rest + 1) % 2 = 1 := by omega
        simp [h, this]
      · have : (List.count true rest + 1) % 2 = 1 := by omega
        simp [h, this]

/-- C28. The cross-check of `HandleBlameBits`. With a roster server as sender
and the bit `GetBitAtIndex(sender, accuse_idx)` of the blamed phase at hand,
the value the handler compares with that bit is the parity of all the bits of
both vectors; when the receiver is a server, no blame bits of the sender are
stored and the parity equals the bit, the pair is stored under the sender and
the state advances exactly when `Ns` pairs are stored; in every other case the
handler throws and the round is as before. -/
theorem HandleBlameBits_cross_check (r : Round) (sender : Id)
    (blame_bits : QBitArray × QBitArray) (log : PhaseLog) (expected : Bool)
    (hsender : r.servers.Contains sender = true)
    (hstate : r.sm_state = States.SERVER_WAITING_FOR_BLAME_BITS)
    (hphase : 0 ≤ r.server_state.current_blame.third)
    (hlog : QMap.find r.server_state.current_blame.third.toNat r.server_state.phase_logs
      = some log)
    (hbit : log.GetBitAtIndex sender r.server_state.current_blame.second = some expected) :
    let actual := HandleBlameBits.actual blame_bits.2 (HandleBlameBits.actual blame_bits.1 false)
    let stored := QMap.insert sender blame_bits r.server_state.blame_bits
    actual = decide ((blame_bits.1 ++ blame_bits.2).count true % 2 = 1) ∧
    ((r.IsServer = true ∧ QMap.contains r.server_state.blame_bits sender = false ∧
        actual = expected) →
      ∃ r', HandleBlameBits r sender blame_bits = some (Outcome.ok (), r') ∧
        r'.server_state.blame_bits = stored ∧
        QMap.find sender r'.server_state.blame_bits = some blame_bits ∧
        (stored.length = r.servers.Count →
          r'.sm_state = States.SERVER_REQUEST_CLIENT_REBUTTAL) ∧
        (stored.length ≠ r.servers.Count →
          r'.sm_state = States.SERVER_WAITING_FOR_BLAME_BITS)) ∧
    (¬ (r.IsServer = true ∧ QMap.contains r.server_state.blame_bits sender = false ∧
        actual = expected) →
      ∃ msg, HandleBlameBits r sender blame_bits = some (Outcome.threw msg, r)) := by
  intro actual stored
  refine ⟨?_, ?_, ?_⟩
  · show HandleBlameBits.actual blame_bits.2 (HandleBlameBits.actual blame_bits.1 false) = _
    rw [HandleBlameBits.actual_parity, HandleBlameBits.actual_parity, List.count_append]
    by_cases h1 : List.count true blame_bits.1 % 2 = 1 <;>
      by_cases h2 : List.count true blame_bits.2 % 2 = 1
    · have : ¬ (List.count true blame_bits.1 + List.count true blame_bits.2) % 2 = 1 := by omega
      simp [h1, h2, this]
    · have : (List.count true blame_bits.1 + List.count true blame_bits.2) % 2 = 1 := by omega
      simp [h1, h2, this]
    · have : (List.count true blame_bits.1 + List.count true blame_bits.2) % 2 = 1 := by omega
      simp [h1, h2, this]
    · have : ¬ (List.count true blame_bits.1 + List.count true blame_bits.2) % 2 = 1 := by omega
      simp [h1, h2, this]
  · rintro ⟨hserver, hfresh, hact⟩
    have hact' : HandleBlameBits.actual blame_bits.2 (HandleBlameBits.actual blame_bits.1 false)
        = expected := hact
    have hnp : ¬ r.server_state.current_blame.third < 0 := not_lt.mpr hphase
    unfold HandleBlameBits
    simp only [hserver, hsender, hfresh, Bool.not_true, Bool.false_eq_true, if_false, hnp,
      hlog, hbit, hact', ne_eq, not_true_eq_false]
    by_cases hcount : (QMap.insert sender blame_bits r.server_state.blame_bits).length
        = r.servers.Count
    · have hsc : ∀ x : Round, x.IsServer = true →
          x.sm_state = States.SERVER_WAITING_FOR_BLAME_BITS →
          StateComplete x = some { x with server_state.handled_servers := [],
                                          sm_state := States.SERVER_REQUEST_CLIENT_REBUTTAL } :=
        fun x h1 h2 => StateComplete_step x _ _ h1 h2 (by decide) (by decide)
      simp only [hcount, if_true, hsc, hserver, hstate, Option.map_some']
      exact ⟨_, rfl, rfl, QMap.find_insert_self _ _ _, fun _ => rfl,
        fun h => absurd trivial h⟩
    · simp only [hcount, if_false]
      exact ⟨_, rfl, rfl, QMap.find_insert_self _ _ _, fun h => False.elim h,
        fun _ => hstate⟩
  · intro hnot
    unfold HandleBlameBits
    by_cases hserver : r.IsServer = true
    swap
    · have : r.IsServer = false := by simpa using hserver
      simp only [this, Bool.not_false, if_true]
      exact ⟨_, rfl⟩
    simp only [hserver, hsender, Bool.not_true, Bool.false_eq_true, if_false]
    by_cases hdup : QMap.contains r.server_state.blame_bits sender = true
    · simp only [hdup, if_true]
      exact ⟨_, rfl⟩
    have hfresh : QMap.contains r.server_state.blame_bits sender = false := by simpa using hdup
    have hne : ¬ HandleBlameBits.actual blame_bits.2
        (HandleBlameBits.actual blame_bits.1 false) = expected :=
      fun h => hnot ⟨hserver, hfresh, h⟩
    have hnp : ¬ r.server_state.current_blame.third < 0 := not_lt.mpr hphase
    simp only [hfresh, Bool.false_eq_true, if_false, hnp, hlog, hbit, ne_eq, hne,
      not_false_eq_true, if_true]
    exact ⟨_, rfl⟩

/-! ## Collecting the client ciphertexts -/

/-- What `HandleClientCiphertext` does with a submission that passes its
four checks. -/
theorem HandleClientCiphertext_accept_eq (r : Round) (now : Int) (sender : Id)
    (payload : QByteArray) (hserver : r.IsServer = true)
    (hallowed : r.server_state.allowed_clients.contains sender = true)
    (hbit : r.server_state.handled_clients.get? (r.clients.GetIndex sender) = some false)
    (hlen : payload.length = r.state.msg_length) :
    HandleClientCiphertext r now sender payload =
      if r.server_state.allowed_clients.length =
          (r.server_state.client_ciphertexts ++ [(r.clients.GetIndex sender, payload)]).length
      then (StateComplete (HandleClientCiphertext.recorded r sender payload)).map
        (fun r => (Outcome.ok (), r))
      else if (((r.server_state.client_ciphertexts ++
          [(r.clients.GetIndex sender, payload)]).length : Nat) : Int)
          = r.server_state.expected_clients then
        some (Outcome.ok (), { HandleClientCiphertext.recorded r sender payload with
          queued := r.queued ++ [now - r.server_state.start_of_phase] })
      else some (Outcome.ok (), HandleClientCiphertext.recorded r sender payload) := by
  unfold HandleClientCiphertext
  rw [if_neg (by rw [hserver]; decide), if_neg (by rw [hallowed]; decide)]
  simp only [hbit]
  rw [if_neg (by simp [hlen])]
  rfl

/-- What `HandleClientCiphertext` does with a submission that fails one of
its four checks, the bit of the sender being there. -/
theorem HandleClientCiphertext_reject (r : Round) (now : Int) (sender : Id)
    (payload : QByteArray) (bit : Bool)
    (hbit : r.server_state.handled_clients.get? (r.clients.GetIndex sender) = some bit)
    (hnot : ¬ (r.IsServer = true ∧ r.server_state.allowed_clients.contains sender = true ∧
      bit = false ∧ payload.length = r.state.msg_length)) :
    ∃ msg, HandleClientCiphertext r now sender payload = some (Outcome.threw msg, r) := by
  unfold HandleClientCiphertext
  by_cases hserver : r.IsServer = true
  swap
  · have : r.IsServer = false := by simpa using hserver
    simp only [this, Bool.not_false, if_true]
    exact ⟨_, rfl⟩
  simp only [hserver, Bool.not_true, Bool.false_eq_true, if_false]
  by_cases hallowed : r.server_state.allowed_clients.contains sender = true
  swap
  · have : r.server_state.allowed_clients.contains sender = false := by simpa using hallowed
    simp only [this, Bool.not_false, if_true]
    exact ⟨_, rfl⟩
  simp only [hallowed, Bool.not_true, Bool.false_eq_true, if_false, hbit]
  cases bit with
  | true => exact ⟨_, rfl⟩
  | false =>
    have hlen : ¬ payload.length = r.state.msg_length :=
      fun h => hnot ⟨hserver, hallowed, rfl, h⟩
    simp only [ne_eq, hlen, not_false_eq_true, if_true]
    exact ⟨_, rfl⟩

/-- The fields of the round recorded for an accepted submission. -/
theorem HandleClientCiphertext.recorded_fields (r : Round) (sender : Id)
    (payload : QByteArray) :
    (HandleClientCiphertext.recorded r sender payload).IsServer = r.IsServer ∧
    (HandleClientCiphertext.recorded r sender payload).sm_state = r.sm_state ∧
    (HandleClientCiphertext.recorded r sender payload).queued = r.queued ∧
    (HandleClientCiphertext.recorded r sender payload).server_state.handled_clients =
      r.server_state.handled_clients.set (r.clients.GetIndex sender) true ∧
    (HandleClientCiphertext.recorded r sender payload).server_state.client_ciphertexts =
      r.server_state.client_ciphertexts ++ [(r.clients.GetIndex sender, payload)] ∧
    (HandleClientCiphertext.recorded r sender payload).server_state.current_phase_log =
      r.server_state.current_phase_log :=
  ⟨rfl, rfl, rfl, rfl, rfl, rfl⟩

/-- C22. The contract of `HandleClientCiphertext`, the bit of the sender in
`handled_clients` being there. A submission that comes to a server from an
allowed client whose bit is clear, with a payload of `msg_length` bytes, is
accepted: the bit is set, the pair of the client index and the payload is
appended to `client_ciphertexts`, the payload is logged under the client index
in the current phase log, and the state advances to
`SERVER_WAIT_FOR_CLIENT_LISTS` exactly when the count of ciphertexts equals
the count of allowed clients, which, the ciphertexts held coming from distinct
allowed clients whose bits are set, is exactly when every allowed client has
submitted. Every other submission is rejected with an error and the round is
as before. -/
theorem HandleClientCiphertext_contract (r : Round) (now : Int) (sender : Id)
    (payload : QByteArray) (bit : Bool)
    (hstate : r.sm_state = States.SERVER_WAIT_FOR_CLIENT_CIPHERTEXT)
    (hbit : r.server_state.handled_clients.get? (r.clients.GetIndex sender) = some bit) :
    ((r.IsServer = true ∧ r.server_state.allowed_clients.contains sender = true ∧
        bit = false ∧ payload.length = r.state.msg_length) →
      ∃ r', HandleClientCiphertext r now sender payload = some (Outcome.ok (), r') ∧
        r'.server_state.handled_clients =
          r.server_state.handled_clients.set (r.clients.GetIndex sender) true ∧
        r'.server_state.client_ciphertexts =
          r.server_state.client_ciphertexts ++ [(r.clients.GetIndex sender, payload)] ∧
        r'.server_state.current_phase_log = r.server_state.current_phase_log ∧
        (∀ k, QMap.find k r'.server_state.phase_logs =
          (QMap.find k r.server_state.phase_logs).map (fun l =>
            if k = r.server_state.current_phase_log then
              { l with messages := QMap.insert (r.clients.GetIndex sender) payload l.messages }
            else l)) ∧
        (r.server_state.allowed_clients.length = r'.server_state.client_ciphertexts.length →
          r'.sm_state = States.SERVER_WAIT_FOR_CLIENT_LISTS) ∧
        (r.server_state.allowed_clients.length ≠ r'.server_state.client_ciphertexts.length →
          r'.sm_state = States.SERVER_WAIT_FOR_CLIENT_CIPHERTEXT) ∧
        ((r.server_state.allowed_clients.map r.clients.GetIndex).Nodup →
          (r.server_state.client_ciphertexts.map Prod.fst).Nodup →
          (∀ e ∈ r.server_state.client_ciphertexts,
            e.1 ∈ r.server_state.allowed_clients.map r.clients.GetIndex ∧
            r.server_state.handled_clients.get? e.1 = some true) →
          (r'.sm_state = States.SERVER_WAIT_FOR_CLIENT_LISTS ↔
            ∀ s ∈ r.server_state.allowed_clients,
              ∃ p, (r.clients.GetIndex s, p) ∈ r'.server_state.client_ciphertexts))) ∧
    (¬ (r.IsServer = true ∧ r.server_state.allowed_clients.contains sender = true ∧
        bit = false ∧ payload.length = r.state.msg_length) →
      ∃ msg, HandleClientCiphertext r now sender payload = some (Outcome.threw msg, r)) := by
  refine ⟨?_, HandleClientCiphertext_reject r now sender payload bit hbit⟩
  rintro ⟨hserver, hallowed, hb, hlen⟩
  subst hb
  have hfind : ∀ k, QMap.find k
      (HandleClientCiphertext.recorded r sender payload).server_state.phase_logs =
      (QMap.find k r.server_state.phase_logs).map (fun l =>
        if k = r.server_state.current_phase_log then
          { l with messages := QMap.insert (r.clients.GetIndex sender) payload l.messages }
        else l) := fun k => updatePhaseLog_find _ _ k
  have hsc : StateComplete (HandleClientCiphertext.recorded r sender payload) =
      some { HandleClientCiphertext.recorded r sender payload with
        server_state.handled_servers := [],
        sm_state := States.SERVER_WAIT_FOR_CLIENT_LISTS } :=
    StateComplete_step _ _ _ hserver hstate (by decide) (by decide)
  have hcomplete : (r.server_state.allowed_clients.map r.clients.GetIndex).Nodup →
      (r.server_state.client_ciphertexts.map Prod.fst).Nodup →
      (∀ e ∈ r.server_state.client_ciphertexts,
        e.1 ∈ r.server_state.allowed_clients.map r.clients.GetIndex ∧
        r.server_state.handled_clients.get? e.1 = some true) →
      (r.server_state.allowed_clients.length = r.server_state.client_ciphertexts.length + 1 ↔
        ∀ s ∈ r.server_state.allowed_clients,
          ∃ p, (r.clients.GetIndex s, p) ∈
            r.server_state.client_ciphertexts ++ [(r.clients.GetIndex sender, payload)]) := by
    intro hnd1 hnd2 hinv
    have hmem : sender ∈ r.server_state.allowed_clients := by simpa using hallowed
    have hnew : r.clients.GetIndex sender ∉ r.server_state.client_ciphertexts.map Prod.fst := by
      intro hin
      obtain ⟨e, he, heq⟩ := List.mem_map.mp hin
      have := (hinv e he).2
      rw [heq, hbit] at this
      exact absurd this (by decide)
    have hnd3 : ((r.server_state.client_ciphertexts ++
        [(r.clients.GetIndex sender, payload)]).map Prod.fst).Nodup := by
      rw [List.map_append, List.nodup_append]
      refine ⟨hnd2, List.nodup_singleton _, ?_⟩
      intro a ha hb
      simp only [List.map_cons, List.map_nil, List.mem_singleton] at hb
      subst hb
      exact hnew ha
    have hsub : (r.server_state.client_ciphertexts ++
        [(r.clients.GetIndex sender, payload)]).map Prod.fst ⊆
        r.server_state.allowed_clients.map r.clients.GetIndex := by
      intro a ha
      rw [List.map_append, List.mem_append] at ha
      rcases ha with ha | ha
      · obtain ⟨e, he, heq⟩ := List.mem_map.mp ha
        rw [← heq]
        exact (hinv e he).1
      · simp only [List.map_cons, List.map_nil, List.mem_singleton] at ha
        subst ha
        exact List.mem_map.mpr ⟨sender, hmem, rfl⟩
    constructor
    · intro hcount s hs
      have hperm := (List.subperm_of_subset hnd3 hsub).perm_of_length_le
        (by simp [hcount])
      have : r.clients.GetIndex s ∈ (r.server_state.client_ciphertexts ++
          [(r.clients.GetIndex sender, payload)]).map Prod.fst :=
        hperm.mem_iff.mpr (List.mem_map.mpr ⟨s, hs, rfl⟩)
      obtain ⟨e, he, heq⟩ := List.mem_map.mp this
      exact ⟨e.2, by rw [← heq]; exact he⟩
    · intro hall
      have hsub2 : r.server_state.allowed_clients.map r.clients.GetIndex ⊆
          (r.server_state.client_ciphertexts ++
            [(r.clients.GetIndex sender, payload)]).map Prod.fst := by
        intro a ha
        obtain ⟨s, hs, heq⟩ := List.mem_map.mp ha
        obtain ⟨p, hp⟩ := hall s hs
        rw [← heq]
        exact List.mem_map.mpr ⟨_, hp, rfl⟩
      have l1 := (List.subperm_of_subset hnd1 hsub2).length_le
      have l2 := (List.subperm_of_subset hnd3 hsub).length_le
      simp only [List.length_map, List.length_append, List.length_singleton] at l1 l2
      omega
  rw [HandleClientCiphertext_accept_eq r now sender payload hserver hallowed hbit hlen]
  have hl : (r.server_state.client_ciphertexts ++ [(r.clients.GetIndex sender, payload)]).length
      = r.server_state.client_ciphertexts.length + 1 := by simp
  by_cases hne : r.server_state.allowed_clients.length =
      (r.server_state.client_ciphertexts ++ [(r.clients.GetIndex sender, payload)]).length
  · rw [if_pos hne, hsc]
    have hcount : r.server_state.allowed_clients.length
        = r.server_state.client_ciphertexts.length + 1 := hne.trans hl
    refine ⟨_, rfl, rfl, rfl, rfl, hfind, fun _ => rfl, ?_, ?_⟩
    · intro h
      exact absurd hne h
    · intro h1 h2 h3
      exact ⟨fun _ => (hcomplete h1 h2 h3).mp hcount, fun _ => rfl⟩
  · rw [if_neg hne]
    have hcount : ¬ r.server_state.allowed_clients.length
        = r.server_state.client_ciphertexts.length + 1 := fun h => hne (h.trans hl.symm)
    have hst : ¬ States.SERVER_WAIT_FOR_CLIENT_CIPHERTEXT = States.SERVER_WAIT_FOR_CLIENT_LISTS := by
      decide
    by_cases hexp : (((r.server_state.client_ciphertexts ++
        [(r.clients.GetIndex sender, payload)]).length : Nat) : Int)
        = r.server_state.expected_clients
    · rw [if_pos hexp]
      refine ⟨_, rfl, rfl, rfl, rfl, hfind, fun h => absurd h hne, fun _ => hstate, ?_⟩
      intro h1 h2 h3
      constructor
      · intro h
        have : r.sm_state = States.SERVER_WAIT_FOR_CLIENT_LISTS := h
        rw [hstate] at this
        exact absurd this hst
      · intro h
        exact absurd ((hcomplete h1 h2 h3).mpr h) hcount
    · rw [if_neg hexp]
      refine ⟨_, rfl, rfl, rfl, rfl, hfind, fun h => absurd h hne, fun _ => hstate, ?_⟩
      intro h1 h2 h3
      constructor
      · intro h
        have : r.sm_state = States.SERVER_WAIT_FOR_CLIENT_LISTS := h
        rw [hstate] at this
        exact absurd this hst
      · intro h
        exact absurd ((hcomplete h1 h2 h3).mpr h) hcount

theorem bitLength_zero (fuel : Nat) : bitLength fuel 0 = 0 := by
  cases fuel <;> simp [bitLength]

/-- What `bitLength` computes: `n` has exactly that many bits. -/
theorem bitLength_spec (fuel n : Nat) (h : n ≤ fuel) :
    n < 2 ^ bitLength fuel n ∧ (n ≠ 0 → 2 ^ (bitLength fuel n - 1) ≤ n) := by
  induction fuel generalizing n with
  | zero =>
    have : n = 0 := by omega
    subst this
    simp [bitLength]
  | succ fuel ih =>
    by_cases hn : n = 0
    · subst hn
      simp [bitLength]
    · simp only [bitLength, hn, if_false]
      obtain ⟨h1, h2⟩ := ih (n / 2) (by omega)
      have hp : 2 ^ (bitLength fuel (n / 2) + 1) = 2 * 2 ^ bitLength fuel (n / 2) := by
        rw [pow_succ]; omega
      refine ⟨by rw [hp]; omega, fun _ => ?_⟩
      simp only [Nat.add_sub_cancel]
      by_cases h0 : n / 2 = 0
      · rw [h0, bitLength_zero]
        simp
        omega
      · have h3 := h2 h0
        have hb : bitLength fuel (n / 2) ≠ 0 := by
          intro hb
          rw [hb] at h1
          simp at h1
          exact h0 h1
        obtain ⟨b, hb'⟩ : ∃ b, bitLength fuel (n / 2) = b + 1 :=
          ⟨bitLength fuel (n / 2) - 1, by omega⟩
        rw [hb'] at h3 ⊢
        simp only [Nat.add_sub_cancel] at h3
        rw [pow_succ]
        omega

/-- What `roundToDigits` computes, with `s` the number of bits of `a` beyond
`digits`: a multiple `q * 2 ^ s` of the unit `2 ^ s` with `q` of at most
`digits` bits (or `2 ^ digits` itself), no more than half a unit away from
`a`, equal to `a` when `a` is such a multiple, and with `q` even when `a` is
exactly half a unit from two multiples. -/
theorem roundToDigits_spec (digits a : Nat) :
    ∃ q, roundToDigits digits a = q * 2 ^ (bitLength a a - digits) ∧
      q ≤ 2 ^ digits ∧
      2 * a ≤ 2 * roundToDigits digits a + 2 ^ (bitLength a a - digits) ∧
      2 * roundToDigits digits a ≤ 2 * a + 2 ^ (bitLength a a - digits) ∧
      (a % 2 ^ (bitLength a a - digits) = 0 → roundToDigits digits a = a) ∧
      (2 * (a % 2 ^ (bitLength a a - digits)) = 2 ^ (bitLength a a - digits) →
        q % 2 = 0) := by
  obtain ⟨hlt, -⟩ := bitLength_spec a a (Nat.le_refl a)
  generalize hs : bitLength a a - digits = s at *
  have hP : 0 < 2 ^ s := Nat.two_pow_pos s
  have hq0 : a / 2 ^ s < 2 ^ digits := by
    apply Nat.div_lt_of_lt_mul
    calc a < 2 ^ bitLength a a := hlt
      _ ≤ 2 ^ (s + digits) := Nat.pow_le_pow_right (by decide) (by omega)
      _ = 2 ^ s * 2 ^ digits := by rw [pow_add]
  have hdm := Nat.div_add_mod a (2 ^ s)
  have hr := Nat.mod_lt a hP
  rw [Nat.mul_comm] at hdm
  unfold roundToDigits
  simp only [hs]
  generalize hX : a / 2 ^ s * 2 ^ s = X at hdm
  generalize hrem : a % 2 ^ s = rem at *
  generalize hPP : 2 ^ s = P at *
  by_cases hc : 2 * rem > P ∨ (2 * rem = P ∧ a / P % 2 = 1)
  · simp only [hc, if_true]
    refine ⟨a / P + 1, rfl, by omega, ?_, ?_, ?_, ?_⟩
    · rw [Nat.add_mul, hX]; omega
    · rw [Nat.add_mul, hX]; omega
    · intro h0; omega
    · intro ht
      rcases hc with hc | hc
      · omega
      · omega
  · simp only [hc, if_false]
    refine ⟨a / P, rfl, by omega, ?_, ?_, ?_, ?_⟩
    · rw [hX]
      by_contra hn
      exact hc (Or.inl (by omega))
    · rw [hX]; omega
    · intro h0; rw [hX]; omega
    · intro ht
      by_contra hodd
      exact hc (Or.inr ⟨ht, by omega⟩)

theorem roundToDigits_small (digits a : Nat) (h : a < 2 ^ digits) :
    roundToDigits digits a = a := by
  obtain ⟨-, -, -, -, -, h5, -⟩ := roundToDigits_spec digits a
  apply h5
  have hs : bitLength a a - digits = 0 := by
    by_cases ha : a = 0
    · subst ha; simp [bitLength_zero]
    · obtain ⟨-, h2⟩ := bitLength_spec a a (Nat.le_refl a)
      have h3 := h2 ha
      by_contra hn
      have h4 : digits ≤ bitLength a a - 1 := by omega
      have := Nat.pow_le_pow_right (show 0 < 2 by decide) h4
      omega
  rw [hs]
  simp [Nat.mod_one]

/-- What `int(x)` is for an exact product: the floor of the product. -/
theorem SetOnlineClients.expected_floor (n m e : Nat) :
    n * m / 2 ^ e = ⌊((m : ℚ) / 2 ^ e) * n⌋₊ := by
  have h : ((m : ℚ) / 2 ^ e) * n = ((n * m : Nat) : ℚ) / ((2 ^ e : Nat) : ℚ) := by
    push_cast
    ring
  rw [h, Nat.floor_div_eq_div]

/-- C23, as the code has it. `SetOnlineClients` with a non-empty set of `n`
allowed clients queues the hard deadline, notes the start of the phase and
sets `expected_clients` to `int(n * CLIENT_PERCENTAGE)`, as long as that is in
the range of `int`. The product is the floating-point one: with
`CLIENT_PERCENTAGE = mantissa / 2 ^ exponent` and `s` the number of bits that
`n * mantissa` has beyond the digits of the format, it is `q * 2 ^ s /
2 ^ exponent` for the `q` of at most that many digits that lies within half a
unit `2 ^ s` of `n * mantissa`, the even one in a tie; `int(...)` drops the
fractional part, so that `expected_clients` is the floor of
`CLIENT_PERCENTAGE * n` when the product needs no rounding. And a submission
that `HandleClientCiphertext` accepts arms the flex deadline, with the time
elapsed since `start_of_phase` as its window, exactly when the number of
accepted ciphertexts reaches `expected_clients` and is not `n`. -/
theorem HandleClientCiphertext_flex_deadline (cfg : Config) (r : Round) (now : Int)
    (sender : Id) (payload : QByteArray)
    (hserver : r.IsServer = true)
    (hallowed : r.server_state.allowed_clients.contains sender = true)
    (hbit : r.server_state.handled_clients.get? (r.clients.GetIndex sender) = some false)
    (hlen : payload.length = r.state.msg_length)
    (hstate : r.sm_state = States.SERVER_WAIT_FOR_CLIENT_CIPHERTEXT) :
    (∀ start : Int,
      SetOnlineClients.expected cfg.CLIENT_PERCENTAGE r.server_state.allowed_clients.length
        < 2147483648 →
      ∃ r0, SetOnlineClients cfg r start = some r0 ∧
        r0.queued = r.queued ++ [cfg.CLIENT_SUBMISSION_WINDOW] ∧
        r0.server_state.start_of_phase = start ∧
        r0.server_state.expected_clients =
          ((SetOnlineClients.expected cfg.CLIENT_PERCENTAGE
            r.server_state.allowed_clients.length : Nat) : Int)) ∧
    (∀ a s : Nat, r.server_state.allowed_clients.length < 2 ^ cfg.CLIENT_PERCENTAGE.digits →
      a = r.server_state.allowed_clients.length * cfg.CLIENT_PERCENTAGE.mantissa →
      s = bitLength a a - cfg.CLIENT_PERCENTAGE.digits →
      ∃ q, SetOnlineClients.expected cfg.CLIENT_PERCENTAGE
            r.server_state.allowed_clients.length
          = q * 2 ^ s / 2 ^ cfg.CLIENT_PERCENTAGE.exponent ∧
        q ≤ 2 ^ cfg.CLIENT_PERCENTAGE.digits ∧
        2 * a ≤ 2 * (q * 2 ^ s) + 2 ^ s ∧ 2 * (q * 2 ^ s) ≤ 2 * a + 2 ^ s ∧
        (2 * (a % 2 ^ s) = 2 ^ s → q % 2 = 0) ∧
        (a % 2 ^ s = 0 →
          SetOnlineClients.expected cfg.CLIENT_PERCENTAGE
              r.server_state.allowed_clients.length
            = ⌊((cfg.CLIENT_PERCENTAGE.mantissa : ℚ) / 2 ^ cfg.CLIENT_PERCENTAGE.exponent) *
                r.server_state.allowed_clients.length⌋₊)) ∧
    ∃ r', HandleClientCiphertext r now sender payload = some (Outcome.ok (), r') ∧
      r'.server_state.client_ciphertexts.length =
        r.server_state.client_ciphertexts.length + 1 ∧
      (((r'.server_state.client_ciphertexts.length : Int) = r.server_state.expected_clients ∧
          r'.server_state.client_ciphertexts.length ≠ r.server_state.allowed_clients.length) →
        r'.queued = r.queued ++ [now - r.server_state.start_of_phase]) ∧
      (¬ ((r'.server_state.client_ciphertexts.length : Int) = r.server_state.expected_clients ∧
          r'.server_state.client_ciphertexts.length ≠ r.server_state.allowed_clients.length) →
        r'.queued = r.queued) := by
  have hmem : sender ∈ r.server_state.allowed_clients := by simpa using hallowed
  have hpos : r.server_state.allowed_clients.length ≠ 0 := by
    intro h
    rw [List.length_eq_zero] at h
    rw [h] at hmem
    exact absurd hmem (List.not_mem_nil sender)
  refine ⟨?_, ?_, ?_⟩
  · intro start hrange
    unfold SetOnlineClients
    have hr : ¬ SetOnlineClients.expected cfg.CLIENT_PERCENTAGE
        r.server_state.allowed_clients.length ≥ 2147483648 := by omega
    simp only [hpos, if_false, hr]
    exact ⟨_, rfl, rfl, rfl, rfl⟩
  · intro a s hn ha hs
    obtain ⟨q, h1, h2, h3, h4, h5, h6⟩ := roundToDigits_spec cfg.CLIENT_PERCENTAGE.digits a
    have he : SetOnlineClients.expected cfg.CLIENT_PERCENTAGE
        r.server_state.allowed_clients.length
        = roundToDigits cfg.CLIENT_PERCENTAGE.digits a / 2 ^ cfg.CLIENT_PERCENTAGE.exponent := by
      unfold SetOnlineClients.expected
      rw [roundToDigits_small _ _ hn, ha]
    rw [← hs] at h1 h3 h4 h5 h6
    refine ⟨q, by rw [he, h1], h2, by rw [← h1]; exact h3, by rw [← h1]; exact h4, h6, ?_⟩
    intro h0
    rw [he, h5 h0, ha, SetOnlineClients.expected_floor]
  · have hsc : StateComplete (HandleClientCiphertext.recorded r sender payload) =
        some { HandleClientCiphertext.recorded r sender payload with
          server_state.handled_servers := [],
          sm_state := States.SERVER_WAIT_FOR_CLIENT_LISTS } :=
      StateComplete_step _ _ _ hserver hstate (by decide) (by decide)
    rw [HandleClientCiphertext_accept_eq r now sender payload hserver hallowed hbit hlen]
    have hl : (r.server_state.client_ciphertexts ++ [(r.clients.GetIndex sender, payload)]).length
        = r.server_state.client_ciphertexts.length + 1 := by simp
    by_cases hcount : r.server_state.allowed_clients.length =
        (r.server_state.client_ciphertexts ++ [(r.clients.GetIndex sender, payload)]).length
    · rw [if_pos hcount, hsc]
      refine ⟨_, rfl, hl, ?_, fun _ => rfl⟩
      rintro ⟨-, h⟩
      exact absurd hcount.symm h
    · rw [if_neg hcount]
      by_cases hexp : (((r.server_state.client_ciphertexts ++
          [(r.clients.GetIndex sender, payload)]).length : Nat) : Int)
          = r.server_state.expected_clients
      · rw [if_pos hexp]
        refine ⟨_, rfl, hl, fun _ => rfl, ?_⟩
        intro hn
        exact absurd ⟨hexp, fun h => hcount h.symm⟩ hn
      · rw [if_neg hexp]
        refine ⟨_, rfl, hl, ?_, fun _ => rfl⟩
        rintro ⟨h, -⟩
        exact absurd h hexp

/-! ## The union of the client lists -/

theorem QBitArray.or_length (a b : QBitArray) :
    (QBitArray.or a b).length = max a.length b.length := by
  induction a generalizing b with
  | nil => cases b <;> simp [QBitArray.or]
  | cons x xs ih =>
    cases b with
    | nil => simp [QBitArray.or]
    | cons y ys =>
      simp only [QBitArray.or, List.length_cons, ih]
      omega

theorem QBitArray.or_getD (a b : QBitArray) (i : Nat) :
    (QBitArray.or a b).getD i false = (a.getD i false || b.getD i false) := by
  induction a generalizing b i with
  | nil => cases b <;> simp [QBitArray.or]
  | cons x xs ih =>
    cases b with
    | nil => simp [QBitArray.or]
    | cons y ys =>
      cases i with
      | zero => simp [QBitArray.or]
      | succ j =>
        simp only [QBitArray.or, List.getD_cons_succ]
        exact ih ys j

/-- The OR of a bitmap with a run of bitmaps, bit by bit. -/
theorem QBitArray.or_foldl_getD (msgs : List (Id × QBitArray)) (a : QBitArray) (i : Nat) :
    (msgs.foldl (fun acc m => QBitArray.or acc m.2) a).getD i false =
      (a.getD i false || msgs.any (fun m => m.2.getD i false)) := by
  induction msgs generalizing a with
  | nil => simp
  | cons m rest ih =>
    rw [List.foldl_cons, ih, QBitArray.or_getD, List.any_cons, Bool.or_assoc]

/-- The size of the OR of a bitmap with a run of bitmaps. -/
theorem QBitArray.or_foldl_length (msgs : List (Id × QBitArray)) (a : QBitArray) :
    (msgs.foldl (fun acc m => QBitArray.or acc m.2) a).length =
      msgs.foldl (fun n m => max n m.2.length) a.length := by
  induction msgs generalizing a with
  | nil => rfl
  | cons m rest ih =>
    rw [List.foldl_cons, ih, QBitArray.or_length, List.foldl_cons]

theorem QBitArray.max_foldl_le (msgs : List (Id × QBitArray)) (n : Nat) :
    n ≤ msgs.foldl (fun n m => max n m.2.length) n ∧
    (∀ m ∈ msgs, m.2.length ≤ msgs.foldl (fun n m => max n m.2.length) n) ∧
    (msgs.foldl (fun n m => max n m.2.length) n = n ∨
      ∃ m ∈ msgs, msgs.foldl (fun n m => max n m.2.length) n = m.2.length) := by
  induction msgs generalizing n with
  | nil => simp
  | cons m rest ih =>
    rw [List.foldl_cons]
    obtain ⟨h1, h2, h3⟩ := ih (max n m.2.length)
    refine ⟨le_trans (le_max_left _ _) h1, ?_, ?_⟩
    · intro x hx
      rcases List.mem_cons.mp hx with hx | hx
      · subst hx
        exact le_trans (le_max_right _ _) h1
      · exact h2 x hx
    · rcases h3 with h3 | ⟨x, hx, h3⟩
      · rcases le_total n m.2.length with hle | hle
        · right
          exact ⟨m, List.mem_cons_self _ _, by rw [h3, max_eq_right hle]⟩
        · left
          rw [h3, max_eq_left hle]
      · right
        exact ⟨x, List.mem_cons_of_mem _ hx, h3⟩

/-- A bitmap that is among the lists adds nothing to their OR. -/
theorem QBitArray.or_foldl_absorb (msgs : List (Id × QBitArray)) (a : QBitArray)
    (s : Id) (h : (s, a) ∈ msgs) :
    msgs.foldl (fun acc m => QBitArray.or acc m.2) a =
      msgs.foldl (fun acc m => QBitArray.or acc m.2) [] := by
  have hlen : (msgs.foldl (fun acc m => QBitArray.or acc m.2) a).length =
      (msgs.foldl (fun acc m => QBitArray.or acc m.2) []).length := by
    rw [QBitArray.or_foldl_length, QBitArray.or_foldl_length]
    obtain ⟨a1, a2, a3⟩ := QBitArray.max_foldl_le msgs a.length
    obtain ⟨b1, b2, b3⟩ := QBitArray.max_foldl_le msgs ([] : QBitArray).length
    have ha := b2 (s, a) h
    simp only at ha
    apply le_antisymm
    · rcases a3 with a3 | ⟨x, hx, a3⟩
      · rw [a3]; exact ha
      · rw [a3]; exact b2 x hx
    · rcases b3 with b3 | ⟨x, hx, b3⟩
      · rw [b3]; exact Nat.zero_le _
      · rw [b3]; exact a2 x hx
  apply QBitArray.eq_of_getD _ _ hlen
  intro i
  rw [QBitArray.or_foldl_getD, QBitArray.or_foldl_getD]
  cases hb : a.getD i false with
  | false => simp
  | true =>
    have : msgs.any (fun m => m.2.getD i false) = true :=
      List.any_eq_true.mpr ⟨(s, a), h, hb⟩
    rw [this, Bool.or_true, Bool.or_true]

theorem QBitArray.or_right_comm (a b d : QBitArray) :
    QBitArray.or (QBitArray.or a b) d = QBitArray.or (QBitArray.or a d) b := by
  apply QBitArray.eq_of_getD
  · simp only [QBitArray.or_length]
    omega
  · intro i
    simp only [QBitArray.or_getD]
    cases a.getD i false <;> cases b.getD i false <;> cases d.getD i false <;> rfl

/-- The OR of a run of bitmaps does not depend on their order. -/
theorem QBitArray.or_foldl_perm (msgs msgs' : List (Id × QBitArray)) (a : QBitArray)
    (h : msgs.Perm msgs') :
    msgs.foldl (fun acc m => QBitArray.or acc m.2) a =
      msgs'.foldl (fun acc m => QBitArray.or acc m.2) a :=
  List.Perm.foldl_eq' h (fun x _ y _ z => QBitArray.or_right_comm z x.2 y.2) a

/-- One client list accepted while the server waits for client lists. -/
theorem HandleServerClientList_step (r : Round) (sender : Id) (clients : QBitArray)
    (hserver : r.IsServer = true)
    (hstate : r.sm_state = States.SERVER_WAIT_FOR_CLIENT_LISTS)
    (hsender : r.servers.Contains sender = true)
    (hfresh : r.server_state.handled_servers.contains sender = false) :
    ∃ q, HandleServerClientList r sender clients = some (Outcome.ok (), q) ∧
      q.IsServer = true ∧ q.servers = r.servers ∧
      q.server_state.handled_clients = QBitArray.or r.server_state.handled_clients clients ∧
      (r.server_state.handled_servers.length + 1 = r.servers.Count →
        q.sm_state = States.SERVER_WAIT_FOR_SERVER_COMMITS) ∧
      (r.server_state.handled_servers.length + 1 ≠ r.servers.Count →
        q.sm_state = States.SERVER_WAIT_FOR_CLIENT_LISTS ∧
        q.server_state.handled_servers = r.server_state.handled_servers ++ [sender]) := by
  rw [HandleServerClientList_accepts r sender clients hserver hsender hfresh]
  simp only []
  have hl : (r.server_state.handled_servers ++ [sender]).length
      = r.server_state.handled_servers.length + 1 := by simp
  by_cases hcount : (r.server_state.handled_servers ++ [sender]).length = r.servers.Count
  · have hsc : ∀ x : Round, x.IsServer = true →
        x.sm_state = States.SERVER_WAIT_FOR_CLIENT_LISTS →
        StateComplete x = some { x with server_state.handled_servers := [],
                                        sm_state := States.SERVER_WAIT_FOR_SERVER_COMMITS } :=
      fun x h1 h2 => StateComplete_step x _ _ h1 h2 (by decide) (by decide)
    rw [if_pos hcount]
    generalize hx : updatePhaseLog _ _ = x
    have hxs : x.IsServer = true := by rw [← hx]; exact hserver
    have hxt : x.sm_state = States.SERVER_WAIT_FOR_CLIENT_LISTS := by rw [← hx]; exact hstate
    rw [hsc x hxs hxt]
    subst hx
    exact ⟨_, rfl, hserver, rfl, rfl, fun _ => rfl, fun h => absurd (hl.symm.trans hcount) h⟩
  · rw [if_neg hcount]
    exact ⟨_, rfl, hserver, rfl, rfl, fun h => absurd (hl.trans h) hcount,
      fun _ => ⟨hstate, rfl⟩⟩

/-- A run of client lists from distinct roster servers not yet counted, as
many as are still missing: the run returns, the server ends in
`SERVER_WAIT_FOR_SERVER_COMMITS`, and its bitmap is the OR of the bitmap it
had and the lists. -/
theorem clientLists_run (msgs : List (Id × QBitArray)) (r : Round)
    (hserver : r.IsServer = true)
    (hstate : r.sm_state = States.SERVER_WAIT_FOR_CLIENT_LISTS)
    (hne : msgs ≠ [])
    (hnd : (msgs.map Prod.fst).Nodup)
    (hsub : ∀ m ∈ msgs, r.servers.Contains m.1 = true ∧
      m.1 ∉ r.server_state.handled_servers)
    (hcount : r.server_state.handled_servers.length + msgs.length = r.servers.Count) :
    ∃ q, clientLists msgs r = some q ∧
      q.sm_state = States.SERVER_WAIT_FOR_SERVER_COMMITS ∧
      q.server_state.handled_clients =
        msgs.foldl (fun acc m => QBitArray.or acc m.2) r.server_state.handled_clients := by
  induction msgs generalizing r with
  | nil => exact absurd rfl hne
  | cons m rest ih =>
    obtain ⟨sender, clients⟩ := m
    obtain ⟨hc, hfresh⟩ := hsub (sender, clients) (List.mem_cons_self _ _)
    have hfresh' : r.server_state.handled_servers.contains sender = false := by
      simpa using hfresh
    obtain ⟨q1, hq1, hs1, hro, hbits, hadv, hstay⟩ :=
      HandleServerClientList_step r sender clients hserver hstate hc hfresh'
    unfold clientLists
    simp only [hstate, if_true, hq1, List.foldl_cons]
    rw [← hbits]
    cases rest with
    | nil =>
      simp only [List.length_cons, List.length_nil] at hcount
      exact ⟨q1, rfl, hadv (by omega), rfl⟩
    | cons m2 rest2 =>
      simp only [List.length_cons] at hcount
      obtain ⟨hst1, hhs1⟩ := hstay (by omega)
      simp only [List.map_cons, List.nodup_cons] at hnd
      obtain ⟨hn1, hn2⟩ := hnd
      exact ih q1 hs1 hst1 (List.cons_ne_nil _ _) (by simpa using hn2)
        (by
          intro x hx
          obtain ⟨hx1, hx2⟩ := hsub x (List.mem_cons_of_mem _ hx)
          refine ⟨by rw [hro]; exact hx1, ?_⟩
          rw [hhs1]
          intro hin
          rcases List.mem_append.mp hin with hin | hin
          · exact hx2 hin
          · simp only [List.mem_singleton] at hin
            apply hn1
            rw [← hin]
            exact List.mem_map.mpr ⟨x, hx, rfl⟩)
        (by
          rw [hhs1, hro]
          simp only [List.length_append, List.length_cons, List.length_nil]
          omega)

/-- C24. Convergence of the inclusion set. Two servers of one roster that
wait for client lists with no server counted yet, and are handed the same
`Ns` lists, one from each roster server, in whatever two orders, both return
in `SERVER_WAIT_FOR_SERVER_COMMITS`; the bitmap of each is the OR of the
bitmap it had and every list, so that no bit it had is cleared; and, the
bitmap each had being among the lists, they end with the same bitmap, the OR
of the lists. -/
theorem clientLists_convergence (r r' : Round) (msgs msgs' : List (Id × QBitArray))
    (hserver : r.IsServer = true) (hserver' : r'.IsServer = true)
    (hstate : r.sm_state = States.SERVER_WAIT_FOR_CLIENT_LISTS)
    (hstate' : r'.sm_state = States.SERVER_WAIT_FOR_CLIENT_LISTS)
    (hfresh : r.server_state.handled_servers = [])
    (hfresh' : r'.server_state.handled_servers = [])
    (hroster : r'.servers = r.servers)
    (hperm : msgs.Perm msgs')
    (hnd : (msgs.map Prod.fst).Nodup)
    (hsub : ∀ m ∈ msgs, r.servers.Contains m.1 = true)
    (hcount : msgs.length = r.servers.Count)
    (hown : ∃ s, (s, r.server_state.handled_clients) ∈ msgs)
    (hown' : ∃ s, (s, r'.server_state.handled_clients) ∈ msgs) :
    ∃ q q', clientLists msgs r = some q ∧ clientLists msgs' r' = some q' ∧
      q.sm_state = States.SERVER_WAIT_FOR_SERVER_COMMITS ∧
      q'.sm_state = States.SERVER_WAIT_FOR_SERVER_COMMITS ∧
      q.server_state.handled_clients =
        msgs.foldl (fun acc m => QBitArray.or acc m.2) r.server_state.handled_clients ∧
      q'.server_state.handled_clients =
        msgs'.foldl (fun acc m => QBitArray.or acc m.2) r'.server_state.handled_clients ∧
      (∀ i, q.server_state.handled_clients.getD i false =
        (r.server_state.handled_clients.getD i false ||
          msgs.any (fun m => m.2.getD i false))) ∧
      (∀ i, r.server_state.handled_clients.getD i false = true →
        q.server_state.handled_clients.getD i false = true) ∧
      q'.server_state.handled_clients = q.server_state.handled_clients ∧
      q.server_state.handled_clients = msgs.foldl (fun acc m => QBitArray.or acc m.2) [] := by
  obtain ⟨s, hs⟩ := hown
  obtain ⟨s', hs'⟩ := hown'
  have hne : msgs ≠ [] := List.ne_nil_of_mem hs
  have hne' : msgs' ≠ [] := List.ne_nil_of_mem (hperm.mem_iff.mp hs)
  obtain ⟨q, h1, h2, h3⟩ := clientLists_run msgs r hserver hstate hne hnd
    (fun m hm => ⟨hsub m hm, by rw [hfresh]; exact List.not_mem_nil _⟩)
    (by rw [hfresh]; simpa using hcount)
  obtain ⟨q', h1', h2', h3'⟩ := clientLists_run msgs' r' hserver' hstate' hne'
    ((hperm.map Prod.fst).nodup_iff.mp hnd)
    (fun m hm => ⟨by rw [hroster]; exact hsub m (hperm.mem_iff.mpr hm),
      by rw [hfresh']; exact List.not_mem_nil _⟩)
    (by rw [hfresh', hroster, ← hperm.length_eq]; simpa using hcount)
  have e : q.server_state.handled_clients =
      msgs.foldl (fun acc m => QBitArray.or acc m.2) [] := by
    rw [h3]; exact QBitArray.or_foldl_absorb msgs _ s hs
  have e' : q'.server_state.handled_clients =
      msgs.foldl (fun acc m => QBitArray.or acc m.2) [] := by
    rw [h3', ← QBitArray.or_foldl_perm msgs msgs' _ hperm]
    exact QBitArray.or_foldl_absorb msgs _ s' hs'
  refine ⟨q, q', h1, h1', h2, h2', h3, h3', ?_, ?_, by rw [e, e'], e⟩
  · intro i
    rw [h3, QBitArray.or_foldl_getD]
  · intro i hi
    rw [h3, QBitArray.or_foldl_getD, hi]
    rfl

/-! ## Failure of the inbound handlers -/

/-- The commitments a server holds when it starts to wait for ciphertexts:
`HandleServerCommit` has stored one under the index of every roster server
before the state machine leaves the commit state. -/
theorem commits_stored (msgs : List (Id × QByteArray)) (r r' : Round)
    (hserver : r.IsServer = true)
    (hstate : r.sm_state = States.SERVER_WAIT_FOR_SERVER_COMMITS)
    (hnone : r.server_state.handled_servers = [])
    (hrun : commits msgs r = some r')
    (hs : r'.sm_state = States.SERVER_WAIT_FOR_SERVER_CIPHERTEXT) :
    ∀ i, i < r'.servers.Count → QMap.contains r'.server_state.server_commits i = true := by
  obtain ⟨r3, h3, -, -, f3⟩ := commits_inv msgs r [] hserver
    (Or.inl ⟨hstate, by rw [hnone]; exact List.nodup_nil, by
      intro s hs
      rw [hnone] at hs
      exact absurd hs (List.not_mem_nil s)⟩)
  rw [hrun] at h3
  simp only [Option.some.injEq] at h3
  subst h3
  intro i hi
  obtain ⟨s, cm, -, -, -, hf⟩ := f3 hs i hi
  simp [QMap.contains, hf]

/-- The stored commitments are kept by `StateComplete`. -/
theorem StateComplete_commits (r r' : Round) (h : StateComplete r = some r') :
    r'.server_state.server_commits = r.server_state.server_commits := by
  have hb : (BeforeStateTransition r).server_state.server_commits =
      r.server_state.server_commits := by
    unfold BeforeStateTransition; split <;> rfl
  have hcc : ∀ (q : Round) (b : Bool) (q' : Round), CycleComplete q = some (b, q') →
      q'.server_state.server_commits = q.server_state.server_commits := by
    intro q b q' hq
    unfold CycleComplete at hq
    simp only [] at hq
    split at hq
    · exact Option.noConfusion hq
    rename_i q1 hq1
    have h1 : q1.server_state.server_commits = q.server_state.server_commits := by
      split at hq1
      · split at hq1
        · exact Option.noConfusion hq1
        · simp only [Option.some.injEq] at hq1; subst hq1; rfl
      · simp only [Option.some.injEq] at hq1; subst hq1; rfl
    split at hq <;>
      (simp only [Option.some.injEq, Prod.mk.injEq] at hq
       obtain ⟨-, rfl⟩ := hq
       exact h1)
  unfold StateComplete at h
  simp only [] at h
  split at h
  · exact Option.noConfusion h
  · rename_i q hq
    simp only [Option.some.injEq] at h
    subst h
    split at hq
    · split at hq
      · exact Option.noConfusion hq
      · simp at hq
      · rename_i q1 hq1
        simp only [Option.some.injEq, Prod.mk.injEq, Bool.false_eq_true, false_and] at hq
        obtain ⟨-, rfl⟩ := hq
        rw [hcc _ _ _ hq1, hb]
    · simp at hq
  · rename_i q hq
    have hq' : q.server_state.server_commits = r.server_state.server_commits := by
      split at hq
      · split at hq
        · exact Option.noConfusion hq
        · rename_i q1 hq1
          simp only [Option.some.injEq, Prod.mk.injEq, true_and] at hq
          subst hq
          show q1.server_state.server_commits = r.server_state.server_commits
          rw [hcc _ _ _ hq1, hb]
        · simp at hq
      · simp only [Option.some.injEq, Prod.mk.injEq, true_and] at hq
        subst hq
        exact hb
    split at h <;>
      (simp only [Option.some.injEq] at h
       subst h
       exact hq')

theorem QMap.contains_touch {V : Type} (k i : Nat) (v : V) (m : QMap V)
    (h : QMap.contains m i = true) : QMap.contains (QMap.touch k v m) i = true := by
  unfold QMap.touch
  split
  · exact h
  · by_cases hik : i = k
    · subst hik
      simp [QMap.contains, QMap.find_insert_self]
    · simp only [QMap.contains] at h ⊢
      rw [QMap.find_insert_ne _ _ _ _ hik]
      exact h

/-- Whatever `HandleServerCiphertext` does, the round it leaves still holds a
commitment under every index under which one was stored. -/
theorem HandleServerCiphertext_commits (c : Crypto) (r : Round) (sender : Id)
    (ciphertext : QByteArray) (o : Outcome Unit) (r' : Round)
    (h : HandleServerCiphertext c r sender ciphertext = some (o, r')) (i : Nat)
    (hi : QMap.contains r.server_state.server_commits i = true) :
    QMap.contains r'.server_state.server_commits i = true := by
  have ht := QMap.contains_touch (r.servers.GetIndex sender) i ([] : QByteArray)
    r.server_state.server_commits hi
  unfold HandleServerCiphertext at h
  repeat' first | split at h | (simp only [] at h; split at h)
  all_goals first
    | exact Option.noConfusion h
    | (simp only [Option.some.injEq, Prod.mk.injEq] at h
       obtain ⟨-, rfl⟩ := h
       first | exact hi | exact ht)
    | (simp only [Option.map_eq_some', Prod.mk.injEq] at h
       obtain ⟨q, hq, -, rfl⟩ := h
       rw [StateComplete_commits _ _ hq]
       exact ht)

/-- C37, at the failing input and beside it. `ProcessBlameShuffle` skips a
record of at most 8 bytes, among them the empty record `GetBlameData` returns
for a client without an accusation, and the record of an accusing client has
its 12 bytes; but a record of 9, 10 or 11 bytes passes the size test
`blame.size() <= 8` and `ReadInt` at offset 8 then reads outside its bytes: the
turn of the loop has no result, and so has the function on a server. -/
theorem ProcessBlameShuffle_short_record (c : Crypto) (r : Round) (blame : QByteArray)
    (hlow : 8 < blame.length) (hhigh : blame.length < 12) :
    (∃ owner_idx accuse_idx, ReadInt (blame.take 12) 0 = some owner_idx ∧
      ReadInt (blame.take 12) 4 = some accuse_idx) ∧
    ReadInt (blame.take 12) 8 = none ∧
    ProcessBlameShuffle.check c r blame = none ∧
    (r.IsServer = true → ProcessBlameShuffle c r [blame] = none) ∧
    (∀ b : QByteArray, b.length ≤ 8 → ProcessBlameShuffle.check c r b = some none) ∧
    (∀ b : QByteArray, 12 ≤ b.length → ∃ owner_idx accuse_idx phase,
      ReadInt (b.take 12) 0 = some owner_idx ∧ ReadInt (b.take 12) 4 = some accuse_idx ∧
      ReadInt (b.take 12) 8 = some phase) ∧
    (∀ q : Round, q.state.my_accuse = false → GetBlameData c q = []) ∧
    (∀ q : Round, q.state.my_accuse = true → 12 ≤ (GetBlameData c q).length) := by
  have hlen : (blame.take 12).length = blame.length := by
    rw [List.length_take]; omega
  obtain ⟨o, ho⟩ := ReadInt_defined (blame.take 12) 0 (by omega)
  obtain ⟨a, ha⟩ := ReadInt_defined (blame.take 12) 4 (by omega)
  have h8 : ReadInt (blame.take 12) 8 = none := by
    unfold ReadInt
    have hd : ((blame.take 12).drop 8).length < 4 := by
      rw [List.length_drop]; omega
    generalize (blame.take 12).drop 8 = l at hd
    match l, hd with
    | [], _ => rfl
    | [_], _ => rfl
    | [_, _], _ => rfl
    | [_, _, _], _ => rfl
    | _ :: _ :: _ :: _ :: _, hd => simp only [List.length_cons] at hd; omega
  have hcheck : ProcessBlameShuffle.check c r blame = none := by
    unfold ProcessBlameShuffle.check
    have h0 : ¬ blame.length ≤ 8 := by omega
    simp only [h0, if_false, ho, ha, h8]
  refine ⟨⟨o, a, ho, ha⟩, h8, hcheck, ?_, ?_, ?_, ?_, ?_⟩
  · intro hserver
    unfold ProcessBlameShuffle
    simp only [hserver, Bool.not_true, Bool.false_eq_true, if_false,
      ProcessBlameShuffle.records, hcheck]
  · intro b hb
    unfold ProcessBlameShuffle.check
    simp only [hb, if_true]
  · intro b hb
    have hl : (b.take 12).length = 12 := by
      rw [List.length_take]; omega
    obtain ⟨x, hx⟩ := ReadInt_defined (b.take 12) 0 (by omega)
    obtain ⟨y, hy⟩ := ReadInt_defined (b.take 12) 4 (by omega)
    obtain ⟨z, hz⟩ := ReadInt_defined (b.take 12) 8 (by omega)
    exact ⟨x, y, z, hx, hy, hz⟩
  · intro q hq
    unfold GetBlameData
    simp only [hq, Bool.not_false, if_true]
  · intro q hq
    unfold GetBlameData
    simp only [hq, Bool.not_true, Bool.false_eq_true, if_false, List.length_append]
    have : (WriteInt q.state.blame_phase
        (WriteInt q.state.accuse_idx (WriteInt q.state.my_idx (zeroBytes 12) 0) 4) 8).length
        = 12 := by
      simp [WriteInt, zeroBytes, encodeInt_length]
    omega

/-! ## The request for a rebuttal -/

/-- When all vectors of `blame_bits` have one length and every roster server
has an entry, `FindMismatch` with totals that differ returns the first index
at which they differ. -/
theorem FindMismatch_found (r : Round) (n : Nat)
    (hne : (FindMismatch.totals r.servers.Count r.server_state.blame_bits).1 ≠
      (FindMismatch.totals r.servers.Count r.server_state.blame_bits).2)
    (hlen : ∀ e ∈ r.server_state.blame_bits, e.2.1.length = n ∧ e.2.2.length = n)
    (hcount : r.server_state.blame_bits.length = r.servers.Count)
    (hsent : ∀ pid ∈ r.servers, (QMap.find pid.id r.server_state.blame_bits).isSome) :
    ∃ i : Nat, i < n ∧
      (FindMismatch.totals r.servers.Count r.server_state.blame_bits).1.getD i false ≠
        (FindMismatch.totals r.servers.Count r.server_state.blame_bits).2.getD i false ∧
      FindMismatch r = some (Outcome.ok ((i : Int),
        r.servers.map (fun pid =>
          ((QMap.find pid.id r.server_state.blame_bits).getD ([], [])).2.getD i false))) := by
  have hlenAE := FindMismatch.fold_length n r.server_state.blame_bits hlen
    (List.replicate r.servers.Count false) (List.replicate r.servers.Count false) rfl
  have hbeyond : ∀ i, n ≤ i →
      (FindMismatch.totals r.servers.Count r.server_state.blame_bits).1.getD i false =
      (FindMismatch.totals r.servers.Count r.server_state.blame_bits).2.getD i false :=
    fun i hi => FindMismatch.fold_beyond n i hi r.server_state.blame_bits hlen _ _ rfl
  cases hfirst : FindMismatch.first
      (QBitArray.xor (FindMismatch.totals r.servers.Count r.server_state.blame_bits).1
        (FindMismatch.totals r.servers.Count r.server_state.blame_bits).2) 0 with
  | none =>
    exfalso
    apply hne
    apply QBitArray.eq_of_getD _ _ hlenAE
    intro i
    have := FindMismatch.first_none _ _ hfirst i
    rw [QBitArray.xor_getD] at this
    simpa using this
  | some i =>
    obtain ⟨-, h2, -⟩ := FindMismatch.first_some _ _ _ hfirst
    simp only [Nat.sub_zero] at h2
    rw [QBitArray.xor_getD] at h2
    have hdiff : (FindMismatch.totals r.servers.Count r.server_state.blame_bits).1.getD i false ≠
        (FindMismatch.totals r.servers.Count r.server_state.blame_bits).2.getD i false := by
      intro he; rw [he] at h2; simp at h2
    have hin : i < n := by
      by_contra hge
      exact hdiff (hbeyond i (Nat.le_of_not_lt hge))
    refine ⟨i, hin, hdiff, ?_⟩
    have hbits := FindMismatch.bits_eq r.server_state.blame_bits i r.servers 0
      (List.replicate r.server_state.blame_bits.length false)
      (by
        intro pid hpid
        have hs := hsent pid hpid
        obtain ⟨pair, hpair⟩ := Option.isSome_iff_exists.mp hs
        have hmem := QMap.find_mem _ _ _ hpair
        rw [hpair]
        simp only [Option.getD_some]
        rw [(hlen _ hmem).2]
        exact hin)
      (by simp [hcount, Roster.Count])
    unfold FindMismatch
    simp only [if_neg hne, hfirst, hbits]
    simp [hcount, Roster.Count]

/-- A result `(-1, empty)` of `FindMismatch` means that the two totals
differ and that their XOR has no set bit. -/
theorem FindMismatch_none_found (r : Round)
    (h : FindMismatch r = some (Outcome.ok (-1, []))) :
    (FindMismatch.totals r.servers.Count r.server_state.blame_bits).1 ≠
      (FindMismatch.totals r.servers.Count r.server_state.blame_bits).2 ∧
    ∀ i, (QBitArray.xor (FindMismatch.totals r.servers.Count r.server_state.blame_bits).1
      (FindMismatch.totals r.servers.Count r.server_state.blame_bits).2).getD i false
        = false := by
  unfold FindMismatch at h
  simp only [] at h
  split at h
  · exact absurd h (by simp)
  · rename_i hne
    refine ⟨hne, ?_⟩
    cases hfirst : FindMismatch.first
        (QBitArray.xor (FindMismatch.totals r.servers.Count r.server_state.blame_bits).1
          (FindMismatch.totals r.servers.Count r.server_state.blame_bits).2) 0 with
    | none => exact FindMismatch.first_none _ _ hfirst
    | some k =>
      exfalso
      simp only [hfirst] at h
      split at h
      · exact Option.noConfusion h
      · simp only [Option.some.injEq, Outcome.ok.injEq, Prod.mk.injEq] at h
        omega

/-- C36, amended. When the XOR of the actual vectors and the XOR of the
expected vectors have the same length, `FindMismatch` never returns
`(-1, empty)`. On a server about to request the rebuttal that holds, for
every roster server, blame bits whose vectors all have one length `n`, not
more than the number of clients: `RequestRebuttal` either fails with "False
accusation", when the two XORs are equal, leaving the round as it is, or it
sends the rebuttal request with the phase, the accused bit and `server_bits`
to the client at the first index at which they differ, and advances to
`SERVER_WAIT_FOR_CLIENT_REBUTTAL`. -/
theorem RequestRebuttal_sends (r : Round) (n : Nat)
    (hserver : r.IsServer = true)
    (hstate : r.sm_state = States.SERVER_REQUEST_CLIENT_REBUTTAL)
    (hlen : ∀ e ∈ r.server_state.blame_bits, e.2.1.length = n ∧ e.2.2.length = n)
    (hcount : r.server_state.blame_bits.length = r.servers.Count)
    (hsent : ∀ pid ∈ r.servers, (QMap.find pid.id r.server_state.blame_bits).isSome)
    (hclients : n ≤ r.clients.Count) :
    (∀ q : Round,
      (FindMismatch.totals q.servers.Count q.server_state.blame_bits).1.length =
        (FindMismatch.totals q.servers.Count q.server_state.blame_bits).2.length →
      FindMismatch q ≠ some (Outcome.ok (-1, []))) ∧
    ((FindMismatch.totals r.servers.Count r.server_state.blame_bits).1 =
        (FindMismatch.totals r.servers.Count r.server_state.blame_bits).2 →
      RequestRebuttal r = some (Outcome.threw "False accusation", r)) ∧
    ((FindMismatch.totals r.servers.Count r.server_state.blame_bits).1 ≠
        (FindMismatch.totals r.servers.Count r.server_state.blame_bits).2 →
      ∃ (i : Nat) (id : Id) (server_bits : QBitArray) (r' : Round),
        FindMismatch r = some (Outcome.ok ((i : Int), server_bits)) ∧
        (FindMismatch.totals r.servers.Count r.server_state.blame_bits).1.getD i false ≠
          (FindMismatch.totals r.servers.Count r.server_state.blame_bits).2.getD i false ∧
        r.clients.GetId (i : Int) = some id ∧
        RequestRebuttal r = some (Outcome.ok (), r') ∧
        r'.sent = r.sent ++ [Packet.SERVER_REBUTTAL_REQUEST id r.nonce r.phase
          r.server_state.current_blame.third r.server_state.current_blame.second
          server_bits] ∧
        r'.server_state.expected_rebuttal = id ∧
        r'.server_state.server_bits = server_bits ∧
        r'.sm_state = States.SERVER_WAIT_FOR_CLIENT_REBUTTAL) := by
  refine ⟨?_, ?_, ?_⟩
  · intro q hl h
    obtain ⟨hne, hz⟩ := FindMismatch_none_found q h
    apply hne
    apply QBitArray.eq_of_getD _ _ hl
    intro i
    have := hz i
    rw [QBitArray.xor_getD] at this
    simpa using this
  · intro heq
    unfold RequestRebuttal FindMismatch
    simp only [if_pos heq]
  · intro hne
    obtain ⟨i, hin, hdiff, hfm⟩ := FindMismatch_found r n hne hlen hcount hsent
    have hi : i < r.clients.length := Nat.lt_of_lt_of_le hin hclients
    have hid : r.clients.GetId (i : Int) = some (r.clients[i]).id := by
      unfold Roster.GetId
      have h0 : ¬ ((i : Int) < 0) := by omega
      simp only [h0, if_false, Int.toNat_ofNat]
      rw [List.get?_eq_get hi]
      rfl
    have hm1 : ¬ ((i : Int) = -1) := by omega
    have hreq : ∃ r' : Round, RequestRebuttal r = some (Outcome.ok (), r') ∧
        r'.sent = r.sent ++ [Packet.SERVER_REBUTTAL_REQUEST (r.clients[i]).id r.nonce r.phase
          r.server_state.current_blame.third r.server_state.current_blame.second
          (r.servers.map (fun pid =>
            ((QMap.find pid.id r.server_state.blame_bits).getD ([], [])).2.getD i false))] ∧
        r'.server_state.expected_rebuttal = (r.clients[i]).id ∧
        r'.server_state.server_bits = r.servers.map (fun pid =>
            ((QMap.find pid.id r.server_state.blame_bits).getD ([], [])).2.getD i false) ∧
        r'.sm_state = States.SERVER_WAIT_FOR_CLIENT_REBUTTAL := by
      unfold RequestRebuttal
      simp only [hfm, hm1, if_false, hid]
      have hsc : ∀ x : Round, x.IsServer = true →
          x.sm_state = States.SERVER_REQUEST_CLIENT_REBUTTAL →
          StateComplete x = some { x with server_state.handled_servers := [],
                                          sm_state := States.SERVER_WAIT_FOR_CLIENT_REBUTTAL } :=
        fun x h1 h2 => StateComplete_step x _ _ h1 h2 (by decide) (by decide)
      simp only [hsc, hserver, hstate, Option.map_some']
      exact ⟨_, rfl, rfl, rfl, rfl, rfl⟩
    obtain ⟨r', h1, h2, h3, h4, h5⟩ := hreq
    exact ⟨i, _, _, r', hfm, hdiff, hid, h1, h2, h3, h4, h5⟩

/-! ## The pads in the phase log -/

/-- The loop of `SetupRngs` over `handled_clients` returns when `base_seeds`
has an entry for every bit, and `rng_to_gidx` numbers the included clients in
roster order, whether their seed is empty or not. -/
theorem SetupRngs.seeds_gidx (bs : List QByteArray) (hs : List Bool) (idx : Nat)
    (seeds : List QByteArray) (g : QMap Nat) (hlen : hs.length + idx ≤ bs.length) :
    ∃ seeds' g', SetupRngs.seeds bs hs idx seeds g = some (seeds', g') ∧
      ∀ j, QMap.find j g' =
        if seeds.length ≤ j ∧ j < seeds.length + (included hs).length
        then some ((included hs).getD (j - seeds.length) 0 + idx) else QMap.find j g := by
  induction hs generalizing idx seeds g with
  | nil =>
    refine ⟨seeds, g, rfl, ?_⟩
    intro j
    have : ¬ (seeds.length ≤ j ∧ j < seeds.length + (included []).length) := by
      simp [included]
    rw [if_neg this]
  | cons b rest ih =>
    simp only [List.length_cons] at hlen
    rw [included_cons]
    cases b with
    | false =>
      obtain ⟨seeds', g', h1, h2⟩ := ih (idx + 1) seeds g (by omega)
      refine ⟨seeds', g', ?_, ?_⟩
      · simp only [SetupRngs.seeds, Bool.not_false, if_true]
        exact h1
      · intro j
        rw [h2 j]
        simp only [Bool.false_eq_true, if_false, List.nil_append, List.length_map]
        by_cases hj : seeds.length ≤ j ∧ j < seeds.length + (included rest).length
        · rw [if_pos hj, if_pos hj]
          have hk : j - seeds.length < (included rest).length := by omega
          rw [List.getD_eq_getElem _ _ hk,
            List.getD_eq_getElem _ _ (by rw [List.length_map]; exact hk), List.getElem_map]
          congr 1
          omega
        · rw [if_neg hj, if_neg hj]
    | true =>
      have hidx : idx < bs.length := by omega
      obtain ⟨seeds', g', h1, h2⟩ := ih (idx + 1) (seeds ++ [bs[idx]])
        (QMap.insert seeds.length idx g) (by omega)
      refine ⟨seeds', g', ?_, ?_⟩
      · simp only [SetupRngs.seeds, Bool.not_true, Bool.false_eq_true, if_false]
        rw [List.get?_eq_get hidx]
        exact h1
      · intro j
        rw [h2 j]
        simp only [if_true, List.length_append, List.length_singleton, List.length_cons,
          List.length_map, List.length_nil, List.singleton_append]
        by_cases hj : seeds.length + 1 ≤ j ∧ j < seeds.length + 1 + (included rest).length
        · rw [if_pos hj, if_pos (by omega)]
          have hk : j - (seeds.length + 1) < (included rest).length := by omega
          have e : j - seeds.length = (j - (seeds.length + 1)) + 1 := by omega
          rw [e, List.getD_cons_succ, List.getD_eq_getElem _ _ hk,
            List.getD_eq_getElem _ _ (by rw [List.length_map]; exact hk), List.getElem_map]
          congr 1
          omega
        · rw [if_neg hj]
          by_cases hj0 : j = seeds.length
          · subst hj0
            rw [QMap.find_insert_self, if_pos (by omega)]
            simp
          · rw [QMap.find_insert_ne j seeds.length _ _ hj0, if_neg (by omega)]

/-- What `SetupRngs` builds on a server: `rng_to_gidx` and the generators;
the phase logs and the message length are as before. -/
theorem SetupRngs_server_eq (c : Crypto) (r : Round) (hserver : r.IsServer = true)
    (hlen : r.server_state.handled_clients.length ≤ r.state.base_seeds.length) :
    ∃ r1 : Round, SetupRngs c r = some r1 ∧ r1.IsServer = true ∧
      r1.state.msg_length = r.state.msg_length ∧
      r1.server_state.phase_logs = r.server_state.phase_logs ∧
      r1.server_state.current_phase_log = r.server_state.current_phase_log ∧
      r1.state.anonymous_rngs =
        (((included r.server_state.handled_clients).map
            (fun i => r.state.base_seeds.getD i [])).filter
            (fun base_seed => !base_seed.isEmpty)).map
          (fun base_seed =>
            c.ComputeHash (base_seed ++ WriteInt r.phase (zeroBytes 4) 0 ++ r.nonce)) ∧
      ∀ j, j < (included r.server_state.handled_clients).length →
        QMap.find j r1.server_state.rng_to_gidx =
          some ((included r.server_state.handled_clients).getD j 0) := by
  obtain ⟨seeds', g', h1, h2⟩ := SetupRngs.seeds_gidx r.state.base_seeds
    r.server_state.handled_clients 0 [] [] (by omega)
  have h3 := SetupRngs.seeds_spec _ _ _ _ _ _ _ h1
  cases hS : SetupRngs c r with
  | none =>
    exfalso
    unfold SetupRngs at hS
    simp only [hserver, if_true, h1] at hS
    exact Option.noConfusion hS
  | some r1 =>
    unfold SetupRngs at hS
    simp only [hserver, if_true, h1, Option.some.injEq] at hS
    subst hS
    refine ⟨_, rfl, rfl, rfl, rfl, rfl, ?_, ?_⟩
    · show List.map _ (List.filter _ seeds') = _
      rw [h3]
      simp only [List.nil_append, Nat.add_zero]
    · intro j hj
      show QMap.find j g' = _
      rw [h2 j, if_pos (by simpa using hj)]
      simp

theorem included_nodup (hs : List Bool) : (included hs).Nodup := by
  unfold included
  exact List.Nodup.filter _ (List.nodup_range _)

/-- The round after one turn of the first loop of `GenerateCiphertext` on a
server has logged `tmsg` under `key`. -/
theorem GenerateCiphertext.logged_find (r : Round) (key : Nat) (tmsg : QByteArray)
    (log : PhaseLog)
    (hlog : QMap.find r.server_state.current_phase_log r.server_state.phase_logs = some log) :
    QMap.find r.server_state.current_phase_log
      (GenerateCiphertext.logged r key tmsg).server_state.phase_logs =
    some { log with my_sub_ciphertexts := QMap.insert key tmsg log.my_sub_ciphertexts } := by
  unfold GenerateCiphertext.logged
  rw [updatePhaseLog_find, hlog]
  simp

/-- The first loop of `GenerateCiphertext` on a server: the block of the
generator at position `jdx + k` is logged under `rng_to_gidx[jdx + k]`. -/
theorem GenerateCiphertext.pads_logged (c : Crypto) (rngs : List QByteArray) (jdx : Nat)
    (acc : QByteArray) (r : Round) (log : PhaseLog) (keys : List Nat)
    (hserver : r.IsServer = true)
    (hlog : QMap.find r.server_state.current_phase_log r.server_state.phase_logs = some log)
    (hkeys : keys.length = rngs.length) (hnd : keys.Nodup)
    (hg : ∀ k, k < rngs.length →
      (QMap.find (jdx + k) r.server_state.rng_to_gidx).getD 0 = keys.getD k 0) :
    ∃ log', QMap.find r.server_state.current_phase_log
        (GenerateCiphertext.pads c rngs jdx acc r).2.server_state.phase_logs = some log' ∧
      (∀ k, k < rngs.length → QMap.find (keys.getD k 0) log'.my_sub_ciphertexts =
        some (c.GenerateBlock (rngs.getD k []) r.state.msg_length)) ∧
      (∀ x, x ∉ keys → QMap.find x log'.my_sub_ciphertexts
        = QMap.find x log.my_sub_ciphertexts) := by
  induction rngs generalizing jdx acc r log keys with
  | nil =>
    refine ⟨log, hlog, ?_, fun _ _ => rfl⟩
    intro k hk
    exact absurd hk (Nat.not_lt_zero _)
  | cons rng rest ih =>
    cases keys with
    | nil => simp at hkeys
    | cons key krest =>
      simp only [List.length_cons, Nat.add_right_cancel_iff] at hkeys
      simp only [List.nodup_cons] at hnd
      obtain ⟨hkey, hnd'⟩ := hnd
      have hg0 : (QMap.find jdx r.server_state.rng_to_gidx).getD 0 = key := by
        have := hg 0 (by simp)
        simpa using this
      unfold GenerateCiphertext.pads
      simp only [hserver, if_true, hg0]
      show ∃ log', QMap.find r.server_state.current_phase_log
        (GenerateCiphertext.pads c rest (jdx + 1)
          (Xor acc acc (c.GenerateBlock rng r.state.msg_length))
          (GenerateCiphertext.logged r key (c.GenerateBlock rng r.state.msg_length))
          ).2.server_state.phase_logs = some log' ∧ _
      obtain ⟨log', h1, h2, h3⟩ := ih (jdx + 1)
        (Xor acc acc (c.GenerateBlock rng r.state.msg_length))
        (GenerateCiphertext.logged r key (c.GenerateBlock rng r.state.msg_length))
        _ krest hserver
        (GenerateCiphertext.logged_find r key (c.GenerateBlock rng r.state.msg_length) log hlog)
        hkeys hnd'
        (by
          intro k hk
          have := hg (k + 1) (by simp only [List.length_cons]; omega)
          rw [List.getD_cons_succ] at this
          rw [← this]
          show (QMap.find (jdx + 1 + k) r.server_state.rng_to_gidx).getD 0 = _
          congr 2
          omega)
      refine ⟨log', h1, ?_, ?_⟩
      · intro k hk
        cases k with
        | zero =>
          simp only [List.getD_cons_zero]
          rw [h3 key hkey]
          exact QMap.find_insert_self _ _ _
        | succ m =>
          simp only [List.getD_cons_succ]
          exact h2 m (by simp only [List.length_cons] at hk; omega)
      · intro x hx
        simp only [List.mem_cons, not_or] at hx
        rw [h3 x hx.2]
        exact QMap.find_insert_ne _ _ _ _ hx.1

/-- C38, at the failing input and beside it. On a server whose `base_seeds`
cover `handled_clients` and whose current phase log is there, `SetupRngs`
returns and the first loop of `GenerateCiphertext` logs the `j`-th pad, the
pad of the `j`-th included client whose base seed is not empty, under the
roster index of the `j`-th included client, empty seed or not: the two agree
when no included client has an empty base seed, and from the first included
client with an empty seed on every pad is logged under the index of an
earlier client. -/
theorem pads_attribution (c : Crypto) (cfg : Config) (r : Round) (log : PhaseLog)
    (hserver : r.IsServer = true)
    (hseeds : r.server_state.handled_clients.length ≤ r.state.base_seeds.length)
    (hlog : QMap.find r.server_state.current_phase_log r.server_state.phase_logs = some log) :
    let clients := included r.server_state.handled_clients
    let owners := clients.filter (fun i => !(r.state.base_seeds.getD i []).isEmpty)
    ∃ r1 xor_msg r2 log2, SetupRngs c r = some r1 ∧
      GenerateCiphertext.pads c r1.state.anonymous_rngs 0 (zeroBytes r1.state.msg_length) r1
        = (xor_msg, r2) ∧
      (∀ data rand ct r3, GenerateCiphertext c cfg r1 data rand = some (ct, r3) →
        r3.server_state = r2.server_state) ∧
      QMap.find r.server_state.current_phase_log r2.server_state.phase_logs = some log2 ∧
      (∀ j, j < owners.length →
        QMap.find (clients.getD j 0) log2.my_sub_ciphertexts =
          some (pad c r.phase r.nonce r.state.msg_length
            (r.state.base_seeds.getD (owners.getD j 0) []))) ∧
      (∀ k, k ∉ clients.take owners.length →
        QMap.find k log2.my_sub_ciphertexts = QMap.find k log.my_sub_ciphertexts) ∧
      ((∀ i ∈ clients, r.state.base_seeds.getD i [] ≠ []) → owners = clients) := by
  intro clients owners
  have hc : included r.server_state.handled_clients = clients := rfl
  have ho : clients.filter (fun i => !(r.state.base_seeds.getD i []).isEmpty) = owners := rfl
  clear_value owners clients
  obtain ⟨r1, h1, hs1, hm1, hl1, hcur1, hr1, hg1⟩ := SetupRngs_server_eq c r hserver hseeds
  rw [hc] at hr1 hg1
  have hrngs : r1.state.anonymous_rngs =
      owners.map (fun i => c.ComputeHash (r.state.base_seeds.getD i [] ++
        WriteInt r.phase (zeroBytes 4) 0 ++ r.nonce)) := by
    rw [hr1, List.filter_map, List.map_map, ← ho]
    rfl
  have hle : owners.length ≤ clients.length := by
    rw [← ho]; exact List.length_filter_le _ _
  have hnd : (clients.take owners.length).Nodup := by
    rw [← hc]
    exact (included_nodup _).sublist (List.take_sublist _ _)
  obtain ⟨log2, f1, f2, f3⟩ := GenerateCiphertext.pads_logged c r1.state.anonymous_rngs 0
    (zeroBytes r1.state.msg_length) r1 log (clients.take owners.length) hs1
    (by rw [hcur1, hl1]; exact hlog)
    (by rw [List.length_take, hrngs, List.length_map]; omega) hnd
    (by
      intro k hk
      rw [hrngs, List.length_map] at hk
      rw [Nat.zero_add, hg1 k (by omega), Option.getD_some,
        List.getD_eq_getElem _ _ (by omega : k < clients.length),
        List.getD_eq_getElem _ _ (by rw [List.length_take]; omega), List.getElem_take])
  rw [hcur1] at f1
  refine ⟨r1, _, _, log2, h1, rfl, ?_, f1, ?_, f3, ?_⟩
  · intro data rand ct r3 h
    unfold GenerateCiphertext at h
    simp only [] at h
    split at h
    · exact Option.noConfusion h
    · simp only [Option.some.injEq, Prod.mk.injEq] at h
      obtain ⟨-, rfl⟩ := h
      rfl
  · intro j hj
    have hk := f2 j (by rw [hrngs, List.length_map]; exact hj)
    rw [List.getD_eq_getElem _ _ (by rw [List.length_take]; omega), List.getElem_take,
      ← List.getD_eq_getElem _ 0 (by omega : j < clients.length)] at hk
    rw [hk, hm1]
    have hmem : owners.getD j 0 ∈ owners := by
      rw [List.getD_eq_getElem _ _ hj]
      exact List.getElem_mem _
    have hne : (r.state.base_seeds.getD (owners.getD j 0) []).isEmpty = false := by
      have hmem2 : owners.getD j 0 ∈
          clients.filter (fun i => !(r.state.base_seeds.getD i []).isEmpty) := by
        rw [ho]; exact hmem
      have := (List.mem_filter.mp hmem2).2
      simpa using this
    unfold pad
    rw [hne]
    simp only [Bool.false_eq_true, if_false]
    congr 2
    rw [hrngs, List.getD_eq_getElem _ _ (by rw [List.length_map]; exact hj), List.getElem_map,
      List.getD_eq_getElem _ _ hj]
  · intro hall
    rw [← ho]
    apply List.filter_eq_self.mpr
    intro i hi
    have := hall i hi
    cases hb : r.state.base_seeds.getD i [] with
    | nil => exact absurd hb this
    | cons x xs => rfl

/-! ## The rebuttal, from the client to the server -/

/-- What `GetRebuttal` returns at a client that holds one base seed per
server: either the first server whose pad bit differs from its bit in
`server_bits`, or, when there is none, the server `phase mod Ns`. -/
theorem GetRebuttal_cases (c : Crypto) (r : Round) (phase accuse_idx : Nat)
    (server_bits : QBitArray) (hNs : 0 < r.servers.Count)
    (hseeds : r.state.base_seeds.length = r.servers.Count)
    (hbits : server_bits.length = r.servers.Count)
    (hids : (r.servers.map (fun p => p.id)).Nodup) :
    ∃ (bidx : Nat) (pid : PublicIdentity),
      GetRebuttal c r phase accuse_idx server_bits =
        some ((bidx : Int), c.ProveSharedSecret r.dh_key pid.dh_key) ∧
      r.servers[bidx]? = some pid ∧ bidx < r.servers.Count ∧
      r.servers.GetId (bidx : Int) = some pid.id ∧
      r.servers.GetIdentity pid.id = some pid ∧
      (GetRebuttal.pad_bit c r phase accuse_idx bidx ≠ server_bits.getD bidx false ∨
        ((∀ s, s < r.servers.Count →
            GetRebuttal.pad_bit c r phase accuse_idx s = server_bits.getD s false) ∧
          bidx = phase % r.servers.Count)) := by
  obtain ⟨res, hres, hnone, hsome⟩ := GetRebuttal.search_first c r.nonce
    (WriteInt phase (zeroBytes 4) 0) (accuse_idx / 8) (accuse_idx % 8) server_bits
    r.state.base_seeds 0 (by omega)
  simp only [Nat.zero_add, hseeds] at hnone hsome
  have hlookup : ∀ b : Nat, b < r.servers.Count → ∃ pid, r.servers[b]? = some pid ∧
      r.servers.GetId (b : Int) = some pid.id ∧ r.servers.GetIdentity pid.id = some pid := by
    intro b hb
    have hb' : b < r.servers.length := hb
    have hp : r.servers[b]? = some r.servers[b] := List.getElem?_eq_getElem hb'
    obtain ⟨a1, a2⟩ := Roster.GetIdentity_of_nodup r.servers b _ hids hp
    exact ⟨_, hp, a1, a2⟩
  have h0 : ¬ ((accuse_idx : Int) < 0) := by omega
  have hc : ¬ r.servers.Count = 0 := by omega
  cases res with
  | some idx =>
    obtain ⟨k, e1, e2, e3, -⟩ := hsome idx rfl
    have hk : k = idx := e1.symm
    subst hk
    obtain ⟨pid, p1, p2, p3⟩ := hlookup k e2
    refine ⟨k, pid, ?_, p1, e2, p2, p3, Or.inl e3⟩
    unfold GetRebuttal
    simp only [h0, if_false, Int.toNat_ofNat, hres, p2, p3]
  | none =>
    have hm : phase % r.servers.Count < r.servers.Count := Nat.mod_lt _ hNs
    obtain ⟨pid, p1, p2, p3⟩ := hlookup _ hm
    have htmod : (phase : Int).tmod (r.servers.Count : Int)
        = ((phase % r.servers.Count : Nat) : Int) := rfl
    refine ⟨phase % r.servers.Count, pid, ?_, p1, hm, p2, p3, Or.inr ⟨hnone rfl, rfl⟩⟩
    unfold GetRebuttal
    simp only [h0, if_false, Int.toNat_ofNat, hres, hc, htmod, p2, p3]

/-- The verdict of `HandleRebuttal` on a rebuttal from the expected client
that names a roster server within `server_bits`: the client when the proof
yields no secret or the pad bit derived from the secret equals the server's
bit, else the server. -/
theorem HandleRebuttal_decides (c : Crypto) (sv : Round) (sender : Id) (k : Nat)
    (proof : QByteArray) (pid ci : PublicIdentity) (phase accuse_idx : Nat)
    (hserver : sv.IsServer = true)
    (hstate : sv.sm_state = States.SERVER_WAIT_FOR_CLIENT_REBUTTAL)
    (hexp : sv.server_state.expected_rebuttal = sender)
    (hk : k < sv.servers.Count) (hid : sv.servers.GetId (k : Int) = some pid.id)
    (hsi : sv.servers.GetIdentity pid.id = some pid)
    (hci : sv.clients.GetIdentity sender = some ci)
    (hbits : k < sv.server_state.server_bits.length)
    (hphase : sv.server_state.current_blame.third = (phase : Int))
    (hacc : sv.server_state.current_blame.second = (accuse_idx : Int)) :
    ∃ sv', HandleRebuttal c sv sender ((k : Int), proof) = some (Outcome.ok (), sv') ∧
      sv'.sm_state = States.SERVER_EXCHANGE_VERDICT_SIGNATURE ∧
      sv'.server_state.bad_dude =
        if (c.VerifySharedSecret ci.dh_key pid.dh_key proof).isEmpty then sender
        else if ((((c.GenerateBlock (c.ComputeHash
            (c.VerifySharedSecret ci.dh_key pid.dh_key proof ++
              WriteInt phase (zeroBytes 4) 0 ++ sv.nonce)) (accuse_idx / 8 + 1)).getD
              (accuse_idx / 8) 0 &&& bit_masks (accuse_idx % 8)) != 0)
            == sv.server_state.server_bits.getD k false) then sender
        else pid.id := by
  have hsc : ∀ x : Round, x.IsServer = true →
      x.sm_state = States.SERVER_WAIT_FOR_CLIENT_REBUTTAL →
      StateComplete x = some { x with server_state.handled_servers := [],
                                      sm_state := States.SERVER_EXCHANGE_VERDICT_SIGNATURE } :=
    fun x h1 h2 => StateComplete_step x _ _ h1 h2 (by decide) (by decide)
  have h1 : ¬ ((k : Int) ≥ (sv.servers.Count : Int)) := by omega
  have h2 : ¬ ((k : Int) ≥ (sv.server_state.server_bits.length : Int)) := by omega
  have h3 : ¬ ((accuse_idx : Int) < 0) := by omega
  have hlen : (c.GenerateBlock (c.ComputeHash
      (c.VerifySharedSecret ci.dh_key pid.dh_key proof ++
        WriteInt phase (zeroBytes 4) 0 ++ sv.nonce)) (accuse_idx / 8 + 1)).length
      = accuse_idx / 8 + 1 := c.GenerateBlock_size _ _
  have hb : (c.GenerateBlock (c.ComputeHash
      (c.VerifySharedSecret ci.dh_key pid.dh_key proof ++
        WriteInt phase (zeroBytes 4) 0 ++ sv.nonce)) (accuse_idx / 8 + 1)).get? (accuse_idx / 8)
      = some ((c.GenerateBlock (c.ComputeHash
      (c.VerifySharedSecret ci.dh_key pid.dh_key proof ++
        WriteInt phase (zeroBytes 4) 0 ++ sv.nonce)) (accuse_idx / 8 + 1)).getD
        (accuse_idx / 8) 0) := by
    rw [List.get?_eq_get (by omega), List.getD_eq_getElem _ _ (by omega)]
    rfl
  have hs : sv.server_state.server_bits.get? k
      = some (sv.server_state.server_bits.getD k false) := by
    rw [List.get?_eq_get hbits, List.getD_eq_getElem _ _ hbits]
    rfl
  have hmod : accuse_idx % 8 % 8 = accuse_idx % 8 := Nat.mod_mod _ _
  unfold HandleRebuttal
  simp only [hexp, ne_eq, not_true_eq_false, if_false, h1, hid, hci, hsi, h2, hphase, hacc,
    h3, Int.toNat_ofNat, hb, hs, hmod]
  by_cases he : (c.VerifySharedSecret ci.dh_key pid.dh_key proof).isEmpty = true
  · simp only [he, if_true, hsc, hserver, hstate, Option.map_some']
    exact ⟨_, rfl, rfl, rfl⟩
  · simp only [he, if_false]
    by_cases hq : ((((c.GenerateBlock (c.ComputeHash
        (c.VerifySharedSecret ci.dh_key pid.dh_key proof ++
          WriteInt phase (zeroBytes 4) 0 ++ sv.nonce)) (accuse_idx / 8 + 1)).getD
          (accuse_idx / 8) 0 &&& bit_masks (accuse_idx % 8)) != 0)
        == sv.server_state.server_bits.getD k false) = true
    · simp only [hq, if_true, hsc, hserver, hstate, Option.map_some']
      exact ⟨_, rfl, rfl, rfl⟩
    · simp only [hq, if_false, hsc, hserver, hstate, Option.map_some']
      exact ⟨_, rfl, rfl, rfl⟩

/-- C31. Rebuttal consistency. A client that holds one base seed per server
and a server that waits for its rebuttal share the rosters, the nonce, the
blamed phase and bit and `server_bits`, and the proof the client makes for a
server verifies to the base seed the client holds for it. Then `GetRebuttal`
returns `(s, proof)` and `HandleRebuttal` accepts it and advances; when
`GetRebuttal` found a server `s` whose pad bit differs from `server_bits[s]`
(the seed not being empty) `bad_dude` is server `s`; when it found none, `s`
is `phase mod Ns` and `bad_dude` is the client. -/
theorem rebuttal_consistency (c : Crypto) (cl sv : Round) (sender : Id)
    (ci : PublicIdentity) (phase accuse_idx : Nat) (server_bits : QBitArray)
    (hNs : 0 < cl.servers.Count)
    (hseeds : cl.state.base_seeds.length = cl.servers.Count)
    (hbits : server_bits.length = cl.servers.Count)
    (hids : (cl.servers.map (fun p => p.id)).Nodup)
    (hserver : sv.IsServer = true)
    (hstate : sv.sm_state = States.SERVER_WAIT_FOR_CLIENT_REBUTTAL)
    (hroster : sv.servers = cl.servers) (hnonce : sv.nonce = cl.nonce)
    (hexp : sv.server_state.expected_rebuttal = sender)
    (hci : sv.clients.GetIdentity sender = some ci)
    (hsbits : sv.server_state.server_bits = server_bits)
    (hphase : sv.server_state.current_blame.third = (phase : Int))
    (hacc : sv.server_state.current_blame.second = (accuse_idx : Int))
    (hdh : ∀ (s : Nat) (pid : PublicIdentity), cl.servers[s]? = some pid →
      c.VerifySharedSecret ci.dh_key pid.dh_key (c.ProveSharedSecret cl.dh_key pid.dh_key)
        = cl.state.base_seeds.getD s []) :
    ∃ (bidx : Nat) (pid : PublicIdentity) (sv' : Round),
      GetRebuttal c cl phase accuse_idx server_bits =
        some ((bidx : Int), c.ProveSharedSecret cl.dh_key pid.dh_key) ∧
      cl.servers[bidx]? = some pid ∧
      HandleRebuttal c sv sender ((bidx : Int), c.ProveSharedSecret cl.dh_key pid.dh_key)
        = some (Outcome.ok (), sv') ∧
      sv'.sm_state = States.SERVER_EXCHANGE_VERDICT_SIGNATURE ∧
      (GetRebuttal.pad_bit c cl phase accuse_idx bidx ≠ server_bits.getD bidx false →
        cl.state.base_seeds.getD bidx [] ≠ [] →
        sv'.server_state.bad_dude = pid.id) ∧
      ((∀ s, s < cl.servers.Count →
          GetRebuttal.pad_bit c cl phase accuse_idx s = server_bits.getD s false) →
        bidx = phase % cl.servers.Count ∧ sv'.server_state.bad_dude = sender) := by
  obtain ⟨bidx, pid, g1, g2, g3, g4, g5, g6⟩ :=
    GetRebuttal_cases c cl phase accuse_idx server_bits hNs hseeds hbits hids
  obtain ⟨sv', d1, d2, d3⟩ := HandleRebuttal_decides c sv sender bidx
    (c.ProveSharedSecret cl.dh_key pid.dh_key) pid ci phase accuse_idx hserver hstate hexp
    (by rw [hroster]; exact g3) (by rw [hroster]; exact g4) (by rw [hroster]; exact g5) hci
    (by rw [hsbits, hbits]; exact g3) hphase hacc
  rw [hdh bidx pid g2, hnonce, hsbits] at d3
  have hpad : ((((c.GenerateBlock (c.ComputeHash
      (cl.state.base_seeds.getD bidx [] ++ WriteInt phase (zeroBytes 4) 0 ++ cl.nonce))
        (accuse_idx / 8 + 1)).getD (accuse_idx / 8) 0 &&& bit_masks (accuse_idx % 8)) != 0))
      = GetRebuttal.pad_bit c cl phase accuse_idx bidx := rfl
  rw [hpad] at d3
  refine ⟨bidx, pid, sv', g1, g2, d1, d2, ?_, ?_⟩
  · intro hdiff hne
    rw [d3]
    have he : (cl.state.base_seeds.getD bidx []).isEmpty = false := by
      cases hb : cl.state.base_seeds.getD bidx [] with
      | nil => exact absurd hb hne
      | cons x xs => rfl
    have hq : (GetRebuttal.pad_bit c cl phase accuse_idx bidx
        == server_bits.getD bidx false) = false := by
      simpa using hdiff
    simp only [he, hq, Bool.false_eq_true, if_false]
  · intro hall
    rcases g6 with hdiff | ⟨-, hb⟩
    · exact absurd (hall bidx g3) hdiff
    · refine ⟨hb, ?_⟩
      rw [d3]
      have hq : (GetRebuttal.pad_bit c cl phase accuse_idx bidx
          == server_bits.getD bidx false) = true := by
        simpa using hall bidx g3
      simp only [hq, if_true, ite_self]

/-! ## The accusation flag of a slot that fails its check -/

/-- A cleartext in which no open slot decodes to a message with a non-zero
byte 0 leaves `start_accuse` and `accuser` as they are. -/
theorem ProcessCleartext.unflagged_run (c : Crypto) (cfg : Config) (q : Round)
    (hwf : ProcessCleartext.wellFormed c cfg q = true)
    (hkeys : (QMap.keys q.state.next_messages).Pairwise (fun a b => a < b))
    (hnone : ∀ e ∈ q.state.next_messages, e.2 = 0 ∨
      ProcessCleartext.flag c (ProcessCleartext.msg_ppp q e.1 e.2) = 0) :
    ∃ q', ProcessCleartext c cfg q = some q' ∧
      q'.state.start_accuse = q.state.start_accuse ∧ q'.state.accuser = q.state.accuser := by
  obtain ⟨next_msgs, next_msg_length, r0, vf, r', -, -, hr0, -, -, -, hv, hrun, hstate, -⟩ :=
    ProcessCleartext_run c cfg q hwf
  obtain ⟨u1, u2, -⟩ := ProcessCleartext.slots_unflagged c cfg _ _ vf hv (by
    intro p1 e p2 hp
    have hstart := ProcessCleartext.start_at q p1 p2 e hp hkeys
    have hmem : e ∈ q.state.next_messages := by rw [hp]; simp
    rcases hnone e hmem with h' | h'
    · exact Or.inl h'
    · right
      simp only []
      rw [← hstart, hr0]
      exact h')
  simp only [] at u1 u2
  refine ⟨r', hrun, ?_, ?_⟩
  · rw [hstate]; show vf.r.state.start_accuse = q.state.start_accuse
    rw [u1, hr0]
  · rw [hstate]; show vf.r.state.accuser = q.state.accuser
    rw [u2, hr0]

/-- C34, amended. The accusation flag is read from every decoded slot,
authenticated or not. A slot `o` whose decoded message fails the
authenticator check and has a byte 0 that is not zero, no slot after it
having a non-zero byte 0: `ProcessCleartext` carries the length of the slot
forward, as for every slot that fails the check, and ends with `start_accuse`
set and `accuser = o`. And `start_accuse` and `accuser` are left as they were
by every well-formed cleartext in which each open slot decodes to nothing or
to a message whose byte 0 is zero. -/
theorem ProcessCleartext_unauthenticated_accuser (c : Crypto) (cfg : Config) (r : Round)
    (o L : Nat) (msg_pp vkey : QByteArray)
    (hwf : ProcessCleartext.wellFormed c cfg r = true)
    (hkeys : (QMap.keys r.state.next_messages).Pairwise (fun a b => a < b))
    (hmem : (o, L) ∈ r.state.next_messages) (hL : 0 < L)
    (hmsg : Derandomize c (ProcessCleartext.msg_ppp r o L) = some msg_pp)
    (hkey : ProcessCleartext.vkey cfg r.state o = some vkey)
    (hbad : ProcessCleartext.bad_message c cfg vkey msg_pp = true)
    (hflag : msg_pp.getD 0 0 ≠ 0)
    (hlast : ∀ e ∈ r.state.next_messages, o < e.1 → e.2 = 0 ∨
      ProcessCleartext.flag c (ProcessCleartext.msg_ppp r e.1 e.2) = 0) :
    (∃ r', ProcessCleartext c cfg r = some r' ∧
      QMap.find o r'.state.next_messages = some L ∧
      r'.state.start_accuse = true ∧ r'.state.accuser = (o : Int)) ∧
    (∀ q : Round, ProcessCleartext.wellFormed c cfg q = true →
      (QMap.keys q.state.next_messages).Pairwise (fun a b => a < b) →
      (∀ e ∈ q.state.next_messages, e.2 = 0 ∨
        ProcessCleartext.flag c (ProcessCleartext.msg_ppp q e.1 e.2) = 0) →
      ∃ q', ProcessCleartext c cfg q = some q' ∧
        q'.state.start_accuse = q.state.start_accuse ∧
        q'.state.accuser = q.state.accuser) := by
  refine ⟨?_, fun q h1 h2 h3 => ProcessCleartext.unflagged_run c cfg q h1 h2 h3⟩
  obtain ⟨next_msgs, next_msg_length, r0, vf, r', -, -, hr0, -, -, -, hv, hrun, hstate, -⟩ :=
    ProcessCleartext_run c cfg r hwf
  obtain ⟨pre, post, hsplit, hpre, hpost⟩ := QMap.split_at _ o L hkeys hmem
  have hv' := hv
  rw [hsplit] at hv'
  obtain ⟨v1, v2, h1, h2, h3⟩ := ProcessCleartext.slots_at c cfg pre post o L _ vf hv'
  obtain ⟨a1, a2, -⟩ := ProcessCleartext.slots_frame c cfg pre _ v1 h1
  obtain ⟨b1, b2, -⟩ := ProcessCleartext.slot_frame c cfg v1 v2 o L h2
  obtain ⟨-, -, d3⟩ := ProcessCleartext.slots_frame c cfg post v2 vf h3
  obtain ⟨f1, -, f3, -⟩ := ProcessCleartext.fixed_fields _ _ a2
  obtain ⟨g1, -⟩ := ProcessCleartext.fixed_fields _ _ b2
  simp only [] at a1 f1 f3
  have hoff : v1.offset = ProcessCleartext.start r o := by
    rw [a1, ProcessCleartext.start_at r pre post (o, L) hsplit hkeys]
  have hct : v1.r.state.cleartext = r.state.cleartext := by rw [f1, hr0]
  have hak : ProcessCleartext.vkey cfg v1.r.state o = ProcessCleartext.vkey cfg r.state o := by
    simp only [ProcessCleartext.vkey, f3, hr0]
  have hopost : o ∉ QMap.keys post := by
    intro hin
    obtain ⟨e, he, heq⟩ := List.mem_map.mp hin
    have := hpost e he
    omega
  have hne : msg_pp ≠ [] := by
    intro he
    rw [he] at hflag
    exact hflag rfl
  have hf : ProcessCleartext.flag c (ProcessCleartext.msg_ppp r o L) ≠ 0 := by
    unfold ProcessCleartext.flag
    rw [hmsg]
    exact hflag
  -- the turn of slot `o`: carried forward, and flagged
  obtain ⟨m, hd, -, hfull⟩ := ProcessCleartext.slot_next c cfg v1 v2 o L (by omega) h2
  rw [hoff, hct] at hd
  have hm : m = msg_pp := by
    have : some m = some msg_pp := by
      rw [← hd]
      exact hmsg
    exact Option.some.inj this
  subst hm
  obtain ⟨vk, hk, hcarried, -⟩ := hfull hne
  rw [hak, hkey] at hk
  have hvk : vk = vkey := (Option.some.inj hk).symm
  subst hvk
  obtain ⟨s1, s2, -⟩ := (ProcessCleartext.slot_flags c cfg v1 v2 o L h2).2.2 (by omega)
    (by rw [hoff, hct]; exact hf)
  -- the turns after it
  obtain ⟨u1, u2, -⟩ := ProcessCleartext.slots_unflagged c cfg post v2 vf h3 (by
    intro p1 e p2 hp
    have hsplit2 : r.state.next_messages = (pre ++ (o, L) :: p1) ++ e :: p2 := by
      rw [hsplit, hp]; simp
    have hstart := ProcessCleartext.start_at r _ p2 e hsplit2 hkeys
    have hmem2 : e ∈ r.state.next_messages := by rw [hsplit2]; simp
    have hgt : o < e.1 := hpost e (by rw [hp]; simp)
    rcases hlast e hmem2 hgt with h' | h'
    · exact Or.inl h'
    · right
      have e1 : v2.offset + (p1.map Prod.snd).sum = ProcessCleartext.start r e.1 := by
        rw [hstart, b1, a1]
        simp only [List.map_append, List.map_cons, List.sum_append, List.sum_cons]
        omega
      rw [e1, g1, hct]
      exact h')
  refine ⟨r', hrun, ?_, ?_, ?_⟩
  · rw [hstate]
    show QMap.find o vf.next_msgs = some L
    rw [d3 o hopost]
    exact hcarried hbad
  · rw [hstate]; show vf.r.state.start_accuse = true
    rw [u1, s1]
  · rw [hstate]; show vf.r.state.accuser = (o : Int)
    rw [u2, s2]

/-! ## The length of the next ciphertext -/

theorem QMap.mem_keys_insert {V : Type} (k a : Nat) (v : V) (m : QMap V)
    (h : a ∈ QMap.keys (QMap.insert k v m)) : a = k ∨ a ∈ QMap.keys m := by
  induction m with
  | nil =>
    simp only [QMap.insert, QMap.keys, List.map_cons, List.map_nil, List.mem_singleton] at h
    exact Or.inl h
  | cons e rest ih =>
    obtain ⟨k', v'⟩ := e
    simp only [QMap.keys] at ih h ⊢
    by_cases h1 : k < k'
    · simp only [QMap.insert, h1, if_true, List.map_cons, List.mem_cons] at h ⊢
      exact h
    · by_cases h2 : k = k'
      · simp only [QMap.insert, h1, h2, if_false, if_true, List.map_cons, List.mem_cons,
          lt_self_iff_false] at h ⊢
        rcases h with h | h
        · exact Or.inl h
        · exact Or.inr (Or.inr h)
      · simp only [QMap.insert, h1, h2, if_false, List.map_cons, List.mem_cons] at h ⊢
        rcases h with h | h
        · exact Or.inr (Or.inl h)
        · rcases ih h with h | h
          · exact Or.inl h
          · exact Or.inr (Or.inr h)

theorem QMap.insert_sorted {V : Type} (k : Nat) (v : V) (m : QMap V)
    (h : (QMap.keys m).Pairwise (fun a b => a < b)) :
    (QMap.keys (QMap.insert k v m)).Pairwise (fun a b => a < b) := by
  induction m with
  | nil => simp [QMap.insert, QMap.keys]
  | cons e rest ih =>
    obtain ⟨k', v'⟩ := e
    have h0 := h
    simp only [QMap.keys, List.map_cons, List.pairwise_cons] at h
    by_cases h1 : k < k'
    · simp only [QMap.insert, h1, if_true]
      have : QMap.keys ((k, v) :: (k', v') :: rest) = k :: QMap.keys ((k', v') :: rest) := rfl
      rw [this]
      refine List.pairwise_cons.mpr ⟨?_, h0⟩
      intro a ha
      simp only [QMap.keys, List.map_cons, List.mem_cons] at ha
      rcases ha with ha | ha
      · omega
      · have := h.1 a ha
        omega
    · by_cases h2 : k = k'
      · simp only [QMap.insert, h2, lt_self_iff_false, if_false, if_true]
        subst h2
        exact h0
      · simp only [QMap.insert, h1, h2, if_false]
        have : QMap.keys ((k', v') :: QMap.insert k v rest)
            = k' :: QMap.keys (QMap.insert k v rest) := rfl
        rw [this]
        refine List.pairwise_cons.mpr ⟨?_, ih h.2⟩
        intro a ha
        rcases QMap.mem_keys_insert k a v rest ha with ha | ha
        · omega
        · exact h.1 a ha

theorem QMap.find_below {V : Type} (k : Nat) (m : QMap V)
    (h : ∀ a ∈ QMap.keys m, k < a) : QMap.find k m = none := by
  induction m with
  | nil => rfl
  | cons e rest ih =>
    obtain ⟨k', v'⟩ := e
    simp only [QMap.keys, List.map_cons, List.mem_cons, forall_eq_or_imp] at h
    have h2 : ¬ k = k' := by omega
    simp only [QMap.find, h2, if_false]
    exact ih h.2

/-- What `next_msgs[k] = v` does to the sum of the values of a map: the new
value is added, the value the key had is dropped. -/
theorem QMap.values_insert (k v : Nat) (m : QMap Nat)
    (h : (QMap.keys m).Pairwise (fun a b => a < b)) :
    (QMap.values (QMap.insert k v m)).sum + (QMap.find k m).getD 0
      = (QMap.values m).sum + v := by
  induction m with
  | nil => simp [QMap.insert, QMap.values, QMap.find]
  | cons e rest ih =>
    obtain ⟨k', v'⟩ := e
    simp only [QMap.keys, List.map_cons, List.pairwise_cons] at h
    by_cases h1 : k < k'
    · have h2 : ¬ k = k' := by omega
      have h3 : QMap.find k rest = none :=
        QMap.find_below k rest (fun a ha => by have := h.1 a ha; omega)
      simp only [QMap.insert, h1, if_true, QMap.find, h2, if_false, h3, QMap.values,
        List.map_cons, List.sum_cons, Option.getD_none]
      omega
    · by_cases h2 : k = k'
      · simp only [QMap.insert, h2, lt_self_iff_false, if_false, if_true, QMap.find,
          QMap.values, List.map_cons, List.sum_cons, Option.getD_some]
        omega
      · have := ih h.2
        simp only [QMap.values] at this
        simp only [QMap.insert, h1, h2, if_false, QMap.find, QMap.values, List.map_cons,
          List.sum_cons]
        omega

/-- The bitmap loop keeps `next_msg_length` in step with the values of
`next_msgs` on indices it meets once and that have no entry yet. -/
theorem ProcessCleartext.bitmap_sum (c : Crypto) (st : State) (l : List Nat) (m m' : QMap Nat)
    (len len' : Nat) (hnd : l.Nodup) (hnew : ∀ idx ∈ l, QMap.find idx m = none)
    (hs : (QMap.keys m).Pairwise (fun a b => a < b))
    (h : ProcessCleartext.bitmap c st l m len = some (m', len')) :
    (QMap.keys m').Pairwise (fun a b => a < b) ∧
    len' + (QMap.values m).sum = len + (QMap.values m').sum := by
  induction l generalizing m len with
  | nil =>
    simp only [ProcessCleartext.bitmap, Option.some.injEq, Prod.mk.injEq] at h
    obtain ⟨h1, h2⟩ := h
    subst h1; subst h2
    exact ⟨hs, rfl⟩
  | cons idx rest ih =>
    obtain ⟨hni, hnd2⟩ := List.nodup_cons.mp hnd
    unfold ProcessCleartext.bitmap at h
    split at h
    · exact Option.noConfusion h
    split at h
    · split at h
      · exact Option.noConfusion h
      rename_i length _
      have h0 := hnew idx (List.mem_cons_self _ _)
      have hv := QMap.values_insert idx length m hs
      rw [h0] at hv
      simp only [Option.getD_none, Nat.add_zero] at hv
      obtain ⟨a1, a2⟩ := ih (QMap.insert idx length m) (len + length) hnd2 (by
        intro i hi
        have hne : i ≠ idx := fun e => hni (e ▸ hi)
        rw [QMap.find_insert_ne _ _ _ _ hne]
        exact hnew i (List.mem_cons_of_mem _ hi)) (QMap.insert_sorted _ _ _ hs) h
      exact ⟨a1, by omega⟩
    · exact ih m len hnd2 (fun i hi => hnew i (List.mem_cons_of_mem _ hi)) hs h

/-- A message that passed its check either leaves the layout of the next
phase alone or assigns the slot of its owner once, and adds what it assigns
to `next_msg_length`. -/
theorem ProcessCleartext.deliver_assigns (v v' : ProcessCleartext.Vars) (owner msg_length : Nat)
    (msg_p : QByteArray) (h : ProcessCleartext.deliver v owner msg_length msg_p = some v') :
    (v'.next_msgs = v.next_msgs ∧ v'.next_msg_length = v.next_msg_length) ∨
    ∃ x, v'.next_msgs = QMap.insert owner x v.next_msgs ∧
      v'.next_msg_length = v.next_msg_length + x := by
  unfold ProcessCleartext.deliver at h
  simp only [ProcessCleartext.keep] at h
  split at h
  · rename_i phase next _ _
    split at h
    · simp only [Option.some.injEq] at h; subst h
      exact Or.inr ⟨msg_length, rfl, rfl⟩
    · split at h
      · simp only [Option.some.injEq] at h; subst h
        exact Or.inr ⟨msg_length, rfl, rfl⟩
      · by_cases hn : next > 0
        · simp only [hn, if_true] at h
          split at h <;>
            (simp only [Option.some.injEq] at h; subst h
             exact Or.inr ⟨next.toNat, rfl, rfl⟩)
        · simp only [hn, if_false] at h
          split at h <;>
            (simp only [Option.some.injEq] at h; subst h
             exact Or.inl ⟨rfl, rfl⟩)
  · exact Option.noConfusion h

/-- One turn of the slot loop either leaves the layout of the next phase
alone or assigns the slot of the owner once, and adds what it assigns to
`next_msg_length`; a slot of length 0 is left alone. -/
theorem ProcessCleartext.slot_assigns (c : Crypto) (cfg : Config) (v v' : ProcessCleartext.Vars)
    (owner msg_length : Nat) (h : ProcessCleartext.slot c cfg v owner msg_length = some v') :
    (v'.next_msgs = v.next_msgs ∧ v'.next_msg_length = v.next_msg_length) ∨
    (msg_length ≠ 0 ∧ ∃ x, v'.next_msgs = QMap.insert owner x v.next_msgs ∧
      v'.next_msg_length = v.next_msg_length + x) := by
  rw [ProcessCleartext.slot_eq] at h
  by_cases h0 : msg_length = 0
  · simp only [h0, if_true, Option.some.injEq] at h
    subst h
    exact Or.inl ⟨rfl, rfl⟩
  simp only [h0, if_false] at h
  split at h
  · exact Option.noConfusion h
  split at h
  · exact Option.noConfusion h
  rename_i msg_pp _
  split at h
  · obtain ⟨-, -, h3, h4⟩ := ProcessCleartext.missing_frame _ _ _ _ h
    exact Or.inr ⟨h0, msg_length, h3, h4⟩
  split at h
  · exact Option.noConfusion h
  rename_i vkey _
  split at h
  · exact Option.noConfusion h
  split at h
  · exact Option.noConfusion h
  rename_i v2 hv2
  split at h
  · exact Option.noConfusion h
  rename_i flag _
  obtain ⟨-, -, f3, f4⟩ := ProcessCleartext.flagged_frame v2 owner flag
  by_cases hbad : ProcessCleartext.bad_message c cfg vkey msg_pp = true
  · simp only [hbad, if_true, Option.some.injEq] at h hv2
    subst h
    obtain ⟨-, -, b3, b4⟩ := ProcessCleartext.blame_frame _ _ _ _ _ hv2
    exact Or.inr ⟨h0, msg_length, by rw [f3, b3], by rw [f4, b4]⟩
  · simp only [hbad, if_false, Option.some.injEq, Bool.false_eq_true] at h hv2
    subst hv2
    rcases ProcessCleartext.deliver_assigns _ _ _ _ _ h with ⟨d1, d2⟩ | ⟨x, d1, d2⟩
    · exact Or.inl ⟨by rw [d1, f3], by rw [d2, f4]⟩
    · exact Or.inr ⟨h0, x, by rw [d1, f3], by rw [d2, f4]⟩

/-- The slot loop never lets `next_msg_length` fall behind the values of
`next_msgs`, and keeps the two in step when no slot it assigns has an entry
yet. -/
theorem ProcessCleartext.slots_sum (c : Crypto) (cfg : Config) (l : List (Nat × Nat))
    (v v' : ProcessCleartext.Vars) (h : ProcessCleartext.slots c cfg l v = some v')
    (hs : (QMap.keys v.next_msgs).Pairwise (fun a b => a < b)) :
    (QMap.keys v'.next_msgs).Pairwise (fun a b => a < b) ∧
    v.next_msg_length + (QMap.values v'.next_msgs).sum
      ≤ v'.next_msg_length + (QMap.values v.next_msgs).sum ∧
    ((QMap.keys l).Nodup → (∀ e ∈ l, e.2 ≠ 0 → QMap.find e.1 v.next_msgs = none) →
      v'.next_msg_length + (QMap.values v.next_msgs).sum
        = v.next_msg_length + (QMap.values v'.next_msgs).sum) := by
  induction l generalizing v with
  | nil =>
    simp only [ProcessCleartext.slots, Option.some.injEq] at h
    subst h
    exact ⟨hs, le_refl _, fun _ _ => rfl⟩
  | cons e rest ih =>
    obtain ⟨owner, msg_length⟩ := e
    simp only [ProcessCleartext.slots] at h
    cases h1 : ProcessCleartext.slot c cfg v owner msg_length with
    | none => simp [h1] at h
    | some v1 =>
      simp only [h1] at h
      rcases ProcessCleartext.slot_assigns c cfg v v1 owner msg_length h1 with
        ⟨a1, a2⟩ | ⟨a0, x, a1, a2⟩
      · obtain ⟨b1, b2, b3⟩ := ih v1 h (by rw [a1]; exact hs)
        rw [a1, a2] at b2 b3
        refine ⟨b1, b2, ?_⟩
        intro hnd hnew
        simp only [QMap.keys, List.map_cons, List.nodup_cons] at hnd
        exact b3 hnd.2 (fun e he => hnew e (List.mem_cons_of_mem _ he))
      · have hs1 : (QMap.keys v1.next_msgs).Pairwise (fun a b => a < b) := by
          rw [a1]; exact QMap.insert_sorted _ _ _ hs
        obtain ⟨b1, b2, b3⟩ := ih v1 h hs1
        have hv := QMap.values_insert owner x v.next_msgs hs
        rw [← a1] at hv
        refine ⟨b1, by omega, ?_⟩
        intro hnd hnew
        simp only [QMap.keys, List.map_cons, List.nodup_cons] at hnd
        have h0 := hnew (owner, msg_length) (List.mem_cons_self _ _) a0
        simp only [] at h0
        rw [h0] at hv
        simp only [Option.getD_none, Nat.add_zero] at hv
        have := b3 hnd.2 (by
          intro e he hne
          have hne2 : e.1 ≠ owner := by
            intro heq
            apply hnd.1
            rw [← heq]
            exact List.mem_map_of_mem Prod.fst he
          rw [a1, QMap.find_insert_ne _ _ _ _ hne2]
          exact hnew e (List.mem_cons_of_mem _ he) hne)
        omega

/-- C32, amended. Message-length invariant: on a well-formed input whose
lengths stay in the range of the program's `int` (the new `msg_length`, the
last of the sums, which are sums of lengths that are not negative, is below
`2 ^ 31`), `ProcessCleartext` returns, keeps `base_msg_length`, and never
makes the new `msg_length` smaller than `base_msg_length` plus the values of
the new `next_messages`, each of which is then in the range of `int` as well;
the two are equal when no slot that is open in the previous `next_messages`
has its bit set in the bitmap of the cleartext. -/
theorem ProcessCleartext_msg_length (c : Crypto) (cfg : Config) (r : Round)
    (hwf : ProcessCleartext.wellFormed c cfg r = true)
    (hkeys : (QMap.keys r.state.next_messages).Pairwise (fun a b => a < b))
    (hrange : ∀ r', ProcessCleartext c cfg r = some r' →
      r'.state.msg_length < 2147483648) :
    ∃ r', ProcessCleartext c cfg r = some r' ∧
      r'.state.base_msg_length = r.state.base_msg_length ∧
      r'.state.base_msg_length + (QMap.values r'.state.next_messages).sum
        ≤ r'.state.msg_length ∧
      (∀ e ∈ r'.state.next_messages, e.2 < 2147483648) ∧
      ((∀ e ∈ r.state.next_messages, e.2 ≠ 0 →
          ¬ (e.1 < r.clients.Count ∧
            r.state.cleartext.getD (e.1 / 8) 0 &&& bit_masks (e.1 % 8) ≠ 0)) →
        r'.state.msg_length
          = r'.state.base_msg_length + (QMap.values r'.state.next_messages).sum) := by
  obtain ⟨m0, len0, r0, v, r', hbit, hfind, hr0, -, -, -, hv, hrun, hst, -, -, -⟩ :=
    ProcessCleartext_run c cfg r hwf
  obtain ⟨s0, e0⟩ := ProcessCleartext.bitmap_sum c r.state (List.range r.clients.Count) [] m0
    r.state.base_msg_length len0 (List.nodup_range _) (fun _ _ => rfl)
    (by simp [QMap.keys]) hbit
  simp only [QMap.values, List.map_nil, List.sum_nil, Nat.add_zero] at e0
  obtain ⟨-, f2, -⟩ := ProcessCleartext.slots_frame c cfg _ _ _ hv
  have hbase : v.r.state.base_msg_length = r.state.base_msg_length := by
    have := congrArg (fun q => q.state.base_msg_length) f2
    simp only [ProcessCleartext.fixed] at this
    rw [this, hr0]
  obtain ⟨-, b2, b3⟩ := ProcessCleartext.slots_sum c cfg _ _ _ hv s0
  simp only [QMap.values] at b2 b3
  have hle : r'.state.base_msg_length + (QMap.values r'.state.next_messages).sum
      ≤ r'.state.msg_length := by
    rw [hst]
    simp only [QMap.values]
    rw [hbase]
    omega
  refine ⟨r', hrun, by rw [hst]; exact hbase, hle, ?_, ?_⟩
  · intro e he
    have h1 : e.2 ≤ (QMap.values r'.state.next_messages).sum :=
      List.single_le_sum (fun _ _ => Nat.zero_le _) _ (List.mem_map_of_mem Prod.snd he)
    have h2 := hrange r' hrun
    omega
  · intro hdisj
    have := b3 (hkeys.imp (fun h => Nat.ne_of_lt h)) (by
      intro e he hne
      rw [hfind e.1, if_neg (hdisj e he hne)])
    rw [hst]
    simp only [QMap.values]
    rw [hbase]
    omega

/-! ## The layout two participants derive from one cleartext -/

theorem ProcessCleartext.missing_pushed (v v' : ProcessCleartext.Vars) (owner msg_length : Nat)
    (h : ProcessCleartext.missing v owner msg_length = some v') : v'.r.pushed = v.r.pushed := by
  unfold ProcessCleartext.missing at h
  simp only [ProcessCleartext.keep] at h
  split at h <;> (simp only [Option.some.injEq] at h; subst h; rfl)

theorem ProcessCleartext.blame_pushed (v v' : ProcessCleartext.Vars) (owner msg_length : Nat)
    (msg_ppp : QByteArray) (h : ProcessCleartext.blame v owner msg_length msg_ppp = some v') :
    v'.r.pushed = v.r.pushed := by
  unfold ProcessCleartext.blame at h
  simp only [ProcessCleartext.keep] at h
  split at h
  · split at h
    · exact Option.noConfusion h
    · simp only [Option.some.injEq] at h; subst h; rfl
    · simp only [Option.some.injEq] at h; subst h; rfl
  · simp only [Option.some.injEq] at h; subst h; rfl

theorem ProcessCleartext.flagged_pushed (v : ProcessCleartext.Vars) (owner flag : Nat) :
    (ProcessCleartext.flagged v owner flag).r.pushed = v.r.pushed ∧
    (ProcessCleartext.flagged v owner flag).r.phase = v.r.phase := by
  simp only [ProcessCleartext.flagged]
  split_ifs <;> exact ⟨rfl, rfl⟩

/-- What a message that passed its check does to the layout of the next
phase and to the sink, in terms of the phase and the next length its header
carries. -/
theorem ProcessCleartext.deliver_effect (v v' : ProcessCleartext.Vars) (owner msg_length : Nat)
    (msg_p : QByteArray) (h : ProcessCleartext.deliver v owner msg_length msg_p = some v') :
    ∃ phase next, ReadInt msg_p 1 = some phase ∧ ReadInt msg_p 5 = some next ∧
      v'.next_msgs =
        (if phase ≠ (v.r.phase : Int) ∨ next < 0 then QMap.insert owner msg_length v.next_msgs
         else if next > 0 then QMap.insert owner next.toNat v.next_msgs else v.next_msgs) ∧
      v'.next_msg_length = v.next_msg_length +
        (if phase ≠ (v.r.phase : Int) ∨ next < 0 then msg_length
         else if next > 0 then next.toNat else 0) ∧
      v'.r.pushed = v.r.pushed ++
        (if phase ≠ (v.r.phase : Int) ∨ next < 0 then []
         else if (msg_p.drop 9).isEmpty then [] else [(owner, msg_p.drop 9)]) := by
  unfold ProcessCleartext.deliver at h
  simp only [ProcessCleartext.keep] at h
  split at h
  · rename_i phase next hp hn
    refine ⟨phase, next, hp, hn, ?_⟩
    split at h
    · rename_i hc1
      have hc : phase ≠ (v.r.phase : Int) ∨ next < 0 := Or.inl hc1
      simp only [Option.some.injEq] at h; subst h
      exact ⟨by rw [if_pos hc], by rw [if_pos hc], by rw [if_pos hc, List.append_nil]⟩
    · rename_i hc1
      split at h
      · rename_i hc2
        have hc : phase ≠ (v.r.phase : Int) ∨ next < 0 := Or.inr hc2
        simp only [Option.some.injEq] at h; subst h
        exact ⟨by rw [if_pos hc], by rw [if_pos hc], by rw [if_pos hc, List.append_nil]⟩
      · rename_i hc2
        have hc : ¬ (phase ≠ (v.r.phase : Int) ∨ next < 0) := by
          intro hor
          rcases hor with hor | hor
          · exact hc1 hor
          · exact hc2 hor
        by_cases hn0 : next > 0
        · simp only [hn0, if_true] at h
          split at h
          · rename_i he
            have he2 : ¬ (msg_p.drop 9).isEmpty = true := by simpa using he
            simp only [Option.some.injEq] at h; subst h
            exact ⟨by rw [if_neg hc, if_pos hn0], by rw [if_neg hc, if_pos hn0],
              by rw [if_neg hc, if_neg he2]⟩
          · rename_i he
            have he2 : (msg_p.drop 9).isEmpty = true := by simpa using he
            simp only [Option.some.injEq] at h; subst h
            exact ⟨by rw [if_neg hc, if_pos hn0], by rw [if_neg hc, if_pos hn0],
              by rw [if_neg hc, if_pos he2, List.append_nil]⟩
        · simp only [hn0, if_false] at h
          split at h
          · rename_i he
            have he2 : ¬ (msg_p.drop 9).isEmpty = true := by simpa using he
            simp only [Option.some.injEq] at h; subst h
            exact ⟨by rw [if_neg hc, if_neg hn0], by rw [if_neg hc, if_neg hn0]; rfl,
              by rw [if_neg hc, if_neg he2]⟩
          · rename_i he
            have he2 : (msg_p.drop 9).isEmpty = true := by simpa using he
            simp only [Option.some.injEq] at h; subst h
            exact ⟨by rw [if_neg hc, if_neg hn0], by rw [if_neg hc, if_neg hn0]; rfl,
              by rw [if_neg hc, if_pos he2, List.append_nil]⟩
  · exact Option.noConfusion h

/-- One turn of the slot loop at two participants that agree on the
cleartext, the phase, the anonymous keys and the loop variables of the
layout: the two turns leave the same layout and hand the same payloads to
the sink. -/
theorem ProcessCleartext.slot_agree (c : Crypto) (cfg : Config)
    (v1 v2 v1' v2' : ProcessCleartext.Vars) (owner msg_length : Nat)
    (h1 : ProcessCleartext.slot c cfg v1 owner msg_length = some v1')
    (h2 : ProcessCleartext.slot c cfg v2 owner msg_length = some v2')
    (hoff : v1.offset = v2.offset) (hm : v1.next_msgs = v2.next_msgs)
    (hl : v1.next_msg_length = v2.next_msg_length)
    (hct : v1.r.state.cleartext = v2.r.state.cleartext) (hph : v1.r.phase = v2.r.phase)
    (hk : v1.r.state.anonymous_keys = v2.r.state.anonymous_keys) :
    v1'.next_msgs = v2'.next_msgs ∧ v1'.next_msg_length = v2'.next_msg_length ∧
    ∃ x, v1'.r.pushed = v1.r.pushed ++ x ∧ v2'.r.pushed = v2.r.pushed ++ x := by
  rw [ProcessCleartext.slot_eq] at h1 h2
  have hvk : ProcessCleartext.vkey cfg v2.r.state owner
      = ProcessCleartext.vkey cfg v1.r.state owner := by
    simp only [ProcessCleartext.vkey, hk]
  rw [← hoff, ← hct, hvk] at h2
  by_cases h0 : msg_length = 0
  · simp only [h0, if_true, Option.some.injEq] at h1 h2
    subst h1; subst h2
    exact ⟨hm, hl, [], by simp, by simp⟩
  simp only [h0, if_false] at h1 h2
  by_cases hfit : v1.offset + msg_length > v1.r.state.cleartext.length
  · simp only [hfit, if_true] at h1
    exact Option.noConfusion h1
  simp only [hfit, if_false] at h1 h2
  cases hD : Derandomize c ((v1.r.state.cleartext.drop v1.offset).take msg_length) with
  | none =>
    simp only [hD] at h1
    exact Option.noConfusion h1
  | some msg_pp =>
    simp only [hD] at h1 h2
    by_cases hE : msg_pp.isEmpty = true
    · simp only [hE, if_true] at h1 h2
      obtain ⟨-, -, a3, a4⟩ := ProcessCleartext.missing_frame _ _ _ _ h1
      obtain ⟨-, -, b3, b4⟩ := ProcessCleartext.missing_frame _ _ _ _ h2
      have p1 := ProcessCleartext.missing_pushed _ _ _ _ h1
      have p2 := ProcessCleartext.missing_pushed _ _ _ _ h2
      simp only [] at a3 a4 b3 b4 p1 p2
      exact ⟨by rw [a3, b3, hm], by rw [a4, b4, hl], [], by simp [p1], by simp [p2]⟩
    · simp only [hE, Bool.false_eq_true, if_false] at h1 h2
      cases hV : ProcessCleartext.vkey cfg v1.r.state owner with
      | none =>
        simp only [hV] at h1
        exact Option.noConfusion h1
      | some vkey =>
        simp only [hV] at h1 h2
        by_cases hS : msg_pp.length < ProcessCleartext.sig_length c cfg vkey
        · simp only [hS, if_true] at h1
          exact Option.noConfusion h1
        simp only [hS, if_false] at h1 h2
        cases hg : (ProcessCleartext.msg_p c cfg vkey msg_pp).get? 0 with
        | none =>
          simp only [hg] at h1
          split at h1 <;> exact Option.noConfusion h1
        | some flag =>
          simp only [hg] at h1 h2
          by_cases hbad : ProcessCleartext.bad_message c cfg vkey msg_pp = true
          · simp only [hbad, if_true] at h1 h2
            cases hb1 : ProcessCleartext.blame { v1 with offset := v1.offset + msg_length }
                owner msg_length ((v1.r.state.cleartext.drop v1.offset).take msg_length) with
            | none =>
              simp only [hb1] at h1
              exact Option.noConfusion h1
            | some w1 =>
              cases hb2 : ProcessCleartext.blame { v2 with offset := v1.offset + msg_length }
                  owner msg_length ((v1.r.state.cleartext.drop v1.offset).take msg_length) with
              | none =>
                simp only [hb2] at h2
                exact Option.noConfusion h2
              | some w2 =>
                simp only [hb1, Option.some.injEq] at h1
                simp only [hb2, Option.some.injEq] at h2
                subst h1; subst h2
                obtain ⟨-, -, a3, a4⟩ := ProcessCleartext.blame_frame _ _ _ _ _ hb1
                obtain ⟨-, -, b3, b4⟩ := ProcessCleartext.blame_frame _ _ _ _ _ hb2
                have p1 := ProcessCleartext.blame_pushed _ _ _ _ _ hb1
                have p2 := ProcessCleartext.blame_pushed _ _ _ _ _ hb2
                obtain ⟨-, -, f3, f4⟩ := ProcessCleartext.flagged_frame w1 owner flag
                obtain ⟨-, -, g3, g4⟩ := ProcessCleartext.flagged_frame w2 owner flag
                obtain ⟨f5, -⟩ := ProcessCleartext.flagged_pushed w1 owner flag
                obtain ⟨g5, -⟩ := ProcessCleartext.flagged_pushed w2 owner flag
                simp only [] at a3 a4 b3 b4 p1 p2
                exact ⟨by rw [f3, g3, a3, b3, hm], by rw [f4, g4, a4, b4, hl], [],
                  by rw [f5, p1]; simp, by rw [g5, p2]; simp⟩
          · simp only [hbad, Bool.false_eq_true, if_false] at h1 h2
            obtain ⟨ph1, n1, a1, a2, a3, a4, a5⟩ := ProcessCleartext.deliver_effect _ _ _ _ _ h1
            obtain ⟨ph2, n2, b1, b2, b3, b4, b5⟩ := ProcessCleartext.deliver_effect _ _ _ _ _ h2
            have e1 : ph2 = ph1 := Option.some.inj (b1.symm.trans a1)
            have e2 : n2 = n1 := Option.some.inj (b2.symm.trans a2)
            subst e1; subst e2
            obtain ⟨-, -, f3, f4⟩ := ProcessCleartext.flagged_frame
              { v1 with offset := v1.offset + msg_length } owner flag
            obtain ⟨-, -, g3, g4⟩ := ProcessCleartext.flagged_frame
              { v2 with offset := v1.offset + msg_length } owner flag
            obtain ⟨f5, f6⟩ := ProcessCleartext.flagged_pushed
              { v1 with offset := v1.offset + msg_length } owner flag
            obtain ⟨g5, g6⟩ := ProcessCleartext.flagged_pushed
              { v2 with offset := v1.offset + msg_length } owner flag
            simp only [] at f3 f4 g3 g4 f5 f6 g5 g6
            simp only [f3, f4, f5, f6] at a3 a4 a5
            simp only [g3, g4, g5, g6] at b3 b4 b5
            simp only [← hm, ← hl, ← hph] at b3 b4 b5
            exact ⟨by rw [a3, b3], by rw [a4, b4], _, a5, b5⟩

/-- The slot loop at two participants that agree on the cleartext, the
phase, the anonymous keys and the loop variables of the layout. -/
theorem ProcessCleartext.slots_agree (c : Crypto) (cfg : Config) (l : List (Nat × Nat))
    (v1 v2 v1' v2' : ProcessCleartext.Vars)
    (h1 : ProcessCleartext.slots c cfg l v1 = some v1')
    (h2 : ProcessCleartext.slots c cfg l v2 = some v2')
    (hoff : v1.offset = v2.offset) (hm : v1.next_msgs = v2.next_msgs)
    (hl : v1.next_msg_length = v2.next_msg_length)
    (hct : v1.r.state.cleartext = v2.r.state.cleartext) (hph : v1.r.phase = v2.r.phase)
    (hk : v1.r.state.anonymous_keys = v2.r.state.anonymous_keys) :
    v1'.next_msgs = v2'.next_msgs ∧ v1'.next_msg_length = v2'.next_msg_length ∧
    ∃ x, v1'.r.pushed = v1.r.pushed ++ x ∧ v2'.r.pushed = v2.r.pushed ++ x := by
  induction l generalizing v1 v2 with
  | nil =>
    simp only [ProcessCleartext.slots, Option.some.injEq] at h1 h2
    subst h1; subst h2
    exact ⟨hm, hl, [], by simp, by simp⟩
  | cons e rest ih =>
    obtain ⟨owner, msg_length⟩ := e
    simp only [ProcessCleartext.slots] at h1 h2
    cases s1 : ProcessCleartext.slot c cfg v1 owner msg_length with
    | none => simp [s1] at h1
    | some w1 =>
      cases s2 : ProcessCleartext.slot c cfg v2 owner msg_length with
      | none => simp [s2] at h2
      | some w2 =>
        simp only [s1] at h1
        simp only [s2] at h2
        obtain ⟨a1, a2, x, a3, a4⟩ := ProcessCleartext.slot_agree c cfg v1 v2 w1 w2 owner
          msg_length s1 s2 hoff hm hl hct hph hk
        obtain ⟨o1, fx1, -⟩ := ProcessCleartext.slot_frame c cfg v1 w1 owner msg_length s1
        obtain ⟨o2, fx2, -⟩ := ProcessCleartext.slot_frame c cfg v2 w2 owner msg_length s2
        obtain ⟨c1, c2, c3, -⟩ := ProcessCleartext.fixed_fields _ _ fx1
        obtain ⟨d1, d2, d3, -⟩ := ProcessCleartext.fixed_fields _ _ fx2
        obtain ⟨b1, b2, y, b3, b4⟩ := ih w1 w2 h1 h2 (by rw [o1, o2, hoff]) a1 a2
          (by rw [c1, d1, hct]) (by rw [c2, d2, hph]) (by rw [c3, d3, hk])
        exact ⟨b1, b2, x ++ y, by rw [b3, a3, List.append_assoc],
          by rw [b4, a4, List.append_assoc]⟩

/-- The bitmap loop reads the cleartext and the anonymous keys only. -/
theorem ProcessCleartext.bitmap_congr (c : Crypto) (st1 st2 : State) (l : List Nat)
    (m : QMap Nat) (len : Nat) (hct : st1.cleartext = st2.cleartext)
    (hk : st1.anonymous_keys = st2.anonymous_keys) :
    ProcessCleartext.bitmap c st1 l m len = ProcessCleartext.bitmap c st2 l m len := by
  induction l generalizing m len with
  | nil => rfl
  | cons idx rest ih =>
    have hh : SlotHeaderLength c st1 idx = SlotHeaderLength c st2 idx := by
      simp only [SlotHeaderLength, hk]
    simp only [ProcessCleartext.bitmap, hct, hh, ih]

/-- C35. Layout agreement: two participants of any role and any `my_idx`
whose inputs are well-formed and agree on the cleartext, the previous
`next_messages`, the phase, the client count and the anonymous keys, and on
`base_msg_length`, which `PrepareForBulk` computes from the client count,
both return from `ProcessCleartext` with the same `next_messages`, the same
`msg_length` and the same sequence of (slot index, payload) pairs handed to
the sink. -/
theorem ProcessCleartext_layout_agreement (c : Crypto) (cfg : Config) (r1 r2 : Round)
    (hwf1 : ProcessCleartext.wellFormed c cfg r1 = true)
    (hwf2 : ProcessCleartext.wellFormed c cfg r2 = true)
    (hct : r1.state.cleartext = r2.state.cleartext)
    (hnm : r1.state.next_messages = r2.state.next_messages)
    (hph : r1.phase = r2.phase)
    (hcount : r1.clients.Count = r2.clients.Count)
    (hk : r1.state.anonymous_keys = r2.state.anonymous_keys)
    (hbase : r1.state.base_msg_length = r2.state.base_msg_length) :
    (∃ r1' r2' delivered, ProcessCleartext c cfg r1 = some r1' ∧
      ProcessCleartext c cfg r2 = some r2' ∧
      r1'.state.next_messages = r2'.state.next_messages ∧
      r1'.state.msg_length = r2'.state.msg_length ∧
      r1'.pushed = r1.pushed ++ delivered ∧ r2'.pushed = r2.pushed ++ delivered) ∧
    (∀ q, q.sm_state = States.PREPARE_FOR_BULK →
      ∃ q', PrepareForBulk c q = some q' ∧ q'.clients = q.clients ∧
        q'.state.base_msg_length
          = q.clients.Count / 8 + (if q.clients.Count % 8 ≠ 0 then 1 else 0)) := by
  refine ⟨?_, ?_⟩
  · obtain ⟨m1, len1, q1, v1, r1', hb1, -, hq1, hqp1, -, hqq1, hv1, hrun1, hst1, -, hpu1, -⟩ :=
      ProcessCleartext_run c cfg r1 hwf1
    obtain ⟨m2, len2, q2, v2, r2', hb2, -, hq2, hqp2, -, hqq2, hv2, hrun2, hst2, -, hpu2, -⟩ :=
      ProcessCleartext_run c cfg r2 hwf2
    rw [ProcessCleartext.bitmap_congr c r1.state r2.state _ _ _ hct hk, hcount, hbase, hb2]
      at hb1
    simp only [Option.some.injEq, Prod.mk.injEq] at hb1
    obtain ⟨e1, e2⟩ := hb1
    rw [hnm] at hv1
    obtain ⟨a1, a2, x, a3, a4⟩ := ProcessCleartext.slots_agree c cfg _ _ _ _ _ hv1 hv2
      (by simp only [ProcessCleartext.base, hcount]) e1.symm e2.symm
      (by simp only [hq1, hq2, hct]) (by simp only [hqp1, hqp2, hph])
      (by simp only [hq1, hq2, hk])
    simp only [] at a3 a4
    refine ⟨r1', r2', x, hrun1, hrun2, ?_, ?_, ?_, ?_⟩
    · rw [hst1, hst2]; exact a1
    · rw [hst1, hst2]; exact a2
    · rw [hpu1, a3, hqq1]
    · rw [hpu2, a4, hqq2]
  · intro q hs
    have hn0 : nextState false States.PREPARE_FOR_BULK
        = some States.CLIENT_WAIT_FOR_CLEARTEXT := by decide
    have hn1 : nextState true States.PREPARE_FOR_BULK
        = some States.SERVER_WAIT_FOR_CLIENT_CIPHERTEXT := by decide
    cases hp : PrepareForBulk c q with
    | none =>
      exfalso
      cases hsv : q.IsServer <;>
        simp [PrepareForBulk, SetupRngSeeds, StateComplete, BeforeStateTransition, hsv, hs,
          cycleState, hn0, hn1] at hp
    | some q' =>
      refine ⟨q', rfl, ?_⟩
      cases hsv : q.IsServer <;>
        (simp only [PrepareForBulk, SetupRngSeeds, StateComplete, BeforeStateTransition, hsv, hs,
          cycleState, hn0, hn1, Bool.false_eq_true, if_false, if_true, reduceCtorEq,
          Option.some.injEq] at hp
         subst hp
         exact ⟨rfl, rfl⟩)

/-! ## The slot message and its reservation -/

theorem Randomize_length (c : Crypto) (rand : List QByteArray) (m text : QByteArray)
    (hsize : ∀ s ∈ rand, s.length = c.OptimalSeedSize)
    (h : Randomize c rand m = some text) :
    text.length = c.OptimalSeedSize + m.length ∧
    ∃ seed, seed.length = c.OptimalSeedSize ∧ seed ≠ NullSeed c ∧
      text = seed ++ Xor (c.GenerateBlock seed m.length) (c.GenerateBlock seed m.length) m := by
  induction rand with
  | nil => simp [Randomize] at h
  | cons s rest ih =>
    by_cases hs : s = NullSeed c
    · simp only [Randomize, hs, if_true] at h
      exact ih (fun t ht => hsize t (List.mem_cons_of_mem _ ht)) h
    · simp only [Randomize, hs, if_false, Option.some.injEq] at h
      subst h
      have hl := hsize s (List.mem_cons_self _ _)
      refine ⟨?_, s, hl, hs, rfl⟩
      rw [List.length_append, Xor_length, c.GenerateBlock_size, hl]

/-- What `GenerateSlotMessage` returns and leaves in `_state`, when the
authenticator has the length `SlotHeaderLength` counts. -/
theorem GenerateSlotMessage.build_spec (c : Crypto) (cfg : Config) (phase : Nat) (st : State)
    (data : QByteArray) (rand : List QByteArray) (header : Nat)
    (hkey : SlotHeaderLength c st st.my_idx = some header)
    (hauth : ∀ m, 9 + (GenerateSlotMessage.sig c cfg st m).length + c.OptimalSeedSize = header)
    (hsize : ∀ s ∈ rand, s.length = c.OptimalSeedSize)
    (hdraw : ∃ s ∈ rand, s ≠ NullSeed c) :
    ∃ text st', GenerateSlotMessage.build c cfg phase st data rand = some (text, st') ∧
      text.length = header + (GenerateSlotMessage.msg st).length ∧
      st'.last_msg = GenerateSlotMessage.msg st ∧
      st'.next_msg = (if st.read then data else st.next_msg) ∧
      st'.read = (if st.read then true else !st.accuse) ∧
      st'.accuse = st.accuse ∧ st'.my_idx = st.my_idx ∧
      st'.anonymous_keys = st.anonymous_keys ∧ st'.next_messages = st.next_messages ∧
      st'.base_msg_length = st.base_msg_length ∧ st'.msg_length = st.msg_length ∧
      st'.last_ciphertext = text ∧
      Derandomize c text = some
        (((if st.accuse then 255 else 0) ::
          (encodeInt phase ++
           encodeInt (if st.accuse then (header : Int)
             else if cfg.CSBR_CLOSE_SLOT && st'.next_msg.length == 0 then 0
             else ((st'.next_msg.length + header : Nat) : Int)) ++
           (if st.accuse then zeroBytes (GenerateSlotMessage.msg st).length
             else GenerateSlotMessage.msg st))) ++
         GenerateSlotMessage.sig c cfg st
          ((if st.accuse then 255 else 0) ::
          (encodeInt phase ++
           encodeInt (if st.accuse then (header : Int)
             else if cfg.CSBR_CLOSE_SLOT && st'.next_msg.length == 0 then 0
             else ((st'.next_msg.length + header : Nat) : Int)) ++
           (if st.accuse then zeroBytes (GenerateSlotMessage.msg st).length
             else GenerateSlotMessage.msg st)))) := by
  have hne : ∀ m : QByteArray, Randomize c rand m ≠ none := by
    intro m h
    obtain ⟨seed, -, -, heq⟩ := Randomize_eq_some c rand m hdraw
    rw [h] at heq
    exact Option.noConfusion heq
  have e1 := slot_header_bytes true
  have e0 := slot_header_bytes false
  simp only [if_true, Bool.false_eq_true, if_false] at e1 e0
  have hfin : ∀ (m text : QByteArray), Randomize c rand m = some text →
      text.length = c.OptimalSeedSize + m.length ∧ Derandomize c text = some m := by
    intro m text h
    obtain ⟨hl, seed, hs, hn, rfl⟩ := Randomize_length c rand m text hsize h
    exact ⟨hl, Derandomize_seed_append c seed m hs hn⟩
  have hsig : ∀ m : QByteArray,
      (if cfg.CSBR_SIGN_SLOTS = true then c.Sign st.anonymous_key m
        else c.ComputeHash m).length = header - 9 - c.OptimalSeedSize := by
    intro m
    have := hauth m
    simp only [GenerateSlotMessage.sig] at this
    omega
  have hge : 9 + c.OptimalSeedSize ≤ header := by
    have := hauth []
    omega
  unfold GenerateSlotMessage.build
  cases hread : st.read
  · simp only [Bool.false_eq_true, if_false]
    simp only [SlotHeaderLength] at hkey ⊢
    simp only [hkey]
    cases hacc : st.accuse <;>
      cases hb : (cfg.CSBR_CLOSE_SLOT && List.length st.next_msg == 0) <;>
      simp only [hacc, hb, if_true, if_false, Bool.false_eq_true] <;>
      split <;> rename_i heq <;>
      first
        | exact absurd heq (hne _)
        | (obtain ⟨hl, hd⟩ := hfin _ _ heq
           simp only [e0, e1] at hl hd
           refine ⟨_, _, rfl, ?_, ?_, ?_, ?_, rfl, rfl, rfl, rfl, rfl, rfl, rfl, ?_⟩
           · rw [hl]
             simp only [GenerateSlotMessage.msg, hread, Bool.false_eq_true, if_false,
               List.length_append, List.length_cons, encodeInt_length, zeroBytes,
               List.length_replicate, hsig]
             omega
           · simp [GenerateSlotMessage.msg, hread]
           · simp [hread]
           · simp [hread, hacc]
           · simp only [GenerateSlotMessage.msg, GenerateSlotMessage.sig, hread, hacc, hb,
               if_true, if_false, Bool.false_eq_true]
             first
               | (rw [hd]; done)
               | (rw [hd]; simp))
  · simp only [if_true]
    simp only [SlotHeaderLength] at hkey ⊢
    simp only [hkey]
    cases hacc : st.accuse <;>
      cases hb : (cfg.CSBR_CLOSE_SLOT && List.length data == 0) <;>
      simp only [hacc, hb, if_true, if_false, Bool.false_eq_true] <;>
      split <;> rename_i heq <;>
      first
        | exact absurd heq (hne _)
        | (obtain ⟨hl, hd⟩ := hfin _ _ heq
           simp only [e0, e1] at hl hd
           refine ⟨_, _, rfl, ?_, ?_, ?_, ?_, rfl, rfl, rfl, rfl, rfl, rfl, rfl, ?_⟩
           · rw [hl]
             simp only [GenerateSlotMessage.msg, hread, if_true,
               List.length_append, List.length_cons, encodeInt_length, zeroBytes,
               List.length_replicate, hsig]
             omega
           · simp [GenerateSlotMessage.msg, hread]
           · simp [hread]
           · simp [hread, hacc]
           · simp only [GenerateSlotMessage.msg, GenerateSlotMessage.sig, hread, hacc, hb,
               if_true, if_false, Bool.false_eq_true]
             first
               | (rw [hd]; done)
               | (rw [hd]; simp))

theorem GenerateCiphertext.offset_bound (m : QMap Nat) (i L : Nat)
    (hkeys : (QMap.keys m).Pairwise (fun a b => a < b)) (hmem : (i, L) ∈ m) :
    GenerateCiphertext.offset (i : Int) m + L ≤ (QMap.values m).sum := by
  obtain ⟨pre, post, h1, h2, -⟩ := QMap.split_at m i L hkeys hmem
  subst h1
  rw [GenerateCiphertext.offset_append i pre _ (fun e he => by have := h2 e he; omega),
    GenerateCiphertext.offset_head]
  simp only [QMap.values, List.map_append, List.map_cons, List.sum_append, List.sum_cons]
  omega

/-- The slots of a layout whose keys increase do not overlap: a slot with a
smaller owner index ends before a slot with a larger one starts. -/
theorem GenerateCiphertext.offset_apart (m : QMap Nat) (o Lo i L : Nat)
    (hkeys : (QMap.keys m).Pairwise (fun a b => a < b))
    (ho : (o, Lo) ∈ m) (hi : (i, L) ∈ m) (hlt : o < i) :
    GenerateCiphertext.offset (o : Int) m + Lo ≤ GenerateCiphertext.offset (i : Int) m := by
  induction m with
  | nil => simp at ho
  | cons e rest ih =>
    obtain ⟨k, x⟩ := e
    simp only [QMap.keys, List.map_cons, List.pairwise_cons] at hkeys
    have hrest : ∀ e ∈ rest, k < e.1 := fun e he =>
      hkeys.1 e.1 (List.mem_map_of_mem Prod.fst he)
    rcases List.mem_cons.mp hi with hi | hi
    · simp only [Prod.mk.injEq] at hi
      rcases List.mem_cons.mp ho with ho | ho
      · simp only [Prod.mk.injEq] at ho
        omega
      · have := hrest _ ho
        simp only [] at this
        omega
    · have hki := hrest _ hi
      simp only [] at hki
      have hne : ¬ ((k : Int) = (i : Int)) := by omega
      rcases List.mem_cons.mp ho with ho | ho
      · simp only [Prod.mk.injEq] at ho
        obtain ⟨rfl, rfl⟩ := ho
        simp only [GenerateCiphertext.offset, hne, if_true, if_false]
        omega
      · have hko := hrest _ ho
        simp only [] at hko
        have hne2 : ¬ ((k : Int) = (o : Int)) := by omega
        have := ih hkeys.2 ho hi
        simp only [GenerateCiphertext.offset, hne, hne2, if_false]
        omega

theorem splice_outside (off : Nat) (m x : QByteArray) (h : off + m.length ≤ x.length)
    (k : Nat) (hk : k < off ∨ off + m.length ≤ k) :
    (x.take off ++ Xor m m ((x.drop off).take m.length) ++ x.drop (off + m.length)).getD k 0
      = x.getD k 0 := by
  have hx : (Xor m m ((x.drop off).take m.length)).length = m.length := Xor_length _ _ _
  have ht : (x.take off).length = off := by
    rw [List.length_take]; omega
  simp only [List.getD_eq_getElem?_getD]
  congr 1
  rcases hk with hk | hk
  · rw [List.append_assoc, List.getElem?_append_left (by omega)]
    rw [List.getElem?_take_of_lt hk]
  · rw [List.getElem?_append_right (by rw [List.length_append, ht, hx]; exact hk)]
    rw [List.getElem?_drop, List.length_append, ht, hx]
    congr 1
    omega

/-- The slot write of `GenerateCiphertext` for a slot whose reservation is
the length of the slot message: the message has the reserved length, the
write returns, and it changes no byte outside the slot. -/
theorem GenerateCiphertext.write_fits (c : Crypto) (cfg : Config) (xor_msg : QByteArray)
    (phase : Nat) (st : State) (data : QByteArray) (rand : List QByteArray) (i L header : Nat)
    (hopen : st.slot_open = true) (hidx : st.my_idx = (i : Int))
    (hkeys : (QMap.keys st.next_messages).Pairwise (fun a b => a < b))
    (hmem : (i, L) ∈ st.next_messages)
    (hkey : SlotHeaderLength c st st.my_idx = some header)
    (hauth : ∀ m, 9 + (GenerateSlotMessage.sig c cfg st m).length + c.OptimalSeedSize = header)
    (hsize : ∀ s ∈ rand, s.length = c.OptimalSeedSize)
    (hdraw : ∃ s ∈ rand, s ≠ NullSeed c)
    (hres : L = header + (GenerateSlotMessage.msg st).length)
    (hroom : st.base_msg_length + (QMap.values st.next_messages).sum ≤ xor_msg.length) :
    ∃ text st' ct, GenerateSlotMessage.build c cfg phase st data rand = some (text, st') ∧
      text.length = L ∧
      GenerateCiphertext.write c cfg xor_msg phase st data rand = some (ct, st') ∧
      ct.length = xor_msg.length ∧
      st.base_msg_length + GenerateCiphertext.offset (i : Int) st.next_messages + L
        ≤ xor_msg.length ∧
      ∀ k, (k < st.base_msg_length + GenerateCiphertext.offset (i : Int) st.next_messages ∨
          st.base_msg_length + GenerateCiphertext.offset (i : Int) st.next_messages + L ≤ k) →
        ct.getD k 0 = xor_msg.getD k 0 := by
  obtain ⟨text, st', hb, hl, -⟩ :=
    GenerateSlotMessage.build_spec c cfg phase st data rand header hkey hauth hsize hdraw
  have hb1 := GenerateCiphertext.offset_bound st.next_messages i L hkeys hmem
  generalize hoff : st.base_msg_length + GenerateCiphertext.offset (i : Int) st.next_messages
    = off at hb1 ⊢
  have hle : off + L ≤ xor_msg.length := by omega
  have hfit : ¬ (off + text.length > xor_msg.length) := by
    rw [hl, ← hres]; omega
  obtain ⟨s1, -⟩ := splice off text xor_msg (by omega)
  refine ⟨text, st', xor_msg.take off ++ Xor text text ((xor_msg.drop off).take text.length)
    ++ xor_msg.drop (off + text.length), hb, by rw [hl, hres], ?_, s1, hle, ?_⟩
  · unfold GenerateCiphertext.write
    simp only [hopen, if_true, hb, hidx, hoff, hfit, if_false, Xor_length]
  · intro k hk
    exact splice_outside _ text xor_msg (by omega) k (by rw [hl, ← hres]; exact hk)

/-! ## What the slot loop does to the client's own slot -/

theorem ProcessCleartext.missing_own (v v' : ProcessCleartext.Vars) (owner msg_length : Nat)
    (h : ProcessCleartext.missing v owner msg_length = some v') :
    v'.r.state.last_msg = v.r.state.last_msg ∧ v'.r.state.next_msg = v.r.state.next_msg ∧
    (v.r.state.my_idx = (owner : Int) → v'.r.state.read = false) ∧
    (v.r.state.my_idx ≠ (owner : Int) →
      v'.r.state.read = v.r.state.read ∧ v'.r.state.slot_open = v.r.state.slot_open) := by
  unfold ProcessCleartext.missing at h
  simp only [ProcessCleartext.keep] at h
  split at h
  · rename_i hc
    simp only [Option.some.injEq] at h; subst h
    exact ⟨rfl, rfl, fun _ => rfl, fun hne => absurd hc hne⟩
  · rename_i hc
    simp only [Option.some.injEq] at h; subst h
    exact ⟨rfl, rfl, fun he => absurd he hc, fun _ => ⟨rfl, rfl⟩⟩

theorem ProcessCleartext.blame_own (v v' : ProcessCleartext.Vars) (owner msg_length : Nat)
    (msg_ppp : QByteArray) (h : ProcessCleartext.blame v owner msg_length msg_ppp = some v') :
    v'.r.state.last_msg = v.r.state.last_msg ∧ v'.r.state.next_msg = v.r.state.next_msg ∧
    ((owner : Int) = v.r.state.my_idx → v.r.state.accuse = false → v'.r.state.read = false) ∧
    (¬ ((owner : Int) = v.r.state.my_idx ∧ v.r.state.accuse = false) →
      v'.r.state.read = v.r.state.read ∧ v'.r.state.slot_open = v.r.state.slot_open) := by
  unfold ProcessCleartext.blame at h
  simp only [ProcessCleartext.keep] at h
  split at h
  · rename_i hc
    have hc2 : (owner : Int) = v.r.state.my_idx ∧ v.r.state.accuse = false := by
      simpa using hc
    split at h
    · exact Option.noConfusion h
    · simp only [Option.some.injEq] at h; subst h
      exact ⟨rfl, rfl, fun _ _ => rfl, fun hn => absurd hc2 hn⟩
    · simp only [Option.some.injEq] at h; subst h
      exact ⟨rfl, rfl, fun _ _ => rfl, fun hn => absurd hc2 hn⟩
  · rename_i hc
    have hc2 : ¬ ((owner : Int) = v.r.state.my_idx ∧ v.r.state.accuse = false) := by
      simpa using hc
    simp only [Option.some.injEq] at h; subst h
    exact ⟨rfl, rfl, fun h1 h2 => absurd ⟨h1, h2⟩ hc2, fun _ => ⟨rfl, rfl⟩⟩

theorem ProcessCleartext.flagged_own (v : ProcessCleartext.Vars) (owner flag : Nat) :
    (ProcessCleartext.flagged v owner flag).r.state.last_msg = v.r.state.last_msg ∧
    (ProcessCleartext.flagged v owner flag).r.state.next_msg = v.r.state.next_msg ∧
    (ProcessCleartext.flagged v owner flag).r.state.read = v.r.state.read ∧
    (ProcessCleartext.flagged v owner flag).r.state.slot_open = v.r.state.slot_open := by
  simp only [ProcessCleartext.flagged]
  split_ifs <;> exact ⟨rfl, rfl, rfl, rfl⟩

/-- What one turn of the slot loop does to `read`, `slot_open`, `next_msg`
and `last_msg`: the two messages are never written, the turn of another
slot leaves `read` and `slot_open` alone, and in its own slot a client that
is not both accusing and reading clears `read` when the slot carries no
message or one that fails its check, and keeps `read` otherwise. -/
theorem ProcessCleartext.slot_own (c : Crypto) (cfg : Config) (v v' : ProcessCleartext.Vars)
    (owner msg_length : Nat) (h : ProcessCleartext.slot c cfg v owner msg_length = some v') :
    v'.r.state.last_msg = v.r.state.last_msg ∧ v'.r.state.next_msg = v.r.state.next_msg ∧
    (((owner : Int) ≠ v.r.state.my_idx ∨ msg_length = 0) →
      v'.r.state.read = v.r.state.read ∧ v'.r.state.slot_open = v.r.state.slot_open) ∧
    (msg_length ≠ 0 → (owner : Int) = v.r.state.my_idx →
      (v.r.state.accuse = true → v.r.state.read = false) →
      ∃ msg_pp, Derandomize c ((v.r.state.cleartext.drop v.offset).take msg_length)
          = some msg_pp ∧
        (msg_pp = [] → v'.r.state.read = false) ∧
        (msg_pp ≠ [] → ∃ vkey, ProcessCleartext.vkey cfg v.r.state owner = some vkey ∧
          (ProcessCleartext.bad_message c cfg vkey msg_pp = true → v'.r.state.read = false) ∧
          (ProcessCleartext.bad_message c cfg vkey msg_pp = false →
            v'.r.state.read = v.r.state.read ∧
            v'.r.state.slot_open = v.r.state.slot_open))) := by
  rw [ProcessCleartext.slot_eq] at h
  by_cases h0 : msg_length = 0
  · simp only [h0, if_true, Option.some.injEq] at h
    subst h
    exact ⟨rfl, rfl, fun _ => ⟨rfl, rfl⟩, fun hn => absurd h0 hn⟩
  simp only [h0, if_false] at h
  split at h
  · exact Option.noConfusion h
  split at h
  · exact Option.noConfusion h
  rename_i msg_pp hD
  split at h
  · rename_i hE
    have hE2 : msg_pp = [] := by simpa using hE
    obtain ⟨m1, m2, m3, m4⟩ := ProcessCleartext.missing_own _ _ _ _ h
    simp only [] at m1 m2 m3 m4
    refine ⟨m1, m2, ?_, ?_⟩
    · intro hoth
      rcases hoth with hoth | hoth
      · exact m4 (fun e => hoth e.symm)
      · exact absurd hoth h0
    · intro _ hown _
      exact ⟨msg_pp, hD, fun _ => m3 hown.symm, fun hne => absurd hE2 hne⟩
  rename_i hE
  have hE2 : msg_pp ≠ [] := by simpa using hE
  split at h
  · exact Option.noConfusion h
  rename_i vkey hV
  split at h
  · exact Option.noConfusion h
  split at h
  · exact Option.noConfusion h
  rename_i v2 hv2
  split at h
  · exact Option.noConfusion h
  rename_i flag _
  obtain ⟨f1, f2, f3, f4⟩ := ProcessCleartext.flagged_own v2 owner flag
  by_cases hbad : ProcessCleartext.bad_message c cfg vkey msg_pp = true
  · simp only [hbad, if_true, Option.some.injEq] at h hv2
    subst h
    obtain ⟨b1, b2, b3, b4⟩ := ProcessCleartext.blame_own _ _ _ _ _ hv2
    simp only [] at b1 b2 b3 b4
    refine ⟨by rw [f1, b1], by rw [f2, b2], ?_, ?_⟩
    · intro hoth
      rcases hoth with hoth | hoth
      · obtain ⟨b5, b6⟩ := b4 (fun hc => hoth hc.1)
        exact ⟨by rw [f3, b5], by rw [f4, b6]⟩
      · exact absurd hoth h0
    · intro _ hown hK
      refine ⟨msg_pp, hD, fun he => absurd he hE2, fun _ => ⟨vkey, hV, ?_, ?_⟩⟩
      · intro _
        rw [f3]
        by_cases hacc : v.r.state.accuse = true
        · rw [(b4 (fun hc => by rw [hacc] at hc; exact Bool.noConfusion hc.2)).1]
          exact hK hacc
        · exact b3 hown (by simpa using hacc)
      · intro hgood
        rw [hbad] at hgood
        exact Bool.noConfusion hgood
  · simp only [hbad, if_false, Option.some.injEq, Bool.false_eq_true] at h hv2
    subst hv2
    have hd := ProcessCleartext.deliver_state _ _ _ _ _ h
    simp only [] at f1 f2 f3 f4
    refine ⟨by rw [hd, f1], by rw [hd, f2], ?_, ?_⟩
    · intro _
      exact ⟨by rw [hd, f3], by rw [hd, f4]⟩
    · intro _ _ _
      refine ⟨msg_pp, hD, fun he => absurd he hE2, fun _ => ⟨vkey, hV, ?_, ?_⟩⟩
      · intro hb
        exact absurd hb hbad
      · intro _
        exact ⟨by rw [hd, f3], by rw [hd, f4]⟩

theorem ProcessCleartext.slots_other (c : Crypto) (cfg : Config) (l : List (Nat × Nat))
    (v v' : ProcessCleartext.Vars) (h : ProcessCleartext.slots c cfg l v = some v')
    (hl : ∀ e ∈ l, (e.1 : Int) ≠ v.r.state.my_idx ∨ e.2 = 0) :
    v'.r.state.last_msg = v.r.state.last_msg ∧ v'.r.state.next_msg = v.r.state.next_msg ∧
    v'.r.state.read = v.r.state.read ∧ v'.r.state.slot_open = v.r.state.slot_open := by
  induction l generalizing v with
  | nil =>
    simp only [ProcessCleartext.slots, Option.some.injEq] at h
    subst h
    exact ⟨rfl, rfl, rfl, rfl⟩
  | cons e rest ih =>
    obtain ⟨owner, msg_length⟩ := e
    simp only [ProcessCleartext.slots] at h
    cases h1 : ProcessCleartext.slot c cfg v owner msg_length with
    | none => simp [h1] at h
    | some v1 =>
      simp only [h1] at h
      obtain ⟨a1, a2, a3, -⟩ := ProcessCleartext.slot_own c cfg v v1 owner msg_length h1
      obtain ⟨a4, a5⟩ := a3 (hl _ (List.mem_cons_self _ _))
      obtain ⟨-, fx, -⟩ := ProcessCleartext.slot_frame c cfg v v1 owner msg_length h1
      obtain ⟨-, -, -, hmy, -⟩ := ProcessCleartext.fixed_fields _ _ fx
      obtain ⟨b1, b2, b3, b4⟩ := ih v1 h (fun e he => by
        rw [hmy]; exact hl e (List.mem_cons_of_mem _ he))
      exact ⟨by rw [b1, a1], by rw [b2, a2], by rw [b3, a4], by rw [b4, a5]⟩

/-- What `ProcessCleartext` does to the state of the owner of an open slot:
on a well-formed input it returns; it keeps `next_msg`, `last_msg`, `my_idx`
and the anonymous keys; a slot without a message or with a message that
fails its check is carried forward and `read` is cleared; a message that
passes its check keeps `read`, and when it is of the current phase and
declares a positive next length, that length is the new reservation. -/
theorem ProcessCleartext.own_slot (c : Crypto) (cfg : Config) (r : Round) (i L : Nat)
    (hwf : ProcessCleartext.wellFormed c cfg r = true)
    (hkeys : (QMap.keys r.state.next_messages).Pairwise (fun a b => a < b))
    (hmem : (i, L) ∈ r.state.next_messages) (hL : L ≠ 0)
    (hidx : r.state.my_idx = (i : Int))
    (hK : r.state.accuse = true → r.state.read = false) :
    ∃ r' msg_pp, ProcessCleartext c cfg r = some r' ∧
      Derandomize c (ProcessCleartext.msg_ppp r i L) = some msg_pp ∧
      r'.state.last_msg = r.state.last_msg ∧ r'.state.next_msg = r.state.next_msg ∧
      r'.state.my_idx = r.state.my_idx ∧
      r'.state.anonymous_keys = r.state.anonymous_keys ∧
      (msg_pp = [] → QMap.find i r'.state.next_messages = some L ∧ r'.state.read = false) ∧
      (msg_pp ≠ [] → ∃ vkey, ProcessCleartext.vkey cfg r.state i = some vkey ∧
        (ProcessCleartext.bad_message c cfg vkey msg_pp = true →
          QMap.find i r'.state.next_messages = some L ∧ r'.state.read = false) ∧
        (ProcessCleartext.bad_message c cfg vkey msg_pp = false →
          r'.state.read = r.state.read ∧ r'.state.slot_open = r.state.slot_open ∧
          (∀ next, ReadInt (ProcessCleartext.msg_p c cfg vkey msg_pp) 1 = some (r.phase : Int) →
            ReadInt (ProcessCleartext.msg_p c cfg vkey msg_pp) 5 = some next → 0 < next →
            QMap.find i r'.state.next_messages = some next.toNat) ∧
          (∀ ph next, ReadInt (ProcessCleartext.msg_p c cfg vkey msg_pp) 1 = some ph →
            ReadInt (ProcessCleartext.msg_p c cfg vkey msg_pp) 5 = some next →
            (ph ≠ (r.phase : Int) ∨ next < 0) →
            QMap.find i r'.state.next_messages = some L))) := by
  obtain ⟨next_msgs, next_msg_length, r0, vf, r', -, -, hr0, hp0, -, -, hv, hrun, hstate, -⟩ :=
    ProcessCleartext_run c cfg r hwf
  obtain ⟨pre, post, hsplit, hpre, hpost⟩ := QMap.split_at _ i L hkeys hmem
  rw [hsplit] at hv
  obtain ⟨v1, v2, h1, h2, h3⟩ := ProcessCleartext.slots_at c cfg pre post i L _ vf hv
  obtain ⟨a1, a2, -⟩ := ProcessCleartext.slots_frame c cfg pre _ v1 h1
  obtain ⟨-, b2, b3⟩ := ProcessCleartext.slots_frame c cfg post v2 vf h3
  obtain ⟨-, s2, -⟩ := ProcessCleartext.slot_frame c cfg v1 v2 i L h2
  obtain ⟨f1, f2, f3, f4, -⟩ := ProcessCleartext.fixed_fields _ _ a2
  obtain ⟨-, -, g3, g4, -⟩ := ProcessCleartext.fixed_fields _ _ s2
  obtain ⟨-, -, k3, k4, -⟩ := ProcessCleartext.fixed_fields _ _ b2
  simp only [] at a1 f1 f2 f3 f4
  have hmy0 : r0.state.my_idx = (i : Int) := by rw [hr0]; exact hidx
  have hmy1 : v1.r.state.my_idx = (i : Int) := by rw [f4]; exact hmy0
  have hmy2 : v2.r.state.my_idx = (i : Int) := by rw [g4]; exact hmy1
  have hopre : ∀ e ∈ pre, (e.1 : Int) ≠ (i : Int) ∨ e.2 = 0 := by
    intro e he
    have := hpre e he
    exact Or.inl (by omega)
  have hopost : ∀ e ∈ post, (e.1 : Int) ≠ (i : Int) ∨ e.2 = 0 := by
    intro e he
    have := hpost e he
    exact Or.inl (by omega)
  have hipost : i ∉ QMap.keys post := by
    intro hin
    obtain ⟨e, he, heq⟩ := List.mem_map.mp hin
    have := hpost e he
    omega
  obtain ⟨p1, p2, p3, p4⟩ := ProcessCleartext.slots_other c cfg pre _ v1 h1 (by
    intro e he; simp only []; rw [hmy0]; exact hopre e he)
  obtain ⟨pa, -⟩ := ProcessCleartext.slots_accuse_other c cfg pre _ v1 h1 (by
    intro e he; simp only []; rw [hmy0]; exact hopre e he)
  obtain ⟨q1, q2, q3, q4⟩ := ProcessCleartext.slots_other c cfg post v2 vf h3 (by
    intro e he; rw [hmy2]; exact hopost e he)
  simp only [] at p1 p2 p3 p4 pa
  have hoff : v1.offset = ProcessCleartext.start r i := by
    rw [a1, ProcessCleartext.start, hsplit,
      GenerateCiphertext.offset_append i pre _ (fun e he => by have := hpre e he; omega),
      GenerateCiphertext.offset_head]
    omega
  have hct : v1.r.state.cleartext = r.state.cleartext := by rw [f1, hr0]
  have hph : v1.r.phase = r.phase := by rw [f2, hp0]
  have hak : ProcessCleartext.vkey cfg v1.r.state i = ProcessCleartext.vkey cfg r.state i := by
    simp only [ProcessCleartext.vkey, f3, hr0]
  have hafter : QMap.find i r'.state.next_messages = QMap.find i v2.next_msgs := by
    rw [hstate]
    exact b3 i hipost
  have hread : r'.state.read = v2.r.state.read := by rw [hstate]; exact q3
  have hread1 : v1.r.state.read = r.state.read := by rw [p3, hr0]
  have hopen : r'.state.slot_open = v2.r.state.slot_open := by rw [hstate]; exact q4
  have hopen1 : v1.r.state.slot_open = r.state.slot_open := by rw [p4, hr0]
  obtain ⟨o1, o2, -, o4⟩ := ProcessCleartext.slot_own c cfg v1 v2 i L h2
  obtain ⟨msg_pp, hd, hempty, hfull⟩ := o4 hL hmy1.symm (by
    intro hacc
    rw [hread1]
    apply hK
    rw [← hr0, ← pa]
    exact hacc)
  obtain ⟨msg_pp2, hd2, hempty2, hfull2⟩ :=
    ProcessCleartext.slot_next c cfg v1 v2 i L hL h2
  have hsame : msg_pp2 = msg_pp := Option.some.inj (hd2.symm.trans hd)
  subst hsame
  rw [hoff, hct] at hd
  refine ⟨r', msg_pp2, hrun, hd, ?_, ?_, ?_, ?_, ?_, ?_⟩
  · rw [hstate]; simp only []; rw [q1, o1, p1, hr0]
  · rw [hstate]; simp only []; rw [q2, o2, p2, hr0]
  · rw [hstate]; simp only []; rw [k4, g4, f4, hr0]
  · rw [hstate]; simp only []; rw [k3, g3, f3, hr0]
  · intro he
    exact ⟨by rw [hafter]; exact hempty2 he, by rw [hread]; exact hempty he⟩
  · intro hne
    obtain ⟨vkey, hk, hb, hg⟩ := hfull hne
    obtain ⟨vkey2, hk2, hb2, hg2⟩ := hfull2 hne
    have hvs : vkey2 = vkey := Option.some.inj (hk2.symm.trans hk)
    subst hvs
    rw [hak] at hk
    refine ⟨vkey2, hk, ?_, ?_⟩
    · intro hbad
      exact ⟨by rw [hafter]; exact hb2 hbad, by rw [hread]; exact hb hbad⟩
    · intro hgood
      obtain ⟨phase, next2, r1, r5, hres⟩ := hg2 hgood
      refine ⟨by rw [hread, (hg hgood).1, hread1], by rw [hopen, (hg hgood).2, hopen1], ?_, ?_⟩
      · intro next hp1 hp5 hpos
        have e1 : phase = (r.phase : Int) := Option.some.inj (r1.symm.trans hp1)
        have e2 : next2 = next := Option.some.inj (r5.symm.trans hp5)
        subst e2
        rw [hafter, hres, hph, e1]
        have hn1 : ¬ next2 < 0 := by omega
        simp only [ne_eq, not_true_eq_false, if_false, hn1, hpos, if_true]
      · intro ph next hp1 hp5 hstale
        have e1 : phase = ph := Option.some.inj (r1.symm.trans hp1)
        have e2 : next2 = next := Option.some.inj (r5.symm.trans hp5)
        subst e1 e2
        rw [hafter, hres, hph]
        rcases hstale with hs | hs
        · simp only [ne_eq, hs, not_false_eq_true, if_true]
        · by_cases hpe : phase = (r.phase : Int)
          · simp only [ne_eq, hpe, not_true_eq_false, if_false, hs, if_true]
          · simp only [ne_eq, hpe, not_false_eq_true, if_true]

theorem QMap.find_of_mem {V : Type} (m : QMap V) (k : Nat) (x : V)
    (hkeys : (QMap.keys m).Pairwise (fun a b => a < b)) (hmem : (k, x) ∈ m) :
    QMap.find k m = some x := by
  induction m with
  | nil => simp at hmem
  | cons e rest ih =>
    obtain ⟨k', x'⟩ := e
    simp only [QMap.keys, List.map_cons, List.pairwise_cons] at hkeys
    rcases List.mem_cons.mp hmem with h | h
    · simp only [Prod.mk.injEq] at h
      obtain ⟨rfl, rfl⟩ := h
      simp [QMap.find]
    · have hlt := hkeys.1 k (List.mem_map_of_mem Prod.fst h)
      have hne : ¬ k = k' := by omega
      simp only [QMap.find, hne, if_false]
      exact ih hkeys.2 h

theorem ReadInt_encodeInt (v : Int) (rest : QByteArray)
    (hv : -2147483648 ≤ v ∧ v < 2147483648) : ReadInt (encodeInt v ++ rest) 0 = some v := by
  simp only [ReadInt, encodeInt, List.drop_zero, List.cons_append, List.nil_append,
    Option.some.injEq]
  split_ifs with h <;> omega

/-- The phase and the next length are read back from the nine header bytes
of a slot message. -/
theorem ReadInt_header (flag : Nat) (phase next : Int) (payload : QByteArray)
    (hp : -2147483648 ≤ phase ∧ phase < 2147483648)
    (hn : -2147483648 ≤ next ∧ next < 2147483648) :
    ReadInt (flag :: (encodeInt phase ++ encodeInt next ++ payload)) 1 = some phase ∧
    ReadInt (flag :: (encodeInt phase ++ encodeInt next ++ payload)) 5 = some next := by
  constructor
  · have := ReadInt_encodeInt phase (encodeInt next ++ payload) hp
    simp only [ReadInt, List.drop_zero] at this
    simp only [ReadInt, List.drop_succ_cons, List.drop_zero, List.append_assoc]
    exact this
  · have := ReadInt_encodeInt next payload hn
    simp only [ReadInt, List.drop_zero] at this
    have hd : (flag :: (encodeInt phase ++ encodeInt next ++ payload)).drop 5
        = encodeInt next ++ payload := by
      simp [encodeInt]
    simp only [ReadInt, hd]
    exact this

theorem GenerateSlotMessage.reserved_iff (c : Crypto) (st : State) (i header : Nat)
    (hidx : st.my_idx = (i : Int)) (hkey : SlotHeaderLength c st i = some header) :
    GenerateSlotMessage.reserved c st = true ↔
      QMap.find i st.next_messages = some (header + (GenerateSlotMessage.msg st).length) := by
  unfold GenerateSlotMessage.reserved
  rw [hidx, hkey]
  simp

/-- After `ProcessCleartext` the slot of its owner is reserved for the
message the owner sends next: a slot that is carried forward because its
message is missing or fails its check is retransmitted from `last_msg`, and
a message of the current phase that passes its check has declared the length
of `next_msg`. -/
theorem ProcessCleartext.reserved_again (c : Crypto) (cfg : Config) (q : Round)
    (i L header : Nat)
    (hwf : ProcessCleartext.wellFormed c cfg q = true)
    (hkeys : (QMap.keys q.state.next_messages).Pairwise (fun a b => a < b))
    (hmem : (i, L) ∈ q.state.next_messages) (hL : L ≠ 0)
    (hidx : q.state.my_idx = (i : Int))
    (hK : q.state.accuse = true → q.state.read = false)
    (hkey : SlotHeaderLength c q.state i = some header) :
    ∃ r' msg_pp, ProcessCleartext c cfg q = some r' ∧
      Derandomize c (ProcessCleartext.msg_ppp q i L) = some msg_pp ∧
      ((msg_pp = [] ∨ ∃ vkey, ProcessCleartext.vkey cfg q.state i = some vkey ∧
          ProcessCleartext.bad_message c cfg vkey msg_pp = true) →
        L = header + q.state.last_msg.length →
        GenerateSlotMessage.reserved c r'.state = true ∧
        QMap.find i r'.state.next_messages = some L) ∧
      (∀ vkey next, msg_pp ≠ [] → ProcessCleartext.vkey cfg q.state i = some vkey →
        ProcessCleartext.bad_message c cfg vkey msg_pp = false →
        ReadInt (ProcessCleartext.msg_p c cfg vkey msg_pp) 1 = some (q.phase : Int) →
        ReadInt (ProcessCleartext.msg_p c cfg vkey msg_pp) 5 = some next → 0 < next →
        q.state.read = true → next.toNat = header + q.state.next_msg.length →
        GenerateSlotMessage.reserved c r'.state = true ∧
        QMap.find i r'.state.next_messages = some next.toNat) := by
  obtain ⟨r', msg_pp, hrun, hd, o1, o2, o3, o4, hempty, hfull⟩ :=
    ProcessCleartext.own_slot c cfg q i L hwf hkeys hmem hL hidx hK
  have hidx' : r'.state.my_idx = (i : Int) := by rw [o3, hidx]
  have hkey' : SlotHeaderLength c r'.state i = some header := by
    rw [SlotHeaderLength_congr c q.state r'.state i o4]; exact hkey
  have hcarried : QMap.find i r'.state.next_messages = some L ∧ r'.state.read = false →
      L = header + q.state.last_msg.length →
      GenerateSlotMessage.reserved c r'.state = true ∧
      QMap.find i r'.state.next_messages = some L := by
    intro hc hlen
    refine ⟨?_, hc.1⟩
    rw [GenerateSlotMessage.reserved_iff c r'.state i header hidx' hkey', hc.1]
    simp only [GenerateSlotMessage.msg, hc.2, Bool.false_eq_true, if_false, o1]
    rw [hlen]
  refine ⟨r', msg_pp, hrun, hd, ?_, ?_⟩
  · intro hcase hlen
    rcases hcase with he | ⟨vkey, hk, hbad⟩
    · exact hcarried (hempty he) hlen
    · by_cases hx : msg_pp = []
      · exact hcarried (hempty hx) hlen
      · obtain ⟨vkey2, hk2, hb, -⟩ := hfull hx
        have hvs : vkey2 = vkey := Option.some.inj (hk2.symm.trans hk)
        subst hvs
        exact hcarried (hb hbad) hlen
  · intro vkey next hne hk hgood h1 h5 hpos hread hnext
    obtain ⟨vkey2, hk2, -, hg⟩ := hfull hne
    have hvs : vkey2 = vkey := Option.some.inj (hk2.symm.trans hk)
    subst hvs
    obtain ⟨g1, -, g2, -⟩ := hg hgood
    have hf := g2 next h1 h5 hpos
    refine ⟨?_, hf⟩
    rw [GenerateSlotMessage.reserved_iff c r'.state i header hidx' hkey', hf]
    simp only [GenerateSlotMessage.msg, g1, hread, if_true, o2]
    rw [hnext]

/-- The bitmap flip of `GenerateCiphertext`: a client whose slot is closed
and that finds data flips its bit, opens the slot and will send the empty
`last_msg` first. -/
theorem GenerateCiphertext.write_opens (c : Crypto) (cfg : Config) (x : QByteArray)
    (phase : Nat) (st : State) (data : QByteArray) (rand : List QByteArray) (i : Nat)
    (hclosed : st.slot_open = false) (hnext : st.next_msg = []) (hdata : data ≠ [])
    (hidx : st.my_idx = (i : Int)) (hx : i / 8 < x.length) :
    ∃ ct st', GenerateCiphertext.write c cfg x phase st data rand = some (ct, st') ∧
      st'.slot_open = true ∧ st'.read = false ∧ st'.last_msg = [] ∧ st'.next_msg = data ∧
      st'.my_idx = st.my_idx ∧ st'.anonymous_keys = st.anonymous_keys ∧
      st'.next_messages = st.next_messages ∧
      ct = x.set (i / 8) (x.getD (i / 8) 0 ^^^ bit_masks (i % 8)) := by
  have hd : data.isEmpty = false := by
    cases data with
    | nil => exact absurd rfl hdata
    | cons a as => rfl
  have hneg : ¬ ((i : Int) < 0) := by omega
  have hget : x.get? (i / 8) = some (x.getD (i / 8) 0) := by
    simp [List.getD_eq_getElem?_getD, List.getElem?_eq_getElem hx]
  unfold GenerateCiphertext.write
  simp only [hclosed, Bool.false_eq_true, if_false, CheckData, hnext, List.isEmpty_nil,
    Bool.not_true, hd, Bool.not_false, hidx, hneg, Int.toNat_ofNat, hget]
  exact ⟨_, _, rfl, rfl, rfl, rfl, rfl, rfl, rfl, rfl, rfl⟩

/-- After the flip: when the cleartext carries the bit of a slot that has no
entry in `next_messages`, `ProcessCleartext` reserves `SlotHeaderLength`
bytes for it, the length of the header-only message its owner sends first. -/
theorem ProcessCleartext.reserved_opened (c : Crypto) (cfg : Config) (q : Round)
    (i header : Nat)
    (hwf : ProcessCleartext.wellFormed c cfg q = true)
    (hidx : q.state.my_idx = (i : Int)) (hi : i < q.clients.Count)
    (hbit : q.state.cleartext.getD (i / 8) 0 &&& bit_masks (i % 8) ≠ 0)
    (hnew : i ∉ QMap.keys q.state.next_messages)
    (hread : q.state.read = false) (hlast : q.state.last_msg = [])
    (hkey : SlotHeaderLength c q.state i = some header) :
    ∃ r', ProcessCleartext c cfg q = some r' ∧
      GenerateSlotMessage.reserved c r'.state = true ∧
      QMap.find i r'.state.next_messages = some header := by
  obtain ⟨next_msgs, next_msg_length, r0, vf, r', -, hfind, hr0, -, -, -, hv, hrun, hstate, -⟩ :=
    ProcessCleartext_run c cfg q hwf
  obtain ⟨-, a2, a3⟩ := ProcessCleartext.slots_frame c cfg _ _ vf hv
  obtain ⟨-, -, f3, f4, -⟩ := ProcessCleartext.fixed_fields _ _ a2
  obtain ⟨p1, -, p3, -⟩ := ProcessCleartext.slots_other c cfg _ _ vf hv (by
    intro e he
    simp only []
    rw [hr0, hidx]
    refine Or.inl ?_
    intro heq
    apply hnew
    have : e.1 = i := by omega
    rw [← this]
    exact List.mem_map_of_mem Prod.fst he)
  simp only [] at a3 f3 f4 p1 p3
  have hf : QMap.find i r'.state.next_messages = some header := by
    rw [hstate]
    simp only []
    rw [a3 i hnew, hfind i, if_pos ⟨hi, hbit⟩, hkey]
  have hidx' : r'.state.my_idx = (i : Int) := by
    rw [hstate]; simp only []; rw [f4, hr0, hidx]
  have hkey' : SlotHeaderLength c r'.state i = some header := by
    rw [SlotHeaderLength_congr c q.state r'.state i (by
      rw [hstate]; simp only []; rw [f3, hr0])]
    exact hkey
  have hr : r'.state.read = false := by
    rw [hstate]; simp only []; rw [p3, hr0, hread]
  have hl : r'.state.last_msg = [] := by
    rw [hstate]; simp only []; rw [p1, hr0, hlast]
  refine ⟨r', hrun, ?_, hf⟩
  rw [GenerateSlotMessage.reserved_iff c r'.state i header hidx' hkey', hf]
  simp [GenerateSlotMessage.msg, hr, hl]

theorem ProcessCleartext.slots_accusing (c : Crypto) (cfg : Config) (l : List (Nat × Nat))
    (v v' : ProcessCleartext.Vars) (h : ProcessCleartext.slots c cfg l v = some v')
    (hset : v.r.state.start_accuse = true) : v'.r.state.start_accuse = true := by
  induction l generalizing v with
  | nil =>
    simp only [ProcessCleartext.slots, Option.some.injEq] at h
    subst h
    exact hset
  | cons e rest ih =>
    obtain ⟨owner, msg_length⟩ := e
    simp only [ProcessCleartext.slots] at h
    cases h1 : ProcessCleartext.slot c cfg v owner msg_length with
    | none => simp [h1] at h
    | some v1 =>
      simp only [h1] at h
      obtain ⟨-, a2, a3⟩ := ProcessCleartext.slot_flags c cfg v v1 owner msg_length h1
      apply ih v1 h
      by_cases hq : msg_length = 0 ∨
          ProcessCleartext.flag c ((v.r.state.cleartext.drop v.offset).take msg_length) = 0
      · rw [(a2 hq).1]; exact hset
      · exact (a3 (fun h0 => hq (Or.inl h0)) (fun hf => hq (Or.inr hf))).1

/-- A well-formed cleartext in which an open slot decodes to a message with
a non-zero byte 0 ends with `start_accuse` set. -/
theorem ProcessCleartext.flagged_run (c : Crypto) (cfg : Config) (r : Round) (o L : Nat)
    (hwf : ProcessCleartext.wellFormed c cfg r = true)
    (hkeys : (QMap.keys r.state.next_messages).Pairwise (fun a b => a < b))
    (hmem : (o, L) ∈ r.state.next_messages) (hL : L ≠ 0)
    (hflag : ProcessCleartext.flag c (ProcessCleartext.msg_ppp r o L) ≠ 0) :
    ∃ r', ProcessCleartext c cfg r = some r' ∧ r'.state.start_accuse = true := by
  obtain ⟨next_msgs, next_msg_length, r0, vf, r', -, -, hr0, -, -, -, hv, hrun, hstate, -⟩ :=
    ProcessCleartext_run c cfg r hwf
  obtain ⟨pre, post, hsplit, -, -⟩ := QMap.split_at _ o L hkeys hmem
  have hv' := hv
  rw [hsplit] at hv'
  obtain ⟨v1, v2, h1, h2, h3⟩ := ProcessCleartext.slots_at c cfg pre post o L _ vf hv'
  obtain ⟨a1, a2, -⟩ := ProcessCleartext.slots_frame c cfg pre _ v1 h1
  obtain ⟨f1, -⟩ := ProcessCleartext.fixed_fields _ _ a2
  simp only [] at a1 f1
  have hoff : v1.offset = ProcessCleartext.start r o := by
    rw [a1, ProcessCleartext.start_at r pre post (o, L) hsplit hkeys]
  have hct : v1.r.state.cleartext = r.state.cleartext := by rw [f1, hr0]
  obtain ⟨s1, -⟩ := (ProcessCleartext.slot_flags c cfg v1 v2 o L h2).2.2 hL
    (by rw [hoff, hct]; exact hflag)
  refine ⟨r', hrun, ?_⟩
  rw [hstate]
  exact ProcessCleartext.slots_accusing c cfg post v2 vf h3 s1

/-- The signing key of the client and `base_msg_length` are kept by
`ProcessCleartext`. -/
theorem ProcessCleartext.kept (c : Crypto) (cfg : Config) (r r' : Round)
    (hwf : ProcessCleartext.wellFormed c cfg r = true)
    (h : ProcessCleartext c cfg r = some r') :
    r'.state.anonymous_key = r.state.anonymous_key ∧
    r'.state.base_msg_length = r.state.base_msg_length := by
  obtain ⟨m0, len0, r0, v, r2, -, -, hr0, -, -, -, hv, hrun, hst, -, -, -⟩ :=
    ProcessCleartext_run c cfg r hwf
  rw [hrun] at h
  have e := Option.some.inj h
  subst e
  obtain ⟨-, f2, -⟩ := ProcessCleartext.slots_frame c cfg _ _ _ hv
  constructor
  · have := congrArg (fun q => q.state.anonymous_key) f2
    simp only [ProcessCleartext.fixed] at this
    rw [hst]
    simp only []
    rw [this, hr0]
  · have := congrArg (fun q => q.state.base_msg_length) f2
    simp only [ProcessCleartext.fixed] at this
    rw [hst]
    simp only []
    rw [this, hr0]

/-- The signing key is kept by `GenerateSlotMessage`, and so is `slot_open`
unless the slot is closed for an empty next message. -/
theorem GenerateSlotMessage.build_frame (c : Crypto) (cfg : Config) (phase : Nat) (st : State)
    (data : QByteArray) (rand : List QByteArray) (text : QByteArray) (st' : State)
    (h : GenerateSlotMessage.build c cfg phase st data rand = some (text, st')) :
    st'.anonymous_key = st.anonymous_key ∧
    ((cfg.CSBR_CLOSE_SLOT && st'.next_msg.length == 0) = false →
      st'.slot_open = st.slot_open) := by
  unfold GenerateSlotMessage.build at h
  simp only [] at h
  split at h
  · exact Option.noConfusion h
  split at h
  · exact Option.noConfusion h
  simp only [Option.some.injEq, Prod.mk.injEq] at h
  obtain ⟨-, rfl⟩ := h
  constructor
  · simp only []
    split <;> split <;> rfl
  · intro hclose
    simp only [] at hclose ⊢
    split at hclose <;> split at hclose <;> simp_all
    all_goals (rw [if_neg (fun h => hclose h.1 h.2)])

/-- A slot whose message passes its check but is of another phase, or
declares a negative next length, is carried forward with the flags of its
owner as they were: `read` is not cleared. -/
theorem ProcessCleartext.stale_kept (c : Crypto) (cfg : Config) (q : Round)
    (i L : Nat)
    (hwf : ProcessCleartext.wellFormed c cfg q = true)
    (hkeys : (QMap.keys q.state.next_messages).Pairwise (fun a b => a < b))
    (hmem : (i, L) ∈ q.state.next_messages) (hL : L ≠ 0)
    (hidx : q.state.my_idx = (i : Int))
    (hK : q.state.accuse = true → q.state.read = false)
    (r' : Round) (hrun : ProcessCleartext c cfg q = some r')
    (msg_pp vkey : QByteArray) (ph next : Int)
    (hd : Derandomize c (ProcessCleartext.msg_ppp q i L) = some msg_pp) (hne : msg_pp ≠ [])
    (hk : ProcessCleartext.vkey cfg q.state i = some vkey)
    (hgood : ProcessCleartext.bad_message c cfg vkey msg_pp = false)
    (h1 : ReadInt (ProcessCleartext.msg_p c cfg vkey msg_pp) 1 = some ph)
    (h5 : ReadInt (ProcessCleartext.msg_p c cfg vkey msg_pp) 5 = some next)
    (hstale : ph ≠ (q.phase : Int) ∨ next < 0) :
    QMap.find i r'.state.next_messages = some L ∧
    r'.state.read = q.state.read ∧ r'.state.slot_open = q.state.slot_open ∧
    r'.state.next_msg = q.state.next_msg ∧ r'.state.last_msg = q.state.last_msg ∧
    r'.state.my_idx = q.state.my_idx ∧
    r'.state.anonymous_keys = q.state.anonymous_keys := by
  obtain ⟨r2, msg_pp2, hrun2, hd2, o1, o2, o3, o4, -, hfull⟩ :=
    ProcessCleartext.own_slot c cfg q i L hwf hkeys hmem hL hidx hK
  rw [hrun] at hrun2
  have e := Option.some.inj hrun2
  subst e
  have e2 : msg_pp2 = msg_pp := Option.some.inj (hd2.symm.trans hd)
  subst e2
  obtain ⟨vkey2, hk2, -, hg⟩ := hfull hne
  have hvs : vkey2 = vkey := Option.some.inj (hk2.symm.trans hk)
  subst hvs
  obtain ⟨g1, g2, -, g4⟩ := hg hgood
  exact ⟨g4 ph next h1 h5 hstale, g1, g2, o2, o1, o3, o4⟩

/-- C33, at the failing input and beside it. Slot message and reservation: in
a client state whose slot `i` is open and reserved for the message the client
sends next (`next_messages[i] = L` is `SlotHeaderLength(i)` plus the length of
that message), where `SlotHeaderLength(i)` is 9 plus the length of the
authenticator plus the seed size, an accusing client is not reading, and the
ciphertext has `msg_length` bytes, at least `base_msg_length` plus the
reserved slots: `GenerateSlotMessage` returns exactly `L` bytes; the write of
`GenerateCiphertext` at the slot offset returns, stays inside the ciphertext,
changes no byte outside the `L` bytes of the slot, and the slot of every
other owner lies before or after these bytes. The reservation is
re-established by `ProcessCleartext` on a well-formed cleartext of the phase
when it is carried forward because the slot comes back without a message or
with one that fails its check; when it is declared, the slot coming back as
it was sent by a client that is not accusing and does not close the slot, with
an authenticator that verifies (the slot of an accusing client that comes back
as it was sent sets `start_accuse` instead, which ends the bulk phases); and
when it is made by a bitmap flip, a client with a closed slot and no pending
message finding data and flipping its bit, and the cleartext carrying the bit
for a slot without an entry in `next_messages`. It is not re-established
when the slot comes back with a message that passes its check but is of
another phase or declares a negative next length: the slot is carried
forward with its `L` bytes and `read` is not cleared, so that a client that
is not accusing sends `next_msg` next, not the message the `L` bytes were
reserved for; when the two differ in length `GenerateSlotMessage` returns a
number of bytes other than `L`, and in a ciphertext that ends before the end
of that message the write of `GenerateCiphertext` reads outside the
ciphertext: no result. -/
theorem GenerateSlotMessage_fits (c : Crypto) (cfg : Config) (st : State) (phase : Nat)
    (xor_msg data : QByteArray) (rand : List QByteArray) (i L header : Nat)
    (hopen : st.slot_open = true) (hidx : st.my_idx = (i : Int))
    (hkeys : (QMap.keys st.next_messages).Pairwise (fun a b => a < b))
    (hmem : (i, L) ∈ st.next_messages)
    (hres : GenerateSlotMessage.reserved c st = true)
    (hK : st.accuse = true → st.read = false)
    (hkey : SlotHeaderLength c st i = some header)
    (hauth : ∀ m, 9 + (GenerateSlotMessage.sig c cfg st m).length + c.OptimalSeedSize = header)
    (hcut : ∀ vkey, ProcessCleartext.vkey cfg st i = some vkey →
      9 + ProcessCleartext.sig_length c cfg vkey + c.OptimalSeedSize = header)
    (hsize : ∀ s ∈ rand, s.length = c.OptimalSeedSize)
    (hdraw : ∃ s ∈ rand, s ≠ NullSeed c)
    (hlen : xor_msg.length = st.msg_length)
    (hroom : st.base_msg_length + (QMap.values st.next_messages).sum ≤ st.msg_length) :
    ∃ text st' ct,
      GenerateSlotMessage.build c cfg phase st data rand = some (text, st') ∧
      text.length = L ∧
      GenerateCiphertext.write c cfg xor_msg phase st data rand = some (ct, st') ∧
      ct.length = st.msg_length ∧
      st.base_msg_length + GenerateCiphertext.offset (i : Int) st.next_messages + L
        ≤ st.msg_length ∧
      (∀ k, (k < st.base_msg_length + GenerateCiphertext.offset (i : Int) st.next_messages ∨
          st.base_msg_length + GenerateCiphertext.offset (i : Int) st.next_messages + L ≤ k) →
        ct.getD k 0 = xor_msg.getD k 0) ∧
      (∀ o Lo, (o, Lo) ∈ st.next_messages → o ≠ i →
        st.base_msg_length + GenerateCiphertext.offset (o : Int) st.next_messages + Lo
          ≤ st.base_msg_length + GenerateCiphertext.offset (i : Int) st.next_messages ∨
        st.base_msg_length + GenerateCiphertext.offset (i : Int) st.next_messages + L
          ≤ st.base_msg_length + GenerateCiphertext.offset (o : Int) st.next_messages) ∧
      (∀ (q : Round) (cl : QByteArray), q.state = { st' with cleartext := cl } →
        q.phase = phase → ProcessCleartext.wellFormed c cfg q = true →
        ∃ r' msg_pp, ProcessCleartext c cfg q = some r' ∧
          Derandomize c (ProcessCleartext.msg_ppp q i L) = some msg_pp ∧
          ((msg_pp = [] ∨ ∃ vkey, ProcessCleartext.vkey cfg q.state i = some vkey ∧
              ProcessCleartext.bad_message c cfg vkey msg_pp = true) →
            GenerateSlotMessage.reserved c r'.state = true ∧
            QMap.find i r'.state.next_messages = some L) ∧
          (ProcessCleartext.msg_ppp q i L = text → st.accuse = false →
            (cfg.CSBR_CLOSE_SLOT && st'.next_msg.length == 0) = false →
            phase < 2147483648 → st'.next_msg.length + header < 2147483648 →
            (∀ vkey, ProcessCleartext.vkey cfg q.state i = some vkey →
              ProcessCleartext.bad_message c cfg vkey msg_pp = false) →
            GenerateSlotMessage.reserved c r'.state = true ∧
            QMap.find i r'.state.next_messages = some (st'.next_msg.length + header)) ∧
          (ProcessCleartext.msg_ppp q i L = text → st.accuse = true →
            r'.state.start_accuse = true) ∧
          (∀ vkey ph next, msg_pp ≠ [] → ProcessCleartext.vkey cfg q.state i = some vkey →
            ProcessCleartext.bad_message c cfg vkey msg_pp = false →
            ReadInt (ProcessCleartext.msg_p c cfg vkey msg_pp) 1 = some ph →
            ReadInt (ProcessCleartext.msg_p c cfg vkey msg_pp) 5 = some next →
            (ph ≠ (phase : Int) ∨ next < 0) →
            QMap.find i r'.state.next_messages = some L ∧ r'.state.read = st'.read ∧
            (st.accuse = false →
              (cfg.CSBR_CLOSE_SLOT && st'.next_msg.length == 0) = false →
              st'.next_msg.length ≠ (GenerateSlotMessage.msg st).length →
              GenerateSlotMessage.reserved c r'.state = false ∧
              ∀ (phase2 : Nat) (x2 data2 : QByteArray),
                ∃ text2 st2,
                  GenerateSlotMessage.build c cfg phase2 r'.state data2 rand
                    = some (text2, st2) ∧
                  text2.length = header + st'.next_msg.length ∧ text2.length ≠ L ∧
                  (x2.length < r'.state.base_msg_length +
                      GenerateCiphertext.offset (i : Int) r'.state.next_messages +
                      text2.length →
                    GenerateCiphertext.write c cfg x2 phase2 r'.state data2 rand = none)))) ∧
      (∀ (s0 : State) (x0 data0 : QByteArray), s0.slot_open = false → s0.next_msg = [] →
        data0 ≠ [] → s0.my_idx = (i : Int) → i / 8 < x0.length →
        ∃ ct1 s1, GenerateCiphertext.write c cfg x0 phase s0 data0 rand = some (ct1, s1) ∧
          s1.slot_open = true ∧
          ct1 = x0.set (i / 8) (x0.getD (i / 8) 0 ^^^ bit_masks (i % 8)) ∧
          ∀ (q : Round) (cl : QByteArray) (h0 : Nat), q.state = { s1 with cleartext := cl } →
            ProcessCleartext.wellFormed c cfg q = true → i < q.clients.Count →
            cl.getD (i / 8) 0 &&& bit_masks (i % 8) ≠ 0 →
            i ∉ QMap.keys s0.next_messages → SlotHeaderLength c s0 i = some h0 →
            ∃ r', ProcessCleartext c cfg q = some r' ∧
              GenerateSlotMessage.reserved c r'.state = true ∧
              QMap.find i r'.state.next_messages = some h0) := by
  have hkey0 : SlotHeaderLength c st st.my_idx = some header := by rw [hidx]; exact hkey
  have hfind := QMap.find_of_mem st.next_messages i L hkeys hmem
  have hrel : L = header + (GenerateSlotMessage.msg st).length := by
    have := (GenerateSlotMessage.reserved_iff c st i header hidx hkey).mp hres
    rw [hfind] at this
    exact Option.some.inj this
  have hge : 9 + c.OptimalSeedSize ≤ header := by
    have := hauth []
    omega
  obtain ⟨text, st', hb, hl, s1, s2, s3, s4, s5, s6, s7, -, -, -, s11⟩ :=
    GenerateSlotMessage.build_spec c cfg phase st data rand header hkey0 hauth hsize hdraw
  obtain ⟨text2, st2, ct, hb2, hl2, hw, hcl, hin, hout⟩ :=
    GenerateCiphertext.write_fits c cfg xor_msg phase st data rand i L header hopen hidx hkeys
      hmem hkey0 hauth hsize hdraw hrel (by rw [hlen]; exact hroom)
  rw [hb] at hb2
  simp only [Option.some.injEq, Prod.mk.injEq] at hb2
  obtain ⟨rfl, rfl⟩ := hb2
  refine ⟨text, st', ct, hb, hl2, hw, by rw [hcl, hlen], by rw [← hlen]; exact hin, hout,
    ?_, ?_, ?_⟩
  · intro o Lo ho hne
    rcases Nat.lt_or_gt_of_ne hne with hlt | hgt
    · have := GenerateCiphertext.offset_apart st.next_messages o Lo i L hkeys ho hmem hlt
      exact Or.inl (by omega)
    · have := GenerateCiphertext.offset_apart st.next_messages i L o Lo hkeys hmem ho hgt
      exact Or.inr (by omega)
  · intro q cl hq hqp hwf
    have q1 : q.state.last_msg = st'.last_msg := by rw [hq]
    have q2 : q.state.next_msg = st'.next_msg := by rw [hq]
    have q3 : q.state.read = st'.read := by rw [hq]
    have q4 : q.state.accuse = st'.accuse := by rw [hq]
    have q5 : q.state.my_idx = st'.my_idx := by rw [hq]
    have q6 : q.state.anonymous_keys = st'.anonymous_keys := by rw [hq]
    have q7 : q.state.next_messages = st'.next_messages := by rw [hq]
    have hvk : ProcessCleartext.vkey cfg q.state i = ProcessCleartext.vkey cfg st i := by
      simp only [ProcessCleartext.vkey, q6, s6]
    have q8 : q.state.anonymous_key = st'.anonymous_key := by rw [hq]
    have q9 : q.state.slot_open = st'.slot_open := by rw [hq]
    have hKq : q.state.accuse = true → q.state.read = false := by
      intro hacc
      rw [q4, s4] at hacc
      rw [q3, s3, hK hacc, hacc]
      rfl
    obtain ⟨r', msg_pp, hrun, hd, hcar, hdec⟩ :=
      ProcessCleartext.reserved_again c cfg q i L header hwf (by rw [q7, s7]; exact hkeys)
        (by rw [q7, s7]; exact hmem) (by omega) (by rw [q5, s5, hidx]) hKq
        (by rw [SlotHeaderLength_congr c st q.state i (by rw [q6, s6])]; exact hkey)
    refine ⟨r', msg_pp, hrun, hd, ?_, ?_, ?_, ?_⟩
    · intro hcase
      exact hcar hcase (by rw [q1, s1]; exact hrel)
    · intro hecho hacc hclose hph hnx hgood
      rw [hecho, s11] at hd
      have hmsg := (Option.some.inj hd).symm
      simp only [hacc, Bool.false_eq_true, if_false, hclose] at hmsg
      -- the key the reader checks the slot with
      have hex : ∃ vkey, ProcessCleartext.vkey cfg st i = some vkey := by
        unfold ProcessCleartext.vkey
        by_cases hsgn : cfg.CSBR_SIGN_SLOTS = true
        · simp only [hsgn, if_true]
          have hk := hkey
          unfold SlotHeaderLength at hk
          have hneg : ¬ ((i : Int) < 0) := by omega
          simp only [hneg, if_false, Int.toNat_ofNat] at hk
          cases hg : st.anonymous_keys.get? i with
          | none => rw [hg] at hk; exact Option.noConfusion hk
          | some k => exact ⟨k, rfl⟩
        · simp only [hsgn, Bool.false_eq_true, if_false]
          exact ⟨[], rfl⟩
      obtain ⟨vkey, hv⟩ := hex
      have hsl := hcut vkey hv
      rw [← hvk] at hv
      have hgd := hgood vkey hv
      generalize hP : (0 :: (encodeInt (phase : Int) ++
        encodeInt ((st'.next_msg.length + header : Nat) : Int) ++ GenerateSlotMessage.msg st))
        = P at hmsg
      have hS := hauth P
      have hmp : ProcessCleartext.msg_p c cfg vkey msg_pp = P := by
        unfold ProcessCleartext.msg_p
        rw [hmsg, List.length_append]
        have : P.length + (GenerateSlotMessage.sig c cfg st P).length
            - ProcessCleartext.sig_length c cfg vkey = P.length := by omega
        rw [this, List.take_left]
      obtain ⟨r1, r5⟩ := ReadInt_header 0 (phase : Int)
        ((st'.next_msg.length + header : Nat) : Int) (GenerateSlotMessage.msg st)
        (by omega) (by omega)
      rw [hP] at r1 r5
      have hne : msg_pp ≠ [] := by
        rw [hmsg, ← hP]
        simp
      have := hdec vkey ((st'.next_msg.length + header : Nat) : Int) hne hv hgd
        (by rw [hmp, hqp]; exact r1) (by rw [hmp]; exact r5) (by omega)
        (by rw [q3, s3, hacc]; cases st.read <;> rfl)
        (by rw [q2, Int.toNat_ofNat]; omega)
      rw [Int.toNat_ofNat] at this
      exact this
    · intro hecho hacc
      have hfl : ProcessCleartext.flag c (ProcessCleartext.msg_ppp q i L) ≠ 0 := by
        unfold ProcessCleartext.flag
        rw [hecho, s11]
        simp [hacc]
      obtain ⟨r2, hrun2, hset⟩ := ProcessCleartext.flagged_run c cfg q i L hwf
        (by rw [q7, s7]; exact hkeys) (by rw [q7, s7]; exact hmem) (by omega) hfl
      rw [hrun] at hrun2
      rw [Option.some.inj hrun2]
      exact hset
    · intro vkey ph next hne hv hgood h1 h5 hstale
      obtain ⟨t1, t2, t3, t4, -, t6, t7⟩ := ProcessCleartext.stale_kept c cfg q i L hwf
        (by rw [q7, s7]; exact hkeys) (by rw [q7, s7]; exact hmem) (by omega)
        (by rw [q5, s5, hidx]) hKq r' hrun msg_pp vkey ph next hd hne hv hgood h1 h5
        (by rw [hqp]; exact hstale)
      refine ⟨t1, by rw [t2, q3], ?_⟩
      intro hacc hclose hdiff
      have hread' : st'.read = true := by
        rw [s3, hacc]
        cases st.read <;> rfl
      have hr : r'.state.read = true := by rw [t2, q3, hread']
      have hidx' : r'.state.my_idx = (i : Int) := by rw [t6, q5, s5, hidx]
      have hkey' : SlotHeaderLength c r'.state i = some header := by
        rw [SlotHeaderLength_congr c st r'.state i (by rw [t7, q6, s6])]; exact hkey
      have hmsg : GenerateSlotMessage.msg r'.state = st'.next_msg := by
        simp only [GenerateSlotMessage.msg, hr, if_true, t4, q2]
      constructor
      · cases hres' : GenerateSlotMessage.reserved c r'.state with
        | false => rfl
        | true =>
          have := (GenerateSlotMessage.reserved_iff c r'.state i header hidx' hkey').mp hres'
          rw [t1, hmsg] at this
          have := Option.some.inj this
          omega
      · intro phase2 x2 data2
        obtain ⟨k1, -⟩ := ProcessCleartext.kept c cfg q r' hwf hrun
        obtain ⟨bf1, bf2⟩ := GenerateSlotMessage.build_frame c cfg phase st data rand text st' hb
        have hak : r'.state.anonymous_key = st.anonymous_key := by rw [k1, q8, bf1]
        have hauth' : ∀ m, 9 + (GenerateSlotMessage.sig c cfg r'.state m).length
            + c.OptimalSeedSize = header := by
          intro m
          have := hauth m
          simp only [GenerateSlotMessage.sig, hak] at this ⊢
          exact this
        obtain ⟨text2, st2, hb2, hl2, -⟩ := GenerateSlotMessage.build_spec c cfg phase2
          r'.state data2 rand header (by rw [hidx']; exact hkey') hauth' hsize hdraw
        rw [hmsg] at hl2
        refine ⟨text2, st2, hb2, hl2, by rw [hl2]; omega, ?_⟩
        intro hx
        have hopen' : r'.state.slot_open = true := by rw [t3, q9, bf2 hclose, hopen]
        unfold GenerateCiphertext.write
        simp only [hopen', if_true, hb2, hidx']
        rw [if_pos (by omega)]
  · intro s0 x0 data0 hclosed hnext hdata hidx0 hx0
    obtain ⟨ct1, s1', hw1, o1, o2, o3, -, o5, o6, o7, o8⟩ :=
      GenerateCiphertext.write_opens c cfg x0 phase s0 data0 rand i hclosed hnext hdata hidx0 hx0
    refine ⟨ct1, s1', hw1, o1, o8, ?_⟩
    intro q cl h0 hq hwf hi hbit hnew hk0
    have q1 : q.state.last_msg = s1'.last_msg := by rw [hq]
    have q3 : q.state.read = s1'.read := by rw [hq]
    have q5 : q.state.my_idx = s1'.my_idx := by rw [hq]
    have q6 : q.state.anonymous_keys = s1'.anonymous_keys := by rw [hq]
    have q7 : q.state.next_messages = s1'.next_messages := by rw [hq]
    have q8 : q.state.cleartext = cl := by rw [hq]
    exact ProcessCleartext.reserved_opened c cfg q i h0 hwf (by rw [q5, o5, hidx0]) hi
      (by rw [q8]; exact hbit) (by rw [q7, o7]; exact hnew) (by rw [q3, o2]) (by rw [q1, o3])
      (by rw [SlotHeaderLength_congr c s0 q.state i (by rw [q6, o6])]; exact hk0)

/-! ## Concrete instances -/

theorem HandleRebuttalOrVerdict_short_verdict_witness :
    HandleRebuttalOrVerdict toyCrypto awaitingVerdict 20
      (RebuttalOrVerdict.verdict { first := 0, second := 3, third := 1 } 10 [[15]]) = none :=
  (HandleRebuttalOrVerdict_short_verdict toyCrypto awaitingVerdict 20
    { first := 0, second := 3, third := 1 } 10 [[15]] rfl (by decide)).2.2.1 (by decide)
    (by
      intro i pid sig h1 h2
      cases i with
      | zero =>
        simp only [awaitingVerdict, List.getElem?_cons_zero, Option.some.injEq] at h1 h2
        subst h1 h2
        decide
      | succ i => simp at h2)

theorem HandleServerCleartext_adopts_witness :
    HandleServerCleartext toyCrypto digestSlots awaitingCleartext 20 [(0, [242])]
        (0 :: digestSlotMessage) [true] =
      (ProcessCleartext toyCrypto digestSlots
        { awaitingCleartext with state.cleartext := 0 :: digestSlotMessage }).bind (fun r' =>
          if r'.state.start_accuse then
            some (Outcome.ok (), SetState r' States.STARTING_BLAME_SHUFFLE)
          else (StateComplete r').map (fun r'' => (Outcome.ok (), r''))) :=
  (HandleServerCleartext_adopts toyCrypto digestSlots awaitingCleartext 20 [(0, [242])]
    (0 :: digestSlotMessage) [true]).1 rfl rfl rfl
    (by
      intro i hi
      have h0 : i = 0 := by
        simp only [awaitingCleartext, Roster.Count, List.length_singleton] at hi
        omega
      subst h0
      exact ⟨[1], rfl, by decide⟩)

theorem PushCleartext_signatures_witness :
    ((StateComplete awaitingValidations).bind (fun r1 =>
        validations toyCrypto [(20, [4]), (21, [5])] (SubmitValidation toyCrypto r1))).map
      (fun r2 => (r2.sm_state, r2.server_state.signatures))
      = some (States.SERVER_PUSH_CLEARTEXT, [(0, [4]), (1, [5])]) ∧
    ∃ r1 r2, StateComplete awaitingValidations = some r1 ∧
      r1.sm_state = States.SERVER_WAIT_FOR_SERVER_VALIDATION ∧
      validations toyCrypto [(20, [4]), (21, [5])] (SubmitValidation toyCrypto r1) = some r2 ∧
      (r2.sm_state = States.SERVER_PUSH_CLEARTEXT →
        r2.server_state.signed_hash = toyCrypto.ComputeHash
          (r2.state.cleartext ++ streamBits r2.server_state.handled_clients) ∧
        (∀ i, i < r2.servers.Count → ∃ key sig, r2.servers.GetKey i = some key ∧
          QMap.find i r2.server_state.signatures = some sig ∧
          toyCrypto.Verify key r2.server_state.signed_hash sig = true) ∧
        ∀ r3, PushCleartext toyCrypto digestSlots r2 = some r3 →
          Packet.SERVER_CLEARTEXT r2.nonce r2.phase r2.server_state.signatures
            r2.state.cleartext r2.server_state.handled_clients ∈ r3.sent) :=
  ⟨by rfl, PushCleartext_signatures toyCrypto digestSlots awaitingValidations
    [(20, [4]), (21, [5])] rfl rfl⟩

theorem ProcessCleartext_next_length_witness :
    ∃ r' msg_pp, ProcessCleartext toyCrypto digestSlots (slotReader (0 :: digestSlotMessage))
        = some r' ∧
      Derandomize toyCrypto
        (ProcessCleartext.msg_ppp (slotReader (0 :: digestSlotMessage)) 0 14) = some msg_pp ∧
      (msg_pp = [] → QMap.find 0 r'.state.next_messages = some 14) ∧
      (msg_pp ≠ [] → ∃ vkey,
        ProcessCleartext.vkey digestSlots (slotReader (0 :: digestSlotMessage)).state 0
          = some vkey ∧
        (ProcessCleartext.bad_message toyCrypto digestSlots vkey msg_pp = true →
          QMap.find 0 r'.state.next_messages = some 14) ∧
        (ProcessCleartext.bad_message toyCrypto digestSlots vkey msg_pp = false →
          ∃ phase next,
            ReadInt (ProcessCleartext.msg_p toyCrypto digestSlots vkey msg_pp) 1 = some phase ∧
            ReadInt (ProcessCleartext.msg_p toyCrypto digestSlots vkey msg_pp) 5 = some next ∧
            QMap.find 0 r'.state.next_messages =
              if phase ≠ ((slotReader (0 :: digestSlotMessage)).phase : Int) then some 14
              else if next < 0 then some 14
              else if 0 < next then some next.toNat
              else none)) :=
  ProcessCleartext_next_length toyCrypto digestSlots (slotReader (0 :: digestSlotMessage)) 0 14
    (by decide) (by decide) (by decide) (by decide) (by decide)

theorem ProcessCleartext_accuser_witness :
    ∃ r', ProcessCleartext toyCrypto digestSlots twoFlags = some r' ∧
      r'.state.start_accuse = true ∧ r'.state.accuser = ((1 : Nat) : Int) ∧
      (((1 : Nat) : Int) = twoFlags.state.my_idx → r'.state.my_accuse = r'.state.accuse) :=
  ProcessCleartext_accuser toyCrypto digestSlots twoFlags 1 12
    (by decide) (by decide) (by decide) (by decide) (by decide)
    (by
      intro e he hlt
      simp only [twoFlags, List.mem_cons, List.mem_singleton, List.not_mem_nil, or_false] at he
      rcases he with rfl | rfl
      · exact absurd hlt (by decide)
      · exact absurd hlt (by decide))

theorem ProcessCleartext_accuse_idx_witness :
    ∃ r', ProcessCleartext toyCrypto digestSlots corruptedOwner = some r' ∧
      r'.state.accuse = true ∧ r'.state.blame_phase = ((1 : Nat) : Int) ∧
      r'.state.accuse_idx = ((8 * (1 + 0) + 1 : Nat) : Int) := by
  obtain ⟨r', h1, h2, -⟩ := ProcessCleartext_accuse_idx toyCrypto digestSlots corruptedOwner 0 14
    [] [2, 2, 2, 2, 3, 2, 2, 2, 14, 106, 107, 220]
    (by decide) (by decide) (by decide) (by decide) rfl rfl (by decide) (by decide) rfl
    (by decide)
  refine ⟨r', h1, ?_⟩
  exact h2 0 1 (by decide) (by decide) (by decide) (by
    intro b' k' hk' hlt
    rcases hlt with hlt | ⟨rfl, hlt⟩
    · exact absurd hlt (Nat.not_lt_zero _)
    · have hk0 : k' = 0 := by omega
      subst hk0
      decide)

theorem slot_open_advertisement_witness :
    (∃ r', GenerateCiphertext toyCrypto digestSlots closedOwner [] [] = some ([6], r') ∧
      r'.state.slot_open = true ∧ r'.state.read = false) ∧
    (∃ r' length, ProcessCleartext toyCrypto digestSlots bitmapReader = some r' ∧
      SlotHeaderLength toyCrypto bitmapReader.state 0 = some length ∧
      QMap.find 0 r'.state.next_messages = some length) :=
  ⟨(slot_open_advertisement toyCrypto digestSlots).1 closedOwner [] [] 0 rfl
      (Or.inl (by decide)) rfl (by decide),
   (slot_open_advertisement toyCrypto digestSlots).2 bitmapReader 0 (by decide) (by decide)
      (by decide) (by intro e he; simp [bitmapReader] at he)⟩

theorem slot_offset_agreement_witness :
    (∃ st1 offset written, offset = 13 ∧
      written = Xor [5, 6, 5, 5, 5, 5, 4, 5, 5, 5, 9, 8] [5, 6, 5, 5, 5, 5, 4, 5, 5, 5, 9, 8]
        (((zeroBytes 25).drop offset).take 12) ∧
      GenerateCiphertext.write toyCrypto digestSlots (zeroBytes 25) 1
          { twoFlags.state with my_idx := 1, slot_open := true } [] [[5, 6]] =
        some ((zeroBytes 25).take offset ++ written ++
            (zeroBytes 25).drop (offset + written.length), st1)) ∧
    (∃ pre post next_msgs next_msg_length r0 v1 v2 vf r',
      twoFlags.state.next_messages = pre ++ (1, 12) :: post ∧ r0.state = twoFlags.state ∧
      ProcessCleartext.slots toyCrypto digestSlots pre
        { r := r0, offset := ProcessCleartext.base twoFlags, next_msgs := next_msgs,
          next_msg_length := next_msg_length } = some v1 ∧
      v1.offset = 13 ∧
      v1.r.state.cleartext = twoFlags.state.cleartext ∧
      ProcessCleartext.slot toyCrypto digestSlots v1 1 12 = some v2 ∧
      ProcessCleartext.slots toyCrypto digestSlots post v2 = some vf ∧
      ProcessCleartext toyCrypto digestSlots twoFlags = some r' ∧
      r'.state = { vf.r.state with next_messages := vf.next_msgs,
                                   msg_length := vf.next_msg_length }) := by
  obtain ⟨hwrite, hread⟩ := slot_offset_agreement toyCrypto digestSlots twoFlags
    { twoFlags.state with my_idx := 1, slot_open := true } 1 (zeroBytes 25) [] [[5, 6]] 1 12
    (by decide) (by decide) (by decide) rfl rfl rfl rfl
  obtain ⟨st1, hb⟩ : ∃ st1, GenerateSlotMessage.build toyCrypto digestSlots 1
      { twoFlags.state with my_idx := 1, slot_open := true } [] [[5, 6]]
      = some ([5, 6, 5, 5, 5, 5, 4, 5, 5, 5, 9, 8], st1) := ⟨_, rfl⟩
  obtain ⟨offset, written, h1, h2, h3⟩ := hwrite _ st1 hb (by decide)
  exact ⟨⟨st1, offset, written, h1, h2, h3⟩, hread⟩

theorem GenerateSlotMessage_layout_witness :
    ∃ (text : QByteArray) (st' : State) (msg pending msg_p : QByteArray),
      GenerateSlotMessage.build toyCrypto digestSlots 1
        { slotOwner.state with accuse := true } [] [[5, 6]] = some (text, st') ∧
      msg = [104, 105] ∧ pending = [] ∧
      msg_p = 255 :: (encodeInt 1 ++ encodeInt 12 ++ zeroBytes msg.length) ∧
      Derandomize toyCrypto text = some (msg_p ++ toyCrypto.ComputeHash msg_p) :=
  GenerateSlotMessage_layout toyCrypto digestSlots 1 { slotOwner.state with accuse := true }
    [] [[5, 6]] 12 rfl (by decide) (by decide)

theorem HandleServerCommit_ordering_witness :
    ∃ r1, StateComplete listed = some r1 ∧
      r1.sm_state = States.SERVER_WAIT_FOR_SERVER_COMMITS ∧
      ∀ r2, SubmitCommit toyCrypto digestSlots r1 [] [] = some r2 →
        ∃ r3, commits [(20, [5])] r2 = some r3 ∧
          (r3.sm_state = States.SERVER_WAIT_FOR_SERVER_COMMITS ∨
            r3.sm_state = States.SERVER_WAIT_FOR_SERVER_CIPHERTEXT) ∧
          (r3.sm_state = States.SERVER_WAIT_FOR_SERVER_CIPHERTEXT →
            ∀ i, i < listed.servers.Count → ∃ sender commit, (sender, commit) ∈ [(20, [5])] ∧
              listed.servers.Contains sender = true ∧ listed.servers.GetIndex sender = i ∧
              QMap.find i r3.server_state.server_commits = some commit) :=
  (HandleServerCommit_ordering toyCrypto digestSlots listed [] [] [(20, [5])]
    (by decide) (by decide)).1

theorem HandleClientCiphertext_contract_witness :
    ∃ r', HandleClientCiphertext collecting 130 10 [7] = some (Outcome.ok (), r') ∧
      r'.server_state.handled_clients = [true, false, false] ∧
      r'.server_state.client_ciphertexts = [(0, [7])] ∧
      r'.sm_state = States.SERVER_WAIT_FOR_CLIENT_CIPHERTEXT := by
  obtain ⟨r', h1, h2, h3, -, -, -, h7, -⟩ :=
    (HandleClientCiphertext_contract collecting 130 10 [7] false (by decide) (by decide)).1
      ⟨by decide, by decide, rfl, by decide⟩
  exact ⟨r', h1, h2.trans (by decide), h3.trans (by decide), h7 (by rw [h3]; decide)⟩

/-- C23, as stated, fails: with three allowed clients and a
`CLIENT_PERCENTAGE` of one half the ceiling of the product is 2, yet the flex
deadline is armed, with the 30 ms elapsed as its window, when the first
ciphertext is accepted. And the floating-point product is not the exact one:
with 100 allowed clients and a `CLIENT_PERCENTAGE` of 0.29, whose ceiling and
floor are both 29, `int(100 * 0.29)` is 28 for a `double` and 29 for a
`float`. -/
theorem HandleClientCiphertext_flex_deadline_counterexample :
    ⌈((1 : ℚ) / 2) * 3⌉₊ = 2 ∧
    halfPercentage.CLIENT_PERCENTAGE = { mantissa := 1, exponent := 1 } ∧
    entering.server_state.allowed_clients.length = 3 ∧
    (∃ r0 r', SetOnlineClients halfPercentage entering 100 = some r0 ∧
      r0.queued = [500] ∧
      HandleClientCiphertext r0 130 10 [7] = some (Outcome.ok (), r') ∧
      r'.server_state.client_ciphertexts.length = 1 ∧ r'.queued = [500, 30]) ∧
    SetOnlineClients.expected double029 100 = 28 ∧
    SetOnlineClients.expected float029 100 = 29 := by
  refine ⟨?_, rfl, rfl, ⟨collecting, _, by decide, by decide, rfl, by decide, by decide⟩,
    by decide, by decide⟩
  rw [Nat.ceil_eq_iff (by decide)]
  norm_num

theorem HandleClientCiphertext_flex_deadline_witness :
    SetOnlineClients.expected halfPercentage.CLIENT_PERCENTAGE
      entering.server_state.allowed_clients.length = ⌊((1 : ℚ) / 2 ^ 1) * (3 : Nat)⌋₊ ∧
    ∃ r', HandleClientCiphertext collecting 130 10 [7] = some (Outcome.ok (), r') ∧
      r'.server_state.client_ciphertexts.length = 1 ∧ r'.queued = [500, 30] := by
  obtain ⟨-, hprod, r', h1, h2, h3, -⟩ :=
    HandleClientCiphertext_flex_deadline halfPercentage collecting 130 10 [7]
      (by decide) (by decide) (by decide) (by decide) (by decide)
  obtain ⟨q, -, -, -, -, -, hfloor⟩ := hprod 3 0 (by decide) (by decide) (by decide)
  refine ⟨?_, r', h1, h2.trans (by decide),
    (h3 ⟨by rw [h2]; decide, by rw [h2]; decide⟩).trans (by decide)⟩
  have := hfloor (by decide)
  simpa [halfPercentage, collecting] using this

theorem clientLists_convergence_witness :
    ∃ q q', clientLists [(20, [true, false]), (21, [false, true])] (listing 20 [true, false])
        = some q ∧
      clientLists [(21, [false, true]), (20, [true, false])] (listing 21 [false, true])
        = some q' ∧
      q.server_state.handled_clients = [true, true] ∧
      q'.server_state.handled_clients = q.server_state.handled_clients := by
  obtain ⟨q, q', h1, h1', -, -, -, -, -, -, h9, h10⟩ :=
    clientLists_convergence (listing 20 [true, false]) (listing 21 [false, true])
      [(20, [true, false]), (21, [false, true])] [(21, [false, true]), (20, [true, false])]
      (by decide) (by decide) (by decide) (by decide) (by decide) (by decide) (by decide)
      (List.Perm.swap _ _ _) (by decide)
      (by
        intro m hm
        simp only [List.mem_cons, List.mem_singleton, List.not_mem_nil, or_false] at hm
        rcases hm with rfl | rfl <;> decide)
      (by decide) ⟨20, by decide⟩ ⟨21, by decide⟩
  exact ⟨q, q', h1, h1', h10.trans (by decide), h9⟩

theorem ProcessBlameShuffle_selection_witness :
    ∃ r', ProcessBlameShuffle toyCrypto shuffled [[], accusation 9, accusation 10]
        = some (Outcome.ok (), r') ∧
      r'.server_state.current_blame = { first := 0, second := 9, third := 1 } ∧
      r'.server_state.accuse_found = true ∧
      r'.sm_state = States.SERVER_TRANSMIT_BLAME_BITS :=
  (ProcessBlameShuffle_selection toyCrypto shuffled [[], accusation 9, accusation 10]
    (by decide) (by decide) (by decide)
    (by
      intro b hb
      simp only [List.mem_cons, List.mem_singleton, List.not_mem_nil, or_false] at hb
      rcases hb with rfl | rfl | rfl <;> decide)).1
    [[]] (accusation 9) [accusation 10] { first := 0, second := 9, third := 1 } rfl
    ⟨by decide, by decide, by decide, by decide, by decide, by decide, by decide, by decide,
      { phase := 1, message_offsets := [1], message_length := 15 }, 1, 15, [3],
      by decide, by decide, by decide, by decide, by decide, by decide⟩
    (by
      intro b hb t hpass
      simp only [List.mem_singleton] at hb
      subst hb
      exact absurd hpass.1 (by decide))

theorem ProcessBlameShuffle_offset_unchecked_witness :
    8 * ((15 : Nat) : Int) ≤ 120 ∧
    QMap.find 1 shuffled.server_state.phase_logs =
      some { phase := 1, message_offsets := [1], message_length := 15 } ∧
    ∃ r', ProcessBlameShuffle toyCrypto shuffled [accusation 120] = some (Outcome.ok (), r') ∧
      r'.server_state.current_blame = { first := 0, second := 120, third := 1 } ∧
      r'.server_state.accuse_found = true ∧
      r'.sm_state = States.SERVER_TRANSMIT_BLAME_BITS :=
  ⟨by decide, by decide,
    ProcessBlameShuffle_offset_unchecked toyCrypto shuffled (accusation 120)
      { first := 0, second := 120, third := 1 }
      { phase := 1, message_offsets := [1], message_length := 15 } 1 15 [3]
      (by decide) (by decide) (by decide) (by decide) (by decide) (by decide) (by decide)
      (by decide) (by decide) (by decide) (by decide) (by decide) (by decide) (by decide)
      (by decide) (by decide)⟩

theorem HandleServerClientList_attribution_witness :
    ∃ r' log', HandleServerClientList (listing 20 [false, false]) 21 [true, false]
        = some (Outcome.ok (), r') ∧
      QMap.find r'.server_state.current_phase_log r'.server_state.phase_logs = some log' ∧
      QMap.find 1 log'.client_to_server = some 1 := by
  obtain ⟨r', log', h1, -, h3, h4, -⟩ :=
    HandleServerClientList_attribution (listing 20 [false, false]) 21 [true, false] {}
      (by decide) (by decide) (by decide) (by decide) (by decide)
  exact ⟨r', log', h1, h3, (h4 (by decide) 1).trans (by decide)⟩

theorem HandleBlameBits_cross_check_witness :
    ∃ r', HandleBlameBits crossChecking 21 ([true, false], [false, false])
        = some (Outcome.ok (), r') ∧
      QMap.find 21 r'.server_state.blame_bits = some ([true, false], [false, false]) ∧
      r'.sm_state = States.SERVER_WAITING_FOR_BLAME_BITS := by
  obtain ⟨-, hacc, -⟩ :=
    HandleBlameBits_cross_check crossChecking 21 ([true, false], [false, false])
      { phase := 1, server_messages := [(20, [0]), (21, [8])] } true
      (by decide) (by decide) (by decide) (by decide) (by decide)
  obtain ⟨r', h1, -, h3, -, h5⟩ := hacc ⟨by decide, by decide, by decide⟩
  exact ⟨r', h1, h3, h5 (by decide)⟩

theorem GetRebuttal_first_mismatch_witness :
    ((-1 : Int) < 0) ∧ ((-1 : Int).tmod rebutting.servers.Count ≠ 0) ∧
    GetRebuttal toyCrypto rebutting (-1) 3 [true, true] = none ∧
    GetRebuttal toyCrypto rebutting 1 (-1) [false, true] = none ∧
    ∃ pid : PublicIdentity,
      GetRebuttal toyCrypto rebutting 1 3 [false, true] =
        some (((1 : Nat) : Int), toyCrypto.ProveSharedSecret rebutting.dh_key pid.dh_key) ∧
      rebutting.servers[1]? = some pid := by
  refine ⟨by decide, by decide, ?_, ?_, ?_⟩
  · exact (((GetRebuttal_first_mismatch toyCrypto rebutting (-1) 3 [true, true]
      (by decide) (by decide) (by decide) (by decide)).2 (by decide)).2 (by decide)).2.1
      (by decide) (by decide)
  · exact (GetRebuttal_first_mismatch toyCrypto rebutting 1 (-1) [false, true]
      (by decide) (by decide) (by decide) (by decide)).1 (by decide)
  · exact ((GetRebuttal_first_mismatch toyCrypto rebutting 1 3 [false, true]
      (by decide) (by decide) (by decide) (by decide)).2 (by decide)).1 1 (by decide)
      (by decide) (by
        intro s hs
        have hs0 : s = 0 := by omega
        subst hs0
        decide)

theorem rebuttal_consistency_witness :
    ∃ (bidx : Nat) (pid : PublicIdentity) (sv' : Round),
      GetRebuttal toyCrypto rebutting 1 3 [false, true] =
        some ((bidx : Int), toyCrypto.ProveSharedSecret rebutting.dh_key pid.dh_key) ∧
      rebutting.servers[bidx]? = some pid ∧
      HandleRebuttal toyCrypto awaitingRebuttal 10
          ((bidx : Int), toyCrypto.ProveSharedSecret rebutting.dh_key pid.dh_key)
        = some (Outcome.ok (), sv') ∧
      sv'.sm_state = States.SERVER_EXCHANGE_VERDICT_SIGNATURE ∧
      (GetRebuttal.pad_bit toyCrypto rebutting 1 3 bidx ≠ [false, true].getD bidx false →
        rebutting.state.base_seeds.getD bidx [] ≠ [] →
        sv'.server_state.bad_dude = pid.id) ∧
      ((∀ s, s < rebutting.servers.Count →
          GetRebuttal.pad_bit toyCrypto rebutting 1 3 s = [false, true].getD s false) →
        bidx = 1 % rebutting.servers.Count ∧ sv'.server_state.bad_dude = 10) :=
  rebuttal_consistency toyCrypto rebutting awaitingRebuttal 10 { id := 10, dh_key := [1] } 1 3
    [false, true] (by decide) (by decide) (by decide) (by decide) rfl rfl rfl rfl rfl rfl rfl
    rfl rfl
    (by
      intro s pid h
      match s, h with
      | 0, h =>
        simp only [rebutting, List.getElem?_cons_zero, Option.some.injEq] at h
        subst h
        rfl
      | 1, h =>
        simp only [rebutting, List.getElem?_cons_succ, List.getElem?_cons_zero,
          Option.some.injEq] at h
        subst h
        rfl
      | n + 2, h =>
        simp [rebutting] at h)

/-- C32, as stated, fails: slot 0 is open with 14 bytes and carries the
message of its owner, which declares a next length of 12 bytes, and bit 0 of
the bitmap is set as well. The bitmap loop and the slot loop both add 12 to
the length: `ProcessCleartext` leaves `next_messages = [(0, 12)]` and
`msg_length = 25`, with `base_msg_length = 1`. -/
theorem ProcessCleartext_msg_length_counterexample :
    ProcessCleartext.wellFormed toyCrypto digestSlots (slotReader (1 :: digestSlotMessage))
      = true ∧
    ∃ r', ProcessCleartext toyCrypto digestSlots (slotReader (1 :: digestSlotMessage))
        = some r' ∧
      r'.state.base_msg_length = 1 ∧ r'.state.next_messages = [(0, 12)] ∧
      r'.state.msg_length = 25 ∧
      r'.state.msg_length ≠
        r'.state.base_msg_length + (QMap.values r'.state.next_messages).sum :=
  ⟨by decide, _, rfl, rfl, rfl, rfl, by decide⟩

theorem ProcessCleartext_msg_length_witness :
    (∀ r', ProcessCleartext toyCrypto digestSlots (slotReader (0 :: digestSlotMessage))
        = some r' → r'.state.msg_length < 2147483648) ∧
    ∃ r', ProcessCleartext toyCrypto digestSlots (slotReader (0 :: digestSlotMessage))
        = some r' ∧
      r'.state.base_msg_length = (slotReader (0 :: digestSlotMessage)).state.base_msg_length ∧
      r'.state.base_msg_length + (QMap.values r'.state.next_messages).sum
        ≤ r'.state.msg_length ∧
      r'.state.msg_length
        = r'.state.base_msg_length + (QMap.values r'.state.next_messages).sum := by
  have hrange : ∀ r', ProcessCleartext toyCrypto digestSlots
      (slotReader (0 :: digestSlotMessage)) = some r' →
      r'.state.msg_length < 2147483648 := by
    intro r' h
    have h0 : ∃ q, ProcessCleartext toyCrypto digestSlots
        (slotReader (0 :: digestSlotMessage)) = some q ∧ q.state.msg_length < 2147483648 :=
      ⟨_, rfl, by decide⟩
    obtain ⟨q, hq, hlt⟩ := h0
    rw [hq] at h
    rw [← Option.some.inj h]
    exact hlt
  obtain ⟨r', h1, h2, h3, -, h4⟩ := ProcessCleartext_msg_length toyCrypto digestSlots
    (slotReader (0 :: digestSlotMessage)) (by decide) (by decide) hrange
  refine ⟨hrange, r', h1, h2, h3, h4 ?_⟩
  intro e he hne
  simp only [slotReader, List.mem_singleton] at he
  subst he
  decide

theorem GenerateSlotMessage_fits_witness :
    GenerateSlotMessage.reserved toyCrypto slotOwner.state = true ∧
    (∃ text st' ct,
      GenerateSlotMessage.build toyCrypto digestSlots 1 slotOwner.state [] [[5, 6]]
        = some (text, st') ∧
      text.length = 14 ∧
      GenerateCiphertext.write toyCrypto digestSlots (zeroBytes 15) 1 slotOwner.state []
        [[5, 6]] = some (ct, st') ∧
      ct.length = slotOwner.state.msg_length ∧
      ∀ k, (k < 1 ∨ 15 ≤ k) → ct.getD k 0 = (zeroBytes 15).getD k 0) ∧
    (∃ r', ProcessCleartext toyCrypto digestSlots (slotOwnerAfter (0 :: digestSlotMessage))
        = some r' ∧
      GenerateSlotMessage.reserved toyCrypto r'.state = true ∧
      QMap.find 0 r'.state.next_messages = some 12) ∧
    (∃ r', ProcessCleartext toyCrypto digestSlots
        (slotOwnerAfter corruptedOwner.state.cleartext) = some r' ∧
      GenerateSlotMessage.reserved toyCrypto r'.state = true ∧
      QMap.find 0 r'.state.next_messages = some 14) ∧
    (∃ r', ProcessCleartext toyCrypto digestSlots (idleOwnerAfter [1]) = some r' ∧
      GenerateSlotMessage.reserved toyCrypto r'.state = true ∧
      QMap.find 0 r'.state.next_messages = some 12) ∧
    (∃ r' text2 st2,
      ProcessCleartext toyCrypto digestSlots (slotOwnerPending (0 :: staleSlotMessage))
        = some r' ∧
      QMap.find 0 r'.state.next_messages = some 14 ∧ r'.state.msg_length = 15 ∧
      GenerateSlotMessage.reserved toyCrypto r'.state = false ∧
      GenerateSlotMessage.build toyCrypto digestSlots 2 r'.state [] [[5, 6]]
        = some (text2, st2) ∧
      text2.length = 17 ∧
      GenerateCiphertext.write toyCrypto digestSlots (zeroBytes 15) 2 r'.state [] [[5, 6]]
        = none) := by
  have hstale : ∃ r' text2 st2,
      ProcessCleartext toyCrypto digestSlots (slotOwnerPending (0 :: staleSlotMessage))
        = some r' ∧
      QMap.find 0 r'.state.next_messages = some 14 ∧ r'.state.msg_length = 15 ∧
      GenerateSlotMessage.reserved toyCrypto r'.state = false ∧
      GenerateSlotMessage.build toyCrypto digestSlots 2 r'.state [] [[5, 6]]
        = some (text2, st2) ∧
      text2.length = 17 ∧
      GenerateCiphertext.write toyCrypto digestSlots (zeroBytes 15) 2 r'.state [] [[5, 6]]
        = none := by
    obtain ⟨textP, stP, -, hP, -, -, -, -, -, -, hqP, -⟩ :=
      GenerateSlotMessage_fits toyCrypto digestSlots slotOwner.state 1 (zeroBytes 15)
        [1, 2, 3, 4, 5] [[5, 6]] 0 14 12 rfl rfl (by decide) (by decide) (by decide)
        (by decide) rfl (fun _ => rfl) (fun _ _ => rfl)
        (by intro s hs; simp only [List.mem_singleton] at hs; subst hs; rfl)
        ⟨[5, 6], by simp, by decide⟩ rfl (by decide)
    have eP : ∃ t, GenerateSlotMessage.build toyCrypto digestSlots 1 slotOwner.state
        [1, 2, 3, 4, 5] [[5, 6]] = some (t, (slotOwnerPending []).state) := ⟨_, rfl⟩
    obtain ⟨t, eP⟩ := eP
    rw [eP] at hP
    simp only [Option.some.injEq, Prod.mk.injEq] at hP
    obtain ⟨-, e2⟩ := hP
    obtain ⟨r', msg_pp, hrun, hd, -, -, -, hst⟩ :=
      hqP (slotOwnerPending (0 :: staleSlotMessage)) (0 :: staleSlotMessage)
        (by rw [← e2]; rfl) rfl (by decide)
    have hm : Derandomize toyCrypto
        (ProcessCleartext.msg_ppp (slotOwnerPending (0 :: staleSlotMessage)) 0 14)
        = some [0, 0, 0, 0, 0, 0, 0, 0, 12, 104, 105, 221] := rfl
    rw [hm] at hd
    have hmp := (Option.some.inj hd).symm
    subst hmp
    obtain ⟨f1, -, f3⟩ := hst [] 0 12 (by decide) rfl (by decide) (by decide) (by decide)
      (Or.inl (by decide))
    obtain ⟨g1, g2⟩ := f3 rfl rfl (by rw [← e2]; decide)
    obtain ⟨text2, st2, hb2, hl2, -, hw⟩ := g2 2 (zeroBytes 15) []
    have hc : (ProcessCleartext toyCrypto digestSlots
        (slotOwnerPending (0 :: staleSlotMessage))).map
        (fun r => (r.state.base_msg_length, r.state.next_messages, r.state.msg_length))
        = some (1, [(0, 14)], 15) := rfl
    rw [hrun] at hc
    simp only [Option.map_some', Option.some.injEq, Prod.mk.injEq] at hc
    obtain ⟨c1, c2, c3⟩ := hc
    have hl3 : text2.length = 17 := by rw [hl2, ← e2]; rfl
    exact ⟨r', text2, st2, hrun, f1, c3, g1, hb2, hl3,
      hw (by rw [c1, c2, hl3]; decide)⟩
  obtain ⟨text, st', ct, h1, h2, h3, h4, -, h6, -, hq, hflip⟩ :=
    GenerateSlotMessage_fits toyCrypto digestSlots slotOwner.state 1 (zeroBytes 15) []
      [[5, 6]] 0 14 12 rfl rfl (by decide) (by decide) (by decide) (by decide) rfl
      (fun _ => rfl) (fun _ _ => rfl)
      (by intro s hs; simp only [List.mem_singleton] at hs; subst hs; rfl)
      ⟨[5, 6], by simp, by decide⟩ rfl (by decide)
  have e : GenerateSlotMessage.build toyCrypto digestSlots 1 slotOwner.state [] [[5, 6]]
      = some (digestSlotMessage, (slotOwnerAfter []).state) := rfl
  have h1' := h1
  rw [e] at h1'
  simp only [Option.some.injEq, Prod.mk.injEq] at h1'
  obtain ⟨e1, e2⟩ := h1'
  refine ⟨by decide, ⟨text, st', ct, h1, h2, h3, h4, h6⟩, ?_, ?_, ?_, hstale⟩
  · obtain ⟨r', msg_pp, hrun, hd, -, hdec, -, -⟩ := hq (slotOwnerAfter (0 :: digestSlotMessage))
      (0 :: digestSlotMessage) (by rw [← e2]; rfl) rfl (by decide)
    have hm : Derandomize toyCrypto
        (ProcessCleartext.msg_ppp (slotOwnerAfter (0 :: digestSlotMessage)) 0 14)
        = some [0, 0, 0, 0, 1, 0, 0, 0, 12, 104, 105, 222] := rfl
    rw [hm] at hd
    have hmp := (Option.some.inj hd).symm
    subst hmp
    have := hdec (by rw [← e1]; rfl) rfl (by rw [← e2]; rfl) (by decide)
      (by rw [← e2]; decide)
      (by
        intro vkey hv
        have hv2 : vkey = [] := by
          have : ProcessCleartext.vkey digestSlots
              (slotOwnerAfter (0 :: digestSlotMessage)).state 0 = some [] := rfl
          rw [this] at hv
          exact (Option.some.inj hv).symm
        subst hv2
        decide)
    rw [← e2] at this
    exact ⟨r', hrun, this.1, this.2⟩
  · obtain ⟨r', msg_pp, hrun, hd, hcar, -, -, -⟩ :=
      hq (slotOwnerAfter corruptedOwner.state.cleartext)
        corruptedOwner.state.cleartext (by rw [← e2]; rfl) rfl (by decide)
    have hm : Derandomize toyCrypto
        (ProcessCleartext.msg_ppp (slotOwnerAfter corruptedOwner.state.cleartext) 0 14)
        = some [2, 2, 2, 2, 3, 2, 2, 2, 14, 106, 107, 220] := rfl
    rw [hm] at hd
    have hmp := (Option.some.inj hd).symm
    subst hmp
    have := hcar (Or.inr ⟨[], rfl, by decide⟩)
    exact ⟨r', hrun, this.1, this.2⟩
  · obtain ⟨ct1, s1, hw, -, -, hp⟩ := hflip idleOwner.state [0] [104, 105] rfl rfl (by decide)
      rfl (by decide)
    have ew : GenerateCiphertext.write toyCrypto digestSlots [0] 1 idleOwner.state [104, 105]
        [[5, 6]] = some ([1], (idleOwnerAfter []).state) := rfl
    rw [ew] at hw
    simp only [Option.some.injEq, Prod.mk.injEq] at hw
    obtain ⟨-, e3⟩ := hw
    exact hp (idleOwnerAfter [1]) [1] 12 (by rw [← e3]; rfl) (by decide) (by decide)
      (by decide) (by decide) rfl

/-- C34, as stated, fails: slot 0 decodes to a message whose digest does not
match and whose byte 0 is `0xFF`; `start_accuse` was not set, and
`ProcessCleartext` ends with `start_accuse` set and `accuser = 0`. -/
theorem ProcessCleartext_unauthenticated_accuser_counterexample :
    Derandomize toyCrypto (ProcessCleartext.msg_ppp unauthenticatedFlag 0 12)
      = some [255, 0, 0, 0, 1, 0, 0, 0, 12, 13] ∧
    ProcessCleartext.bad_message toyCrypto digestSlots []
      [255, 0, 0, 0, 1, 0, 0, 0, 12, 13] = true ∧
    unauthenticatedFlag.state.start_accuse = false ∧
    (ProcessCleartext toyCrypto digestSlots unauthenticatedFlag).map
      (fun r => (r.state.start_accuse, r.state.accuser)) = some (true, 0) :=
  ⟨rfl, by decide, rfl, rfl⟩

theorem ProcessCleartext_unauthenticated_accuser_witness :
    ∃ r', ProcessCleartext toyCrypto digestSlots unauthenticatedFlag = some r' ∧
      QMap.find 0 r'.state.next_messages = some 12 ∧
      r'.state.start_accuse = true ∧ r'.state.accuser = ((0 : Nat) : Int) :=
  (ProcessCleartext_unauthenticated_accuser toyCrypto digestSlots unauthenticatedFlag 0 12
    [255, 0, 0, 0, 1, 0, 0, 0, 12, 13] [] (by decide) (by decide) (by decide) (by decide)
    rfl rfl (by decide) (by decide)
    (by
      intro e he hlt
      simp only [unauthenticatedFlag, List.mem_singleton] at he
      subst he
      exact absurd hlt (by decide))).1

theorem ProcessCleartext_layout_agreement_witness :
    corruptedOwner.state.my_idx ≠ (slotReader corruptedOwner.state.cleartext).state.my_idx ∧
    ∃ r1' r2' delivered,
      ProcessCleartext toyCrypto digestSlots (slotReader corruptedOwner.state.cleartext)
        = some r1' ∧
      ProcessCleartext toyCrypto digestSlots corruptedOwner = some r2' ∧
      r1'.state.next_messages = r2'.state.next_messages ∧
      r1'.state.msg_length = r2'.state.msg_length ∧
      r1'.pushed = (slotReader corruptedOwner.state.cleartext).pushed ++ delivered ∧
      r2'.pushed = corruptedOwner.pushed ++ delivered :=
  ⟨by decide,
   (ProcessCleartext_layout_agreement toyCrypto digestSlots
      (slotReader corruptedOwner.state.cleartext) corruptedOwner (by decide) (by decide)
      rfl rfl rfl rfl rfl rfl).1⟩

/-- C36, as stated, fails: a server that waits for blame bits about a bit
that every server sent as 0 receives from server `20` an actual vector of
three zero bits with an expected vector of one, and from server `21` two
vectors of two zero bits. Both pass the cross-check and the server advances
to `SERVER_REQUEST_CLIENT_REBUTTAL`; there `FindMismatch` does not fail, it
returns `(-1, empty)`, and `RequestRebuttal` returns without sending
anything and without advancing. -/
theorem RequestRebuttal_sends_counterexample :
    ∃ r1, blameBits [(20, ([false, false, false], [false])),
        (21, ([false, false], [false, false]))] reconciling = some r1 ∧
      r1.sm_state = States.SERVER_REQUEST_CLIENT_REBUTTAL ∧
      FindMismatch r1 = some (Outcome.ok (-1, [])) ∧
      RequestRebuttal r1 = some (Outcome.ok (), r1) ∧ r1.sent = [] :=
  ⟨_, rfl, rfl, rfl, rfl, rfl⟩

theorem RequestRebuttal_sends_witness :
    ∃ r', RequestRebuttal requesting = some (Outcome.ok (), r') ∧
      r'.sent = [Packet.SERVER_REBUTTAL_REQUEST 11 [] 0 0 0 [false, false]] ∧
      r'.server_state.expected_rebuttal = 11 ∧
      r'.sm_state = States.SERVER_WAIT_FOR_CLIENT_REBUTTAL := by
  obtain ⟨i, id, server_bits, r', h1, -, h3, h4, h5, h6, h7, h8⟩ :=
    (RequestRebuttal_sends requesting 3 rfl rfl (by decide) (by decide) (by decide)
      (by decide)).2.2 (by decide)
  have e1 : FindMismatch requesting = some (Outcome.ok (((1 : Nat) : Int), [false, false])) :=
    rfl
  rw [e1] at h1
  simp only [Option.some.injEq, Outcome.ok.injEq, Prod.mk.injEq, Nat.cast_inj] at h1
  obtain ⟨hi, hb⟩ := h1
  subst hi; subst hb
  have e2 : id = 11 := by
    have : requesting.clients.GetId ((1 : Nat) : Int) = some 11 := rfl
    rw [this] at h3
    exact (Option.some.inj h3).symm
  subst e2
  exact ⟨r', h4, h5, h6, h8⟩

theorem ProcessBlameShuffle_short_record_witness :
    ReadInt ([0, 0, 0, 0, 0, 0, 0, 3, 0].take 12) 8 = none ∧
    ProcessBlameShuffle.check toyCrypto shuffled [0, 0, 0, 0, 0, 0, 0, 3, 0] = none ∧
    ProcessBlameShuffle toyCrypto shuffled [[0, 0, 0, 0, 0, 0, 0, 3, 0]] = none := by
  obtain ⟨-, h2, h3, h4, -⟩ := ProcessBlameShuffle_short_record toyCrypto shuffled
    [0, 0, 0, 0, 0, 0, 0, 3, 0] (by decide) (by decide)
  exact ⟨h2, h3, h4 rfl⟩

theorem pads_attribution_witness :
    included emptySeedServer.server_state.handled_clients = [0, 1] ∧
    emptySeedServer.state.base_seeds.getD 0 [] = [] ∧
    ∃ r1 xor_msg r2 log2, SetupRngs toyCrypto emptySeedServer = some r1 ∧
      GenerateCiphertext.pads toyCrypto r1.state.anonymous_rngs 0
        (zeroBytes r1.state.msg_length) r1 = (xor_msg, r2) ∧
      QMap.find 0 r2.server_state.phase_logs = some log2 ∧
      QMap.find 0 log2.my_sub_ciphertexts
        = some (pad toyCrypto 0 [] 1 (emptySeedServer.state.base_seeds.getD 1 [])) ∧
      QMap.find 1 log2.my_sub_ciphertexts = none := by
  obtain ⟨r1, xor_msg, r2, log2, h1, h2, -, h4, h5, h6, -⟩ :=
    pads_attribution toyCrypto {} emptySeedServer {} rfl (by decide) rfl
  refine ⟨by decide, rfl, r1, xor_msg, r2, log2, h1, h2, h4, ?_, ?_⟩
  · exact h5 0 (by decide)
  · exact h6 1 (by decide)

end Anonymity
end Dissent
